import Mathlib

/-!
# Quad-edge mesh and Delaunay subdivision of `gdey/quad-edge`

A shallow embedding of `quadedge/topo.go` and `subdivision/subdivision.go`.

Edge records are handles `4 * q + i` (quad `q`, role `i`) into an arena that
holds the `next` pointer and the optional origin vertex of every record.
Coordinates are exact integers.

The `Edge` type itself (`Rot`, `Sym`, `ONext`, `LNext`, ..., `New`,
`EndPoints`), the `Stack` and the `geometry` package are not part of the
sources at hand; they are modelled below and marked as such.
-/

namespace QuadEdge

open Function

/-! ## Geometry -/

/-- Modelled from the spec: the `geometry.Point` type is missing; a point is an
ordered pair of coordinates, here exact integers. -/
structure Point where
  x : Int
  y : Int
deriving DecidableEq, Repr

/-- Modelled from the spec: `geometry.ArePointsEqual` is missing; equality on
both coordinates. -/
def ArePointsEqual (a b : Point) : Bool := decide (a = b)

/-- Modelled from the spec: `geometry.CCW` is missing; true iff
`(b - a) × (c - a) > 0`, collinear points give false. -/
def CCW (a b c : Point) : Bool :=
  decide (0 < (b.x - a.x) * (c.y - a.y) - (b.y - a.y) * (c.x - a.x))

/-- Modelled from the spec: `geometry.InCircle` is missing; the sign of the
standard 4×4 determinant, expanded along the lifted column. -/
def InCircle (a b c d : Point) : Bool :=
  let adx := a.x - d.x
  let ady := a.y - d.y
  let bdx := b.x - d.x
  let bdy := b.y - d.y
  let cdx := c.x - d.x
  let cdy := c.y - d.y
  decide (0 < (adx * adx + ady * ady) * (bdx * cdy - cdx * bdy)
            - (bdx * bdx + bdy * bdy) * (adx * cdy - cdx * ady)
            + (cdx * cdx + cdy * cdy) * (adx * bdy - bdx * ady))

/-- Modelled from the spec: `geometry.IsPointOn` is missing; true iff `p` lies
on the closed segment from `a` to `b`, end points included. -/
def IsPointOn (a b p : Point) : Bool :=
  decide ((b.x - a.x) * (p.y - a.y) - (b.y - a.y) * (p.x - a.x) = 0
    ∧ min a.x b.x ≤ p.x ∧ p.x ≤ max a.x b.x
    ∧ min a.y b.y ≤ p.y ∧ p.y ≤ max a.y b.y)

/-! ## Edge records -/

/-- Modelled from the spec: the `Edge` type is missing; `Rot` is the next
record of the same quad, role `i` going to `(i + 1) mod 4`. -/
def Rot (e : Nat) : Nat := 4 * (e / 4) + (e % 4 + 1) % 4

/-- Modelled from the spec: the `Edge` type is missing; `InvRot` is the inverse
of `Rot`, role `i` going to `(i + 3) mod 4`. -/
def InvRot (e : Nat) : Nat := 4 * (e / 4) + (e % 4 + 3) % 4

/-- Modelled from the spec: the `Edge` type is missing; `Sym(e) = Rot(Rot(e))`. -/
def Sym (e : Nat) : Nat := Rot (Rot e)

/-- A primal record has role 0 or 2 of its quad and carries a vertex. -/
def IsPrimal (e : Nat) : Prop := e % 2 = 0

instance (e : Nat) : Decidable (IsPrimal e) := by
  unfold IsPrimal
  infer_instance

/-- Modelled from the spec: the `Edge` type is missing; one edge record holds
its `next` pointer and its optional origin vertex. -/
structure EdgeRec where
  next : Nat
  org : Option Point
deriving DecidableEq, Repr

/-- The mesh is the arena of all edge records allocated so far; the record
with handle `e` is entry `e`, and quad `q` owns the handles `4 * q + i`. -/
structure Mesh where
  recs : List EdgeRec
deriving DecidableEq, Repr

/-- Modelled from the spec: the `Edge` type is missing; `ONext(e) = e.next`. -/
def ONext (m : Mesh) (e : Nat) : Nat :=
  match m.recs[e]? with
  | some r => r.next
  | none => e

/-- Modelled from the spec: the `Edge` type is missing; `Org(e)` is the vertex
pointer of the record (nil when unassigned). -/
def Org (m : Mesh) (e : Nat) : Option Point :=
  match m.recs[e]? with
  | some r => r.org
  | none => none

/-- Assignment `e.next = v`. -/
def setNext (m : Mesh) (e v : Nat) : Mesh :=
  match m.recs[e]? with
  | some r => { recs := m.recs.set e { r with next := v } }
  | none => m

/-- Assignment of the vertex pointer of `e`. -/
def setOrg (m : Mesh) (e : Nat) (p : Option Point) : Mesh :=
  match m.recs[e]? with
  | some r => { recs := m.recs.set e { r with org := p } }
  | none => m

/-- Modelled from the spec: the `Edge` type is missing;
`OPrev(e) = Rot(ONext(Rot(e)))`. -/
def OPrev (m : Mesh) (e : Nat) : Nat := Rot (ONext m (Rot e))

/-- Modelled from the spec: the `Edge` type is missing; `LNext` is "the next
edge counterclockwise around the left face", the inverse of
`LPrev = Sym ∘ ONext`: the record reached by `InvRot`, then `ONext`, then
`Rot`, as in Guibas and Stolfi, whom topo.go cites.  The formula of the spec
names the same three steps (`Rot⁻¹`, `ONext`, `Rot`); taken in the other
order they give the next edge around the right face, which ends at `Org(e)`
(see `right_face_successor_of_frame_edge`), whereas `Connect` in topo.go
splices the new edge next to `a.LNext()` and gives it the origin `Dest(a)`. -/
def LNext (m : Mesh) (e : Nat) : Nat := Rot (ONext m (InvRot e))

/-- Modelled from the spec: the `Edge` type is missing;
`LPrev(e) = Sym(ONext(e))`. -/
def LPrev (m : Mesh) (e : Nat) : Nat := Sym (ONext m e)

/-- Modelled from the spec: the `Edge` type is missing;
`DPrev(e) = Rot⁻¹(ONext(Rot⁻¹(e)))`. -/
def DPrev (m : Mesh) (e : Nat) : Nat := InvRot (ONext m (InvRot e))

/-- Modelled from the spec: the `Edge` type is missing; `Dest(e) = Org(Sym(e))`. -/
def Dest (m : Mesh) (e : Nat) : Option Point := Org m (Sym e)

/-- Modelled from the spec: the constructor `quadedge.New` is missing; it
allocates the four records of a fresh quad with no end points and returns
the primary record `e` with `ONext(e) = e`.  The primal records `e`, `Sym e`
are loops of their own; the two dual records point at each other, as in
`MakeEdge` of Guibas and Stolfi (the left and the right face of an isolated
edge are one face).  The lifecycle sentence of the spec lets every record
point to itself; for the two dual records that contradicts `OPrev` being the
inverse of `ONext` (see `self_loops_break_OPrev`), which `Splice` relies on. -/
def New (m : Mesh) : Mesh × Nat :=
  let e := m.recs.length
  ({ recs := m.recs ++ [⟨e, none⟩, ⟨e + 3, none⟩, ⟨e + 2, none⟩, ⟨e + 1, none⟩] }, e)

/-- Modelled from the spec: the method `EndPoints` is missing; it assigns
`Org(e) = org` and `Org(Sym(e)) = dest`. -/
def EndPoints (m : Mesh) (e : Nat) (org dest : Option Point) : Mesh :=
  setOrg (setOrg m e org) (Sym e) dest

/-- Modelled from the spec: the constructor `quadedge.NewWithEndPoints` is
missing; `New` followed by `EndPoints`. -/
def NewWithEndPoints (m : Mesh) (org dest : Option Point) : Mesh × Nat :=
  let r := New m
  (EndPoints r.1 r.2 org dest, r.2)

/-! ## `quadedge/topo.go` -/

/-- Source `Splice(a, b)` of topo.go: the four assignments in source order; a
nil argument leaves the mesh alone. -/
def Splice (m : Mesh) : Option Nat → Option Nat → Mesh
  | some a, some b =>
    let alpha := Rot (ONext m a)
    let beta := Rot (ONext m b)
    let t1 := ONext m b
    let t2 := ONext m a
    let t3 := ONext m beta
    let t4 := ONext m alpha
    setNext (setNext (setNext (setNext m a t1) b t2) alpha t3) beta t4
  | _, _ => m

/-- Source `Connect(a, b)` of topo.go: a new edge from `Dest(a)` to `Org(b)`. -/
def Connect (m : Mesh) (a b : Nat) : Mesh × Nat :=
  let r := New m
  let e := r.2
  let m1 := Splice r.1 (some e) (some (LNext r.1 a))
  let m2 := Splice m1 (some (Sym e)) (some b)
  (EndPoints m2 e (Dest m2 a) (Org m2 b), e)

/-- Source `Swap(e)` of topo.go: turn `e` inside its enclosing quadrilateral. -/
def Swap (m : Mesh) (e : Nat) : Mesh :=
  let a := OPrev m e
  let b := OPrev m (Sym e)
  let m1 := Splice m (some e) (some a)
  let m2 := Splice m1 (some (Sym e)) (some b)
  let m3 := Splice m2 (some e) (some (LNext m2 a))
  let m4 := Splice m3 (some (Sym e)) (some (LNext m3 b))
  EndPoints m4 e (Dest m4 a) (Dest m4 b)

/-- Source `Delete(e)` of topo.go: splice `e` out of both origin rings; nil is
ignored. -/
def Delete (m : Mesh) : Option Nat → Mesh
  | none => m
  | some e =>
    let m1 := Splice m (some e) (some (OPrev m e))
    Splice m1 (some (Sym e)) (some (OPrev m1 (Sym e)))

/-- Source `OnEdge(pt, e)` of topo.go. -/
def OnEdge (m : Mesh) (pt : Point) (e : Nat) : Bool :=
  match Org m e with
  | none => false
  | some org =>
    match Dest m e with
    | none => false
    | some dst => IsPointOn org dst pt

/-- Source `RightOf(x, e)` of topo.go. -/
def RightOf (m : Mesh) (x : Point) (e : Nat) : Bool :=
  match Org m e with
  | none => false
  | some org =>
    match Dest m e with
    | none => false
    | some dst => CCW x dst org

/-- Source `LeftOf(x, e)` of topo.go. -/
def LeftOf (m : Mesh) (x : Point) (e : Nat) : Bool :=
  match Org m e with
  | none => false
  | some org =>
    match Dest m e with
    | none => false
    | some dst => CCW x org dst

/-! ## `subdivision/subdivision.go` -/

/-- What a walk callback returns: nil, the sentinel `ErrCancel`, or another
error. -/
inductive CbResult where
  | ok : CbResult
  | cancel : CbResult
  | fail (err : String) : CbResult
deriving DecidableEq, Repr

/-- The `Subdivision` struct. -/
structure Subdivision where
  mesh : Mesh
  startingEdge : Nat
  ptcount : Nat
  frame : Point × Point × Point
deriving DecidableEq, Repr

/-- Source `subdivision.New(a, b, c)`: the triangle `a`, `b`, `c`. -/
def Subdivision.New (a b c : Point) : Subdivision :=
  let r1 := QuadEdge.New ⟨[]⟩
  let ea := r1.2
  let m := EndPoints r1.1 ea (some a) (some b)
  let r2 := QuadEdge.New m
  let eb := r2.2
  let m := Splice r2.1 (some (Sym ea)) (some eb)
  let m := EndPoints m eb (some b) (some c)
  let r3 := QuadEdge.New m
  let ec := r3.2
  let m := Splice r3.1 (some (Sym eb)) (some ec)
  let m := EndPoints m ec (some c) (some a)
  let m := Splice m (some (Sym ec)) (some ea)
  { mesh := m, startingEdge := ea, ptcount := 3, frame := (a, b, c) }

/-- Source `ptEqual(x, a)`: false for a nil pointer. -/
def ptEqual (x : Point) (a : Option Point) : Bool :=
  match a with
  | none => false
  | some p => ArePointsEqual p x

/-- Source `testEdge(x, e)`: one step of the location walk. -/
def testEdge (m : Mesh) (x : Point) (e : Nat) : Bool × Nat :=
  if ptEqual x (Org m e) || ptEqual x (Dest m e) then (true, e)
  else if RightOf m x e then (false, Sym e)
  else if !RightOf m x (ONext m e) then (false, ONext m e)
  else if !RightOf m x (DPrev m e) then (false, DPrev m e)
  else (true, e)

/-- The loop of `WalkAllEdges` over the stack `toProcess` and the `visited`
set; `none` when the fuel runs out.  The type `quadedge.Stack` is missing
from the sources; as the spec says "stack", it is a list with the top first:
`Push` puts an element in front, `Pop` takes the first. -/
def walkEdgesLoop {σ : Type} (m : Mesh) (fn : σ → Nat → σ × CbResult) :
    Nat → List Nat → List Nat → σ → Option (σ × Option String)
  | 0, _, _, _ => none
  | fuel + 1, toProcess, visited, st =>
    match toProcess with
    | [] => some (st, none)
    | e :: rest =>
      if visited.contains e then walkEdgesLoop m fn fuel rest visited st
      else
        match fn st e with
        | (st1, CbResult.cancel) => some (st1, none)
        | (st1, CbResult.fail err) => some (st1, some err)
        | (st1, CbResult.ok) =>
          walkEdgesLoop m fn fuel (ONext m (Sym e) :: ONext m e :: rest)
            (Sym e :: e :: visited) st1

/-- Source `WalkAllEdges(se, fn)`; the callback threads the state it closes
over. -/
def WalkAllEdges {σ : Type} (fuel : Nat) (m : Mesh) (se : Option Nat)
    (fn : σ → Nat → σ × CbResult) (st : σ) : Option (σ × Option String) :=
  match se with
  | none => some (st, none)
  | some s => walkEdgesLoop m fn fuel [s] [] st

/-- The callback of the walk in `locate`: remember the first edge whose test
succeeds and cancel. -/
def locateCallback (m : Mesh) (x : Point) (e : Option Nat) (ee : Nat) :
    Option Nat × CbResult :=
  if (testEdge m x ee).1 then (some ee, CbResult.cancel) else (e, CbResult.ok)

/-- The loop of `locate`, entered with the result of the last `testEdge`. -/
def locateLoop (sd : Subdivision) (x : Point) (wfuel : Nat) :
    Nat → Nat → Bool × Nat → Option (Option Nat × Bool)
  | 0, _, _ => none
  | fuel + 1, count, (ok, e) =>
    if ok then some (some e, true)
    else if e = sd.startingEdge ∨ count + 1 > sd.ptcount * 2 then
      match WalkAllEdges wfuel sd.mesh (some sd.startingEdge) (locateCallback sd.mesh x) none with
      | none => none
      | some (found, _) => some (found, false)
    else locateLoop sd x wfuel fuel (count + 1) (testEdge sd.mesh x e)

/-- Source `sd.locate(x)`: the edge found (nil is `none`) and the flag. -/
def Subdivision.locate (fuel : Nat) (sd : Subdivision) (x : Point) : Option (Option Nat × Bool) :=
  locateLoop sd x fuel fuel 0 (testEdge sd.mesh x sd.startingEdge)

/-- The spoke loop of `InsertSite`: `for e.LNext() != sd.startingEdge`. -/
def spokeLoop (start : Nat) : Nat → Mesh → Nat → Nat → Option (Mesh × Nat)
  | 0, _, _, _ => none
  | fuel + 1, m, e, base =>
    if LNext m e ≠ start then
      let r := Connect m e (Sym base)
      spokeLoop start fuel r.1 (OPrev r.1 r.2) r.2
    else some (m, e)

/-- The loop of `InsertSite` over the suspect edges; a nil end point that is
dereferenced ends the run. -/
def suspectLoop (start : Nat) (x : Point) : Nat → Mesh → Nat → Option Mesh
  | 0, _, _ => none
  | fuel + 1, m, e =>
    let t := OPrev m e
    match Dest m t with
    | none => none
    | some td =>
      if RightOf m td e then
        match Org m e, Dest m e with
        | some eo, some ed =>
          if InCircle eo td ed x then
            let m1 := Swap m e
            suspectLoop start x fuel m1 (OPrev m1 e)
          else if ONext m e = start then some m
          else suspectLoop start x fuel m (LPrev m (ONext m e))
        | _, _ => none
      else if ONext m e = start then some m
      else suspectLoop start x fuel m (LPrev m (ONext m e))

/-- The first spoke of `InsertSite`: `base` from `Org(e)` to `x` is spliced to
`e` and becomes the starting edge; then the first `Connect(e, base.Sym())`
and `e = base.OPrev()`.  Returns the starting edge, the mesh, `e` and
`base`. -/
def firstSpoke (m : Mesh) (e : Nat) (x : Point) : Nat × Mesh × Nat × Nat :=
  let r := NewWithEndPoints m (Org m e) (some x)
  let m1 := Splice r.1 (some r.2) (some e)
  let c := Connect m1 e (Sym r.2)
  (r.2, c.1, OPrev c.1 c.2, c.2)

/-- The two loops of `InsertSite` after the first spoke `f` (starting edge,
mesh, `e`, `base`): the remaining spokes, then the suspect edges. -/
def finishSpokes (fuel : Nat) (sd : Subdivision) (x : Point) (f : Nat × Mesh × Nat × Nat) :
    Option (Subdivision × Bool) :=
  match spokeLoop f.1 fuel f.2.1 f.2.2.1 f.2.2.2 with
  | none => none
  | some (m, e) =>
    match suspectLoop f.1 x fuel m e with
    | none => none
    | some m => some ({ sd with mesh := m, startingEdge := f.1 }, true)

/-- The `OnEdge` branch of `InsertSite`: `e = e.OPrev(); Delete(e.ONext())`. -/
def dropEdgeUnder (m : Mesh) (x : Point) (e : Nat) : Mesh × Nat :=
  if OnEdge m x e then
    (Delete m (some (ONext m (OPrev m e))), OPrev m e)
  else (m, e)

/-- The second half of `InsertSite`, for a site `x` that is no end point of
the located edge `e`: an edge that holds `x` is deleted, the spokes from `x`
are connected, and the suspect edges are examined. -/
def insertSpokes (fuel : Nat) (sd : Subdivision) (x : Point) (e : Nat) :
    Option (Subdivision × Bool) :=
  finishSpokes fuel sd x
    (firstSpoke (dropEdgeUnder sd.mesh x e).1 (dropEdgeUnder sd.mesh x e).2 x)

/-- Source `sd.InsertSite(x)`: the subdivision afterwards and the value returned;
`none` when the fuel runs out or a nil pointer is dereferenced. -/
def Subdivision.InsertSite (fuel : Nat) (sd : Subdivision) (x : Point) :
    Option (Subdivision × Bool) :=
  match Subdivision.locate fuel { sd with ptcount := sd.ptcount + 1 } x with
  | none => none
  | some (_, false) => some ({ sd with ptcount := sd.ptcount + 1 }, false)
  | some (none, true) => none
  | some (some e, true) =>
    if ptEqual x (Org sd.mesh e) || ptEqual x (Dest sd.mesh e) then
      some ({ sd with ptcount := sd.ptcount + 1 }, true)
    else insertSpokes fuel { sd with ptcount := sd.ptcount + 1 } x e

/-- Source `IsFramePoint(frame, pts...)`. -/
def IsFramePoint (frame : Point × Point × Point) (pts : List Point) : Bool :=
  pts.any fun pt =>
    ArePointsEqual pt frame.1 || ArePointsEqual pt frame.2.1 || ArePointsEqual pt frame.2.2

/-- The ring loop of `constructTriangleEdges`: collect `curr`, push `Sym curr`
unless visited, mark `curr`, move on to `LNext curr`, until back at `e`. -/
def ringLoop (m : Mesh) (e : Nat) :
    Nat → Nat → List Nat → List Nat → List Nat → Option (List Nat × List Nat × List Nat)
  | 0, _, _, _, _ => none
  | fuel + 1, curr, triedges, toProcess, visited =>
    let triedges := triedges ++ [curr]
    let toProcess := if visited.contains (Sym curr) then toProcess else Sym curr :: toProcess
    let visited := curr :: visited
    let curr := LNext m curr
    if curr = e then some (triedges, toProcess, visited)
    else ringLoop m e fuel curr triedges toProcess visited

/-- Source `constructTriangleEdges(e, toProcess, visited, fn)`; the callback may stop
the run (`none`) by dereferencing a nil pointer. -/
def constructTriangleEdges {σ : Type} (fuel : Nat) (m : Mesh) (e : Nat)
    (toProcess visited : List Nat) (fn : σ → List Nat → Option (σ × CbResult)) (st : σ) :
    Option (List Nat × List Nat × σ × CbResult) :=
  if visited.contains e then some (toProcess, visited, st, CbResult.ok)
  else
    match ringLoop m e fuel e [] toProcess visited with
    | none => none
    | some (triedges, toProcess, visited) =>
      match fn st triedges with
      | none => none
      | some (st1, res) => some (toProcess, visited, st1, res)

/-- The loop of `WalkAllTriangleEdges`. -/
def walkTrianglesLoop {σ : Type} (m : Mesh) (fn : σ → List Nat → Option (σ × CbResult))
    (rfuel : Nat) : Nat → List Nat → List Nat → σ → Option (σ × Option String)
  | 0, _, _, _ => none
  | fuel + 1, toProcess, visited, st =>
    match toProcess with
    | [] => some (st, none)
    | e :: rest =>
      if visited.contains e then walkTrianglesLoop m fn rfuel fuel rest visited st
      else
        match constructTriangleEdges rfuel m e rest visited fn st with
        | none => none
        | some (_, _, st1, CbResult.cancel) => some (st1, none)
        | some (_, _, st1, CbResult.fail err) => some (st1, some err)
        | some (toProcess, visited, st1, CbResult.ok) =>
          walkTrianglesLoop m fn rfuel fuel toProcess visited st1

/-- Source `WalkAllTriangleEdges(se, fn)`. -/
def WalkAllTriangleEdges {σ : Type} (fuel : Nat) (m : Mesh) (se : Option Nat)
    (fn : σ → List Nat → Option (σ × CbResult)) (st : σ) : Option (σ × Option String) :=
  match se with
  | none => some (st, none)
  | some s => walkTrianglesLoop m fn fuel fuel [s] [] st

/-- The callback of `Triangles`: a face must have three edges; its three
origins are dereferenced; a triangle with a frame point is skipped unless
`includeFrame`. -/
def trianglesCallback (m : Mesh) (frame : Point × Point × Point) (includeFrame : Bool)
    (triangles : List (Point × Point × Point)) (edges : List Nat) :
    Option (List (Point × Point × Point) × CbResult) :=
  match edges with
  | [e0, e1, e2] =>
    match Org m e0, Org m e1, Org m e2 with
    | some p0, some p1, some p2 =>
      if IsFramePoint frame [p0, p1, p2] && !includeFrame then some (triangles, CbResult.ok)
      else some (triangles ++ [(p0, p1, p2)], CbResult.ok)
    | _, _, _ => none
  | _ => some (triangles, CbResult.fail "Something Strange!")

/-- Source `sd.Triangles(includeFrame)`: the triangles and the error. -/
def Subdivision.Triangles (fuel : Nat) (sd : Subdivision) (includeFrame : Bool) :
    Option (List (Point × Point × Point) × Option String) :=
  WalkAllTriangleEdges fuel sd.mesh (some sd.startingEdge)
    (trianglesCallback sd.mesh sd.frame includeFrame) []

/-! ## `subdivision/qtype.go` and the constraint path of `subdivision/subdivision.go` -/

/-- Source `sd.locateSegment(startingEdge, end)`, the loop: scan the origin
ring of `startingEdge` for an edge whose destination is `endPt`; a nil
destination that is dereferenced ends the run. -/
def locateSegmentLoop (m : Mesh) (startingEdge : Nat) (endPt : Point) :
    Nat → Nat → Option (Option Nat)
  | 0, _ => none
  | fuel + 1, curr =>
    match Dest m curr with
    | none => none
    | some d =>
      if ArePointsEqual endPt d then some (some curr)
      else if ONext m curr = startingEdge then some none
      else locateSegmentLoop m startingEdge endPt fuel (ONext m curr)

/-- Source `sd.locateSegment(startingEdge, end)`: nil for a nil starting edge. -/
def Subdivision.locateSegment (fuel : Nat) (sd : Subdivision) (startingEdge : Option Nat)
    (endPt : Point) : Option (Option Nat) :=
  match startingEdge with
  | none => some none
  | some s => locateSegmentLoop sd.mesh s endPt fuel s

/-- Source `sd.LocateSegment(start, end)`: the flag of `locate` is dropped. -/
def Subdivision.LocateSegment (fuel : Nat) (sd : Subdivision) (start endPt : Point) :
    Option (Option Nat) :=
  match sd.locate fuel start with
  | none => none
  | some (startingEdge, _) => sd.locateSegment fuel startingEdge endPt

/-- The constants of `QType` in qtype.go. -/
inductive QType where
  | LEFT : QType
  | RIGHT : QType
  | BEYOND : QType
  | BEHIND : QType
  | BETWEEN : QType
  | ORIGIN : QType
  | DESTINATION : QType
deriving DecidableEq, Repr

/-- Modelled from the spec: `geometry.Sub` is missing and the spec lists only
"points, vectors, arithmetic"; the difference of two points, by coordinates. -/
def Sub (a b : Point) : Point := ⟨a.x - b.x, a.y - b.y⟩

/-- Modelled from the spec: `geometry.CrossProduct` is missing and the spec
lists only "points, vectors, arithmetic"; the cross product of its two
arguments taken as vectors. -/
def CrossProduct (a b : Point) : Int := a.x * b.y - a.y * b.x

/-- Modelled from the spec: `geometry.Mul` is missing and the spec lists only
"points, vectors, arithmetic"; the product of two points, by coordinates. -/
def Mul (a b : Point) : Point := ⟨a.x * b.x, a.y * b.y⟩

/-- Modelled from the spec: `geometry.Magn` is missing and the spec lists only
"points, vectors, arithmetic"; the length of a vector.  Lengths are only ever
compared, so this is the square of the length, which compares the same way. -/
def MagnSq (a : Point) : Int := a.x * a.x + a.y * a.y

/-- Source `Classify(a, b, c)` of qtype.go: the point `a` against the segment
from `b` to `c`.  The cases are tried in the order of the `switch`. -/
def Classify (a b c : Point) : QType :=
  let aa := Sub c b
  let bb := Sub a b
  let sa := CrossProduct a b
  let mab := Mul a b
  if 0 < sa then QType.LEFT
  else if sa < 0 then QType.RIGHT
  else if mab.x < 0 ∨ mab.y < 0 then QType.BEHIND
  else if MagnSq aa < MagnSq bb then QType.BEYOND
  else if ArePointsEqual a b then QType.ORIGIN
  else if ArePointsEqual a c then QType.DESTINATION
  else QType.BETWEEN

/-- The value of `ErrCoincidentEdges`. -/
def ErrCoincidentEdges : String := "coincident edges"

/-- Source `FindIntersectingTriangle(startingEdge, end)`: the loop around the
origin of `startingEdge`.  A `Triangle` is made from one edge (`&Triangle{left}`)
and is modelled by that edge; the result is the triangle (nil is `none`) and
the error. -/
def findIntersectingTriangleLoop (m : Mesh) (startingEdge : Nat) (endPt : Point) :
    Nat → Nat → Option (Option Nat × Option String)
  | 0, _ => none
  | fuel + 1, left =>
    let right := OPrev m left
    match Org m left, Dest m left, Org m right, Dest m right with
    | some lo, some ld, some ro, some rd =>
      let lc := Classify endPt lo ld
      let rc := Classify endPt ro rd
      if (lc = QType.RIGHT ∧ rc = QType.LEFT) ∨ lc = QType.BETWEEN ∨
          lc = QType.DESTINATION ∨ lc = QType.BEYOND then
        some (some left, none)
      else if lc ≠ QType.RIGHT ∧ lc ≠ QType.LEFT ∧ rc ≠ QType.RIGHT ∧ rc ≠ QType.LEFT then
        some (some left, some ErrCoincidentEdges)
      else if right = startingEdge then some (none, none)
      else findIntersectingTriangleLoop m startingEdge endPt fuel right
    | _, _, _, _ => none

/-- Source `FindIntersectingTriangle(startingEdge, end)`. -/
def FindIntersectingTriangle (fuel : Nat) (m : Mesh) (startingEdge : Nat) (endPt : Point) :
    Option (Option Nat × Option String) :=
  findIntersectingTriangleLoop m startingEdge endPt fuel startingEdge

/-- Source `IntersectingEdges(startingEdge, end)`: an error of the triangle
search is returned at once.  The loop over the crossed triangles uses the
methods of the `Triangle` type, which is missing from the sources: it is the
parameter `crossed`, given the mesh, the first triangle, the starting edge and
the end point. -/
def IntersectingEdges
    (crossed : Mesh → Option Nat → Nat → Point → Option (List Nat × Option String))
    (fuel : Nat) (m : Mesh) (startingEdge : Nat) (endPt : Point) :
    Option (List Nat × Option String) :=
  match FindIntersectingTriangle fuel m startingEdge endPt with
  | none => none
  | some (_, some err) => some ([], some err)
  | some (t, none) => crossed m t startingEdge endPt

/-- Source `sd.InsertConstaint(start, end)`: the subdivision afterwards and the
error returned.  The removal of the crossed edges and the triangulation of
the two pseudo-polygons use `triangulatePseudoPolygon` and
`geometry.AppendNonRepeat`, which are missing from the sources: that part is
the parameter `retriangulate`, given the subdivision, the two points and the
removal list. -/
def Subdivision.InsertConstaint
    (crossed : Mesh → Option Nat → Nat → Point → Option (List Nat × Option String))
    (retriangulate : Subdivision → Point → Point → List Nat →
      Option (Subdivision × Option String))
    (fuel : Nat) (sd : Subdivision) (start endPt : Point) :
    Option (Subdivision × Option String) :=
  match sd.locate fuel start with
  | none => none
  | some (none, _) => some (sd, some "Invlid starting vertex.")
  | some (some startingEdge, _) =>
    match sd.locateSegment fuel (some startingEdge) endPt with
    | none => none
    | some (some _) => some (sd, none)
    | some none =>
      match IntersectingEdges crossed fuel sd.mesh startingEdge endPt with
      | none => none
      | some (_, some err) => some (sd, some err)
      | some (removalList, none) => retriangulate sd start endPt removalList

/-! ## Well-formed meshes, rings and the meshes used as examples -/

/-- A well-formed mesh, the edge algebra of Guibas and Stolfi: the arena holds
whole quads, `next` stays inside the arena, `OPrev` undoes `ONext` (so `next`
is a permutation of the records), and `next` keeps the role of a record: the
ring of a primal record holds primal records, as the data model asks ("the
next edge record in the ring around its origin vertex"). -/
structure WellFormed (m : Mesh) : Prop where
  quads : m.recs.length % 4 = 0
  closed : ∀ r, r < m.recs.length → ONext m r < m.recs.length
  inverse : ∀ r, r < m.recs.length → Rot (ONext m (Rot (ONext m r))) = r
  role : ∀ r, r < m.recs.length → ONext m r % 2 = r % 2

/-- The transposition of `a` and `b`. -/
def sw (a b x : Nat) : Nat := if x = a then b else if x = b then a else x

/-- The record `x` is reached from `a` by repeated application of `f`. -/
def Reach (f : Nat → Nat) (a x : Nat) : Prop := ∃ k, f^[k] a = x

/-- The surgery `Splice` performs on a ring: `a` and `b` exchange successors. -/
def exch (f : Nat → Nat) (a b : Nat) : Nat → Nat := fun x => f (sw a b x)

/-- The record `x` lies in the origin ring of `a`: `x = ONext^k(a)` for some `k`. -/
def InRing (m : Mesh) (a x : Nat) : Prop := Reach (ONext m) a x

/-- A walk over the mesh by the navigators `ONext`, `Sym`, `Rot`, `LNext`,
`OPrev`, starting from `r`. -/
inductive Walk (m : Mesh) (r : Nat) : Nat → Prop
  | start : Walk m r r
  | onext {x : Nat} : Walk m r x → Walk m r (ONext m x)
  | sym {x : Nat} : Walk m r x → Walk m r (Sym x)
  | rot {x : Nat} : Walk m r x → Walk m r (Rot x)
  | lnext {x : Nat} : Walk m r x → Walk m r (LNext m x)
  | oprev {x : Nat} : Walk m r x → Walk m r (OPrev m x)

/-- A loop `x` and a dangling edge at one vertex: the left face of edge 0 is
the ring `0, 6, 2`, which holds both `0` and `Sym 0 = 2`. -/
def loopAndSpur : Mesh :=
  Splice (Splice (New (New ⟨[]⟩).1).1 (some 2) (some 4)) (some 4) (some 6)

/-- A triangle is kept by `Triangles(false)` when none of its vertices is a
frame vertex. -/
def offFrame (frame : Point × Point × Point) (t : Point × Point × Point) : Bool :=
  !IsFramePoint frame [t.1, t.2.1, t.2.2]

/-- A run of `InsertSite` calls, one per point of the list. -/
def insertAll (fuel : Nat) : Subdivision → List Point → Option Subdivision
  | sd, [] => some sd
  | sd, x :: xs =>
    match sd.InsertSite fuel x with
    | none => none
    | some r => insertAll fuel r.1 xs

/-- The subdivisions built by `New` and `InsertSite` calls. -/
inductive Built : Subdivision → Prop
  | new (a b c : Point) : Built (Subdivision.New a b c)
  | insert {sd : Subdivision} {fuel : Nat} {x : Point} {r : Subdivision × Bool} :
      Built sd → sd.InsertSite fuel x = some r → Built r.1

/-- What the loops of `InsertSite` keep: the arena holds whole quads and the
first spoke `start` still ends at the new site `x`. -/
def SpokeInv (start : Nat) (x : Point) (m : Mesh) : Prop :=
  m.recs.length % 4 = 0 ∧ Sym start < m.recs.length ∧ Org m (Sym start) = some x

/-- Two isolated edges. -/
def twoEdges : Mesh := (New (New ⟨[]⟩).1).1

/-- The frame `(-1000,-1000)`, `(1000,-1000)`, `(0,1000)`. -/
def frame0 : Subdivision := Subdivision.New ⟨-1000, -1000⟩ ⟨1000, -1000⟩ ⟨0, 1000⟩

/-- The frame `frame0` after `InsertSite((0,0))`: three spokes from the site. -/
def fan0 : Subdivision :=
  { mesh := ⟨[⟨12, some ⟨-1000, -1000⟩⟩, ⟨9, none⟩, ⟨4, some ⟨1000, -1000⟩⟩, ⟨19, none⟩,
              ⟨16, some ⟨1000, -1000⟩⟩, ⟨1, none⟩, ⟨8, some ⟨0, 1000⟩⟩, ⟨23, none⟩,
              ⟨20, some ⟨0, 1000⟩⟩, ⟨5, none⟩, ⟨0, some ⟨-1000, -1000⟩⟩, ⟨15, none⟩,
              ⟨10, some ⟨-1000, -1000⟩⟩, ⟨3, none⟩, ⟨18, some ⟨0, 0⟩⟩, ⟨21, none⟩,
              ⟨2, some ⟨1000, -1000⟩⟩, ⟨7, none⟩, ⟨22, some ⟨0, 0⟩⟩, ⟨13, none⟩,
              ⟨6, some ⟨0, 1000⟩⟩, ⟨11, none⟩, ⟨14, some ⟨0, 0⟩⟩, ⟨17, none⟩]⟩,
    startingEdge := 12, ptcount := 4,
    frame := (⟨-1000, -1000⟩, ⟨1000, -1000⟩, ⟨0, 1000⟩) }

/-- A quad whose four records all point to themselves. -/
def selfLoopQuad : Mesh := ⟨[⟨0, none⟩, ⟨1, none⟩, ⟨2, none⟩, ⟨3, none⟩]⟩

/-- The record `x` is reached from the start edge `se` by `ONext` and `Sym`
steps. -/
inductive EdgeReach (m : Mesh) (se : Nat) : Nat → Prop
  | start : EdgeReach m se se
  | onext {x : Nat} : EdgeReach m se x → EdgeReach m se (ONext m x)
  | sym {x : Nat} : EdgeReach m se x → EdgeReach m se (Sym x)

/-- A callback that returns nil on every call and keeps the list of the edges
it was called on, in the order of the calls. -/
def recordEdge (calls : List Nat) (e : Nat) : List Nat × CbResult :=
  (calls ++ [e], CbResult.ok)

/-- The callback `fn` is called on the edges of a list in turn, up to the
first call that does not return nil: `ErrCancel` ends the calls with no
error, another error ends them and is the result. -/
def callInTurn {σ : Type} (fn : σ → Nat → σ × CbResult) : List Nat → σ → σ × Option String
  | [], st => (st, none)
  | e :: es, st =>
    match fn st e with
    | (st1, CbResult.ok) => callInTurn fn es st1
    | (st1, CbResult.cancel) => (st1, none)
    | (st1, CbResult.fail err) => (st1, some err)

/-- The callback `fn` with a log of its calls: every call adds the edge and
the value `fn` returned to the log. -/
def logCalls {σ : Type} (fn : σ → Nat → σ × CbResult) (s : σ × List (Nat × CbResult))
    (e : Nat) : (σ × List (Nat × CbResult)) × CbResult :=
  (((fn s.1 e).1, s.2 ++ [(e, (fn s.1 e).2)]), (fn s.1 e).2)

/-- A bound on the records a walk from `se` can meet: a multiple of four above
the arena, the start edge and every `next` pointer. -/
def arenaBound (m : Mesh) (se : Nat) : Nat :=
  4 * ((m.recs.foldl (fun b r => max b r.next) (max m.recs.length se)) / 4 + 1)

/-- What the loop of `WalkAllEdges` keeps, with `calls` the edges the callback
was called on so far: the visited records are these edges and their `Sym`;
no edge was called twice or in both directions; `ONext` of a visited record is
visited or waits on the stack; all records met are reached from `se` and lie
below `N`. -/
structure WalkInv (m : Mesh) (N se : Nat) (stack visited calls : List Nat) : Prop where
  vis : ∀ x, x ∈ visited ↔ (x ∈ calls ∨ Sym x ∈ calls)
  nodup : calls.Nodup
  onedir : ∀ e, e ∈ calls → Sym e ∉ calls
  next : ∀ z, z ∈ visited → ONext m z ∈ visited ∨ ONext m z ∈ stack
  reachS : ∀ z, z ∈ stack → EdgeReach m se z
  reachC : ∀ z, z ∈ calls → EdgeReach m se z
  start : se ∈ visited ∨ se ∈ stack
  ltS : ∀ z, z ∈ stack → z < N
  ltV : ∀ z, z ∈ visited → z < N
  nodupV : visited.Nodup

/-- The identity of the edge algebra for every record of the arena:
`Rot(ONext(Rot(ONext(r)))) = r`. -/
def EdgeAlgebra (m : Mesh) : Prop :=
  ∀ r, r < m.recs.length → Rot (ONext m (Rot (ONext m r))) = r

instance (m : Mesh) : Decidable (EdgeAlgebra m) := by
  unfold EdgeAlgebra
  infer_instance

/-- The record `x` is reached from the start edge `se` by `LNext` and `Sym`
steps. -/
inductive FaceReach (m : Mesh) (se : Nat) : Nat → Prop
  | start : FaceReach m se se
  | lnext {x : Nat} : FaceReach m se x → FaceReach m se (LNext m x)
  | sym {x : Nat} : FaceReach m se x → FaceReach m se (Sym x)

/-- A list of edges is a complete left-face ring: each element is `LNext` of
the one before it, and `LNext` of the last is the first. -/
def IsFaceRing (m : Mesh) (f : List Nat) : Prop :=
  f.Chain' (fun x y => y = LNext m x) ∧
    ∃ first last, f.head? = some first ∧ f.getLast? = some last ∧ LNext m last = first

/-- What the loop of `WalkAllTriangleEdges` keeps, with `faces` the edge lists
passed to the callback so far: the visited records are the edges of these
lists, no edge is in two lists or twice in one, every list is the whole
`LNext` orbit of its first edge, `Sym` of a visited record is visited or waits
on the stack, and all records met are reached from `se` and lie below `N`. -/
structure FaceInv (m : Mesh) (N se : Nat) (stack visited : List Nat)
    (faces : List (List Nat)) : Prop where
  vis : ∀ x, x ∈ visited ↔ x ∈ faces.flatten
  nodup : faces.flatten.Nodup
  rings : ∀ f, f ∈ faces →
    ∃ e p, 0 < p ∧ f = List.iterate (LNext m) e p ∧ (LNext m)^[p] e = e
  closedL : ∀ z, z ∈ visited → LNext m z ∈ visited
  sym : ∀ z, z ∈ visited → Sym z ∈ visited ∨ Sym z ∈ stack
  reachS : ∀ z, z ∈ stack → FaceReach m se z
  reachV : ∀ z, z ∈ visited → FaceReach m se z
  start : se ∈ visited ∨ se ∈ stack
  ltS : ∀ z, z ∈ stack → z < N
  ltV : ∀ z, z ∈ visited → z < N
  nodupV : visited.Nodup

/-- Twice the signed area of the triangle `a`, `b`, `c`: the cross product
`(b - a) × (c - a)` tested by `CCW`. -/
def ccwI (a b c : Point) : Int :=
  (b.x - a.x) * (c.y - a.y) - (b.y - a.y) * (c.x - a.x)

/-- A quad that takes part in no ring: both primal records are loops of their
own, as after `New` or `Delete`. -/
def Dead (m : Mesh) (r : Nat) : Prop := ONext m r = r ∧ ONext m (Sym r) = Sym r

/-- The left face of `r` is a ring of three records, with the vertices `p`
(the origin of `r`), `q` (its destination) and `t` (the third vertex, the
destination of `ONext r`). -/
def FaceOf (m : Mesh) (r : Nat) (p q t : Point) : Prop :=
  LPrev m (LPrev m (LPrev m r)) = r ∧
    Org m r = some p ∧ Dest m r = some q ∧ Dest m (ONext m r) = some t

/-- The left face of `r` is a counterclockwise triangle. -/
def FaceCCW (m : Mesh) (r : Nat) : Prop :=
  ∃ p q t, FaceOf m r p q t ∧ 0 < ccwI p q t

/-- The record `r` lies on the left-face ring of `o`. -/
def InOuter (m : Mesh) (o r : Nat) : Prop :=
  r = o ∨ r = LPrev m o ∨ r = LPrev m (LPrev m o)

/-- The subdivision invariant of the insertion, with `o` a record of the
unbounded face, whose vertices `q0`, `q1`, `q2` are in clockwise order, and
`hole` the records of a face under construction: the mesh is well-formed;
every primal record has an origin, shared with `ONext` of the record; and the
left face of every record that is not of an isolated quad, not of the hole and
not of the unbounded face is a counterclockwise triangle. -/
structure Tri (m : Mesh) (o : Nat) (q0 q1 q2 : Point) (hole : List Nat) : Prop where
  wf : WellFormed m
  lab : ∀ r, r < m.recs.length → r % 2 = 0 → ∃ p, Org m r = some p
  ring : ∀ r, r < m.recs.length → r % 2 = 0 → Org m (ONext m r) = Org m r
  face : ∀ r, r < m.recs.length → r % 2 = 0 → ¬ Dead m r → r ∉ hole →
    ¬ InOuter m o r → FaceCCW m r
  olt : o < m.recs.length
  oprimal : o % 2 = 0
  oface : FaceOf m o q0 q1 q2
  ocw : ccwI q0 q1 q2 < 0
  ohole : ∀ r, r ∈ hole → ¬ InOuter m o r

/-- The point `x` is strictly right of the three edges of the clockwise ring
`q0`, `q1`, `q2`: strictly inside the frame. -/
def RightOfOuter (q0 q1 q2 x : Point) : Prop :=
  ccwI q0 q1 x < 0 ∧ ccwI q1 q2 x < 0 ∧ ccwI q2 q0 x < 0

/-- The first step of the spokes in `InsertSite`: the new edge `base` from
`Org(e)` to `x`, spliced to `e`. -/
def attach (m : Mesh) (e : Nat) (x : Point) : Mesh :=
  Splice (NewWithEndPoints m (Org m e) (some x)).1 (some m.recs.length) (some e)

/-- The records `e :: rest` form one left-face ring, listed in `LNext`
order: each is followed by its left-face successor, the last by `e`; they are
different primal records of the arena, none of them deleted. -/
structure FaceRing (m : Mesh) (e : Nat) (rest : List Nat) : Prop where
  nodup : (e :: rest).Nodup
  chain : List.Chain (fun u v => ONext m v = Sym u) e (rest ++ [e])
  lt : ∀ r, r ∈ e :: rest → r < m.recs.length
  primal : ∀ r, r ∈ e :: rest → r % 2 = 0
  live : ∀ r, r ∈ e :: rest → ¬ Dead m r

/-- The state of the spoke loop of `InsertSite`: the face that holds the site
`x` is the ring `e`, `poly`, `start`, `Sym base`; the site is strictly left of
`e` and of the records of `poly`, and the origin of `Sym base`. -/
structure Hole (m : Mesh) (o : Nat) (q0 q1 q2 x : Point) (start e base : Nat)
    (poly : List Nat) : Prop where
  tri : Tri m o q0 q1 q2 (e :: (poly ++ [start, Sym base]))
  ring : FaceRing m e (poly ++ [start, Sym base])
  left : ∀ r, r ∈ e :: poly →
    ∃ p q, Org m r = some p ∧ Dest m r = some q ∧ 0 < ccwI p q x
  apex : Org m (Sym base) = some x

/-- The state of the suspect-edge loop of `InsertSite`: the mesh is
triangulated, the first spoke `start` lies on a counterclockwise triangle, and
the left face of `e` is a counterclockwise triangle with the site `x` as its
third vertex. -/
structure Star (m : Mesh) (o : Nat) (q0 q1 q2 x : Point) (start e : Nat) : Prop where
  tri : Tri m o q0 q1 q2 []
  sface : FaceCCW m start
  slt : start < m.recs.length
  sprimal : start % 2 = 0
  lt : e < m.recs.length
  primal : e % 2 = 0
  apex : ∃ P D, FaceOf m e P D x ∧ 0 < ccwI P D x

/-- The polygon that holds the site `x` before the first spoke: the ring `e`,
`poly`, with `x` strictly left of each of its records. -/
structure Pre (m : Mesh) (o : Nat) (q0 q1 q2 x : Point) (e : Nat) (poly : List Nat) :
    Prop where
  tri : Tri m o q0 q1 q2 (e :: poly)
  ring : FaceRing m e poly
  left : ∀ r, r ∈ e :: poly →
    ∃ p q, Org m r = some p ∧ Dest m r = some q ∧ 0 < ccwI p q x

/-- The invariant of the insertion on a subdivision: the mesh is triangulated
and the starting edge is an edge of it. -/
structure TriSd (sd : Subdivision) (o : Nat) (q0 q1 q2 : Point) : Prop where
  tri : Tri sd.mesh o q0 q1 q2 []
  slt : sd.startingEdge < sd.mesh.recs.length
  sprimal : sd.startingEdge % 2 = 0
  slive : ¬ Dead sd.mesh sd.startingEdge

/-- The mesh of `subdivision.New(a, b, c)`, whatever the points. -/
def frameMesh (a b c : Point) : Mesh :=
  ⟨[⟨10, some a⟩, ⟨9, none⟩, ⟨4, some b⟩, ⟨7, none⟩,
    ⟨2, some b⟩, ⟨1, none⟩, ⟨8, some c⟩, ⟨11, none⟩,
    ⟨6, some c⟩, ⟨5, none⟩, ⟨0, some a⟩, ⟨3, none⟩]⟩

/-- The point `x` is strictly inside the triangle `a`, `b`, `c`: strictly on
the same side of the three edges, whatever the orientation of the triangle. -/
def StrictlyInside (a b c x : Point) : Prop :=
  (0 < ccwI a b x ∧ 0 < ccwI b c x ∧ 0 < ccwI c a x) ∨
    (ccwI a b x < 0 ∧ ccwI b c x < 0 ∧ ccwI c a x < 0)

/-- The subdivisions built by `New(a, b, c)` followed by `InsertSite` calls on
points strictly inside the frame. -/
inductive BuiltInside (a b c : Point) : Subdivision → Prop
  | new : BuiltInside a b c (Subdivision.New a b c)
  | insert {sd : Subdivision} {fuel : Nat} {x : Point} {r : Subdivision × Bool} :
      BuiltInside a b c sd → StrictlyInside a b c x → sd.InsertSite fuel x = some r →
      BuiltInside a b c r.1

/-- What the claims on the vertex labels need: every primal record has an
origin, shared with its `ONext`, and the starting edge is an edge of the
mesh. -/
structure Labelled (sd : Subdivision) : Prop where
  wf : WellFormed sd.mesh
  lab : ∀ r, r < sd.mesh.recs.length → r % 2 = 0 → ∃ p, Org sd.mesh r = some p
  ring : ∀ r, r < sd.mesh.recs.length → r % 2 = 0 →
    Org sd.mesh (ONext sd.mesh r) = Org sd.mesh r
  slt : sd.startingEdge < sd.mesh.recs.length
  sprimal : sd.startingEdge % 2 = 0
  slive : ¬ Dead sd.mesh sd.startingEdge

/-! ## Theorems -/

theorem Rot_InvRot (e : Nat) : Rot (InvRot e) = e := by
  unfold Rot InvRot; omega

theorem InvRot_Rot (e : Nat) : InvRot (Rot e) = e := by
  unfold Rot InvRot; omega

theorem Sym_Sym (e : Nat) : Sym (Sym e) = e := by
  unfold Sym Rot; omega

theorem Rot_Sym (e : Nat) : Rot (Sym e) = InvRot e := by
  unfold Sym Rot InvRot; omega

theorem Sym_Rot (e : Nat) : Sym (Rot e) = InvRot e := by
  unfold Sym Rot InvRot; omega

theorem Rot_Rot (e : Nat) : Rot (Rot e) = Sym e := rfl

theorem InvRot_eq (e : Nat) : InvRot e = Rot (Sym e) := (Rot_Sym e).symm

theorem Rot_injective {a b : Nat} (h : Rot a = Rot b) : a = b := by
  have := congrArg InvRot h
  simpa [InvRot_Rot] using this

theorem Sym_injective {a b : Nat} (h : Sym a = Sym b) : a = b := by
  have := congrArg Sym h
  simpa [Sym_Sym] using this

theorem Rot_lt {n e : Nat} (hn : n % 4 = 0) (h : e < n) : Rot e < n := by
  unfold Rot; omega

theorem InvRot_lt {n e : Nat} (hn : n % 4 = 0) (h : e < n) : InvRot e < n := by
  unfold InvRot; omega

theorem Sym_lt {n e : Nat} (hn : n % 4 = 0) (h : e < n) : Sym e < n :=
  Rot_lt hn (Rot_lt hn h)

theorem Rot_mod2 (e : Nat) : Rot e % 2 = (e + 1) % 2 := by
  unfold Rot; omega

theorem Sym_mod2 (e : Nat) : Sym e % 2 = e % 2 := by
  unfold Sym Rot; omega

theorem Sym_ne (e : Nat) : Sym e ≠ e := by
  unfold Sym Rot; omega

theorem Rot_div (e : Nat) : Rot e / 4 = e / 4 := by
  unfold Rot; omega

theorem Sym_div (e : Nat) : Sym e / 4 = e / 4 := by
  unfold Sym Rot; omega

theorem length_setNext (m : Mesh) (e v : Nat) :
    (setNext m e v).recs.length = m.recs.length := by
  unfold setNext
  split <;> simp

theorem ONext_setNext (m : Mesh) (e v x : Nat) :
    ONext (setNext m e v) x = if x = e ∧ e < m.recs.length then v else ONext m x := by
  unfold setNext ONext
  by_cases he : e < m.recs.length
  · simp only [List.getElem?_eq_getElem he]
    by_cases hx : x = e
    · subst hx
      simp [he]
    · have hx' : e ≠ x := fun h => hx h.symm
      simp [List.getElem?_set_ne hx', hx]
  · have hnone : m.recs[e]? = none := List.getElem?_eq_none (by omega)
    simp [hnone, he]

theorem Org_setNext (m : Mesh) (e v x : Nat) : Org (setNext m e v) x = Org m x := by
  unfold setNext Org
  by_cases he : e < m.recs.length
  · simp only [List.getElem?_eq_getElem he]
    by_cases hx : x = e
    · subst hx
      simp [he]
    · have hx' : e ≠ x := fun h => hx h.symm
      simp [List.getElem?_set_ne hx']
  · have hnone : m.recs[e]? = none := List.getElem?_eq_none (by omega)
    simp [hnone]

theorem length_setOrg (m : Mesh) (e : Nat) (p : Option Point) :
    (setOrg m e p).recs.length = m.recs.length := by
  unfold setOrg
  split <;> simp

theorem ONext_setOrg (m : Mesh) (e : Nat) (p : Option Point) (x : Nat) :
    ONext (setOrg m e p) x = ONext m x := by
  unfold setOrg ONext
  by_cases he : e < m.recs.length
  · simp only [List.getElem?_eq_getElem he]
    by_cases hx : x = e
    · subst hx
      simp [he]
    · have hx' : e ≠ x := fun h => hx h.symm
      simp [List.getElem?_set_ne hx']
  · have hnone : m.recs[e]? = none := List.getElem?_eq_none (by omega)
    simp [hnone]

theorem Org_setOrg (m : Mesh) (e : Nat) (p : Option Point) (x : Nat) :
    Org (setOrg m e p) x = if x = e ∧ e < m.recs.length then p else Org m x := by
  unfold setOrg Org
  by_cases he : e < m.recs.length
  · simp only [List.getElem?_eq_getElem he]
    by_cases hx : x = e
    · subst hx
      simp [he]
    · have hx' : e ≠ x := fun h => hx h.symm
      simp [List.getElem?_set_ne hx', hx]
  · have hnone : m.recs[e]? = none := List.getElem?_eq_none (by omega)
    simp [hnone, he]

theorem length_Splice (m : Mesh) (a b : Option Nat) :
    (Splice m a b).recs.length = m.recs.length := by
  cases a <;> cases b <;> simp [Splice, length_setNext]

theorem Org_Splice (m : Mesh) (a b : Option Nat) (x : Nat) :
    Org (Splice m a b) x = Org m x := by
  cases a <;> cases b <;> simp [Splice, Org_setNext]

theorem length_EndPoints (m : Mesh) (e : Nat) (o d : Option Point) :
    (EndPoints m e o d).recs.length = m.recs.length := by
  simp [EndPoints, length_setOrg]

theorem ONext_EndPoints (m : Mesh) (e : Nat) (o d : Option Point) (x : Nat) :
    ONext (EndPoints m e o d) x = ONext m x := by
  simp [EndPoints, ONext_setOrg]

theorem ONext_Splice_raw (m : Mesh) (a b x : Nat) :
    ONext (Splice m (some a) (some b)) x =
      if x = Rot (ONext m b) ∧ Rot (ONext m b) < m.recs.length then ONext m (Rot (ONext m a))
      else if x = Rot (ONext m a) ∧ Rot (ONext m a) < m.recs.length then ONext m (Rot (ONext m b))
      else if x = b ∧ b < m.recs.length then ONext m a
      else if x = a ∧ a < m.recs.length then ONext m b
      else ONext m x := by
  simp only [Splice, ONext_setNext, length_setNext]

theorem WellFormed.next_injective {m : Mesh} (h : WellFormed m) {x y : Nat}
    (hx : x < m.recs.length) (hy : y < m.recs.length) (hxy : ONext m x = ONext m y) : x = y := by
  have h1 := h.inverse x hx
  have h2 := h.inverse y hy
  rw [hxy] at h1
  exact h1.symm.trans h2

theorem WellFormed.next_OPrev {m : Mesh} (h : WellFormed m) {y : Nat}
    (hy : y < m.recs.length) : ONext m (OPrev m y) = y := by
  have hr : Rot y < m.recs.length := Rot_lt h.quads hy
  have h1 := h.inverse (Rot y) hr
  exact Rot_injective h1

theorem WellFormed.OPrev_next {m : Mesh} (h : WellFormed m) {y : Nat}
    (hy : y < m.recs.length) : OPrev m (ONext m y) = y := h.inverse y hy

theorem WellFormed.OPrev_lt {m : Mesh} (h : WellFormed m) {y : Nat}
    (hy : y < m.recs.length) : OPrev m y < m.recs.length :=
  Rot_lt h.quads (h.closed _ (Rot_lt h.quads hy))

theorem WellFormed.OPrev_mod2 {m : Mesh} (h : WellFormed m) {y : Nat}
    (hy : y < m.recs.length) : OPrev m y % 2 = y % 2 := by
  have h1 := h.role _ (Rot_lt h.quads hy)
  have h2 := Rot_mod2 (ONext m (Rot y))
  have h3 := Rot_mod2 y
  unfold OPrev
  omega

theorem ONext_Splice {m : Mesh} (h : WellFormed m) {a b : Nat}
    (ha : a < m.recs.length) (hb : b < m.recs.length)
    (hpa : a % 2 = 0) (hpb : b % 2 = 0) (x : Nat) :
    ONext (Splice m (some a) (some b)) x =
      ONext m (if x % 2 = 0 then sw a b x else sw (Rot (ONext m a)) (Rot (ONext m b)) x) := by
  have hna := h.closed a ha
  have hnb := h.closed b hb
  have hra := h.role a ha
  have hrb := h.role b hb
  have hal : Rot (ONext m a) < m.recs.length := Rot_lt h.quads hna
  have hbe : Rot (ONext m b) < m.recs.length := Rot_lt h.quads hnb
  have hpal := Rot_mod2 (ONext m a)
  have hpbe := Rot_mod2 (ONext m b)
  rw [ONext_Splice_raw]
  by_cases hx : x % 2 = 0
  · have h1 : x ≠ Rot (ONext m b) := by intro h; rw [h] at hx; omega
    have h2 : x ≠ Rot (ONext m a) := by intro h; rw [h] at hx; omega
    simp only [h1, h2, false_and, if_false, hx, if_true, hb, ha, and_true, sw]
    by_cases hxb : x = b
    · subst hxb
      by_cases hxa : x = a
      · subst hxa; simp
      · simp [hxa]
    · by_cases hxa : x = a
      · subst hxa
        have hxb' : b ≠ x := fun hh => hxb hh.symm
        simp [hxb, hxb']
      · simp [hxa, hxb]
  · simp only [hx, if_false, hal, hbe, and_true, sw]
    have h1 : x ≠ b := by intro h; rw [h] at hx; omega
    have h2 : x ≠ a := by intro h; rw [h] at hx; omega
    by_cases hxb : x = Rot (ONext m b)
    · by_cases hxa : x = Rot (ONext m a)
      · simp [hxb, hxa.symm.trans hxb]
      · rw [if_pos hxb, if_neg hxa, if_pos hxb]
    · by_cases hxa : x = Rot (ONext m a)
      · rw [if_neg hxb, if_pos hxa, if_pos hxa]
      · simp [hxa, hxb, h1, h2]

theorem sw_lt {a b x n : Nat} (ha : a < n) (hb : b < n) (hx : x < n) : sw a b x < n := by
  unfold sw; split_ifs <;> assumption

theorem sw_mod2 {a b x : Nat} (hab : a % 2 = b % 2) : sw a b x % 2 = x % 2 := by
  unfold sw; split_ifs with h1 h2
  · rw [h1]; omega
  · rw [h2]; omega
  · rfl

theorem sw_sw (a b x : Nat) : sw a b (sw a b x) = x := by
  unfold sw; split_ifs <;> simp_all

theorem WellFormed.Splice {m : Mesh} (h : WellFormed m) {a b : Nat}
    (ha : a < m.recs.length) (hb : b < m.recs.length)
    (hpa : a % 2 = 0) (hpb : b % 2 = 0) :
    WellFormed (Splice m (some a) (some b)) := by
  have hna := h.closed a ha
  have hnb := h.closed b hb
  have hra := h.role a ha
  have hrb := h.role b hb
  have hal : Rot (ONext m a) < m.recs.length := Rot_lt h.quads hna
  have hbe : Rot (ONext m b) < m.recs.length := Rot_lt h.quads hnb
  have hpal := Rot_mod2 (ONext m a)
  have hpbe := Rot_mod2 (ONext m b)
  have hia := h.inverse a ha
  have hib := h.inverse b hb
  refine ⟨?_, ?_, ?_, ?_⟩
  · rw [length_Splice]; exact h.quads
  · intro r hr
    rw [length_Splice] at hr ⊢
    rw [ONext_Splice h ha hb hpa hpb]
    apply h.closed
    split_ifs
    · exact sw_lt ha hb hr
    · exact sw_lt hal hbe hr
  · intro r hr
    rw [length_Splice] at hr
    rw [ONext_Splice h ha hb hpa hpb, ONext_Splice h ha hb hpa hpb]
    by_cases hp : r % 2 = 0
    · have hs : sw a b r % 2 = r % 2 := sw_mod2 (by omega)
      have hs' : sw a b r < m.recs.length := sw_lt ha hb hr
      have hq : ¬ Rot (ONext m (sw a b r)) % 2 = 0 := by
        have := h.role _ hs'
        have := Rot_mod2 (ONext m (sw a b r))
        omega
      rw [if_pos hp, if_neg hq]
      by_cases h1 : r = a
      · subst h1
        have : sw r b r = b := by simp [sw]
        rw [this]
        have : sw (Rot (ONext m r)) (Rot (ONext m b)) (Rot (ONext m b)) = Rot (ONext m r) := by
          unfold sw; split_ifs <;> simp_all
        rw [this]; exact hia
      · by_cases h2 : r = b
        · subst h2
          have : sw a r r = a := by simp [sw, h1]
          rw [this]
          have : sw (Rot (ONext m a)) (Rot (ONext m r)) (Rot (ONext m a)) = Rot (ONext m r) := by
            simp [sw]
          rw [this]; exact hib
        · have : sw a b r = r := by simp [sw, h1, h2]
          rw [this]
          have hne1 : Rot (ONext m r) ≠ Rot (ONext m a) := fun hh =>
            h1 (h.next_injective hr ha (Rot_injective hh))
          have hne2 : Rot (ONext m r) ≠ Rot (ONext m b) := fun hh =>
            h2 (h.next_injective hr hb (Rot_injective hh))
          have : sw (Rot (ONext m a)) (Rot (ONext m b)) (Rot (ONext m r)) = Rot (ONext m r) := by
            simp [sw, hne1, hne2]
          rw [this]; exact h.inverse r hr
    · set al := Rot (ONext m a) with hal_def
      set be := Rot (ONext m b) with hbe_def
      have hs : sw al be r % 2 = r % 2 := sw_mod2 (by omega)
      have hs' : sw al be r < m.recs.length := sw_lt hal hbe hr
      have hq : Rot (ONext m (sw al be r)) % 2 = 0 := by
        have := h.role _ hs'
        have := Rot_mod2 (ONext m (sw al be r))
        omega
      rw [if_neg hp, if_pos hq]
      by_cases h1 : r = al
      · have e1 : sw al be r = be := by simp [sw, h1]
        rw [e1, hbe_def, hib]
        have : sw a b b = a := by unfold sw; split_ifs <;> simp_all
        rw [this, h1]
      · by_cases h2 : r = be
        · have e1 : sw al be r = al := by simp [sw, h1, h2]
          rw [e1, hal_def, hia]
          have : sw a b a = b := by simp [sw]
          rw [this, h2]
        · have e1 : sw al be r = r := by simp [sw, h1, h2]
          rw [e1]
          have hir := h.inverse r hr
          have hne1 : Rot (ONext m r) ≠ a := by
            intro hh
            apply h1
            rw [hal_def, ← hh, hir]
          have hne2 : Rot (ONext m r) ≠ b := by
            intro hh
            apply h2
            rw [hbe_def, ← hh, hir]
          have : sw a b (Rot (ONext m r)) = Rot (ONext m r) := by
            simp [sw, hne1, hne2]
          rw [this]; exact hir
  · intro r hr
    rw [length_Splice] at hr
    rw [ONext_Splice h ha hb hpa hpb]
    split_ifs with hp
    · rw [h.role _ (sw_lt ha hb hr)]
      exact sw_mod2 (by omega)
    · rw [h.role _ (sw_lt hal hbe hr)]
      exact sw_mod2 (by omega)

theorem Reach.refl (f : Nat → Nat) (a : Nat) : Reach f a a := ⟨0, rfl⟩

theorem Reach.step {f : Nat → Nat} {a x : Nat} (h : Reach f a x) : Reach f a (f x) := by
  obtain ⟨k, hk⟩ := h
  exact ⟨k + 1, by rw [iterate_succ_apply', hk]⟩

theorem Reach.trans {f : Nat → Nat} {a x y : Nat} (h1 : Reach f a x) (h2 : Reach f x y) :
    Reach f a y := by
  obtain ⟨k, hk⟩ := h1
  obtain ⟨j, hj⟩ := h2
  exact ⟨j + k, by rw [iterate_add_apply, hk, hj]⟩

theorem reach_lt_period {f : Nat → Nat} {a x q : Nat} (hq : 0 < q) (hp : f^[q] a = a)
    (h : Reach f a x) : ∃ i, i < q ∧ f^[i] a = x := by
  obtain ⟨k, hk⟩ := h
  have hper : IsPeriodicPt f q a := hp
  exact ⟨k % q, Nat.mod_lt _ hq, by rw [hper.iterate_mod_apply, hk]⟩

theorem Reach.symm_of_periodic {f : Nat → Nat} {a x : Nat} (hp : a ∈ periodicPts f)
    (h : Reach f a x) : Reach f x a := by
  have hq := minimalPeriod_pos_of_mem_periodicPts hp
  obtain ⟨i, hi, hx⟩ := reach_lt_period hq iterate_minimalPeriod h
  refine ⟨minimalPeriod f a - i, ?_⟩
  rw [← hx, ← iterate_add_apply, Nat.sub_add_cancel (le_of_lt hi)]
  exact iterate_minimalPeriod

theorem follow_iterate {f g : Nat → Nat} {a b : Nat}
    (hg : ∀ x, x ≠ a → x ≠ b → g x = f x) (y : Nat) :
    ∀ n, (∀ j, j < n → f^[j] y ≠ a ∧ f^[j] y ≠ b) → g^[n] y = f^[n] y := by
  intro n
  induction n with
  | zero => intro _; rfl
  | succ n ih =>
    intro h
    rw [iterate_succ_apply', iterate_succ_apply', ih (fun j hj => h j (Nat.lt_succ_of_lt hj))]
    exact hg _ (h n (Nat.lt_succ_self n)).1 (h n (Nat.lt_succ_self n)).2

theorem iterate_ne_self_of_lt {f : Nat → Nat} {a j : Nat} (h0 : 0 < j)
    (hj : j < minimalPeriod f a) : f^[j] a ≠ a := by
  intro h
  have h' : f^[j] a = f^[0] a := h
  have := (iterate_eq_iterate_iff_of_lt_minimalPeriod hj (by omega)).1 h'
  omega

theorem exch_left (f : Nat → Nat) (a b : Nat) : exch f a b a = f b := by
  simp [exch, sw]

theorem exch_right (f : Nat → Nat) (a b : Nat) : exch f a b b = f a := by
  by_cases h : b = a
  · simp [exch, sw, h]
  · simp [exch, sw, h]

theorem exch_other (f : Nat → Nat) (a b : Nat) :
    ∀ x, x ≠ a → x ≠ b → exch f a b x = f x := by
  intro x h1 h2
  simp [exch, sw, h1, h2]

theorem exch_closed {f : Nat → Nat} {a b : Nat} {U : Nat → Prop} (ha : U a) (hb : U b)
    (hU : ∀ z, U z → U (f z)) (s : Nat) (hs : U s) : ∀ k, U ((exch f a b)^[k] s) := by
  intro k
  induction k with
  | zero => exact hs
  | succ k ih =>
    rw [iterate_succ_apply']
    unfold exch sw
    split_ifs
    · exact hU _ hb
    · exact hU _ ha
    · exact hU _ ih

/-- Two rings are merged when `a` and `b` lie on different rings. -/
theorem exch_merge {f : Nat → Nat} {a b : Nat} (pa : a ∈ periodicPts f)
    (pb : b ∈ periodicPts f) (hab : ¬ Reach f a b) :
    Reach (exch f a b) a b ∧
      ∀ x, Reach (exch f a b) a x ↔ (Reach f a x ∨ Reach f b x) := by
  have hq := minimalPeriod_pos_of_mem_periodicPts pa
  have hp := minimalPeriod_pos_of_mem_periodicPts pb
  have hba : ¬ Reach f b a := fun h => hab (h.symm_of_periodic pb)
  have h1 : ∀ i, 1 ≤ i → i ≤ minimalPeriod f b → (exch f a b)^[i] a = f^[i] b := by
    intro i hi1 hi2
    obtain ⟨n, rfl⟩ : ∃ n, i = n + 1 := ⟨i - 1, by omega⟩
    rw [iterate_succ_apply, iterate_succ_apply, exch_left]
    apply follow_iterate (exch_other f a b)
    intro j hj
    rw [← iterate_succ_apply]
    exact ⟨fun h => hba ⟨_, h⟩, iterate_ne_self_of_lt (by omega) (by omega)⟩
  have h2 : (exch f a b)^[minimalPeriod f b] a = b := by
    rw [h1 _ hp le_rfl]; exact iterate_minimalPeriod
  have h3 : ∀ i, 1 ≤ i → i ≤ minimalPeriod f a →
      (exch f a b)^[i + minimalPeriod f b] a = f^[i] a := by
    intro i hi1 hi2
    obtain ⟨n, rfl⟩ : ∃ n, i = n + 1 := ⟨i - 1, by omega⟩
    rw [iterate_add_apply, h2, iterate_succ_apply, iterate_succ_apply, exch_right]
    apply follow_iterate (exch_other f a b)
    intro j hj
    rw [← iterate_succ_apply]
    exact ⟨iterate_ne_self_of_lt (by omega) (by omega), fun h => hab ⟨_, h⟩⟩
  refine ⟨⟨_, h2⟩, fun x => ⟨?_, ?_⟩⟩
  · rintro ⟨k, rfl⟩
    exact exch_closed (U := fun z => Reach f a z ∨ Reach f b z)
      (Or.inl (Reach.refl f a)) (Or.inr (Reach.refl f b))
      (fun z hz => hz.elim (fun h => Or.inl h.step) (fun h => Or.inr h.step))
      a (Or.inl (Reach.refl f a)) k
  · rintro (h | h)
    · obtain ⟨i, hi, rfl⟩ := reach_lt_period hq iterate_minimalPeriod h
      rcases Nat.eq_zero_or_pos i with h0 | h0
      · subst h0; exact ⟨0, rfl⟩
      · exact ⟨_, h3 i h0 (le_of_lt hi)⟩
    · obtain ⟨i, hi, rfl⟩ := reach_lt_period hp iterate_minimalPeriod h
      rcases Nat.eq_zero_or_pos i with h0 | h0
      · subst h0; exact ⟨_, h2⟩
      · exact ⟨_, h1 i h0 (le_of_lt hi)⟩

/-- One ring is split in two when `a` and `b` lie on the same ring. -/
theorem exch_split {f : Nat → Nat} {a b : Nat} (hne : a ≠ b) (pa : a ∈ periodicPts f)
    (hab : Reach f a b) :
    (∀ x, ¬ (Reach (exch f a b) a x ∧ Reach (exch f a b) b x)) ∧
      ∀ x, Reach f a x ↔ (Reach (exch f a b) a x ∨ Reach (exch f a b) b x) := by
  classical
  have hq := minimalPeriod_pos_of_mem_periodicPts pa
  set q := minimalPeriod f a with hqdef
  have hex : ∃ k, f^[k] a = b := hab
  set k := Nat.find hex with hkdef
  have hk : f^[k] a = b := Nat.find_spec hex
  have hkmin : ∀ j, j < k → f^[j] a ≠ b := fun j hj => Nat.find_min hex hj
  have hk0 : 0 < k := by
    rcases Nat.eq_zero_or_pos k with h0 | h0
    · rw [h0] at hk; exact absurd hk hne
    · exact h0
  have hkq : k < q := by
    have hper : IsPeriodicPt f q a := isPeriodicPt_minimalPeriod f a
    have h1 : f^[k % q] a = b := by rw [hper.iterate_mod_apply, hk]
    have h2 : k ≤ k % q := by
      by_contra hlt
      exact hkmin _ (not_le.1 hlt) h1
    have := Nat.mod_lt k hq
    omega
  have inj : ∀ {i j : Nat}, i < q → j < q → f^[i] a = f^[j] a → i = j := fun hi hj h =>
    (iterate_eq_iterate_iff_of_lt_minimalPeriod hi hj).1 h
  have h1 : ∀ i, 1 ≤ i → i ≤ k → (exch f a b)^[i] b = f^[i] a := by
    intro i hi1 hi2
    obtain ⟨n, rfl⟩ : ∃ n, i = n + 1 := ⟨i - 1, by omega⟩
    rw [iterate_succ_apply, iterate_succ_apply, exch_right]
    apply follow_iterate (exch_other f a b)
    intro j hj
    rw [← iterate_succ_apply]
    exact ⟨iterate_ne_self_of_lt (by omega) (by omega), hkmin _ (by omega)⟩
  have h2 : ∀ i, 1 ≤ i → i ≤ q - k → (exch f a b)^[i] a = f^[i + k] a := by
    intro i hi1 hi2
    obtain ⟨n, rfl⟩ : ∃ n, i = n + 1 := ⟨i - 1, by omega⟩
    have e1 : f b = f^[k + 1] a := by rw [iterate_succ_apply', hk]
    have e2 : f^[n + 1 + k] a = f^[n] (f^[k + 1] a) := by
      rw [← iterate_add_apply]
      congr 1
      omega
    rw [iterate_succ_apply, exch_left, e1, e2]
    apply follow_iterate (exch_other f a b)
    intro j hj
    rw [← iterate_add_apply]
    refine ⟨iterate_ne_self_of_lt (by omega) (by omega), ?_⟩
    intro h
    have := inj (i := j + (k + 1)) (j := k) (by omega) hkq (h.trans hk.symm)
    omega
  have hpa : (exch f a b)^[q - k] a = a := by
    rw [h2 _ (by omega) le_rfl, Nat.sub_add_cancel (le_of_lt hkq)]
    exact iterate_minimalPeriod
  have hpb : (exch f a b)^[k] b = b := by rw [h1 _ hk0 le_rfl, hk]
  have ca : ∀ x, Reach (exch f a b) a x → x = a ∨ ∃ i, k < i ∧ i < q ∧ f^[i] a = x := by
    intro x hx
    obtain ⟨i, hi, rfl⟩ := reach_lt_period (by omega) hpa hx
    rcases Nat.eq_zero_or_pos i with h0 | h0
    · subst h0; exact Or.inl rfl
    · exact Or.inr ⟨i + k, by omega, by omega, (h2 i h0 (le_of_lt hi)).symm⟩
  have cb : ∀ x, Reach (exch f a b) b x → ∃ i, 1 ≤ i ∧ i ≤ k ∧ f^[i] a = x := by
    intro x hx
    obtain ⟨i, hi, rfl⟩ := reach_lt_period hk0 hpb hx
    rcases Nat.eq_zero_or_pos i with h0 | h0
    · subst h0; exact ⟨k, hk0, le_rfl, hk⟩
    · exact ⟨i, h0, le_of_lt hi, (h1 i h0 (le_of_lt hi)).symm⟩
  refine ⟨?_, fun x => ⟨?_, ?_⟩⟩
  · rintro x ⟨hxa, hxb⟩
    obtain ⟨i', hi1, hi2, hx'⟩ := cb x hxb
    rcases ca x hxa with rfl | ⟨i, hi1', hi2', hx⟩
    · have := inj (i := i') (j := 0) (by omega) hq hx'
      omega
    · have := inj (i := i) (j := i') hi2' (by omega) (hx.trans hx'.symm)
      omega
  · intro h
    obtain ⟨i, hi, rfl⟩ := reach_lt_period hq iterate_minimalPeriod h
    rcases Nat.eq_zero_or_pos i with h0 | h0
    · subst h0; exact Or.inl ⟨0, rfl⟩
    · by_cases hik : i ≤ k
      · exact Or.inr ⟨i, h1 i h0 hik⟩
      · refine Or.inl ⟨i - k, ?_⟩
        rw [h2 (i - k) (by omega) (by omega), Nat.sub_add_cancel (by omega)]
  · rintro (h | h)
    · rcases ca x h with rfl | ⟨i, _, _, hx⟩
      · exact Reach.refl f _
      · exact ⟨i, hx⟩
    · obtain ⟨i, _, _, hx⟩ := cb x h
      exact ⟨i, hx⟩

/-- A ring that holds neither `a` nor `b` is left alone. -/
theorem exch_other_ring {f : Nat → Nat} {a b x : Nat} (hxa : ¬ Reach f x a)
    (hxb : ¬ Reach f x b) : ∀ n, (exch f a b)^[n] x = f^[n] x := by
  intro n
  apply follow_iterate (exch_other f a b)
  intro j _
  exact ⟨fun h => hxa ⟨j, h⟩, fun h => hxb ⟨j, h⟩⟩

theorem WellFormed.iterate_lt {m : Mesh} (h : WellFormed m) {r : Nat}
    (hr : r < m.recs.length) : ∀ k, (ONext m)^[k] r < m.recs.length := by
  intro k
  induction k with
  | zero => exact hr
  | succ k ih => rw [iterate_succ_apply']; exact h.closed _ ih

theorem WellFormed.OPrev_iterate {m : Mesh} (h : WellFormed m) :
    ∀ (k : Nat) {r : Nat}, r < m.recs.length → (OPrev m)^[k] ((ONext m)^[k] r) = r := by
  intro k
  induction k with
  | zero => intro r _; rfl
  | succ k ih =>
    intro r hr
    rw [iterate_succ_apply, iterate_succ_apply', h.OPrev_next (h.iterate_lt hr k)]
    exact ih hr

theorem WellFormed.periodic {m : Mesh} (h : WellFormed m) {r : Nat}
    (hr : r < m.recs.length) : r ∈ periodicPts (ONext m) := by
  obtain ⟨i, j, hij, heq⟩ := Finite.exists_ne_map_eq_of_infinite
    (fun k : Nat => (⟨(ONext m)^[k] r, h.iterate_lt hr k⟩ : Fin m.recs.length))
  have heq' : (ONext m)^[i] r = (ONext m)^[j] r := congrArg Fin.val heq
  have key : ∀ i d, 0 < d → (ONext m)^[i] r = (ONext m)^[i + d] r →
      r ∈ periodicPts (ONext m) := by
    intro i d hd he
    rw [iterate_add_apply] at he
    have h1 := congrArg (OPrev m)^[i] he
    rw [h.OPrev_iterate i hr, h.OPrev_iterate i (h.iterate_lt hr d)] at h1
    exact mk_mem_periodicPts hd h1.symm
  rcases lt_or_gt_of_ne hij with hlt | hgt
  · have : j = i + (j - i) := by omega
    rw [this] at heq'
    exact key i (j - i) (by omega) heq'
  · have : i = j + (i - j) := by omega
    rw [this] at heq'
    exact key j (i - j) (by omega) heq'.symm

theorem WellFormed.role_all {m : Mesh} (h : WellFormed m) (x : Nat) :
    ONext m x % 2 = x % 2 := by
  by_cases hx : x < m.recs.length
  · exact h.role x hx
  · have : m.recs[x]? = none := List.getElem?_eq_none (by omega)
    simp [ONext, this]

theorem Splice_iterate {m : Mesh} (h : WellFormed m) {a b : Nat}
    (ha : a < m.recs.length) (hb : b < m.recs.length)
    (hpa : a % 2 = 0) (hpb : b % 2 = 0) {x : Nat} (hx : x % 2 = 0) :
    ∀ n, (ONext (Splice m (some a) (some b)))^[n] x = (exch (ONext m) a b)^[n] x
      ∧ (exch (ONext m) a b)^[n] x % 2 = 0 := by
  intro n
  induction n with
  | zero => exact ⟨rfl, hx⟩
  | succ n ih =>
    rw [iterate_succ_apply', iterate_succ_apply', ih.1, ONext_Splice h ha hb hpa hpb, if_pos ih.2]
    refine ⟨rfl, ?_⟩
    unfold exch
    rw [h.role_all, sw_mod2 (by omega)]
    exact ih.2

theorem InRing_Splice {m : Mesh} (h : WellFormed m) {a b : Nat}
    (ha : a < m.recs.length) (hb : b < m.recs.length)
    (hpa : a % 2 = 0) (hpb : b % 2 = 0) {x : Nat} (hx : x % 2 = 0) (y : Nat) :
    InRing (Splice m (some a) (some b)) x y ↔ Reach (exch (ONext m) a b) x y := by
  unfold InRing Reach
  constructor
  · rintro ⟨k, hk⟩
    exact ⟨k, by rw [← (Splice_iterate h ha hb hpa hpb hx k).1, hk]⟩
  · rintro ⟨k, hk⟩
    exact ⟨k, by rw [(Splice_iterate h ha hb hpa hpb hx k).1, hk]⟩

theorem not_reach_of_closed {f : Nat → Nat} {a b : Nat} (L : List Nat) (ha : a ∈ L)
    (hc : ∀ x ∈ L, f x ∈ L) (hb : b ∉ L) : ¬ Reach f a b := by
  rintro ⟨k, hk⟩
  have : ∀ k, f^[k] a ∈ L := by
    intro k
    induction k with
    | zero => exact ha
    | succ k ih => rw [iterate_succ_apply']; exact hc _ ih
  exact hb (hk ▸ this k)

/-- C1: in a well-formed mesh (`next` is a permutation of the records with
inverse `OPrev` that keeps the role of a record, as in every mesh built by
`New` and by `Splice` on records of one kind) `Splice(a, b)` on two distinct
primal records splits their common origin ring into the ring of `a` and the
ring of `b` (disjoint, with the old ring as union), merges their two
different rings into one ring (the union of both), and leaves every other
origin ring as it was, pointer by pointer. -/
theorem splice_rings (m : Mesh) (h : WellFormed m) (a b : Nat)
    (ha : a < m.recs.length) (hb : b < m.recs.length)
    (hpa : IsPrimal a) (hpb : IsPrimal b) (hab : a ≠ b) :
    (InRing m a b →
      (∀ x, ¬ (InRing (Splice m (some a) (some b)) a x ∧ InRing (Splice m (some a) (some b)) b x)) ∧
      (∀ x, InRing m a x ↔
        (InRing (Splice m (some a) (some b)) a x ∨ InRing (Splice m (some a) (some b)) b x))) ∧
    (¬ InRing m a b →
      InRing (Splice m (some a) (some b)) a b ∧
      InRing (Splice m (some a) (some b)) b a ∧
      (∀ x, InRing (Splice m (some a) (some b)) a x ↔ (InRing m a x ∨ InRing m b x))) ∧
    (∀ c, IsPrimal c → ¬ InRing m c a → ¬ InRing m c b →
      (∀ x, InRing (Splice m (some a) (some b)) c x ↔ InRing m c x) ∧
      (∀ x, InRing m c x → ONext (Splice m (some a) (some b)) x = ONext m x)) := by
  have hwf' := h.Splice ha hb hpa hpb
  refine ⟨?_, ?_, ?_⟩
  · intro hin
    have hs := exch_split hab (h.periodic ha) hin
    refine ⟨fun x hx => hs.1 x ?_, fun x => ?_⟩
    · exact ⟨(InRing_Splice h ha hb hpa hpb hpa x).1 hx.1,
        (InRing_Splice h ha hb hpa hpb hpb x).1 hx.2⟩
    · rw [InRing_Splice h ha hb hpa hpb hpa, InRing_Splice h ha hb hpa hpb hpb]
      exact hs.2 x
  · intro hin
    have hm := exch_merge (h.periodic ha) (h.periodic hb) hin
    have hab' : InRing (Splice m (some a) (some b)) a b :=
      (InRing_Splice h ha hb hpa hpb hpa b).2 hm.1
    refine ⟨hab', ?_, fun x => ?_⟩
    · have ha' : a < (Splice m (some a) (some b)).recs.length := by
        rw [length_Splice]; exact ha
      exact Reach.symm_of_periodic (hwf'.periodic ha') hab'
    · rw [InRing_Splice h ha hb hpa hpb hpa]
      exact hm.2 x
  · intro c hc hca hcb
    have hit := exch_other_ring (f := ONext m) (a := a) (b := b) hca hcb
    refine ⟨fun x => ?_, ?_⟩
    · rw [InRing_Splice h ha hb hpa hpb hc]
      constructor
      · rintro ⟨k, hk⟩; exact ⟨k, by rw [← hit k, hk]⟩
      · rintro ⟨k, hk⟩; exact ⟨k, by rw [hit k, hk]⟩
    · rintro x ⟨k, rfl⟩
      have hpar : (ONext m)^[k] c % 2 = 0 := by
        have := (Splice_iterate h ha hb hpa hpb hc k).2
        rwa [hit k] at this
      rw [ONext_Splice h ha hb hpa hpb, if_pos hpar]
      have h1 : (ONext m)^[k] c ≠ a := fun hh => hca ⟨k, hh⟩
      have h2 : (ONext m)^[k] c ≠ b := fun hh => hcb ⟨k, hh⟩
      simp [sw, h1, h2]

theorem New_snd (m : Mesh) : (New m).2 = m.recs.length := rfl

theorem length_New (m : Mesh) : (New m).1.recs.length = m.recs.length + 4 := by
  simp [New]

theorem ONext_New_old (m : Mesh) {x : Nat} (hx : x < m.recs.length) :
    ONext (New m).1 x = ONext m x := by
  simp [New, ONext, List.getElem?_append_left hx]

theorem Org_New_old (m : Mesh) {x : Nat} (hx : x < m.recs.length) :
    Org (New m).1 x = Org m x := by
  simp [New, Org, List.getElem?_append_left hx]

theorem ONext_New_new (m : Mesh) (i : Nat) (hi : i < 4) :
    ONext (New m).1 (m.recs.length + i) =
      m.recs.length + (if i = 1 then 3 else if i = 3 then 1 else i) := by
  have h : (New m).1.recs[m.recs.length + i]? =
      [(⟨m.recs.length, none⟩ : EdgeRec), ⟨m.recs.length + 3, none⟩,
        ⟨m.recs.length + 2, none⟩, ⟨m.recs.length + 1, none⟩][i]? := by
    simp [New, List.getElem?_append_right]
  unfold ONext
  rw [h]
  interval_cases i <;> simp

theorem Org_New_new (m : Mesh) (i : Nat) (hi : i < 4) :
    Org (New m).1 (m.recs.length + i) = none := by
  have h : (New m).1.recs[m.recs.length + i]? =
      [(⟨m.recs.length, none⟩ : EdgeRec), ⟨m.recs.length + 3, none⟩,
        ⟨m.recs.length + 2, none⟩, ⟨m.recs.length + 1, none⟩][i]? := by
    simp [New, List.getElem?_append_right]
  unfold Org
  rw [h]
  interval_cases i <;> simp

theorem WellFormed.New {m : Mesh} (h : WellFormed m) : WellFormed (New m).1 := by
  have hq := h.quads
  have split : ∀ r, r < m.recs.length + 4 →
      r < m.recs.length ∨ ∃ i, i < 4 ∧ r = m.recs.length + i := by
    intro r hr
    by_cases h1 : r < m.recs.length
    · exact Or.inl h1
    · exact Or.inr ⟨r - m.recs.length, by omega, by omega⟩
  refine ⟨?_, ?_, ?_, ?_⟩
  · rw [length_New]; omega
  · intro r hr
    rw [length_New] at hr ⊢
    rcases split r hr with h1 | ⟨i, hi, rfl⟩
    · rw [ONext_New_old m h1]
      have := h.closed r h1
      omega
    · rw [ONext_New_new m i hi]
      split_ifs <;> omega
  · intro r hr
    rw [length_New] at hr
    rcases split r hr with h1 | ⟨i, hi, rfl⟩
    · rw [ONext_New_old m h1, ONext_New_old m (Rot_lt hq (h.closed r h1))]
      exact h.inverse r h1
    · rw [ONext_New_new m i hi]
      interval_cases i
      · have e1 : Rot (m.recs.length + 0) = m.recs.length + 1 := by unfold Rot; omega
        simp only [if_neg (show ¬ (0 : Nat) = 1 by decide), if_neg (show ¬ (0 : Nat) = 3 by decide)]
        rw [e1, ONext_New_new m 1 (by decide)]
        unfold Rot; simp; omega
      · have e1 : Rot (m.recs.length + 3) = m.recs.length + 0 := by unfold Rot; omega
        simp only [if_true]
        rw [e1, ONext_New_new m 0 (by decide)]
        unfold Rot; simp; omega
      · have e1 : Rot (m.recs.length + 2) = m.recs.length + 3 := by unfold Rot; omega
        simp only [if_neg (show ¬ (2 : Nat) = 1 by decide), if_neg (show ¬ (2 : Nat) = 3 by decide)]
        rw [e1, ONext_New_new m 3 (by decide)]
        unfold Rot; simp; omega
      · have e1 : Rot (m.recs.length + 1) = m.recs.length + 2 := by unfold Rot; omega
        simp only [if_neg (show ¬ (3 : Nat) = 1 by decide), if_true]
        rw [e1, ONext_New_new m 2 (by decide)]
        unfold Rot; simp; omega
  · intro r hr
    rw [length_New] at hr
    rcases split r hr with h1 | ⟨i, hi, rfl⟩
    · rw [ONext_New_old m h1]; exact h.role r h1
    · rw [ONext_New_new m i hi]
      interval_cases i <;> simp <;> omega

theorem LNext_eq_OPrev_Sym (m : Mesh) (x : Nat) : LNext m x = OPrev m (Sym x) := by
  unfold LNext OPrev
  rw [Rot_Sym]

/-- In a well-formed mesh `LNext(x) = y` as soon as `ONext(y) = Sym(x)`. -/
theorem WellFormed.LNext_of_next {m : Mesh} (h : WellFormed m) {x y : Nat}
    (hy : y < m.recs.length) (hxy : ONext m y = Sym x) : LNext m x = y := by
  rw [LNext_eq_OPrev_Sym, ← hxy]
  exact h.OPrev_next hy

theorem WellFormed.next_LNext {m : Mesh} (h : WellFormed m) {x : Nat}
    (hx : x < m.recs.length) : ONext m (LNext m x) = Sym x := by
  rw [LNext_eq_OPrev_Sym]
  exact h.next_OPrev (Sym_lt h.quads hx)

theorem WellFormed.LNext_lt {m : Mesh} (h : WellFormed m) {x : Nat}
    (hx : x < m.recs.length) : LNext m x < m.recs.length := by
  rw [LNext_eq_OPrev_Sym]
  exact h.OPrev_lt (Sym_lt h.quads hx)

theorem WellFormed.LNext_mod2 {m : Mesh} (h : WellFormed m) {x : Nat}
    (hx : x < m.recs.length) : LNext m x % 2 = x % 2 := by
  rw [LNext_eq_OPrev_Sym, h.OPrev_mod2 (Sym_lt h.quads hx), Sym_mod2]

theorem ONext_Splice_primal {m : Mesh} (h : WellFormed m) {a b : Nat}
    (ha : a < m.recs.length) (hb : b < m.recs.length)
    (hpa : a % 2 = 0) (hpb : b % 2 = 0) {x : Nat} (hx : x % 2 = 0) :
    ONext (Splice m (some a) (some b)) x = ONext m (sw a b x) := by
  rw [ONext_Splice h ha hb hpa hpb, if_pos hx]

theorem LNext_EndPoints (m : Mesh) (e : Nat) (o d : Option Point) (x : Nat) :
    LNext (EndPoints m e o d) x = LNext m x := by
  unfold LNext; rw [ONext_EndPoints]

theorem Org_EndPoints (m : Mesh) (e : Nat) (o d : Option Point) (x : Nat) :
    Org (EndPoints m e o d) x =
      if x = Sym e ∧ Sym e < m.recs.length then d
      else if x = e ∧ e < m.recs.length then o else Org m x := by
  unfold EndPoints
  rw [Org_setOrg, Org_setOrg, length_setOrg]

theorem sw_left (a b : Nat) : sw a b a = b := by simp [sw]

theorem sw_right (a b : Nat) : sw a b b = a := by
  by_cases h : b = a <;> simp [sw, h]

theorem sw_other {a b x : Nat} (h1 : x ≠ a) (h2 : x ≠ b) : sw a b x = x := by
  simp [sw, h1, h2]

/-- C2: in a well-formed mesh, `Connect(a, b)` on primal records returns a new
edge `e` with `Org(e) = Dest(a)` and `Dest(e) = Org(b)` (end points as they
were before the call), and afterwards `LNext(a) = e` and `LNext(e) = b`:
`a`, `e`, `b` follow one another on one left-face ring. -/
theorem connect_left_face (m : Mesh) (h : WellFormed m) (a b : Nat)
    (ha : a < m.recs.length) (hb : b < m.recs.length)
    (hpa : IsPrimal a) (hpb : IsPrimal b) :
    Org (Connect m a b).1 (Connect m a b).2 = Dest m a ∧
    Dest (Connect m a b).1 (Connect m a b).2 = Org m b ∧
    LNext (Connect m a b).1 a = (Connect m a b).2 ∧
    LNext (Connect m a b).1 (Connect m a b).2 = b := by
  have hq := h.quads
  have h0 : WellFormed (New m).1 := h.New
  have hl0 : (New m).1.recs.length = m.recs.length + 4 := length_New m
  have he0 : m.recs.length < (New m).1.recs.length := by omega
  have hse : Sym m.recs.length = m.recs.length + 2 := by unfold Sym Rot; omega
  have hse0 : Sym m.recs.length < (New m).1.recs.length := by omega
  have hep : m.recs.length % 2 = 0 := by omega
  have hsep : Sym m.recs.length % 2 = 0 := by omega
  have ha0 : a < (New m).1.recs.length := by omega
  have hb0 : b < (New m).1.recs.length := by omega
  have hc : LNext (New m).1 a < m.recs.length := by
    unfold LNext
    rw [ONext_New_old m (InvRot_lt hq ha)]
    exact Rot_lt hq (h.closed _ (InvRot_lt hq ha))
  have hc0 : LNext (New m).1 a < (New m).1.recs.length := by omega
  have hcp : LNext (New m).1 a % 2 = 0 := by
    rw [h0.LNext_mod2 ha0]; exact hpa
  have h1 : WellFormed (Splice (New m).1 (some m.recs.length) (some (LNext (New m).1 a))) :=
    h0.Splice he0 hc0 hep hcp
  have hl1 : (Splice (New m).1 (some m.recs.length) (some (LNext (New m).1 a))).recs.length
      = m.recs.length + 4 := by rw [length_Splice, hl0]
  have h2 := h1.Splice (a := Sym m.recs.length) (b := b) (by omega) (by omega) hsep hpb
  have hl2 := length_Splice (Splice (New m).1 (some m.recs.length) (some (LNext (New m).1 a)))
    (some (Sym m.recs.length)) (some b)
  have hcon : Connect m a b =
      (EndPoints (Splice (Splice (New m).1 (some m.recs.length) (some (LNext (New m).1 a)))
          (some (Sym m.recs.length)) (some b)) m.recs.length
        (Dest (Splice (Splice (New m).1 (some m.recs.length) (some (LNext (New m).1 a)))
          (some (Sym m.recs.length)) (some b)) a)
        (Org (Splice (Splice (New m).1 (some m.recs.length) (some (LNext (New m).1 a)))
          (some (Sym m.recs.length)) (some b)) b), m.recs.length) := rfl
  rw [hcon]
  simp only
  have hne1 : m.recs.length ≠ Sym m.recs.length := by omega
  refine ⟨?_, ?_, ?_, ?_⟩
  · rw [Org_EndPoints, if_neg (fun hh => hne1 hh.1), if_pos ⟨rfl, by omega⟩]
    unfold Dest
    rw [Org_Splice, Org_Splice, Org_New_old m (Sym_lt hq ha)]
  · unfold Dest
    rw [Org_EndPoints, if_pos ⟨rfl, by omega⟩, Org_Splice, Org_Splice, Org_New_old m hb]
  · rw [LNext_EndPoints]
    apply h2.LNext_of_next (by omega)
    rw [ONext_Splice_primal h1 (by omega) (by omega) hsep hpb hep,
      sw_other hne1 (by omega),
      ONext_Splice_primal h0 he0 hc0 hep hcp hep, sw_left]
    exact h0.next_LNext ha0
  · rw [LNext_EndPoints]
    apply h2.LNext_of_next (by omega)
    rw [ONext_Splice_primal h1 (by omega) (by omega) hsep hpb hpb, sw_right,
      ONext_Splice_primal h0 he0 hc0 hep hcp hsep,
      sw_other (fun hh => hne1 hh.symm) (by omega), hse]
    have := ONext_New_new m 2 (by decide)
    simpa using this

theorem InvRot_div (e : Nat) : InvRot e / 4 = e / 4 := by
  unfold InvRot; omega

theorem quad_cases {y e : Nat} (h : y / 4 = e / 4) :
    y = e ∨ y = Rot e ∨ y = Sym e ∨ y = InvRot e := by
  unfold Sym Rot InvRot; omega

theorem length_Delete (m : Mesh) (e : Option Nat) :
    (Delete m e).recs.length = m.recs.length := by
  cases e <;> simp [Delete, length_Splice]

theorem Delete_core (m : Mesh) (h : WellFormed m) (e : Nat)
    (he : e < m.recs.length) (hpe : e % 2 = 0) :
    WellFormed (Delete m (some e)) ∧ ONext (Delete m (some e)) e = e ∧
      ONext (Delete m (some e)) (Sym e) = Sym e := by
  have hq := h.quads
  have ha : OPrev m e < m.recs.length := h.OPrev_lt he
  have hpa : OPrev m e % 2 = 0 := by rw [h.OPrev_mod2 he]; exact hpe
  have h1 : WellFormed (Splice m (some e) (some (OPrev m e))) := h.Splice he ha hpe hpa
  have hl1 := length_Splice m (some e) (some (OPrev m e))
  have hs : Sym e < m.recs.length := Sym_lt hq he
  have hsp : Sym e % 2 = 0 := by rw [Sym_mod2]; exact hpe
  have hs1 : Sym e < (Splice m (some e) (some (OPrev m e))).recs.length := by omega
  have hb := h1.OPrev_lt hs1
  have hpb : OPrev (Splice m (some e) (some (OPrev m e))) (Sym e) % 2 = 0 := by
    rw [h1.OPrev_mod2 hs1]; exact hsp
  have h2 := h1.Splice hs1 hb hsp hpb
  have e1 : ONext (Splice m (some e) (some (OPrev m e))) e = e := by
    rw [ONext_Splice_primal h he ha hpe hpa hpe, sw_left]
    exact h.next_OPrev he
  have hne : e ≠ OPrev (Splice m (some e) (some (OPrev m e))) (Sym e) := by
    intro hh
    have := h1.next_OPrev hs1
    rw [← hh, e1] at this
    exact Sym_ne e this.symm
  refine ⟨h2, ?_, ?_⟩
  · show ONext (Splice (Splice m (some e) (some (OPrev m e))) (some (Sym e))
      (some (OPrev (Splice m (some e) (some (OPrev m e))) (Sym e)))) e = e
    rw [ONext_Splice_primal h1 hs1 hb hsp hpb hpe, sw_other (fun hh => Sym_ne e hh.symm) hne]
    exact e1
  · show ONext (Splice (Splice m (some e) (some (OPrev m e))) (some (Sym e))
      (some (OPrev (Splice m (some e) (some (OPrev m e))) (Sym e)))) (Sym e) = Sym e
    rw [ONext_Splice_primal h1 hs1 hb hsp hpb hsp, sw_left]
    exact h1.next_OPrev hs1

theorem quad_closed_of_loops {m : Mesh} (h : WellFormed m) {e : Nat}
    (he : e < m.recs.length) (h1 : ONext m e = e) (h2 : ONext m (Sym e) = Sym e) :
    ∀ r, r < m.recs.length → r / 4 ≠ e / 4 → ONext m r / 4 ≠ e / 4 := by
  have hq := h.quads
  have d1 : ONext m (Rot e) = InvRot e := by
    have := h.inverse e he
    rw [h1] at this
    have := congrArg InvRot this
    rwa [InvRot_Rot] at this
  have d2 : ONext m (InvRot e) = Rot e := by
    have := h.inverse (Sym e) (Sym_lt hq he)
    rw [h2, Rot_Sym] at this
    have := congrArg InvRot this
    rw [InvRot_Rot] at this
    rw [this]
    unfold InvRot Sym Rot; omega
  intro r hr hne hy
  have inj := fun {y : Nat} (hy : y < m.recs.length) (heq : ONext m r = ONext m y) =>
    h.next_injective hr hy heq
  rcases quad_cases hy with hh | hh | hh | hh
  · have := inj he (hh.trans h1.symm)
    exact hne (by rw [this])
  · have := inj (InvRot_lt hq he) (hh.trans d2.symm)
    exact hne (by rw [this, InvRot_div])
  · have := inj (Sym_lt hq he) (hh.trans h2.symm)
    exact hne (by rw [this, Sym_div])
  · have := inj (Rot_lt hq he) (hh.trans d1.symm)
    exact hne (by rw [this, Rot_div])

/-- C4: in a well-formed mesh, after `Delete(e)` the primal edge `e` is
isolated, no record of another quad points into the quad of `e`, and no walk
by `ONext`, `Sym`, `Rot`, `LNext`, `OPrev` that starts at a record of another
quad reaches a record of the quad of `e`; `Delete(nil)` changes nothing. -/
theorem delete_never_observed (m : Mesh) (h : WellFormed m) (e : Nat)
    (he : e < m.recs.length) (hpe : IsPrimal e) :
    ONext (Delete m (some e)) e = e ∧
    ONext (Delete m (some e)) (Sym e) = Sym e ∧
    (∀ r, r < m.recs.length → r / 4 ≠ e / 4 → ONext (Delete m (some e)) r / 4 ≠ e / 4) ∧
    (∀ r x, r < m.recs.length → r / 4 ≠ e / 4 → Walk (Delete m (some e)) r x →
      x / 4 ≠ e / 4 ∧ x ≠ e) ∧
    Delete m none = m := by
  obtain ⟨hwf, l1, l2⟩ := Delete_core m h e he hpe
  have hq := hwf.quads
  have hlen := length_Delete m (some e)
  have he' : e < (Delete m (some e)).recs.length := by omega
  have hcl := quad_closed_of_loops hwf he' l1 l2
  refine ⟨l1, l2, ?_, ?_, rfl⟩
  · intro r hr; exact hcl r (by omega)
  · intro r x hr hne hw
    have key : x < (Delete m (some e)).recs.length ∧ x / 4 ≠ e / 4 := by
      induction hw with
      | start => exact ⟨by omega, hne⟩
      | onext _ ih => exact ⟨hwf.closed _ ih.1, hcl _ ih.1 ih.2⟩
      | sym _ ih => exact ⟨Sym_lt hq ih.1, by rw [Sym_div]; exact ih.2⟩
      | rot _ ih => exact ⟨Rot_lt hq ih.1, by rw [Rot_div]; exact ih.2⟩
      | lnext _ ih =>
        refine ⟨hwf.LNext_lt ih.1, ?_⟩
        unfold LNext
        rw [Rot_div]
        exact hcl _ (InvRot_lt hq ih.1) (by rw [InvRot_div]; exact ih.2)
      | oprev _ ih =>
        refine ⟨hwf.OPrev_lt ih.1, ?_⟩
        unfold OPrev
        rw [Rot_div]
        exact hcl _ (Rot_lt hq ih.1) (by rw [Rot_div]; exact ih.2)
    exact ⟨key.2, fun hh => key.2 (by rw [hh])⟩

theorem WellFormed.LNext_injective {m : Mesh} (h : WellFormed m) {x y : Nat}
    (hx : x < m.recs.length) (hy : y < m.recs.length) (hxy : LNext m x = LNext m y) : x = y := by
  have h1 := h.next_LNext hx
  have h2 := h.next_LNext hy
  rw [hxy, h2] at h1
  exact Sym_injective h1.symm

theorem Swap_core (m : Mesh) (h : WellFormed m) (e s a b p q : Nat)
    (ve : e < m.recs.length) (vs : s < m.recs.length) (va : a < m.recs.length)
    (vb : b < m.recs.length) (vp : p < m.recs.length) (vq : q < m.recs.length)
    (pe : e % 2 = 0) (ps : s % 2 = 0) (pa : a % 2 = 0)
    (pb : b % 2 = 0) (pp : p % 2 = 0) (pq : q % 2 = 0)
    (n_ep : e ≠ p) (n_eq : e ≠ q) (n_sp : s ≠ p) (n_sq : s ≠ q) (n_ap : a ≠ p) (n_aq : a ≠ q) (n_bp : b ≠ p) (n_bq : b ≠ q) (n_pq : p ≠ q)
    (fp : ONext m p = Sym b) (fq : ONext m q = Sym a) :
    LNext (Splice (Splice m (some e) (some a)) (some s) (some b)) a = q ∧
    LNext (Splice (Splice (Splice m (some e) (some a)) (some s) (some b)) (some e) (some q)) b = p ∧
    WellFormed (Splice (Splice (Splice (Splice m (some e) (some a)) (some s) (some b))
      (some e) (some q)) (some s) (some p)) ∧
    (∀ x, x % 2 = 0 → ONext (Splice (Splice (Splice (Splice m (some e) (some a)) (some s) (some b))
      (some e) (some q)) (some s) (some p)) x
        = ONext m (sw e a (sw s b (sw e q (sw s p x))))) := by
  have h1 := h.Splice ve va pe pa
  have l1 := length_Splice m (some e) (some a)
  have h2 := h1.Splice (a := s) (b := b) (by omega) (by omega) ps pb
  have l2 := length_Splice (Splice m (some e) (some a)) (some s) (some b)
  have F1 : ∀ x, x % 2 = 0 → ONext (Splice m (some e) (some a)) x = ONext m (sw e a x) :=
    fun x hx => ONext_Splice_primal h ve va pe pa hx
  have F2 : ∀ x, x % 2 = 0 → ONext (Splice (Splice m (some e) (some a)) (some s) (some b)) x
      = ONext m (sw e a (sw s b x)) := by
    intro x hx
    rw [ONext_Splice_primal h1 (by omega) (by omega) ps pb hx,
      F1 _ (by rw [sw_mod2 (by omega)]; exact hx)]
  have c2 : LNext (Splice (Splice m (some e) (some a)) (some s) (some b)) a = q := by
    apply h2.LNext_of_next (by omega)
    rw [F2 q pq]
    simp only [sw, n_ep, n_eq, n_sp, n_sq, n_ap, n_aq, n_bp, n_bq, n_pq, n_ep.symm, n_eq.symm, n_sp.symm, n_sq.symm, n_ap.symm, n_aq.symm, n_bp.symm, n_bq.symm, n_pq.symm, if_false, if_true]
    exact fq
  have h3 := h2.Splice (a := e) (b := q) (by omega) (by omega) pe pq
  have l3 := length_Splice (Splice (Splice m (some e) (some a)) (some s) (some b)) (some e) (some q)
  have F3 : ∀ x, x % 2 = 0 →
      ONext (Splice (Splice (Splice m (some e) (some a)) (some s) (some b)) (some e) (some q)) x
      = ONext m (sw e a (sw s b (sw e q x))) := by
    intro x hx
    rw [ONext_Splice_primal h2 (by omega) (by omega) pe pq hx,
      F2 _ (by rw [sw_mod2 (by omega)]; exact hx)]
  have c3 : LNext (Splice (Splice (Splice m (some e) (some a)) (some s) (some b))
      (some e) (some q)) b = p := by
    apply h3.LNext_of_next (by omega)
    rw [F3 p pp]
    simp only [sw, n_ep, n_eq, n_sp, n_sq, n_ap, n_aq, n_bp, n_bq, n_pq, n_ep.symm, n_eq.symm, n_sp.symm, n_sq.symm, n_ap.symm, n_aq.symm, n_bp.symm, n_bq.symm, n_pq.symm, if_false, if_true]
    exact fp
  have h4 := h3.Splice (a := s) (b := p) (by omega) (by omega) ps pp
  refine ⟨c2, c3, h4, ?_⟩
  intro x hx
  rw [ONext_Splice_primal h3 (by omega) (by omega) ps pp hx,
    F3 _ (by rw [sw_mod2 (by omega)]; exact hx)]

/-- C3 as stated fails: `LNext^3(e) = e` and `LNext^3(Sym e) = Sym e` do not
suffice.  In `loopAndSpur`, built by `New`
and `Splice`, edge 0 has the left-face ring `0, 6, 2` of three records, which
is also the ring of `Sym 0 = 2`; after `Swap(0)` the ring of `Sym 0` has two
records, `2` and `6`, and is no triangle. -/
theorem swap_counterexample :
    LNext loopAndSpur 0 = 6 ∧ LNext loopAndSpur 6 = 2 ∧ LNext loopAndSpur 2 = 0 ∧
    LNext loopAndSpur (LNext loopAndSpur (LNext loopAndSpur 0)) = 0 ∧
    LNext loopAndSpur (LNext loopAndSpur (LNext loopAndSpur (Sym 0))) = Sym 0 ∧
    LNext (Swap loopAndSpur 0) (Sym 0) = 6 ∧ LNext (Swap loopAndSpur 0) 6 = Sym 0 ∧
    LNext (Swap loopAndSpur 0)
      (LNext (Swap loopAndSpur 0) (LNext (Swap loopAndSpur 0) (Sym 0))) ≠ Sym 0 := by
  decide

/-- C3, amended: in a well-formed mesh let the left and the right face of the primal
edge `e` be two different triangles of three edges each (`LNext^3 = id` on
`e` and `Sym e`, neither is its own `LNext`, and `Sym e` is not on the left
ring of `e`).  After `Swap(e)`, `Org(e)` is the old `Dest(OPrev(e))`,
`Dest(e)` is the old `Dest(OPrev(Sym(e)))`, both faces of `e` are triangles
again (`e`, old `LNext^2(e)`, old `OPrev(e)` on the left), and the vertex of
every record other than `e` and `Sym e` is unchanged. -/
theorem swap_flips (m : Mesh) (h : WellFormed m) (e : Nat)
    (he : e < m.recs.length) (hpe : IsPrimal e)
    (hl3 : LNext m (LNext m (LNext m e)) = e) (hl1 : LNext m e ≠ e)
    (hr3 : LNext m (LNext m (LNext m (Sym e))) = Sym e) (hr1 : LNext m (Sym e) ≠ Sym e)
    (hd1 : LNext m e ≠ Sym e) (hd2 : LNext m (LNext m e) ≠ Sym e) :
    Org (Swap m e) e = Dest m (OPrev m e) ∧
    Dest (Swap m e) e = Dest m (OPrev m (Sym e)) ∧
    LNext (Swap m e) (LNext (Swap m e) (LNext (Swap m e) e)) = e ∧
    LNext (Swap m e) (LNext (Swap m e) (LNext (Swap m e) (Sym e))) = Sym e ∧
    LNext (Swap m e) e = LNext m (LNext m e) ∧
    LNext (Swap m e) (LNext m (LNext m e)) = OPrev m e ∧
    LNext (Swap m e) (OPrev m e) = e ∧
    (∀ r, r ≠ e → r ≠ Sym e → Org (Swap m e) r = Org m r) ∧
    (∀ r, r / 4 ≠ e / 4 → Org (Swap m e) r = Org m r ∧ Dest (Swap m e) r = Dest m r) := by
  have hq := h.quads
  have hpe' : e % 2 = 0 := hpe
  -- the six records of the two triangles
  obtain ⟨s, hs⟩ : ∃ s, s = Sym e := ⟨_, rfl⟩
  obtain ⟨a, ha⟩ : ∃ a, a = OPrev m e := ⟨_, rfl⟩
  obtain ⟨b, hb⟩ : ∃ b, b = OPrev m (Sym e) := ⟨_, rfl⟩
  obtain ⟨p, hp⟩ : ∃ p, p = LNext m b := ⟨_, rfl⟩
  obtain ⟨q, hqd⟩ : ∃ q, q = LNext m a := ⟨_, rfl⟩
  have vs : s < m.recs.length := hs ▸ Sym_lt hq he
  have va : a < m.recs.length := ha ▸ h.OPrev_lt he
  have vb : b < m.recs.length := hb ▸ h.OPrev_lt (Sym_lt hq he)
  have vp : p < m.recs.length := hp ▸ h.LNext_lt vb
  have vq : q < m.recs.length := hqd ▸ h.LNext_lt va
  have ps : s % 2 = 0 := by rw [hs, Sym_mod2]; exact hpe
  have pa : a % 2 = 0 := by rw [ha, h.OPrev_mod2 he]; exact hpe
  have pb : b % 2 = 0 := by rw [hb, h.OPrev_mod2 (Sym_lt hq he), Sym_mod2]; exact hpe
  have pp : p % 2 = 0 := by rw [hp, h.LNext_mod2 vb]; exact pb
  have pq : q % 2 = 0 := by rw [hqd, h.LNext_mod2 va]; exact pa
  have Le : LNext m e = b := by rw [hb, LNext_eq_OPrev_Sym]
  have Ls : LNext m s = a := by rw [ha, hs, LNext_eq_OPrev_Sym, Sym_Sym]
  have Lb : LNext m b = p := hp.symm
  have La : LNext m a = q := hqd.symm
  have Lp : LNext m p = e := by rw [hp, ← Le]; exact hl3
  have Lq : LNext m q = s := by
    rw [hqd, ← Ls, hs]; exact hr3
  have inj := fun {x y : Nat} (hx : x < m.recs.length) (hy : y < m.recs.length)
    (hne : x ≠ y) (heq : LNext m x = LNext m y) => hne (h.LNext_injective hx hy heq)
  have n_es : e ≠ s := by rw [hs]; exact (Sym_ne e).symm
  have n_eb : e ≠ b := by rw [← Le]; exact hl1.symm
  have n_bp : b ≠ p := by
    intro hh; exact inj he vb n_eb (by rw [Le, Lb]; exact hh)
  have n_ep : e ≠ p := by
    intro hh; exact inj vb vp n_bp (by rw [Lb, Lp]; exact hh.symm)
  have n_sa : s ≠ a := by
    rw [← Ls]; intro hh; exact hr1 (by rw [← hs]; exact hh.symm)
  have n_aq : a ≠ q := by
    intro hh; exact inj vs va n_sa (by rw [Ls, La]; exact hh)
  have n_sq : s ≠ q := by
    intro hh; exact inj va vq n_aq (by rw [La, Lq]; exact hh.symm)
  have n_sb : s ≠ b := by
    rw [hs, ← Le]; exact hd1.symm
  have n_sp : s ≠ p := by
    rw [hs, hp, ← Le]; exact hd2.symm
  have n_ea : e ≠ a := by
    intro hh; exact inj vs vp n_sp (by rw [Ls, Lp]; exact hh.symm)
  have n_ab : a ≠ b := by
    intro hh; exact inj vs he n_es.symm (by rw [Ls, Le]; exact hh)
  have n_ap : a ≠ p := by
    intro hh; exact inj vs vb n_sb (by rw [Ls, Lb]; exact hh)
  have n_eq : e ≠ q := by
    intro hh; exact inj va vp n_ap (by rw [La, Lp]; exact hh.symm)
  have n_bq : b ≠ q := by
    intro hh; exact inj va he n_ea.symm (by rw [La, Le]; exact hh.symm)
  have n_pq : p ≠ q := by
    intro hh; exact inj va vb n_ab (by rw [La, Lb]; exact hh.symm)
  have fa : ONext m a = e := by rw [ha]; exact h.next_OPrev he
  have fb : ONext m b = s := by rw [hb, hs]; exact h.next_OPrev (Sym_lt hq he)
  have fp : ONext m p = Sym b := by rw [hp]; exact h.next_LNext vb
  have fq : ONext m q = Sym a := by rw [hqd]; exact h.next_LNext va
  have fe : ONext m e = Sym p := by rw [← Lp]; exact h.next_LNext vp
  have fs : ONext m s = Sym q := by rw [← Lq]; exact h.next_LNext vq
  obtain ⟨c2, c3, h4, F⟩ := Swap_core m h e s a b p q he vs va vb vp vq hpe' ps pa pb pp pq
    n_ep n_eq n_sp n_sq n_ap n_aq n_bp n_bq n_pq fp fq
  have hsw : Swap m e =
      EndPoints (Splice (Splice (Splice (Splice m (some e) (some a)) (some s) (some b))
        (some e) (some q)) (some s) (some p)) e
        (Dest (Splice (Splice (Splice (Splice m (some e) (some a)) (some s) (some b))
          (some e) (some q)) (some s) (some p)) a)
        (Dest (Splice (Splice (Splice (Splice m (some e) (some a)) (some s) (some b))
          (some e) (some q)) (some s) (some p)) b) := by
    unfold Swap
    simp only []
    rw [← hb, ← ha, ← hs, c2, c3]
  have l4 : (Splice (Splice (Splice (Splice m (some e) (some a)) (some s) (some b))
      (some e) (some q)) (some s) (some p)).recs.length = m.recs.length := by
    simp only [length_Splice]
  have g_p := F p pp
  have g_a := F a pa
  have g_e := F e hpe'
  have g_q := F q pq
  have g_b := F b pb
  have g_s := F s ps
  simp only [sw, n_es, n_ea, n_eb, n_ep, n_eq, n_sa, n_sb, n_sp, n_sq, n_ab, n_ap, n_aq, n_bp, n_bq, n_pq, n_es.symm, n_ea.symm, n_eb.symm, n_ep.symm, n_eq.symm, n_sa.symm, n_sb.symm, n_sp.symm, n_sq.symm, n_ab.symm, n_ap.symm, n_aq.symm, n_bp.symm, n_bq.symm, n_pq.symm, if_false, if_true] at g_p g_a g_e g_q g_b g_s
  rw [fb] at g_p
  rw [fe] at g_a
  rw [fq] at g_e
  rw [fa] at g_q
  rw [fs] at g_b
  rw [fp] at g_s
  have L4e := h4.LNext_of_next (x := e) (y := p) (by omega) (by rw [g_p, hs])
  have L4p := h4.LNext_of_next (x := p) (y := a) (by omega) g_a
  have L4a := h4.LNext_of_next (x := a) (y := e) (by omega) g_e
  have L4s := h4.LNext_of_next (x := s) (y := q) (by omega) (by rw [g_q, hs, Sym_Sym])
  have L4q := h4.LNext_of_next (x := q) (y := b) (by omega) g_b
  have L4b := h4.LNext_of_next (x := b) (y := s) (by omega) g_s
  have hne1 : e ≠ Sym e := (Sym_ne e).symm
  have orgs : ∀ r, r ≠ e → r ≠ Sym e → Org (Swap m e) r = Org m r := by
    intro r h1 h2
    rw [hsw, Org_EndPoints, if_neg (fun hh => h2 hh.1), if_neg (fun hh => h1 hh.1)]
    simp only [Org_Splice]
  have vs4 : Sym e < (Splice (Splice (Splice (Splice m (some e) (some a)) (some s) (some b))
      (some e) (some q)) (some s) (some p)).recs.length := by
    rw [l4, ← hs]; exact vs
  subst hs
  rw [← hb, ← ha, Le, Lb]
  refine ⟨?_, ?_, ?_, ?_, ?_, ?_, ?_, orgs, ?_⟩
  · rw [hsw, Org_EndPoints, if_neg (fun hh => hne1 hh.1), if_pos ⟨rfl, by omega⟩]
    simp only [Dest, Org_Splice]
  · unfold Dest
    rw [hsw, Org_EndPoints, if_pos ⟨rfl, vs4⟩]
    simp only [Dest, Org_Splice]
  · rw [hsw]; simp only [LNext_EndPoints]; rw [L4e, L4p, L4a]
  · rw [hsw]; simp only [LNext_EndPoints]; rw [L4s, L4q, L4b]
  · rw [hsw]; simp only [LNext_EndPoints]; exact L4e
  · rw [hsw]; simp only [LNext_EndPoints]; exact L4p
  · rw [hsw]; simp only [LNext_EndPoints]; exact L4a
  · intro r hr
    have r1 : r ≠ e := fun hh => hr (by rw [hh])
    have r2 : r ≠ Sym e := fun hh => hr (by rw [hh, Sym_div])
    have r3 : Sym r ≠ e := fun hh => hr (by rw [← hh, Sym_div])
    have r4 : Sym r ≠ Sym e := fun hh => hr (by rw [← Sym_div r, hh, Sym_div])
    exact ⟨orgs r r1 r2, orgs (Sym r) r3 r4⟩

theorem New_explicit (a b c : Point) :
    Subdivision.New a b c =
      { mesh := ⟨[⟨10, some a⟩, ⟨9, none⟩, ⟨4, some b⟩, ⟨7, none⟩,
                  ⟨2, some b⟩, ⟨1, none⟩, ⟨8, some c⟩, ⟨11, none⟩,
                  ⟨6, some c⟩, ⟨5, none⟩, ⟨0, some a⟩, ⟨3, none⟩]⟩,
        startingEdge := 0, ptcount := 3, frame := (a, b, c) } := by
  simp [Subdivision.New, QuadEdge.New, EndPoints, setOrg, Splice, setNext, ONext, Sym, Rot]

/-- C5: `subdivision.New(a, b, c)` has `startingEdge` running from `a` to
`b`, a left-face ring of exactly the three edges `a→b`, `b→c`, `c→a` in
that order, point count 3 and frame `(a, b, c)`. -/
theorem new_frame_triangle (a b c : Point) :
    Org (Subdivision.New a b c).mesh (Subdivision.New a b c).startingEdge = some a ∧
    Dest (Subdivision.New a b c).mesh (Subdivision.New a b c).startingEdge = some b ∧
    Org (Subdivision.New a b c).mesh
      (LNext (Subdivision.New a b c).mesh (Subdivision.New a b c).startingEdge) = some b ∧
    Dest (Subdivision.New a b c).mesh
      (LNext (Subdivision.New a b c).mesh (Subdivision.New a b c).startingEdge) = some c ∧
    Org (Subdivision.New a b c).mesh (LNext (Subdivision.New a b c).mesh
      (LNext (Subdivision.New a b c).mesh (Subdivision.New a b c).startingEdge)) = some c ∧
    Dest (Subdivision.New a b c).mesh (LNext (Subdivision.New a b c).mesh
      (LNext (Subdivision.New a b c).mesh (Subdivision.New a b c).startingEdge)) = some a ∧
    LNext (Subdivision.New a b c).mesh (LNext (Subdivision.New a b c).mesh
      (LNext (Subdivision.New a b c).mesh (Subdivision.New a b c).startingEdge))
        = (Subdivision.New a b c).startingEdge ∧
    LNext (Subdivision.New a b c).mesh (Subdivision.New a b c).startingEdge
      ≠ (Subdivision.New a b c).startingEdge ∧
    LNext (Subdivision.New a b c).mesh (LNext (Subdivision.New a b c).mesh
      (Subdivision.New a b c).startingEdge) ≠ (Subdivision.New a b c).startingEdge ∧
    (Subdivision.New a b c).ptcount = 3 ∧
    (Subdivision.New a b c).frame = (a, b, c) := by
  rw [New_explicit]
  simp [Org, Dest, LNext, ONext, Sym, Rot, InvRot]

theorem constructTriangleEdges_map {σ τ : Type} (g : τ → σ)
    (fnF : σ → List Nat → Option (σ × CbResult)) (fnT : τ → List Nat → Option (τ × CbResult))
    (hfn : ∀ s es, fnF (g s) es = (fnT s es).map (fun r => (g r.1, r.2)))
    (rfuel : Nat) (m : Mesh) (e : Nat) (tp vis : List Nat) (s : τ) :
    constructTriangleEdges rfuel m e tp vis fnF (g s) =
      (constructTriangleEdges rfuel m e tp vis fnT s).map
        (fun r => (r.1, r.2.1, g r.2.2.1, r.2.2.2)) := by
  unfold constructTriangleEdges
  by_cases hv : vis.contains e = true
  · rw [if_pos hv, if_pos hv]; rfl
  · rw [if_neg hv, if_neg hv]
    cases hr : ringLoop m e rfuel e [] tp vis with
    | none => simp
    | some r =>
      obtain ⟨tri, tp', vis'⟩ := r
      simp only [hfn]
      cases fnT s tri with
      | none => simp
      | some q => simp

theorem walkTrianglesLoop_map {σ τ : Type} (g : τ → σ)
    (fnF : σ → List Nat → Option (σ × CbResult)) (fnT : τ → List Nat → Option (τ × CbResult))
    (hfn : ∀ s es, fnF (g s) es = (fnT s es).map (fun r => (g r.1, r.2)))
    (m : Mesh) (rfuel : Nat) :
    ∀ (fuel : Nat) (tp vis : List Nat) (s : τ),
      walkTrianglesLoop m fnF rfuel fuel tp vis (g s) =
        (walkTrianglesLoop m fnT rfuel fuel tp vis s).map (fun r => (g r.1, r.2)) := by
  intro fuel
  induction fuel with
  | zero => intro tp vis s; simp [walkTrianglesLoop]
  | succ n ih =>
    intro tp vis s
    cases tp with
    | nil => simp [walkTrianglesLoop]
    | cons e rest =>
      simp only [walkTrianglesLoop]
      by_cases hv : vis.contains e = true
      · rw [if_pos hv, if_pos hv]
        exact ih rest vis s
      · rw [if_neg hv, if_neg hv]
        rw [constructTriangleEdges_map g fnF fnT hfn]
        cases constructTriangleEdges rfuel m e rest vis fnT s with
        | none => simp
        | some r =>
          obtain ⟨tp', vis', s', res⟩ := r
          cases res with
          | ok => simpa using ih tp' vis' s'
          | cancel => simp
          | fail err => simp

theorem trianglesCallback_filter (m : Mesh) (frame : Point × Point × Point)
    (ts : List (Point × Point × Point)) (es : List Nat) :
    trianglesCallback m frame false (ts.filter (offFrame frame)) es =
      (trianglesCallback m frame true ts es).map
        (fun r => (r.1.filter (offFrame frame), r.2)) := by
  unfold trianglesCallback
  split
  · rename_i e0 e1 e2
    cases h0 : Org m e0 <;> cases h1 : Org m e1 <;> cases h2 : Org m e2 <;>
      simp [List.filter_append, offFrame]
    rename_i p0 p1 p2
    by_cases hf : IsFramePoint frame [p0, p1, p2] = true
    · simp [hf, List.filter_cons, offFrame]
    · simp [hf, List.filter_cons, offFrame]
  · simp

/-- C9: `Triangles(false)` is `Triangles(true)` with the same error, the same
order, and every triangle that has a frame vertex removed; so no triangle of
`Triangles(false)` has a frame vertex. -/
theorem triangles_frame_filter (fuel : Nat) (sd : Subdivision) :
    sd.Triangles fuel false =
      (sd.Triangles fuel true).map (fun r => (r.1.filter (offFrame sd.frame), r.2)) ∧
    ∀ ts err, sd.Triangles fuel false = some (ts, err) →
      ∀ t ∈ ts, IsFramePoint sd.frame [t.1, t.2.1, t.2.2] = false := by
  have key : sd.Triangles fuel false =
      (sd.Triangles fuel true).map (fun r => (r.1.filter (offFrame sd.frame), r.2)) := by
    unfold Subdivision.Triangles WalkAllTriangleEdges
    have := walkTrianglesLoop_map (List.filter (offFrame sd.frame))
      (trianglesCallback sd.mesh sd.frame false) (trianglesCallback sd.mesh sd.frame true)
      (trianglesCallback_filter sd.mesh sd.frame) sd.mesh fuel fuel [sd.startingEdge] [] []
    simpa using this
  refine ⟨key, ?_⟩
  intro ts err h t ht
  rw [key] at h
  cases hT : sd.Triangles fuel true with
  | none => rw [hT] at h; simp at h
  | some r =>
    rw [hT] at h
    simp only [Option.map_some', Option.some.injEq, Prod.mk.injEq] at h
    rw [← h.1] at ht
    have := (List.mem_filter.1 ht).2
    simpa [offFrame] using this

theorem insertSpokes_ptcount (fuel : Nat) (sd : Subdivision) (x : Point) (e : Nat)
    (r : Subdivision × Bool) (h : insertSpokes fuel sd x e = some r) :
    r.1.ptcount = sd.ptcount := by
  unfold insertSpokes finishSpokes at h
  split at h
  · exact absurd h (by simp)
  · split at h
    · exact absurd h (by simp)
    · cases h; rfl

theorem InsertSite_ptcount (fuel : Nat) (sd : Subdivision) (x : Point)
    (r : Subdivision × Bool) (h : sd.InsertSite fuel x = some r) :
    r.1.ptcount = sd.ptcount + 1 := by
  unfold Subdivision.InsertSite at h
  split at h
  · exact absurd h (by simp)
  · cases h; rfl
  · exact absurd h (by simp)
  · split at h
    · cases h; rfl
    · exact insertSpokes_ptcount _ _ _ _ _ h

/-- C10 as stated fails: inserting the frame vertex `(0, 0)` again returns
true and leaves the three distinct origins `(0, 0)`, `(4, 0)`, `(0, 4)`, but
the point count is 4. -/
theorem ptcount_counterexample :
    ((Subdivision.New ⟨0, 0⟩ ⟨4, 0⟩ ⟨0, 4⟩).InsertSite 2 ⟨0, 0⟩).map
        (fun r => (r.2, r.1.ptcount, (r.1.mesh.recs.filterMap EdgeRec.org).dedup))
      = some (true, 4, [⟨4, 0⟩, ⟨0, 4⟩, ⟨0, 0⟩]) := by
  decide

/-- C10, amended: the point count is 3 after `New` and grows by one with every
`InsertSite` call that returns, whatever it returns: after a run of calls it
is 3 plus the number of calls. -/
theorem ptcount_counts_calls (fuel : Nat) (a b c : Point) (xs : List Point)
    (sd : Subdivision) (h : insertAll fuel (Subdivision.New a b c) xs = some sd) :
    (Subdivision.New a b c).ptcount = 3 ∧ sd.ptcount = 3 + xs.length := by
  have gen : ∀ (xs : List Point) (s sd : Subdivision),
      insertAll fuel s xs = some sd → sd.ptcount = s.ptcount + xs.length := by
    intro xs
    induction xs with
    | nil =>
      intro s sd h
      simp only [insertAll, Option.some.injEq] at h
      rw [h]; rfl
    | cons x xs ih =>
      intro s sd h
      simp only [insertAll] at h
      cases hi : s.InsertSite fuel x with
      | none => rw [hi] at h; exact absurd h (by simp)
      | some r =>
        rw [hi] at h
        have h1 := ih r.1 sd h
        have h2 := InsertSite_ptcount fuel s x r hi
        rw [h1, h2, List.length_cons]
        omega
  refine ⟨rfl, ?_⟩
  have := gen xs _ sd h
  rw [this]
  rfl

theorem CCW_swap_false (a b c : Point) (h : CCW a b c = true) : CCW a c b = false := by
  simp only [CCW, decide_eq_true_eq, decide_eq_false_iff_not, not_lt] at h ⊢
  nlinarith

/-- On every frame with no site inserted `Triangles(true)` returns two
triangles: the frame and the outer face, the frame run through backwards. -/
theorem triangles_of_frame (a b c : Point) :
    (Subdivision.New a b c).Triangles 10 true = some ([(a, b, c), (a, c, b)], none) := by
  rw [New_explicit]
  simp [Subdivision.Triangles, WalkAllTriangleEdges, walkTrianglesLoop, constructTriangleEdges,
    ringLoop, trianglesCallback, LNext, ONext, Org, Sym, Rot, InvRot]

/-- C8, the failing input: for the frame `(-1000,-1000)`, `(1000,-1000)`,
`(0,1000)` with no site inserted, `Triangles(true)` returns the frame
triangle and the outer face, and the outer face is not counter-clockwise. -/
theorem triangles_outer_face_clockwise :
    (Subdivision.New ⟨-1000, -1000⟩ ⟨1000, -1000⟩ ⟨0, 1000⟩).Triangles 10 true
      = some ([(⟨-1000, -1000⟩, ⟨1000, -1000⟩, ⟨0, 1000⟩),
               (⟨-1000, -1000⟩, ⟨0, 1000⟩, ⟨1000, -1000⟩)], none) ∧
    CCW ⟨-1000, -1000⟩ ⟨1000, -1000⟩ ⟨0, 1000⟩ = true ∧
    CCW ⟨-1000, -1000⟩ ⟨0, 1000⟩ ⟨1000, -1000⟩ = false := by
  decide

theorem InCircle_last_eq_third (a b c : Point) : InCircle a b c c = false := by
  simp [InCircle]

theorem InCircle_last_eq_first (a b c : Point) : InCircle a b c a = false := by
  simp [InCircle]

theorem ptEqual_self (x : Point) : ptEqual x (some x) = true := by
  simp [ptEqual, ArePointsEqual]

theorem length_Connect (m : Mesh) (a b : Nat) :
    (Connect m a b).1.recs.length = m.recs.length + 4 := by
  simp only [Connect, length_EndPoints, length_Splice, length_New]

theorem Connect_snd (m : Mesh) (a b : Nat) : (Connect m a b).2 = m.recs.length := rfl

theorem length_Swap (m : Mesh) (e : Nat) : (Swap m e).recs.length = m.recs.length := by
  simp only [Swap, length_EndPoints, length_Splice]

theorem Org_Connect_old (m : Mesh) (a b : Nat) (hq : m.recs.length % 4 = 0) {j : Nat}
    (hj : j < m.recs.length) : Org (Connect m a b).1 j = Org m j := by
  have h1 : j ≠ Sym m.recs.length := by unfold Sym Rot; omega
  have h2 : j ≠ m.recs.length := by omega
  simp only [Connect, New_snd, Org_EndPoints, Org_Splice]
  rw [if_neg (fun hh => h1 hh.1), if_neg (fun hh => h2 hh.1), Org_New_old m hj]

theorem Org_Swap_other (m : Mesh) (e : Nat) {j : Nat} (h1 : j ≠ e) (h2 : j ≠ Sym e) :
    Org (Swap m e) j = Org m j := by
  simp only [Swap, Org_EndPoints, Org_Splice]
  rw [if_neg (fun hh => h2 hh.1), if_neg (fun hh => h1 hh.1)]

theorem SpokeInv.Connect {start : Nat} {x : Point} {m : Mesh} (h : SpokeInv start x m)
    (a b : Nat) : SpokeInv start x (Connect m a b).1 := by
  obtain ⟨h1, h2, h3⟩ := h
  refine ⟨?_, ?_, ?_⟩
  · rw [length_Connect]; omega
  · rw [length_Connect]; omega
  · rw [Org_Connect_old m a b h1 h2]; exact h3

theorem spokeLoop_inv (start : Nat) (x : Point) :
    ∀ (fuel : Nat) (m : Mesh) (e base : Nat) (r : Mesh × Nat),
      SpokeInv start x m → spokeLoop start fuel m e base = some r → SpokeInv start x r.1 := by
  intro fuel
  induction fuel with
  | zero => intro m e base r _ h; simp [spokeLoop] at h
  | succ n ih =>
    intro m e base r hinv h
    simp only [spokeLoop] at h
    split at h
    · exact ih _ _ _ r (hinv.Connect e (Sym base)) h
    · cases h; exact hinv

theorem suspectLoop_inv (start : Nat) (x : Point) :
    ∀ (fuel : Nat) (m : Mesh) (e : Nat) (r : Mesh),
      SpokeInv start x m → suspectLoop start x fuel m e = some r → SpokeInv start x r := by
  intro fuel
  induction fuel with
  | zero => intro m e r _ h; simp [suspectLoop] at h
  | succ n ih =>
    intro m e r hinv h
    simp only [suspectLoop] at h
    split at h
    · exact absurd h (by simp)
    · rename_i td htd
      split at h
      · split at h
        · rename_i eo ed heo hed
          split at h
          · rename_i hin
            have hs : Sym start ≠ e := by
              intro hh
              rw [← hh, hinv.2.2] at heo
              cases heo
              rw [InCircle_last_eq_first] at hin
              exact absurd hin (by simp)
            have hs' : Sym start ≠ Sym e := by
              intro hh
              have : start = e := Sym_injective hh
              unfold Dest at hed
              rw [← this, hinv.2.2] at hed
              cases hed
              rw [InCircle_last_eq_third] at hin
              exact absurd hin (by simp)
            refine ih _ _ r ⟨?_, ?_, ?_⟩ h
            · rw [length_Swap]; exact hinv.1
            · rw [length_Swap]; exact hinv.2.1
            · rw [Org_Swap_other m e hs hs']; exact hinv.2.2
          · split at h
            · cases h; exact hinv
            · exact ih _ _ r hinv h
        · exact absurd h (by simp)
      · split at h
        · cases h; exact hinv
        · exact ih _ _ r hinv h

theorem locateLoop_more_points (sd : Subdivision) (x : Point) (wfuel k : Nat) :
    ∀ (fuel count : Nat) (s : Bool × Nat) (e : Nat),
      locateLoop sd x wfuel fuel count s = some (some e, true) →
      locateLoop { sd with ptcount := sd.ptcount + k } x wfuel fuel count s
        = some (some e, true) := by
  intro fuel
  induction fuel with
  | zero => intro count s e h; simp [locateLoop] at h
  | succ n ih =>
    intro count s e h
    obtain ⟨ok, e'⟩ := s
    simp only [locateLoop] at h ⊢
    by_cases hok : ok = true
    · rw [if_pos hok] at h ⊢; exact h
    · rw [if_neg hok] at h ⊢
      by_cases hc : e' = sd.startingEdge ∨ count + 1 > sd.ptcount * 2
      · rw [if_pos hc] at h
        split at h
        · exact absurd h (by simp)
        · simp at h
      · rw [if_neg hc] at h
        have hc' : ¬ (e' = sd.startingEdge ∨ count + 1 > (sd.ptcount + k) * 2) := by
          intro hh
          apply hc
          rcases hh with hh | hh
          · exact Or.inl hh
          · exact Or.inr (by omega)
        rw [if_neg hc']
        exact ih _ _ e h

theorem length_New_triangle (a b c : Point) :
    (Subdivision.New a b c).mesh.recs.length % 4 = 0 := by
  rw [New_explicit]; simp

theorem Org_EndPoints_Sym (m : Mesh) (e : Nat) (o d : Option Point)
    (h : Sym e < m.recs.length) : Org (EndPoints m e o d) (Sym e) = d := by
  rw [Org_EndPoints, if_pos ⟨rfl, h⟩]

theorem firstSpoke_fst (m : Mesh) (e : Nat) (x : Point) :
    (firstSpoke m e x).1 = m.recs.length := by
  simp only [firstSpoke, NewWithEndPoints, New_snd]

theorem firstSpoke_mesh (m : Mesh) (e : Nat) (x : Point) :
    (firstSpoke m e x).2.1 =
      (Connect (Splice (NewWithEndPoints m (Org m e) (some x)).1
        (some m.recs.length) (some e)) e (Sym m.recs.length)).1 := by
  simp only [firstSpoke, NewWithEndPoints, New_snd]

theorem firstSpoke_inv (m : Mesh) (e : Nat) (x : Point) (hl : m.recs.length % 4 = 0) :
    SpokeInv (firstSpoke m e x).1 x (firstSpoke m e x).2.1 := by
  have hs : Sym m.recs.length = m.recs.length + 2 := by
    unfold Sym Rot; omega
  rw [firstSpoke_fst, firstSpoke_mesh]
  apply SpokeInv.Connect
  refine ⟨?_, ?_, ?_⟩
  · simp only [length_Splice, NewWithEndPoints, length_EndPoints, length_New]; omega
  · simp only [length_Splice, NewWithEndPoints, length_EndPoints, length_New]; omega
  · simp only [Org_Splice, NewWithEndPoints, New_snd]
    apply Org_EndPoints_Sym
    rw [length_New]; omega

theorem finishSpokes_outcome (fuel : Nat) (sd : Subdivision) (x : Point)
    (f : Nat × Mesh × Nat × Nat) (hinv : SpokeInv f.1 x f.2.1) (r : Subdivision × Bool)
    (h : finishSpokes fuel sd x f = some r) :
    r.1.mesh.recs.length % 4 = 0 ∧ r.2 = true ∧
      Dest r.1.mesh r.1.startingEdge = some x := by
  unfold finishSpokes at h
  split at h
  · exact absurd h (by simp)
  · rename_i m1 e1 hsp
    split at h
    · exact absurd h (by simp)
    · rename_i m2 hsu
      cases h
      have := suspectLoop_inv _ x fuel _ _ m2 (spokeLoop_inv _ x fuel _ _ _ (m1, e1) hinv hsp) hsu
      exact ⟨this.1, rfl, this.2.2⟩

theorem length_dropEdgeUnder (m : Mesh) (x : Point) (e : Nat) :
    (dropEdgeUnder m x e).1.recs.length = m.recs.length := by
  by_cases h : OnEdge m x e = true
  · rw [dropEdgeUnder, if_pos h]
    exact length_Delete m (some (ONext m (OPrev m e)))
  · rw [dropEdgeUnder, if_neg h]

/-- After the second half of `InsertSite` the arena keeps whole quads and the
new starting edge ends at `x`. -/
theorem insertSpokes_outcome (fuel : Nat) (sd : Subdivision) (x : Point) (e : Nat)
    (hq : sd.mesh.recs.length % 4 = 0) (r : Subdivision × Bool)
    (h : insertSpokes fuel sd x e = some r) :
    r.1.mesh.recs.length % 4 = 0 ∧ r.2 = true ∧
      Dest r.1.mesh r.1.startingEdge = some x := by
  apply finishSpokes_outcome fuel sd x _ _ r h
  apply firstSpoke_inv
  rw [length_dropEdgeUnder]
  exact hq

/-- The outcome of `InsertSite`: the arena keeps whole quads, and when true is
returned either nothing but the point count has changed and the location walk
ended on an edge with end point `x`, or the new starting edge ends at `x`. -/
theorem InsertSite_outcome (fuel : Nat) (sd : Subdivision) (x : Point)
    (hq : sd.mesh.recs.length % 4 = 0) (r : Subdivision × Bool)
    (h : sd.InsertSite fuel x = some r) :
    r.1.mesh.recs.length % 4 = 0 ∧
    (r.2 = true →
      (∃ e, r.1 = { sd with ptcount := sd.ptcount + 1 } ∧
        Subdivision.locate fuel { sd with ptcount := sd.ptcount + 1 } x = some (some e, true) ∧
        (ptEqual x (Org sd.mesh e) || ptEqual x (Dest sd.mesh e)) = true) ∨
      (fuel ≠ 0 ∧ Dest r.1.mesh r.1.startingEdge = some x)) := by
  unfold Subdivision.InsertSite at h
  split at h
  · exact absurd h (by simp)
  · cases h
    exact ⟨hq, fun hh => absurd hh (by simp)⟩
  · exact absurd h (by simp)
  · rename_i e hloc
    have hfuel : fuel ≠ 0 := by
      intro h0
      subst h0
      simp [Subdivision.locate, locateLoop] at hloc
    split at h
    · rename_i hpt
      cases h
      exact ⟨hq, fun _ => Or.inl ⟨e, rfl, hloc, hpt⟩⟩
    · have := insertSpokes_outcome fuel { sd with ptcount := sd.ptcount + 1 } x e hq r h
      exact ⟨this.1, fun _ => Or.inr ⟨hfuel, this.2.2⟩⟩

theorem Built.quads {sd : Subdivision} (h : Built sd) : sd.mesh.recs.length % 4 = 0 := by
  induction h with
  | new a b c => exact length_New_triangle a b c
  | insert _ hins ih => exact (InsertSite_outcome _ _ _ ih _ hins).1

theorem InsertSite_of_located (fuel : Nat) (sd : Subdivision) (x : Point) (e : Nat)
    (hloc : Subdivision.locate fuel { sd with ptcount := sd.ptcount + 1 } x = some (some e, true))
    (hpt : (ptEqual x (Org sd.mesh e) || ptEqual x (Dest sd.mesh e)) = true) :
    sd.InsertSite fuel x = some ({ sd with ptcount := sd.ptcount + 1 }, true) := by
  unfold Subdivision.InsertSite
  rw [hloc]
  simp only
  rw [if_pos hpt]

/-- C6: on a subdivision built by `New` and `InsertSite` calls, when
`InsertSite(x)` returns true and yields `S'`, a second `InsertSite(x)` on
`S'` (same fuel) returns true as well and leaves the mesh (every `next`
pointer and every end point), the starting edge and the frame of `S'`
unchanged; only the point count goes up by one. -/
theorem insertSite_idempotent (fuel : Nat) (sd : Subdivision) (x : Point) (hb : Built sd)
    (sd1 : Subdivision) (h : sd.InsertSite fuel x = some (sd1, true)) :
    ∃ sd2, sd1.InsertSite fuel x = some (sd2, true) ∧ sd2.mesh = sd1.mesh ∧
      sd2.startingEdge = sd1.startingEdge ∧ sd2.frame = sd1.frame ∧
      sd2.ptcount = sd1.ptcount + 1 := by
  obtain ⟨_, hout⟩ := InsertSite_outcome fuel sd x hb.quads _ h
  refine ⟨{ sd1 with ptcount := sd1.ptcount + 1 }, ?_, rfl, rfl, rfl, rfl⟩
  rcases hout rfl with ⟨e, hsd, hloc, hpt⟩ | ⟨hfuel, hdest⟩
  · simp only at hsd
    subst hsd
    exact InsertSite_of_located fuel _ x e
      (locateLoop_more_points { sd with ptcount := sd.ptcount + 1 } x fuel 1 fuel 0 _ e hloc) hpt
  · simp only at hdest
    obtain ⟨n, rfl⟩ : ∃ n, fuel = n + 1 := ⟨fuel - 1, by omega⟩
    have ht : testEdge sd1.mesh x sd1.startingEdge = (true, sd1.startingEdge) := by
      unfold testEdge
      rw [hdest, ptEqual_self]
      simp
    apply InsertSite_of_located (n + 1) sd1 x sd1.startingEdge
    · show locateLoop _ x (n + 1) (n + 1) 0 (testEdge sd1.mesh x sd1.startingEdge) = _
      rw [ht]
      rfl
    · rw [hdest, ptEqual_self]
      simp

theorem twoEdges_wellFormed : WellFormed twoEdges :=
  ⟨by decide, by decide, by decide, by decide⟩

theorem frame0_wellFormed : WellFormed frame0.mesh :=
  ⟨by decide, by decide, by decide, by decide⟩

/-- Two isolated edges are merged into one ring by `Splice(0, 4)`; in the frame
the ring of the vertex `(1000,-1000)`, records 2 and 4, is split by
`Splice(2, 4)`. -/
theorem splice_rings_witness :
    (WellFormed twoEdges ∧ ¬ InRing twoEdges 0 4 ∧
      InRing (Splice twoEdges (some 0) (some 4)) 0 4) ∧
    (WellFormed frame0.mesh ∧ InRing frame0.mesh 2 4 ∧
      ∀ x, ¬ (InRing (Splice frame0.mesh (some 2) (some 4)) 2 x ∧
        InRing (Splice frame0.mesh (some 2) (some 4)) 4 x)) := by
  have h1 : ¬ InRing twoEdges 0 4 :=
    not_reach_of_closed [0] (by decide) (by decide) (by decide)
  have h2 : InRing frame0.mesh 2 4 := ⟨1, by decide⟩
  exact ⟨⟨twoEdges_wellFormed, h1,
      ((splice_rings twoEdges twoEdges_wellFormed 0 4 (by decide) (by decide) (by decide)
        (by decide) (by decide)).2.1 h1).1⟩,
    ⟨frame0_wellFormed, h2,
      ((splice_rings frame0.mesh frame0_wellFormed 2 4 (by decide) (by decide) (by decide)
        (by decide) (by decide)).1 h2).1⟩⟩

/-- Witness of `connect_left_face`: `Connect` across the frame triangle from
edge 0 to edge 8. -/
theorem connect_left_face_witness :
    WellFormed frame0.mesh ∧
    Org (Connect frame0.mesh 0 8).1 (Connect frame0.mesh 0 8).2 = Dest frame0.mesh 0 ∧
    Dest (Connect frame0.mesh 0 8).1 (Connect frame0.mesh 0 8).2 = Org frame0.mesh 8 ∧
    LNext (Connect frame0.mesh 0 8).1 0 = (Connect frame0.mesh 0 8).2 ∧
    LNext (Connect frame0.mesh 0 8).1 (Connect frame0.mesh 0 8).2 = 8 :=
  ⟨frame0_wellFormed,
    connect_left_face frame0.mesh frame0_wellFormed 0 8 (by decide) (by decide)
      (by decide) (by decide)⟩

/-- Edge 0 of the frame has the inner triangle on its left and the outer
triangle on its right. -/
theorem swap_flips_witness :
    WellFormed frame0.mesh ∧
    LNext frame0.mesh (LNext frame0.mesh (LNext frame0.mesh 0)) = 0 ∧
    LNext frame0.mesh (LNext frame0.mesh (LNext frame0.mesh (Sym 0))) = Sym 0 ∧
    LNext (Swap frame0.mesh 0) (LNext (Swap frame0.mesh 0) (LNext (Swap frame0.mesh 0) 0)) = 0 ∧
    LNext (Swap frame0.mesh 0)
      (LNext (Swap frame0.mesh 0) (LNext (Swap frame0.mesh 0) (Sym 0))) = Sym 0 :=
  ⟨frame0_wellFormed, by decide, by decide,
    (swap_flips frame0.mesh frame0_wellFormed 0 (by decide) (by decide) (by decide)
      (by decide) (by decide) (by decide) (by decide) (by decide)).2.2.1,
    (swap_flips frame0.mesh frame0_wellFormed 0 (by decide) (by decide) (by decide)
      (by decide) (by decide) (by decide) (by decide) (by decide)).2.2.2.1⟩

/-- Deleting edge 0 of the frame. -/
theorem delete_never_observed_witness :
    WellFormed frame0.mesh ∧
    ONext (Delete frame0.mesh (some 0)) 0 = 0 ∧
    ONext (Delete frame0.mesh (some 0)) (Sym 0) = Sym 0 ∧
    (∀ r, r < frame0.mesh.recs.length → r / 4 ≠ 0 / 4 →
      ONext (Delete frame0.mesh (some 0)) r / 4 ≠ 0 / 4) :=
  ⟨frame0_wellFormed,
    (delete_never_observed frame0.mesh frame0_wellFormed 0 (by decide) (by decide)).1,
    (delete_never_observed frame0.mesh frame0_wellFormed 0 (by decide) (by decide)).2.1,
    (delete_never_observed frame0.mesh frame0_wellFormed 0 (by decide) (by decide)).2.2.1⟩

/-- Inserting `(0,0)` into `frame0` gives `fan0`; inserting it again changes
nothing but the point count. -/
theorem insertSite_idempotent_witness :
    Built frame0 ∧ frame0.InsertSite 10 ⟨0, 0⟩ = some (fan0, true) ∧
    ∃ sd2, fan0.InsertSite 10 ⟨0, 0⟩ = some (sd2, true) ∧ sd2.mesh = fan0.mesh ∧
      sd2.startingEdge = fan0.startingEdge ∧ sd2.frame = fan0.frame ∧
      sd2.ptcount = fan0.ptcount + 1 :=
  ⟨Built.new _ _ _, by decide,
    insertSite_idempotent 10 frame0 ⟨0, 0⟩ (Built.new _ _ _) fan0 (by decide)⟩

/-- All four faces of `fan0` touch the frame: `Triangles(false)` is empty. -/
theorem triangles_frame_filter_witness :
    fan0.Triangles 20 false = some ([], none) ∧
    (fan0.Triangles 20 false =
      (fan0.Triangles 20 true).map (fun r => (r.1.filter (offFrame fan0.frame), r.2))) ∧
    ∀ t ∈ ([] : List (Point × Point × Point)),
      IsFramePoint fan0.frame [t.1, t.2.1, t.2.2] = false :=
  ⟨by decide, (triangles_frame_filter 20 fan0).1,
    (triangles_frame_filter 20 fan0).2 [] none (by decide)⟩

/-- Two calls on the frame vertex `(-1000,-1000)`: the point count is 5. -/
theorem ptcount_counts_calls_witness :
    insertAll 5 frame0 [⟨-1000, -1000⟩, ⟨-1000, -1000⟩] = some { frame0 with ptcount := 5 } ∧
    frame0.ptcount = 3 ∧
    ({ frame0 with ptcount := 5 } : Subdivision).ptcount = 3 + [(⟨-1000, -1000⟩ : Point), ⟨-1000, -1000⟩].length :=
  ⟨by decide,
    ptcount_counts_calls 5 ⟨-1000, -1000⟩ ⟨1000, -1000⟩ ⟨0, 1000⟩
      [⟨-1000, -1000⟩, ⟨-1000, -1000⟩] { frame0 with ptcount := 5 } (by decide)⟩

/-- In a quad whose four records all point to themselves `OPrev` is not the
inverse of `ONext`: on the dual record 1, `ONext` stays at 1 and `OPrev` goes
to 3. -/
theorem self_loops_break_OPrev :
    ONext selfLoopQuad 1 = 1 ∧ OPrev selfLoopQuad (ONext selfLoopQuad 1) = 3 := by
  decide

/-- On the frame triangle the edge 0 runs from the first to the second frame
point; `LNext` leads to edge 4, which leaves the second frame point, while
the steps `Rot`, `ONext`, `InvRot` lead to edge 8, which ends at the first. -/
theorem right_face_successor_of_frame_edge (a b c : Point) :
    Dest (Subdivision.New a b c).mesh 0 = some b ∧
    LNext (Subdivision.New a b c).mesh 0 = 4 ∧
    Org (Subdivision.New a b c).mesh 4 = some b ∧
    InvRot (ONext (Subdivision.New a b c).mesh (Rot 0)) = 8 ∧
    Dest (Subdivision.New a b c).mesh 8 = some a := by
  rw [New_explicit]
  simp [Org, Dest, LNext, ONext, Sym, Rot, InvRot]

/-- An edge returned by the ring scan of `locateSegment` ends at `endPt`. -/
theorem locateSegmentLoop_dest (m : Mesh) (s : Nat) (endPt : Point) :
    ∀ (fuel curr e : Nat), locateSegmentLoop m s endPt fuel curr = some (some e) →
      Dest m e = some endPt := by
  intro fuel
  induction fuel with
  | zero => intro curr e h; simp [locateSegmentLoop] at h
  | succ n ih =>
    intro curr e h
    simp only [locateSegmentLoop] at h
    cases hd : Dest m curr with
    | none => simp [hd] at h
    | some d =>
      simp only [hd] at h
      by_cases heq : ArePointsEqual endPt d = true
      · rw [if_pos heq] at h
        have hc : curr = e := by simpa using h
        have hp : endPt = d := by simpa [ArePointsEqual] using heq
        rw [← hc, hd, hp]
      · rw [if_neg heq] at h
        by_cases hb : ONext m curr = s
        · rw [if_pos hb] at h
          simp at h
        · rw [if_neg hb] at h
          exact ih _ _ h

/-- An edge returned by the ring scan of `locateSegment` lies in the origin
ring of the edge the scan started from. -/
theorem locateSegmentLoop_ring (m : Mesh) (s : Nat) (endPt : Point) :
    ∀ (fuel curr e : Nat), locateSegmentLoop m s endPt fuel curr = some (some e) →
      InRing m curr e := by
  intro fuel
  induction fuel with
  | zero => intro curr e h; simp [locateSegmentLoop] at h
  | succ n ih =>
    intro curr e h
    simp only [locateSegmentLoop] at h
    cases hd : Dest m curr with
    | none => simp [hd] at h
    | some d =>
      simp only [hd] at h
      by_cases heq : ArePointsEqual endPt d = true
      · rw [if_pos heq] at h
        have hc : curr = e := by simpa using h
        exact ⟨0, hc⟩
      · rw [if_neg heq] at h
        by_cases hb : ONext m curr = s
        · rw [if_pos hb] at h
          simp at h
        · rw [if_neg hb] at h
          obtain ⟨k, hk⟩ := ih _ _ h
          exact ⟨k + 1, by rw [Function.iterate_succ_apply]; exact hk⟩

/-- `Classify` answers LEFT from the point and the first end of the segment
alone: the other end of the segment plays no part. -/
theorem Classify_left_iff (p a b : Point) :
    Classify p a b = QType.LEFT ↔ 0 < CrossProduct p a := by
  unfold Classify
  simp only []
  split_ifs <;> simp_all

/-- `Classify` answers RIGHT from the point and the first end of the segment
alone. -/
theorem Classify_right_iff (p a b : Point) :
    Classify p a b = QType.RIGHT ↔ CrossProduct p a < 0 := by
  unfold Classify
  simp only []
  split_ifs with h1 h2
  · simp only [reduceCtorEq, false_iff]
    omega
  all_goals simp_all

/-- No record of the frame `frame0` has the origin `(0, 0)`. -/
theorem frame0_no_origin_zero (e : Nat) : Org frame0.mesh e ≠ some ⟨0, 0⟩ := by
  by_cases h : e < 12
  · interval_cases e <;> decide
  · have hl : frame0.mesh.recs.length = 12 := by decide
    have : frame0.mesh.recs[e]? = none := by
      apply List.getElem?_eq_none
      omega
    simp [Org, this]

/-- C12, the code at a failing input: in the frame
`New((-1000,-1000), (1000,-1000), (0,1000))`, for every fuel from 10 on,
`LocateSegment((1000,-1000), (0,1000))` returns record 10, a non-nil edge whose
destination is the requested end `(0,1000)` but whose origin is
`(-1000,-1000)`, not the requested start `(1000,-1000)`: `locate` answers
with the edge 0, which ends at the start point, and the ring scanned is the
ring of the origin of that edge. -/
theorem locateSegment_returns_edge_from_other_vertex :
    ∀ n, frame0.LocateSegment (n + 10) ⟨1000, -1000⟩ ⟨0, 1000⟩ = some (some 10) ∧
      frame0.locate (n + 10) ⟨1000, -1000⟩ = some (some 0, true) ∧
      Dest frame0.mesh 0 = some ⟨1000, -1000⟩ ∧
      Org frame0.mesh 10 = some ⟨-1000, -1000⟩ ∧
      Dest frame0.mesh 10 = some ⟨0, 1000⟩ := by
  intro n
  exact ⟨rfl, rfl, by decide, by decide, by decide⟩

/-- C13, the code at a failing input: in the frame
`New((-1000,-1000), (1000,-1000), (0,1000))`, whose built subdivision has the
distinct vertices `(1000,-1000)` and `(0,1000)`, `InsertConstaint` between
them returns no error and changes nothing, whatever the missing parts of the
constraint insertion do, and `LocateSegment` for the same two points then
returns record 10, whose origin is `(-1000,-1000)`. -/
theorem constraint_presence_fails_on_frame
    (crossed : Mesh → Option Nat → Nat → Point → Option (List Nat × Option String))
    (retriangulate : Subdivision → Point → Point → List Nat →
      Option (Subdivision × Option String)) :
    ∀ n, Built frame0 ∧
      Org frame0.mesh 4 = some ⟨1000, -1000⟩ ∧ Org frame0.mesh 8 = some ⟨0, 1000⟩ ∧
      frame0.InsertConstaint crossed retriangulate (n + 10) ⟨1000, -1000⟩ ⟨0, 1000⟩
        = some (frame0, none) ∧
      frame0.LocateSegment (n + 10) ⟨1000, -1000⟩ ⟨0, 1000⟩ = some (some 10) ∧
      Org frame0.mesh 10 = some ⟨-1000, -1000⟩ := by
  intro n
  exact ⟨Built.new _ _ _, by decide, by decide, rfl, rfl, by decide⟩

/-- C14, the code at a failing input: no record of the frame
`New((-1000,-1000), (1000,-1000), (0,1000))` has the origin `(0,0)`, yet
`InsertConstaint((0,0), (1000,-1000))` returns no error, whatever the missing
parts of the constraint insertion do: `locate` answers with edge 0 of the
triangle that holds `(0,0)`, and that edge ends at `(1000,-1000)`. -/
theorem constraint_from_non_vertex_accepted
    (crossed : Mesh → Option Nat → Nat → Point → Option (List Nat × Option String))
    (retriangulate : Subdivision → Point → Point → List Nat →
      Option (Subdivision × Option String)) :
    ∀ n, (∀ e, Org frame0.mesh e ≠ some ⟨0, 0⟩) ∧
      frame0.locate (n + 10) ⟨0, 0⟩ = some (some 0, true) ∧
      frame0.InsertConstaint crossed retriangulate (n + 10) ⟨0, 0⟩ ⟨1000, -1000⟩
        = some (frame0, none) := by
  intro n
  exact ⟨frame0_no_origin_zero, rfl, rfl⟩

/-- C15, the code at a failing input: in the frame
`New((-1000,-1000), (1000,-1000), (0,1000))` record 2 is an edge from
`(1000,-1000)` to `(-1000,-1000)`, reached from the starting edge 0 as
`Sym 0`; `InsertConstaint((1000,-1000), (-1000,-1000))` returns the error
`ErrCoincidentEdges`, whatever the missing parts of the constraint insertion
do: `locate` answers with edge 0, which ends at the start point, the scan of
its origin ring finds nothing and the triangle search is run from the wrong
vertex. -/
theorem existing_edge_reported_coincident
    (crossed : Mesh → Option Nat → Nat → Point → Option (List Nat × Option String))
    (retriangulate : Subdivision → Point → Point → List Nat →
      Option (Subdivision × Option String)) :
    ∀ n, Sym frame0.startingEdge = 2 ∧
      Org frame0.mesh 2 = some ⟨1000, -1000⟩ ∧ Dest frame0.mesh 2 = some ⟨-1000, -1000⟩ ∧
      frame0.LocateSegment (n + 10) ⟨1000, -1000⟩ ⟨-1000, -1000⟩ = some none ∧
      frame0.InsertConstaint crossed retriangulate (n + 10) ⟨1000, -1000⟩ ⟨-1000, -1000⟩
        = some (frame0, some ErrCoincidentEdges) := by
  intro n
  exact ⟨by decide, by decide, by decide, rfl, rfl⟩

/-- C16, the code at failing inputs: the point `(0,1)` is strictly left of the
segment from `(0,0)` to `(1,0)` (the cross product `(b-a) × (p-a)` is 1), and
`Classify` answers BETWEEN; after a translation of all three points by `(1,1)`
the answer is RIGHT.  The sign tested is that of `CrossProduct(a, b)`, of the
point and the first end of the segment, not of the two differences `aa` and
`bb` the function computes first. -/
theorem classify_sign_of_wrong_vectors :
    0 < CrossProduct (Sub ⟨1, 0⟩ ⟨0, 0⟩) (Sub ⟨0, 1⟩ ⟨0, 0⟩) ∧
      Classify ⟨0, 1⟩ ⟨0, 0⟩ ⟨1, 0⟩ = QType.BETWEEN ∧
      Classify ⟨0 + 1, 1 + 1⟩ ⟨0 + 1, 0 + 1⟩ ⟨1 + 1, 0 + 1⟩ = QType.RIGHT := by
  decide

/-- C17, the code at failing inputs: on the segment from `(0,1)` to `(1,1)`
the point `(1,1)` is the destination and `Classify` answers LEFT; on the
segment from `(0,0)` to `(1,0)` the point `(-1,0)` lies behind the origin and
`Classify` answers BETWEEN, and the point `(2,0)` lies beyond the destination
and is answered BEYOND as it should. -/
theorem classify_collinear_misplaced :
    Classify ⟨1, 1⟩ ⟨0, 1⟩ ⟨1, 1⟩ = QType.LEFT ∧
      Classify ⟨-1, 0⟩ ⟨0, 0⟩ ⟨1, 0⟩ = QType.BETWEEN ∧
      Classify ⟨2, 0⟩ ⟨0, 0⟩ ⟨1, 0⟩ = QType.BEYOND := by
  decide

/-- C20, the code at the scenario: from the frame
`New((-1000,-1000), (1000,-1000), (0,1000))`, `InsertSite((0,0))` returns true
and gives the fan `fan0`; `Triangles(false)` returns the empty list;
`Triangles(true)` returns four triangles, not three: the three triangles of the
fan, each with `(0,0)` and two frame vertices, and as second entry the outer
face `(-1000,-1000), (0,1000), (1000,-1000)`, which has no vertex `(0,0)`. -/
theorem single_point_scenario_four_triangles :
    ∀ n, frame0.InsertSite (n + 10) ⟨0, 0⟩ = some (fan0, true) ∧
      fan0.Triangles (n + 10) false = some ([], none) ∧
      fan0.Triangles (n + 10) true =
        some ([(⟨-1000, -1000⟩, ⟨0, 0⟩, ⟨0, 1000⟩),
               (⟨-1000, -1000⟩, ⟨0, 1000⟩, ⟨1000, -1000⟩),
               (⟨-1000, -1000⟩, ⟨1000, -1000⟩, ⟨0, 0⟩),
               (⟨0, 0⟩, ⟨1000, -1000⟩, ⟨0, 1000⟩)], none) := by
  intro n
  exact ⟨rfl, rfl, rfl⟩

theorem length_le_of_nodup_lt {l : List Nat} {N : Nat} (hn : l.Nodup)
    (hl : ∀ z, z ∈ l → z < N) : l.length ≤ N := by
  have h1 : l.toFinset ⊆ Finset.range N := by
    intro z hz
    simp only [List.mem_toFinset] at hz
    simpa using hl z hz
  have h2 := Finset.card_le_card h1
  rw [List.toFinset_card_of_nodup hn, Finset.card_range] at h2
  exact h2

theorem Sym_ne_self (e : Nat) : Sym e ≠ e := by
  unfold Sym Rot; omega

/-- Dropping a visited record from the stack keeps the invariant. -/
theorem WalkInv.skip {m : Mesh} {N se e : Nat} {rest visited calls : List Nat}
    (h : WalkInv m N se (e :: rest) visited calls) (hv : e ∈ visited) :
    WalkInv m N se rest visited calls where
  vis := h.vis
  nodup := h.nodup
  onedir := h.onedir
  next := by
    intro z hz
    rcases h.next z hz with h1 | h1
    · exact Or.inl h1
    · rcases List.mem_cons.1 h1 with h2 | h2
      · exact Or.inl (h2 ▸ hv)
      · exact Or.inr h2
  reachS := fun z hz => h.reachS z (List.mem_cons_of_mem _ hz)
  reachC := h.reachC
  start := by
    rcases h.start with h1 | h1
    · exact Or.inl h1
    · rcases List.mem_cons.1 h1 with h2 | h2
      · exact Or.inl (h2 ▸ hv)
      · exact Or.inr h2
  ltS := fun z hz => h.ltS z (List.mem_cons_of_mem _ hz)
  ltV := h.ltV
  nodupV := h.nodupV

/-- A call on an unvisited record keeps the invariant. -/
theorem WalkInv.call {m : Mesh} {N se e : Nat} {rest visited calls : List Nat}
    (hN : N % 4 = 0) (hcl : ∀ r, r < N → ONext m r < N)
    (h : WalkInv m N se (e :: rest) visited calls) (hv : e ∉ visited) :
    WalkInv m N se (ONext m (Sym e) :: ONext m e :: rest) (Sym e :: e :: visited)
      (calls ++ [e]) := by
  have he : e < N := h.ltS e (List.mem_cons_self _ _)
  have hre : EdgeReach m se e := h.reachS e (List.mem_cons_self _ _)
  have hec : e ∉ calls := fun hc => hv ((h.vis e).2 (Or.inl hc))
  have hsc : Sym e ∉ calls := fun hc => hv ((h.vis e).2 (Or.inr hc))
  have hsv : Sym e ∉ visited := by
    intro hs
    rcases (h.vis (Sym e)).1 hs with h1 | h1
    · exact hsc h1
    · rw [Sym_Sym] at h1
      exact hec h1
  refine ⟨?_, ?_, ?_, ?_, ?_, ?_, ?_, ?_, ?_, ?_⟩
  · intro x
    simp only [List.mem_cons, List.mem_append, List.not_mem_nil, or_false]
    rw [h.vis x]
    constructor
    · rintro (h1 | h1 | h1 | h1)
      · right; right; rw [h1, Sym_Sym]
      · left; right; exact h1
      · left; left; exact h1
      · right; left; exact h1
    · rintro ((h1 | h1) | (h1 | h1))
      · right; right; left; exact h1
      · right; left; exact h1
      · right; right; right; exact h1
      · left; rw [← h1, Sym_Sym]
  · rw [List.nodup_append]
    refine ⟨h.nodup, List.nodup_singleton _, ?_⟩
    intro a ha hb
    rw [List.mem_singleton] at hb
    exact hec (hb ▸ ha)
  · intro a ha
    simp only [List.mem_append, List.mem_cons, List.not_mem_nil, or_false] at ha ⊢
    rintro (h1 | h1)
    · rcases ha with h2 | h2
      · exact h.onedir a h2 h1
      · exact hsc (h2 ▸ h1)
    · rcases ha with h2 | h2
      · apply hec
        have : Sym (Sym a) = Sym e := by rw [h1]
        rw [Sym_Sym] at this
        have h3 : a = Sym e := this
        rw [h3] at h2
        exact absurd h2 hsc
      · rw [h2] at h1
        exact Sym_ne_self e h1
  · intro z hz
    simp only [List.mem_cons] at hz ⊢
    rcases hz with h1 | h1 | h1
    · right; left; rw [h1]
    · right; right; left; rw [h1]
    · rcases h.next z h1 with h2 | h2
      · left; right; right; exact h2
      · rcases List.mem_cons.1 h2 with h3 | h3
        · left; right; left; exact h3
        · right; right; right; exact h3
  · intro z hz
    simp only [List.mem_cons] at hz
    rcases hz with h1 | h1 | h1
    · rw [h1]; exact EdgeReach.onext (EdgeReach.sym hre)
    · rw [h1]; exact EdgeReach.onext hre
    · exact h.reachS z (List.mem_cons_of_mem _ h1)
  · intro z hz
    simp only [List.mem_append, List.mem_cons, List.not_mem_nil, or_false] at hz
    rcases hz with h1 | h1
    · exact h.reachC z h1
    · rw [h1]; exact hre
  · rcases h.start with h1 | h1
    · left; exact List.mem_cons_of_mem _ (List.mem_cons_of_mem _ h1)
    · rcases List.mem_cons.1 h1 with h2 | h2
      · left; rw [h2]; exact List.mem_cons_of_mem _ (List.mem_cons_self _ _)
      · right; exact List.mem_cons_of_mem _ (List.mem_cons_of_mem _ h2)
  · intro z hz
    simp only [List.mem_cons] at hz
    rcases hz with h1 | h1 | h1
    · rw [h1]; exact hcl _ (Sym_lt hN he)
    · rw [h1]; exact hcl _ he
    · exact h.ltS z (List.mem_cons_of_mem _ h1)
  · intro z hz
    simp only [List.mem_cons] at hz
    rcases hz with h1 | h1 | h1
    · rw [h1]; exact Sym_lt hN he
    · rw [h1]; exact he
    · exact h.ltV z h1
  · rw [List.nodup_cons, List.nodup_cons]
    refine ⟨?_, hv, h.nodupV⟩
    simp only [List.mem_cons, not_or]
    exact ⟨Sym_ne_self e, hsv⟩

/-- With an empty stack the calls cover every record reached from `se`, in one
direction each. -/
theorem WalkInv.done {m : Mesh} {N se : Nat} {visited calls : List Nat}
    (h : WalkInv m N se [] visited calls) (x : Nat) (hx : EdgeReach m se x) :
    x ∈ calls ∨ Sym x ∈ calls := by
  have hv : x ∈ visited := by
    induction hx with
    | start =>
      rcases h.start with h1 | h1
      · exact h1
      · cases h1
    | onext _ ih =>
      rcases h.next _ ih with h1 | h1
      · exact h1
      · cases h1
    | sym _ ih =>
      rw [h.vis] at ih ⊢
      rw [Sym_Sym]
      exact ih.symm
  exact (h.vis x).1 hv

/-- The loop of `WalkAllEdges` with the recording callback: with fuel above
twice the unvisited records plus the stack it ends, with no error, and the
recorded calls hold every record reached from `se` once, in one direction. -/
theorem walkEdgesLoop_record (m : Mesh) (N se : Nat) (hN : N % 4 = 0)
    (hcl : ∀ r, r < N → ONext m r < N) :
    ∀ (fuel : Nat) (stack visited calls : List Nat), WalkInv m N se stack visited calls →
      2 * (N - visited.length) + stack.length < fuel →
      ∃ order, walkEdgesLoop m recordEdge fuel stack visited calls = some (order, none) ∧
        order.Nodup ∧ (∀ e, e ∈ order → Sym e ∉ order) ∧
        (∀ e, e ∈ order → EdgeReach m se e) ∧
        (∀ x, EdgeReach m se x → x ∈ order ∨ Sym x ∈ order) := by
  intro fuel
  induction fuel with
  | zero => intro _ _ _ _ h; omega
  | succ n ih =>
    intro stack visited calls hinv hf
    cases stack with
    | nil =>
      exact ⟨calls, by simp [walkEdgesLoop], hinv.nodup, hinv.onedir, hinv.reachC, hinv.done⟩
    | cons e rest =>
      by_cases hv : visited.contains e = true
      · have hm : e ∈ visited := by simpa using hv
        obtain ⟨order, ho, hp⟩ := ih rest visited calls (hinv.skip hm)
          (by simp only [List.length_cons] at hf; omega)
        refine ⟨order, ?_, hp⟩
        simp only [walkEdgesLoop]
        rw [if_pos hv]
        exact ho
      · have hm : e ∉ visited := by simpa using hv
        have hinv2 := hinv.call hN hcl hm
        have hlen := length_le_of_nodup_lt hinv2.nodupV hinv2.ltV
        simp only [List.length_cons] at hlen hf
        obtain ⟨order, ho, hp⟩ := ih _ _ _ hinv2
          (by simp only [List.length_cons]; omega)
        refine ⟨order, ?_, hp⟩
        simp only [walkEdgesLoop]
        rw [if_neg hv]
        simpa [recordEdge] using ho

/-- The start of a walk: nothing visited, the start edge on the stack. -/
theorem WalkInv.init (m : Mesh) {N se : Nat} (hs : se < N) : WalkInv m N se [se] [] [] where
  vis := by simp
  nodup := List.nodup_nil
  onedir := by simp
  next := by simp
  reachS := by
    intro z hz
    rw [List.mem_singleton] at hz
    rw [hz]
    exact EdgeReach.start
  reachC := by simp
  start := Or.inr (List.mem_singleton_self _)
  ltS := by
    intro z hz
    rw [List.mem_singleton] at hz
    rw [hz]
    exact hs
  ltV := by simp
  nodupV := List.nodup_nil

/-- The walk with any callback follows the walk with the recording callback:
when the recording walk ends, it added the edges `order` to its record, and the
walk with `fn` calls `fn` on these edges in turn. -/
theorem walkEdgesLoop_callInTurn (m : Mesh) :
    ∀ (fuel : Nat) (stack visited acc r : List Nat) (err : Option String),
      walkEdgesLoop m recordEdge fuel stack visited acc = some (r, err) →
      ∃ order, r = acc ++ order ∧ err = none ∧
        ∀ (σ : Type) (fn : σ → Nat → σ × CbResult) (st : σ),
          walkEdgesLoop m fn fuel stack visited st = some (callInTurn fn order st) := by
  intro fuel
  induction fuel with
  | zero => intro _ _ _ _ _ h; simp [walkEdgesLoop] at h
  | succ n ih =>
    intro stack visited acc r err h
    cases stack with
    | nil =>
      simp only [walkEdgesLoop, Option.some.injEq, Prod.mk.injEq] at h
      refine ⟨[], by simp [h.1], h.2.symm, ?_⟩
      intro σ fn st
      simp [walkEdgesLoop, callInTurn]
    | cons e rest =>
      by_cases hv : visited.contains e = true
      · simp only [walkEdgesLoop] at h
        rw [if_pos hv] at h
        obtain ⟨order, h1, h2, h3⟩ := ih _ _ _ _ _ h
        refine ⟨order, h1, h2, ?_⟩
        intro σ fn st
        simp only [walkEdgesLoop]
        rw [if_pos hv]
        exact h3 σ fn st
      · simp only [walkEdgesLoop] at h
        rw [if_neg hv] at h
        simp only [recordEdge] at h
        obtain ⟨order, h1, h2, h3⟩ := ih _ _ _ _ _ h
        refine ⟨e :: order, by simp [h1], h2, ?_⟩
        intro σ fn st
        simp only [walkEdgesLoop]
        rw [if_neg hv]
        simp only [callInTurn]
        rcases hfn : fn st e with ⟨st1, res⟩
        cases res with
        | ok => exact h3 σ fn st1
        | cancel => rfl
        | fail err => rfl

/-- With a callback that always returns nil, calling in turn is a fold over
the whole list and gives no error. -/
theorem callInTurn_ok {σ : Type} (fn : σ → Nat → σ × CbResult)
    (hfn : ∀ s e, (fn s e).2 = CbResult.ok) :
    ∀ (order : List Nat) (st : σ),
      callInTurn fn order st = (order.foldl (fun s e => (fn s e).1) st, none) := by
  intro order
  induction order with
  | nil => intro st; rfl
  | cons e es ih =>
    intro st
    simp only [callInTurn, List.foldl_cons]
    have h := hfn st e
    rcases hfe : fn st e with ⟨st1, res⟩
    rw [hfe] at h
    simp only at h
    subst h
    exact ih st1

/-- The callback of `locate` called in turn keeps the first edge whose test
succeeds, or the state it started with. -/
theorem callInTurn_locateCallback (m : Mesh) (x : Point) :
    ∀ (order : List Nat) (st : Option Nat),
      callInTurn (locateCallback m x) order st =
        (match order.find? (fun ee => (testEdge m x ee).1) with
          | some ee => some ee
          | none => st, none) := by
  intro order
  induction order with
  | nil => intro st; rfl
  | cons e es ih =>
    intro st
    by_cases ht : (testEdge m x e).1 = true
    · simp [callInTurn, locateCallback, ht, List.find?_cons]
    · simp only [Bool.not_eq_true] at ht
      simp only [callInTurn, locateCallback, ht, List.find?_cons]
      exact ih st

/-- The log of a callback called in turn: every call but the last returned
nil; the walk result is nil unless the last call returned another error than
`ErrCancel`, which is then the result; the state is that of the callback
without the log. -/
theorem callInTurn_logCalls {σ : Type} (fn : σ → Nat → σ × CbResult) :
    ∀ (order : List Nat) (st : σ) (log0 : List (Nat × CbResult)),
      ∃ st1 log res,
        callInTurn (logCalls fn) order (st, log0) = ((st1, log0 ++ log), res) ∧
        callInTurn fn order st = (st1, res) ∧
        (((∀ c, c ∈ log → c.2 = CbResult.ok) ∧ res = none ∧ log.map Prod.fst = order) ∨
         (∃ pre e, log = pre ++ [(e, CbResult.cancel)] ∧
            (∀ c, c ∈ pre → c.2 = CbResult.ok) ∧ res = none) ∨
         (∃ pre e err, log = pre ++ [(e, CbResult.fail err)] ∧
            (∀ c, c ∈ pre → c.2 = CbResult.ok) ∧ res = some err)) := by
  intro order
  induction order with
  | nil =>
    intro st log0
    exact ⟨st, [], none, by simp [callInTurn], rfl, Or.inl ⟨by simp, rfl, rfl⟩⟩
  | cons e es ih =>
    intro st log0
    rcases hfe : fn st e with ⟨st1, r⟩
    cases r with
    | ok =>
      obtain ⟨st2, log, res, h1, h2, h3⟩ := ih st1 (log0 ++ [(e, CbResult.ok)])
      refine ⟨st2, (e, CbResult.ok) :: log, res, ?_, ?_, ?_⟩
      · simp only [callInTurn, logCalls, hfe]
        rw [h1]
        simp
      · simp only [callInTurn, hfe]
        exact h2
      · rcases h3 with ⟨ha, hb, hc⟩ | ⟨pre, e1, ha, hb, hc⟩ | ⟨pre, e1, err, ha, hb, hc⟩
        · left
          refine ⟨?_, hb, by simp [hc]⟩
          intro c hcm
          rcases List.mem_cons.1 hcm with h4 | h4
          · rw [h4]
          · exact ha c h4
        · right; left
          refine ⟨(e, CbResult.ok) :: pre, e1, by simp [ha], ?_, hc⟩
          intro c hcm
          rcases List.mem_cons.1 hcm with h4 | h4
          · rw [h4]
          · exact hb c h4
        · right; right
          refine ⟨(e, CbResult.ok) :: pre, e1, err, by simp [ha], ?_, hc⟩
          intro c hcm
          rcases List.mem_cons.1 hcm with h4 | h4
          · rw [h4]
          · exact hb c h4
    | cancel =>
      refine ⟨st1, [(e, CbResult.cancel)], none, ?_, ?_, ?_⟩
      · simp [callInTurn, logCalls, hfe]
      · simp [callInTurn, hfe]
      · right; left
        exact ⟨[], e, rfl, by simp, rfl⟩
    | fail err =>
      refine ⟨st1, [(e, CbResult.fail err)], some err, ?_, ?_, ?_⟩
      · simp [callInTurn, logCalls, hfe]
      · simp [callInTurn, hfe]
      · right; right
        exact ⟨[], e, err, rfl, by simp, rfl⟩

theorem foldl_max_ge_init (l : List EdgeRec) :
    ∀ b : Nat, b ≤ l.foldl (fun b r => max b r.next) b := by
  induction l with
  | nil => intro b; exact le_refl _
  | cons a t ih =>
    intro b
    simp only [List.foldl_cons]
    exact le_trans (le_max_left _ _) (ih _)

theorem foldl_max_ge_mem (l : List EdgeRec) :
    ∀ (b : Nat) (r : EdgeRec), r ∈ l → r.next ≤ l.foldl (fun b r => max b r.next) b := by
  induction l with
  | nil => intro b r h; cases h
  | cons a t ih =>
    intro b r h
    simp only [List.foldl_cons]
    rcases List.mem_cons.1 h with h1 | h1
    · rw [h1]
      exact le_trans (le_max_right _ _) (foldl_max_ge_init t _)
    · exact ih _ r h1

theorem arenaBound_mod (m : Mesh) (se : Nat) : arenaBound m se % 4 = 0 := by
  unfold arenaBound; omega

theorem lt_arenaBound_start (m : Mesh) (se : Nat) : se < arenaBound m se := by
  have h := foldl_max_ge_init m.recs (max m.recs.length se)
  have h2 : se ≤ max m.recs.length se := le_max_right _ _
  unfold arenaBound; omega

/-- The records below the bound are closed under `ONext`. -/
theorem ONext_lt_arenaBound (m : Mesh) (se r : Nat) (h : r < arenaBound m se) :
    ONext m r < arenaBound m se := by
  unfold ONext
  cases hr : m.recs[r]? with
  | none => exact h
  | some rec =>
    have hm : rec ∈ m.recs := List.getElem?_mem hr
    have h1 := foldl_max_ge_mem m.recs (max m.recs.length se) rec hm
    show rec.next < arenaBound m se
    unfold arenaBound; omega

/-- The walk with the recording callback from `se` ends for every mesh, given
fuel above twice the bound of the arena. -/
theorem walkEdges_record_any (m : Mesh) (se fuel : Nat)
    (hf : 2 * arenaBound m se + 2 ≤ fuel) :
    ∃ order, walkEdgesLoop m recordEdge fuel [se] [] [] = some (order, none) ∧
      order.Nodup ∧ (∀ e, e ∈ order → Sym e ∉ order) ∧
      (∀ e, e ∈ order → EdgeReach m se e) ∧
      (∀ x, EdgeReach m se x → x ∈ order ∨ Sym x ∈ order) :=
  walkEdgesLoop_record m (arenaBound m se) se (arenaBound_mod m se)
    (fun r hr => ONext_lt_arenaBound m se r hr) fuel [se] [] []
    (WalkInv.init m (lt_arenaBound_start m se))
    (by simp only [List.length_nil, List.length_singleton]; omega)

/-- The log of a callback that always returns nil, called in turn on a list:
one entry per edge of the list, in order. -/
theorem callInTurn_logCalls_ok {σ : Type} (fn : σ → Nat → σ × CbResult)
    (hfn : ∀ s e, (fn s e).2 = CbResult.ok) :
    ∀ (order : List Nat) (st : σ) (log0 : List (Nat × CbResult)),
      callInTurn (logCalls fn) order (st, log0) =
        ((order.foldl (fun s e => (fn s e).1) st,
          log0 ++ order.map (fun e => (e, CbResult.ok))), none) := by
  intro order
  induction order with
  | nil => intro st log0; simp [callInTurn]
  | cons e es ih =>
    intro st log0
    have h := hfn st e
    rcases hfe : fn st e with ⟨st1, res⟩
    rw [hfe] at h
    simp only at h
    subst h
    simp only [callInTurn, logCalls, hfe, List.foldl_cons, List.map_cons]
    rw [ih]
    simp

/-- An edge for which `testEdge` succeeds is returned as it is. -/
theorem testEdge_true (m : Mesh) (x : Point) (e : Nat) (h : (testEdge m x e).1 = true) :
    (testEdge m x e).2 = e := by
  unfold testEdge at h ⊢
  split_ifs at h ⊢ <;> simp_all

/-- The loop of `locate` answers `found = true` only with the edge of a
successful test. -/
theorem locateLoop_found (sd : Subdivision) (x : Point) (wfuel : Nat) :
    ∀ (fuel count : Nat) (p : Bool × Nat) (r : Option Nat),
      (p.1 = true → (testEdge sd.mesh x p.2).1 = true) →
      locateLoop sd x wfuel fuel count p = some (r, true) →
      ∃ e, r = some e ∧ (testEdge sd.mesh x e).1 = true := by
  intro fuel
  induction fuel with
  | zero => intro _ _ _ _ h; simp [locateLoop] at h
  | succ n ih =>
    intro count p r hp h
    obtain ⟨ok, e⟩ := p
    simp only [locateLoop] at h
    by_cases hok : ok = true
    · rw [if_pos hok] at h
      simp only [Option.some.injEq, Prod.mk.injEq, and_true] at h
      exact ⟨e, h.symm, hp hok⟩
    · rw [if_neg hok] at h
      by_cases hc : e = sd.startingEdge ∨ count + 1 > sd.ptcount * 2
      · rw [if_pos hc] at h
        cases hw : WalkAllEdges wfuel sd.mesh (some sd.startingEdge)
            (locateCallback sd.mesh x) none with
        | none => simp [hw] at h
        | some q => simp [hw] at h
      · rw [if_neg hc] at h
        refine ih _ _ r ?_ h
        intro ht
        rw [testEdge_true _ _ _ ht]
        exact ht

/-- C11, amended: for every subdivision and point `x`, `locate` answers
`found = true` only with an edge whose location test succeeds, reached by the
walk itself.  Given enough fuel the scan of `WalkAllEdges` from the starting
edge ends and calls its callback on the edges `order`, which hold every record
reached from the starting edge by `ONext` and `Sym` steps, in one direction;
and whenever the walk is abandoned (the walk is back at the starting edge, or
the count has passed twice the point count) `locate` returns the first edge
of `order` whose location test succeeds, or nil when none succeeds, and in
both cases `found = false`. -/
theorem locate_fallback_reports_not_found (sd : Subdivision) (x : Point) :
    (∀ fuel r, sd.locate fuel x = some (r, true) →
        ∃ e, r = some e ∧ (testEdge sd.mesh x e).1 = true) ∧
    ∃ fuel0, ∀ wfuel, fuel0 ≤ wfuel →
      ∃ order,
        WalkAllEdges wfuel sd.mesh (some sd.startingEdge) recordEdge [] = some (order, none) ∧
        (∀ z, EdgeReach sd.mesh sd.startingEdge z → z ∈ order ∨ Sym z ∈ order) ∧
        ∀ fuel count e, (e = sd.startingEdge ∨ count + 1 > sd.ptcount * 2) →
          locateLoop sd x wfuel (fuel + 1) count (false, e) =
            some (order.find? (fun ee => (testEdge sd.mesh x ee).1), false) := by
  constructor
  · intro fuel r h
    refine locateLoop_found sd x fuel fuel 0 _ r ?_ h
    intro ht
    rw [testEdge_true _ _ _ ht]
    exact ht
  · refine ⟨2 * arenaBound sd.mesh sd.startingEdge + 2, ?_⟩
    intro wfuel hw
    obtain ⟨order, ho, _, _, _, hcov⟩ := walkEdges_record_any sd.mesh sd.startingEdge wfuel hw
    refine ⟨order, ho, hcov, ?_⟩
    intro fuel count e hc
    obtain ⟨order1, h1, _, h3⟩ := walkEdgesLoop_callInTurn sd.mesh wfuel _ _ _ _ _ ho
    have ho1 : order = order1 := by simpa using h1
    subst ho1
    have h4 := h3 (Option Nat) (locateCallback sd.mesh x) none
    rw [callInTurn_locateCallback] at h4
    simp only [locateLoop]
    rw [if_neg (by simp), if_pos hc]
    simp only [WalkAllEdges]
    rw [h4]
    cases order.find? (fun ee => (testEdge sd.mesh x ee).1) <;> rfl

/-- C18: for every well-formed mesh, every start edge `se` of the mesh and
every fuel from `2 * length + 2` on there is a list `order` of edges such
that: no edge occurs twice in it and no edge occurs in both directions; its
edges are reached from `se` by `ONext` and `Sym` steps; every record reached
from `se` by such steps is in it, itself or its `Sym`; and for every callback
`fn` that always returns nil, `WalkAllEdges(se, fn)` returns nil, the log of
the calls to `fn` is `order`, one call per edge, and the state at the end is
that of these calls made in this order. -/
theorem walkAllEdges_each_edge_once (m : Mesh) (hm : WellFormed m) (se : Nat)
    (hse : se < m.recs.length) (fuel : Nat) (hf : 2 * m.recs.length + 2 ≤ fuel) :
    ∃ order : List Nat,
      order.Nodup ∧ (∀ e, e ∈ order → Sym e ∉ order) ∧
      (∀ e, e ∈ order → EdgeReach m se e) ∧
      (∀ x, EdgeReach m se x → x ∈ order ∨ Sym x ∈ order) ∧
      ∀ (σ : Type) (fn : σ → Nat → σ × CbResult) (st : σ),
        (∀ s e, (fn s e).2 = CbResult.ok) →
        WalkAllEdges fuel m (some se) fn st =
          some (order.foldl (fun s e => (fn s e).1) st, none) ∧
        WalkAllEdges fuel m (some se) (logCalls fn) (st, []) =
          some ((order.foldl (fun s e => (fn s e).1) st,
                 order.map (fun e => (e, CbResult.ok))), none) := by
  obtain ⟨order, ho, h1, h2, h3, h4⟩ :=
    walkEdgesLoop_record m m.recs.length se hm.quads hm.closed fuel [se] [] []
      (WalkInv.init m hse) (by simp only [List.length_nil, List.length_singleton]; omega)
  refine ⟨order, h1, h2, h3, h4, ?_⟩
  intro σ fn st hfn
  obtain ⟨order1, e1, _, e3⟩ := walkEdgesLoop_callInTurn m fuel _ _ _ _ _ ho
  have ho1 : order = order1 := by simpa using e1
  subst ho1
  constructor
  · simp only [WalkAllEdges]
    rw [e3 σ fn st, callInTurn_ok fn hfn]
  · simp only [WalkAllEdges]
    rw [e3 _ (logCalls fn) (st, []), callInTurn_logCalls_ok fn hfn]
    simp

/-- C19: for every mesh, callback `fn` and state: with a nil start edge
`WalkAllEdges` returns nil and the log of calls stays empty; with a start edge
`se` and enough fuel it returns, with the same state and result as the walk
without the log, and the log of the calls to `fn` is one of three: every call
returned nil and the walk returns nil; or the last call returned `ErrCancel`,
every call before it returned nil, and the walk returns nil; or the last call
returned another error, every call before it returned nil, and the walk
returns exactly that error. -/
theorem walkAllEdges_stops_at_first_error (m : Mesh) (σ : Type)
    (fn : σ → Nat → σ × CbResult) (st : σ) :
    (∀ fuel, WalkAllEdges fuel m none (logCalls fn) (st, []) = some ((st, []), none)) ∧
    ∀ se, ∃ fuel0, ∀ fuel, fuel0 ≤ fuel →
      ∃ st1 log res,
        WalkAllEdges fuel m (some se) (logCalls fn) (st, []) = some ((st1, log), res) ∧
        WalkAllEdges fuel m (some se) fn st = some (st1, res) ∧
        (((∀ c, c ∈ log → c.2 = CbResult.ok) ∧ res = none) ∨
         (∃ pre e, log = pre ++ [(e, CbResult.cancel)] ∧
            (∀ c, c ∈ pre → c.2 = CbResult.ok) ∧ res = none) ∨
         (∃ pre e err, log = pre ++ [(e, CbResult.fail err)] ∧
            (∀ c, c ∈ pre → c.2 = CbResult.ok) ∧ res = some err)) := by
  constructor
  · intro fuel
    rfl
  · intro se
    refine ⟨2 * arenaBound m se + 2, ?_⟩
    intro fuel hf
    obtain ⟨order, ho, _⟩ := walkEdges_record_any m se fuel hf
    obtain ⟨order1, e1, _, e3⟩ := walkEdgesLoop_callInTurn m fuel _ _ _ _ _ ho
    have ho1 : order = order1 := by simpa using e1
    subst ho1
    obtain ⟨st1, log, res, h1, h2, h3⟩ := callInTurn_logCalls fn order st []
    refine ⟨st1, log, res, ?_, ?_, ?_⟩
    · simp only [WalkAllEdges]
      rw [e3 _ (logCalls fn) (st, []), h1]
      simp
    · simp only [WalkAllEdges]
      rw [e3 σ fn st, h2]
    · rcases h3 with ⟨ha, hb, _⟩ | h3 | h3
      · exact Or.inl ⟨ha, hb⟩
      · exact Or.inr (Or.inl h3)
      · exact Or.inr (Or.inr h3)

/-- C11, counterexample: in the frame `New((-1000,-1000), (1000,-1000),
(0,1000))` the point `(-500, 0)` of the frame edge from `(0,1000)` to
`(-1000,-1000)` makes the walk come back to the starting edge; the scan finds
record 8, whose location test succeeds, and `locate` returns this edge, not
nil, with `found = false`. -/
theorem locate_fallback_counterexample :
    frame0.locate 10 ⟨-500, 0⟩ = some (some 8, false) ∧
      (testEdge frame0.mesh ⟨-500, 0⟩ 8).1 = true ∧
      testEdge frame0.mesh ⟨-500, 0⟩ frame0.startingEdge = (false, 10) ∧
      testEdge frame0.mesh ⟨-500, 0⟩ 10 = (false, frame0.startingEdge) := by
  decide

/-- C18, witness: the frame `New((-1000,-1000), (1000,-1000), (0,1000))`, walked
from its starting edge with fuel 26. -/
theorem walkAllEdges_each_edge_once_witness :
    WellFormed frame0.mesh ∧ 0 < frame0.mesh.recs.length ∧
    ∃ order : List Nat,
      order.Nodup ∧ (∀ e, e ∈ order → Sym e ∉ order) ∧
      (∀ e, e ∈ order → EdgeReach frame0.mesh 0 e) ∧
      (∀ x, EdgeReach frame0.mesh 0 x → x ∈ order ∨ Sym x ∈ order) ∧
      ∀ (σ : Type) (fn : σ → Nat → σ × CbResult) (st : σ),
        (∀ s e, (fn s e).2 = CbResult.ok) →
        WalkAllEdges 26 frame0.mesh (some 0) fn st =
          some (order.foldl (fun s e => (fn s e).1) st, none) ∧
        WalkAllEdges 26 frame0.mesh (some 0) (logCalls fn) (st, []) =
          some ((order.foldl (fun s e => (fn s e).1) st,
                 order.map (fun e => (e, CbResult.ok))), none) :=
  ⟨frame0_wellFormed, by decide,
    walkAllEdges_each_edge_once frame0.mesh frame0_wellFormed 0 (by decide) 26 (by decide)⟩

theorem getElem?_recs_of_ONext_Org {m : Mesh} {r : Nat} (hr : r < m.recs.length) :
    m.recs[r]? = some ⟨ONext m r, Org m r⟩ := by
  have h : m.recs[r]? = some (m.recs[r]) := List.getElem?_eq_getElem hr
  simp [ONext, Org, h]

/-- Two meshes with the same number of records, the same `next` pointers and
the same origins are the same mesh. -/
theorem Mesh.eq_of_ONext_Org {m1 m2 : Mesh} (hl : m1.recs.length = m2.recs.length)
    (hn : ∀ r, ONext m1 r = ONext m2 r) (ho : ∀ r, Org m1 r = Org m2 r) : m1 = m2 := by
  cases m1 with
  | mk r1 =>
    cases m2 with
    | mk r2 =>
      congr 1
      apply List.ext_getElem? 
      intro i
      by_cases hi : i < r1.length
      · have h1 := getElem?_recs_of_ONext_Org (m := ⟨r1⟩) hi
        have h2 := getElem?_recs_of_ONext_Org (m := ⟨r2⟩) (r := i) (by simpa [← hl] using hi)
        simp only at h1 h2
        rw [h1, h2, hn i, ho i]
      · have h1 : r1[i]? = none := List.getElem?_eq_none (by omega)
        have h2 : r2[i]? = none := List.getElem?_eq_none (by simp only at hl; omega)
        rw [h1, h2]

theorem sw_comm (a b x : Nat) : sw a b x = sw b a x := by
  unfold sw; split_ifs <;> omega

/-- In a well-formed mesh a second `Splice(a, b)` undoes the first. -/
theorem Splice_Splice {m : Mesh} (h : WellFormed m) {a b : Nat}
    (ha : a < m.recs.length) (hb : b < m.recs.length)
    (hpa : a % 2 = 0) (hpb : b % 2 = 0) :
    Splice (Splice m (some a) (some b)) (some a) (some b) = m := by
  have h1 := h.Splice ha hb hpa hpb
  have hl := length_Splice m (some a) (some b)
  apply Mesh.eq_of_ONext_Org
  · rw [length_Splice, length_Splice]
  · intro r
    have ea : ONext (Splice m (some a) (some b)) a = ONext m b := by
      rw [ONext_Splice h ha hb hpa hpb, if_pos hpa, sw_left]
    have eb : ONext (Splice m (some a) (some b)) b = ONext m a := by
      rw [ONext_Splice h ha hb hpa hpb, if_pos hpb, sw_right]
    rw [ONext_Splice h1 (by omega) (by omega) hpa hpb, ea, eb]
    by_cases hr : r % 2 = 0
    · rw [if_pos hr, ONext_Splice h ha hb hpa hpb,
        if_pos (by rw [sw_mod2 (by omega)]; exact hr), sw_sw]
    · have hal := Rot_mod2 (ONext m a)
      have hbe := Rot_mod2 (ONext m b)
      have ra := h.role a ha
      have rb := h.role b hb
      have hd : sw (Rot (ONext m b)) (Rot (ONext m a)) r % 2 = 1 := by
        unfold sw
        split_ifs <;> omega
      rw [if_neg hr, ONext_Splice h ha hb hpa hpb, if_neg (by omega),
        sw_comm (Rot (ONext m a)), sw_sw]
  · intro r
    rw [Org_Splice, Org_Splice]

/-- C23: for every well-formed mesh (whole quads, `next` inside the arena and
keeping the role of a record, and the identity
`Rot(ONext(Rot(ONext(r)))) = r` for every record, as in every mesh built by
`New` and by `Splice` on records of one kind) and primal records `a`, `b` the
mesh after `Splice(a, b)` is well-formed again, so the identity holds for
every record; `Splice` changes no `next` pointer other than those of `a`, `b`,
`Rot(ONext(a))` and `Rot(ONext(b))`; and a second `Splice(a, b)` gives back the
mesh it started from. -/
theorem splice_keeps_edge_algebra (m : Mesh) (h : WellFormed m) (a b : Nat)
    (ha : a < m.recs.length) (hb : b < m.recs.length)
    (hpa : IsPrimal a) (hpb : IsPrimal b) :
    WellFormed (Splice m (some a) (some b)) ∧
      EdgeAlgebra (Splice m (some a) (some b)) ∧
      (∀ r, r ≠ a → r ≠ b → r ≠ Rot (ONext m a) → r ≠ Rot (ONext m b) →
        ONext (Splice m (some a) (some b)) r = ONext m r) ∧
      Splice (Splice m (some a) (some b)) (some a) (some b) = m := by
  have h1 := h.Splice ha hb hpa hpb
  refine ⟨h1, h1.inverse, ?_, Splice_Splice h ha hb hpa hpb⟩
  intro r ra rb ral rbe
  rw [ONext_Splice_raw]
  simp [ra, rb, ral, rbe]

/-- C23, witness: two isolated edges, `Splice(0, 4)`. -/
theorem splice_keeps_edge_algebra_witness :
    WellFormed twoEdges ∧ IsPrimal 0 ∧ IsPrimal 4 ∧
      WellFormed (Splice twoEdges (some 0) (some 4)) ∧
      EdgeAlgebra (Splice twoEdges (some 0) (some 4)) ∧
      (∀ r, r ≠ 0 → r ≠ 4 → r ≠ Rot (ONext twoEdges 0) → r ≠ Rot (ONext twoEdges 4) →
        ONext (Splice twoEdges (some 0) (some 4)) r = ONext twoEdges r) ∧
      Splice (Splice twoEdges (some 0) (some 4)) (some 0) (some 4) = twoEdges :=
  ⟨twoEdges_wellFormed, by decide, by decide,
    splice_keeps_edge_algebra twoEdges twoEdges_wellFormed 0 4 (by decide) (by decide)
      (by decide) (by decide)⟩

theorem iterate_lt_of_closed {f : Nat → Nat} {N : Nat} (hcl : ∀ r, r < N → f r < N)
    {r : Nat} (hr : r < N) : ∀ k, f^[k] r < N := by
  intro k
  induction k with
  | zero => exact hr
  | succ k ih => rw [iterate_succ_apply']; exact hcl _ ih

theorem iterate_inj_of_injOn {f : Nat → Nat} {N : Nat} (hcl : ∀ r, r < N → f r < N)
    (hinj : ∀ x y, x < N → y < N → f x = f y → x = y) :
    ∀ k x y, x < N → y < N → f^[k] x = f^[k] y → x = y := by
  intro k
  induction k with
  | zero => intro x y _ _ h; exact h
  | succ k ih =>
    intro x y hx hy h
    rw [iterate_succ_apply, iterate_succ_apply] at h
    exact hinj x y hx hy (ih _ _ (hcl x hx) (hcl y hy) h)

/-- A map of the records below `N` into themselves that is injective there has
only periodic points below `N`. -/
theorem periodic_of_injOn {f : Nat → Nat} {N : Nat} (hcl : ∀ r, r < N → f r < N)
    (hinj : ∀ x y, x < N → y < N → f x = f y → x = y) {r : Nat} (hr : r < N) :
    r ∈ periodicPts f := by
  obtain ⟨i, j, hij, heq⟩ := Finite.exists_ne_map_eq_of_infinite
    (fun k : Nat => (⟨f^[k] r, iterate_lt_of_closed hcl hr k⟩ : Fin N))
  have heq' : f^[i] r = f^[j] r := congrArg Fin.val heq
  have key : ∀ i d, 0 < d → f^[i] r = f^[i + d] r → r ∈ periodicPts f := by
    intro i d hd he
    rw [iterate_add_apply] at he
    have h1 := iterate_inj_of_injOn hcl hinj i _ _ hr (iterate_lt_of_closed hcl hr d) he
    exact mk_mem_periodicPts hd h1.symm
  rcases lt_or_gt_of_ne hij with hlt | hgt
  · have : j = i + (j - i) := by omega
    rw [this] at heq'
    exact key i (j - i) (by omega) heq'
  · have : i = j + (i - j) := by omega
    rw [this] at heq'
    exact key j (i - j) (by omega) heq'.symm

theorem WellFormed.LNext_periodic {m : Mesh} (h : WellFormed m) {r : Nat}
    (hr : r < m.recs.length) : r ∈ periodicPts (LNext m) :=
  periodic_of_injOn (fun _ hx => h.LNext_lt hx)
    (fun _ _ hx hy hxy => h.LNext_injective hx hy hxy) hr

/-- The ring loop of `constructTriangleEdges`, started at a record `curr` that
comes back to `e` after exactly `d` steps of `LNext`: it collects these `d`
records, marks them visited, and pushes `Sym` of each unless it is visited. -/
theorem ringLoop_iterate (m : Mesh) (e : Nat) :
    ∀ (d fuel curr : Nat) (tri tp vis : List Nat), d + 1 ≤ fuel →
      (LNext m)^[d + 1] curr = e →
      (∀ k, 0 < k → k < d + 1 → (LNext m)^[k] curr ≠ e) →
      ∃ tp', ringLoop m e fuel curr tri tp vis =
          some (tri ++ List.iterate (LNext m) curr (d + 1), tp',
            (List.iterate (LNext m) curr (d + 1)).reverse ++ vis) ∧
        (∀ z, z ∈ tp' → z ∈ tp ∨ ∃ c, c ∈ List.iterate (LNext m) curr (d + 1) ∧ z = Sym c) ∧
        (∀ z, z ∈ tp → z ∈ tp') ∧
        (∀ c, c ∈ List.iterate (LNext m) curr (d + 1) →
          Sym c ∈ tp' ∨ Sym c ∈ (List.iterate (LNext m) curr (d + 1)).reverse ++ vis) ∧
        tp'.length ≤ tp.length + (d + 1) := by
  intro d
  induction d with
  | zero =>
    intro fuel curr tri tp vis hf hper _
    obtain ⟨n, rfl⟩ : ∃ n, fuel = n + 1 := ⟨fuel - 1, by omega⟩
    simp only [zero_add, iterate_one] at hper
    refine ⟨if vis.contains (Sym curr) then tp else Sym curr :: tp, ?_, ?_, ?_, ?_, ?_⟩
    · simp only [ringLoop, hper, if_true, zero_add, List.iterate, List.reverse_cons,
        List.reverse_nil, List.nil_append, List.singleton_append]
    · intro z hz
      simp only [zero_add, List.iterate, List.mem_singleton]
      split_ifs at hz with hc
      · exact Or.inl hz
      · rcases List.mem_cons.1 hz with h1 | h1
        · exact Or.inr ⟨curr, rfl, h1⟩
        · exact Or.inl h1
    · intro z hz
      split_ifs with hc
      · exact hz
      · exact List.mem_cons_of_mem _ hz
    · intro c hc
      simp only [zero_add, List.iterate, List.mem_singleton] at hc
      subst hc
      by_cases hv : vis.contains (Sym c) = true
      · right
        have : Sym c ∈ vis := by simpa using hv
        simp [this]
      · left
        rw [if_neg hv]
        exact List.mem_cons_self _ _
    · split_ifs
      · omega
      · simp only [List.length_cons]; omega
  | succ d ih =>
    intro fuel curr tri tp vis hf hper hmin
    obtain ⟨n, rfl⟩ : ∃ n, fuel = n + 1 := ⟨fuel - 1, by omega⟩
    have hne : LNext m curr ≠ e := by
      have := hmin 1 (by omega) (by omega)
      simpa using this
    have hper' : (LNext m)^[d + 1] (LNext m curr) = e := by
      rw [← iterate_succ_apply]; exact hper
    have hmin' : ∀ k, 0 < k → k < d + 1 → (LNext m)^[k] (LNext m curr) ≠ e := by
      intro k hk hk2
      rw [← iterate_succ_apply]
      exact hmin (k + 1) (by omega) (by omega)
    obtain ⟨tp', h1, h2, h3, h4, h5⟩ := ih n (LNext m curr) (tri ++ [curr])
      (if vis.contains (Sym curr) then tp else Sym curr :: tp) (curr :: vis)
      (by omega) hper' hmin'
    have hit : List.iterate (LNext m) curr (d + 1 + 1) =
        curr :: List.iterate (LNext m) (LNext m curr) (d + 1) := rfl
    refine ⟨tp', ?_, ?_, ?_, ?_, ?_⟩
    · simp only [ringLoop, if_neg hne]
      rw [h1, hit]
      simp
    · intro z hz
      rcases h2 z hz with h6 | ⟨c, hc, hz2⟩
      · split_ifs at h6 with hc
        · exact Or.inl h6
        · rcases List.mem_cons.1 h6 with h7 | h7
          · exact Or.inr ⟨curr, by rw [hit]; exact List.mem_cons_self _ _, h7⟩
          · exact Or.inl h7
      · exact Or.inr ⟨c, by rw [hit]; exact List.mem_cons_of_mem _ hc, hz2⟩
    · intro z hz
      apply h3
      split_ifs
      · exact hz
      · exact List.mem_cons_of_mem _ hz
    · intro c hc
      rw [hit] at hc ⊢
      rcases List.mem_cons.1 hc with h6 | h6
      · subst h6
        by_cases hv : vis.contains (Sym c) = true
        · right
          have : Sym c ∈ vis := by simpa using hv
          simp [this]
        · left
          apply h3
          rw [if_neg hv]
          exact List.mem_cons_self _ _
      · rcases h4 c h6 with h7 | h7
        · exact Or.inl h7
        · right
          simp only [List.mem_append, List.mem_reverse, List.mem_cons] at h7 ⊢
          tauto
    · have : (if vis.contains (Sym curr) then tp else Sym curr :: tp).length ≤ tp.length + 1 := by
        split_ifs
        · omega
        · simp
      omega

/-- The whole `LNext` orbit of a record is a complete left-face ring. -/
theorem isFaceRing_iterate (m : Mesh) (e p : Nat) (hp : 0 < p)
    (hper : (LNext m)^[p] e = e) : IsFaceRing m (List.iterate (LNext m) e p) := by
  obtain ⟨q, rfl⟩ : ∃ q, p = q + 1 := ⟨p - 1, by omega⟩
  constructor
  · rw [← List.range_map_iterate, List.chain'_map, List.chain'_range_succ]
    intro k _
    exact iterate_succ_apply' _ _ _
  · refine ⟨e, (LNext m)^[q] e, rfl, ?_, ?_⟩
    · rw [← List.range_map_iterate, List.range_succ, List.map_append]
      simp
    · rw [← iterate_succ_apply' (LNext m) q e]
      exact hper

theorem mem_iterate_orbit {f : Nat → Nat} {e p c : Nat} (hper : f^[p] e = e)
    (hc : c ∈ List.iterate f e p) : ∃ j, f^[j] c = e := by
  obtain ⟨k, hk, rfl⟩ := List.mem_iterate.1 hc
  refine ⟨p - k, ?_⟩
  rw [← iterate_add_apply]
  have : p - k + k = p := by omega
  rw [this]
  exact hper

theorem mem_iterate_next {f : Nat → Nat} {e p c : Nat} (hp : 0 < p) (hper : f^[p] e = e)
    (hc : c ∈ List.iterate f e p) : f c ∈ List.iterate f e p := by
  obtain ⟨k, hk, rfl⟩ := List.mem_iterate.1 hc
  by_cases h : k + 1 < p
  · exact List.mem_iterate.2 ⟨k + 1, h, (iterate_succ_apply' _ _ _).symm⟩
  · have hkp : k + 1 = p := by omega
    refine List.mem_iterate.2 ⟨0, hp, ?_⟩
    rw [← iterate_succ_apply' f k e]
    show f^[k + 1] e = _
    rw [hkp, hper]
    rfl

theorem nodup_iterate_minimalPeriod (f : Nat → Nat) (e : Nat) :
    (List.iterate f e (minimalPeriod f e)).Nodup := by
  rw [← List.range_map_iterate]
  apply List.Nodup.map_on _ (List.nodup_range _)
  intro x hx y hy hxy
  exact iterate_injOn_Iio_minimalPeriod (by simpa using hx) (by simpa using hy) hxy

/-- Dropping a visited record from the stack keeps the invariant. -/
theorem FaceInv.skipVisited {m : Mesh} {N se e : Nat} {rest visited : List Nat}
    {faces : List (List Nat)} (h : FaceInv m N se (e :: rest) visited faces)
    (hv : e ∈ visited) : FaceInv m N se rest visited faces where
  vis := h.vis
  nodup := h.nodup
  rings := h.rings
  closedL := h.closedL
  sym := by
    intro z hz
    rcases h.sym z hz with h1 | h1
    · exact Or.inl h1
    · rcases List.mem_cons.1 h1 with h2 | h2
      · exact Or.inl (h2 ▸ hv)
      · exact Or.inr h2
  reachS := fun z hz => h.reachS z (List.mem_cons_of_mem _ hz)
  reachV := h.reachV
  start := by
    rcases h.start with h1 | h1
    · exact Or.inl h1
    · rcases List.mem_cons.1 h1 with h2 | h2
      · exact Or.inl (h2 ▸ hv)
      · exact Or.inr h2
  ltS := fun z hz => h.ltS z (List.mem_cons_of_mem _ hz)
  ltV := h.ltV
  nodupV := h.nodupV

/-- Collecting the ring of an unvisited record keeps the invariant; `tp` is the
stack after the ring loop. -/
theorem FaceInv.ring {m : Mesh} (hm : WellFormed m) {se e : Nat}
    {rest visited tp : List Nat} {faces : List (List Nat)}
    (h : FaceInv m m.recs.length se (e :: rest) visited faces) (hv : e ∉ visited)
    (h2 : ∀ z, z ∈ tp → z ∈ rest ∨
      ∃ c, c ∈ List.iterate (LNext m) e (minimalPeriod (LNext m) e) ∧ z = Sym c)
    (h3 : ∀ z, z ∈ rest → z ∈ tp)
    (h4 : ∀ c, c ∈ List.iterate (LNext m) e (minimalPeriod (LNext m) e) → Sym c ∈ tp ∨
      Sym c ∈ (List.iterate (LNext m) e (minimalPeriod (LNext m) e)).reverse ++ visited) :
    FaceInv m m.recs.length se tp
      ((List.iterate (LNext m) e (minimalPeriod (LNext m) e)).reverse ++ visited)
      (faces ++ [List.iterate (LNext m) e (minimalPeriod (LNext m) e)]) := by
  have he : e < m.recs.length := h.ltS e (List.mem_cons_self _ _)
  have hre : FaceReach m se e := h.reachS e (List.mem_cons_self _ _)
  have hpp := hm.LNext_periodic he
  have hp := minimalPeriod_pos_of_mem_periodicPts hpp
  have hper : (LNext m)^[minimalPeriod (LNext m) e] e = e := iterate_minimalPeriod
  generalize hring : List.iterate (LNext m) e (minimalPeriod (LNext m) e) = ring at *
  have hmem : ∀ c, c ∈ ring → ∃ k, c = (LNext m)^[k] e := by
    intro c hc
    rw [← hring] at hc
    obtain ⟨k, _, hk⟩ := List.mem_iterate.1 hc
    exact ⟨k, hk⟩
  have hlt : ∀ c, c ∈ ring → c < m.recs.length := by
    intro c hc
    obtain ⟨k, rfl⟩ := hmem c hc
    exact iterate_lt_of_closed (fun _ hx => hm.LNext_lt hx) he k
  have hreach : ∀ c, c ∈ ring → FaceReach m se c := by
    intro c hc
    obtain ⟨k, rfl⟩ := hmem c hc
    clear hc
    induction k with
    | zero => exact hre
    | succ k ih => rw [iterate_succ_apply']; exact FaceReach.lnext ih
  have hclosedV : ∀ j z, z ∈ visited → (LNext m)^[j] z ∈ visited := by
    intro j
    induction j with
    | zero => intro z hz; exact hz
    | succ j ih => intro z hz; rw [iterate_succ_apply']; exact h.closedL _ (ih z hz)
  have hdisj : ∀ c, c ∈ ring → c ∉ visited := by
    intro c hc hcv
    rw [← hring] at hc
    obtain ⟨j, hj⟩ := mem_iterate_orbit hper hc
    exact hv (hj ▸ hclosedV j c hcv)
  have hnd : ring.Nodup := by
    rw [← hring]
    exact nodup_iterate_minimalPeriod _ _
  have hein : e ∈ ring := by
    rw [← hring]
    exact List.mem_iterate.2 ⟨0, hp, rfl⟩
  refine ⟨?_, ?_, ?_, ?_, ?_, ?_, ?_, ?_, ?_, ?_, ?_⟩
  · intro x
    simp only [List.mem_append, List.mem_reverse, List.flatten_append, List.flatten_cons,
      List.flatten_nil, List.append_nil]
    rw [h.vis x]
    tauto
  · simp only [List.flatten_append, List.flatten_cons, List.flatten_nil, List.append_nil]
    rw [List.nodup_append]
    refine ⟨h.nodup, hnd, ?_⟩
    intro a ha hb
    exact hdisj a hb ((h.vis a).2 ha)
  · intro f hf
    rcases List.mem_append.1 hf with h5 | h5
    · exact h.rings f h5
    · rw [List.mem_singleton] at h5
      exact ⟨e, minimalPeriod (LNext m) e, hp, by rw [h5, hring], hper⟩
  · intro z hz
    simp only [List.mem_append, List.mem_reverse] at hz ⊢
    rcases hz with h5 | h5
    · left
      rw [← hring] at h5 ⊢
      exact mem_iterate_next hp hper h5
    · exact Or.inr (h.closedL z h5)
  · intro z hz
    rcases List.mem_append.1 hz with h5 | h5
    · rcases h4 z (List.mem_reverse.1 h5) with h6 | h6
      · exact Or.inr h6
      · exact Or.inl h6
    · rcases h.sym z h5 with h6 | h6
      · exact Or.inl (List.mem_append_right _ h6)
      · rcases List.mem_cons.1 h6 with h7 | h7
        · left
          rw [h7]
          exact List.mem_append_left _ (List.mem_reverse.2 hein)
        · exact Or.inr (h3 _ h7)
  · intro z hz
    rcases h2 z hz with h5 | ⟨c, hc, rfl⟩
    · exact h.reachS z (List.mem_cons_of_mem _ h5)
    · exact FaceReach.sym (hreach c hc)
  · intro z hz
    rcases List.mem_append.1 hz with h5 | h5
    · exact hreach z (List.mem_reverse.1 h5)
    · exact h.reachV z h5
  · rcases h.start with h5 | h5
    · exact Or.inl (List.mem_append_right _ h5)
    · rcases List.mem_cons.1 h5 with h6 | h6
      · left
        rw [h6]
        exact List.mem_append_left _ (List.mem_reverse.2 hein)
      · exact Or.inr (h3 _ h6)
  · intro z hz
    rcases h2 z hz with h5 | ⟨c, hc, rfl⟩
    · exact h.ltS z (List.mem_cons_of_mem _ h5)
    · exact Sym_lt hm.quads (hlt c hc)
  · intro z hz
    rcases List.mem_append.1 hz with h5 | h5
    · exact hlt z (List.mem_reverse.1 h5)
    · exact h.ltV z h5
  · rw [List.nodup_append]
    refine ⟨List.nodup_reverse.2 hnd, h.nodupV, ?_⟩
    intro a ha hb
    exact hdisj a (List.mem_reverse.1 ha) hb

/-- With an empty stack the lists hold every record reached from `se`. -/
theorem FaceInv.covers {m : Mesh} {N se : Nat} {visited : List Nat} {faces : List (List Nat)}
    (h : FaceInv m N se [] visited faces) (x : Nat) (hx : FaceReach m se x) :
    x ∈ faces.flatten := by
  have hv : x ∈ visited := by
    induction hx with
    | start =>
      rcases h.start with h1 | h1
      · exact h1
      · cases h1
    | lnext _ ih => exact h.closedL _ ih
    | sym _ ih =>
      rcases h.sym _ ih with h1 | h1
      · exact h1
      · cases h1
  exact (h.vis x).1 hv

/-- The start of a triangle walk: nothing visited, the start edge on the stack. -/
theorem FaceInv.atStart (m : Mesh) {N se : Nat} (hs : se < N) : FaceInv m N se [se] [] [] where
  vis := by simp
  nodup := by simp
  rings := by simp
  closedL := by simp
  sym := by simp
  reachS := by
    intro z hz
    rw [List.mem_singleton] at hz
    rw [hz]
    exact FaceReach.start
  reachV := by simp
  start := Or.inr (List.mem_singleton_self _)
  ltS := by
    intro z hz
    rw [List.mem_singleton] at hz
    rw [hz]
    exact hs
  ltV := by simp
  nodupV := List.nodup_nil

/-- The loop of `WalkAllTriangleEdges` in a well-formed mesh: with fuel above
twice the unvisited records plus the stack it ends with no error, whatever the
callback that always returns nil, and the lists passed to the callback are
complete left-face rings that hold every record reached from `se` once. -/
theorem walkTrianglesLoop_faces (m : Mesh) (hm : WellFormed m) (se rfuel : Nat)
    (hr : m.recs.length ≤ rfuel) :
    ∀ (fuel : Nat) (stack visited : List Nat) (faces : List (List Nat)),
      FaceInv m m.recs.length se stack visited faces →
      2 * (m.recs.length - visited.length) + stack.length < fuel →
      ∃ more : List (List Nat),
        (∀ f, f ∈ faces ++ more → IsFaceRing m f) ∧ (faces ++ more).flatten.Nodup ∧
        (∀ x, FaceReach m se x → x ∈ (faces ++ more).flatten) ∧
        (∀ x, x ∈ (faces ++ more).flatten → FaceReach m se x) ∧
        ∀ (σ : Type) (fn : σ → List Nat → Option (σ × CbResult)) (g : σ → List Nat → σ)
          (st : σ), (∀ s l, fn s l = some (g s l, CbResult.ok)) →
          walkTrianglesLoop m fn rfuel fuel stack visited st = some (more.foldl g st, none) := by
  intro fuel
  induction fuel with
  | zero => intro _ _ _ _ h; omega
  | succ n ih =>
    intro stack visited faces hinv hf
    cases stack with
    | nil =>
      refine ⟨[], ?_, ?_, ?_, ?_, ?_⟩
      · intro f hf2
        rw [List.append_nil] at hf2
        obtain ⟨e, p, hp, rfl, hper⟩ := hinv.rings f hf2
        exact isFaceRing_iterate m e p hp hper
      · rw [List.append_nil]; exact hinv.nodup
      · rw [List.append_nil]; exact hinv.covers
      · rw [List.append_nil]
        intro x hx
        exact hinv.reachV x ((hinv.vis x).2 hx)
      · intro σ fn g st _
        simp [walkTrianglesLoop]
    | cons e rest =>
      by_cases hv : visited.contains e = true
      · have hmv : e ∈ visited := by simpa using hv
        obtain ⟨more, h1, h2, h3, h4, h5⟩ := ih rest visited faces (hinv.skipVisited hmv)
          (by simp only [List.length_cons] at hf; omega)
        refine ⟨more, h1, h2, h3, h4, ?_⟩
        intro σ fn g st hfn
        simp only [walkTrianglesLoop]
        rw [if_pos hv]
        exact h5 σ fn g st hfn
      · have hmv : e ∉ visited := by simpa using hv
        have he : e < m.recs.length := hinv.ltS e (List.mem_cons_self _ _)
        have hpp := hm.LNext_periodic he
        have hp := minimalPeriod_pos_of_mem_periodicPts hpp
        have hper : (LNext m)^[minimalPeriod (LNext m) e] e = e := iterate_minimalPeriod
        obtain ⟨d, hd⟩ : ∃ d, minimalPeriod (LNext m) e = d + 1 :=
          ⟨minimalPeriod (LNext m) e - 1, by omega⟩
        have hndr := nodup_iterate_minimalPeriod (LNext m) e
        have hltr : ∀ c, c ∈ List.iterate (LNext m) e (minimalPeriod (LNext m) e) →
            c < m.recs.length := by
          intro c hc
          obtain ⟨k, _, rfl⟩ := List.mem_iterate.1 hc
          exact iterate_lt_of_closed (fun _ hx => hm.LNext_lt hx) he k
        have hlenr := length_le_of_nodup_lt hndr hltr
        rw [List.length_iterate] at hlenr
        obtain ⟨tp, r1, r2, r3, r4, r5⟩ := ringLoop_iterate m e d rfuel e [] rest visited
          (by omega) (by rw [← hd]; exact hper)
          (fun k hk hk2 => iterate_ne_self_of_lt hk (by omega))
        rw [← hd] at r1 r2 r4 r5
        have hinv2 := hinv.ring hm hmv r2 r3 r4
        have hlen := length_le_of_nodup_lt hinv2.nodupV hinv2.ltV
        simp only [List.length_append, List.length_reverse, List.length_iterate] at hlen
        simp only [List.length_cons] at hf
        obtain ⟨more, h1, h2, h3, h4, h5⟩ := ih _ _ _ hinv2
          (by simp only [List.length_append, List.length_reverse, List.length_iterate]; omega)
        refine ⟨List.iterate (LNext m) e (minimalPeriod (LNext m) e) :: more, ?_, ?_, ?_, ?_, ?_⟩
        · intro f hf2
          apply h1
          simpa using hf2
        · simpa using h2
        · intro x hx
          simpa using h3 x hx
        · intro x hx
          apply h4
          simpa using hx
        · intro σ fn g st hfn
          simp only [walkTrianglesLoop]
          rw [if_neg hv]
          simp only [constructTriangleEdges]
          rw [if_neg hv, r1]
          simp only [List.nil_append, hfn, List.foldl_cons]
          exact h5 σ fn g _ hfn

/-- C21: for every well-formed mesh, every start edge `se` of the mesh and
every fuel from `2 * length + 2` on there are edge lists `faces` such that:
every list is a complete left-face ring (each element is `LNext` of the one
before it, and `LNext` of the last is the first); no record is in two of the
lists or twice in one; every record reached from `se` by `LNext` and `Sym`
steps is in one of the lists, and the lists hold only such records; and for
every callback `fn` that always returns nil, `WalkAllTriangleEdges(se, fn)`
returns nil, and the state at the end is that of calling `fn` on the lists
`faces` one after the other, once each. -/
theorem walkAllTriangleEdges_each_face_once (m : Mesh) (hm : WellFormed m) (se : Nat)
    (hse : se < m.recs.length) (fuel : Nat) (hf : 2 * m.recs.length + 2 ≤ fuel) :
    ∃ faces : List (List Nat),
      (∀ f, f ∈ faces → IsFaceRing m f) ∧ faces.flatten.Nodup ∧
      (∀ x, FaceReach m se x → x ∈ faces.flatten) ∧
      (∀ x, x ∈ faces.flatten → FaceReach m se x) ∧
      ∀ (σ : Type) (fn : σ → List Nat → Option (σ × CbResult)) (g : σ → List Nat → σ)
        (st : σ), (∀ s l, fn s l = some (g s l, CbResult.ok)) →
        WalkAllTriangleEdges fuel m (some se) fn st = some (faces.foldl g st, none) := by
  obtain ⟨faces, h1, h2, h3, h4, h5⟩ :=
    walkTrianglesLoop_faces m hm se fuel (by omega) fuel [se] [] []
      (FaceInv.atStart m hse) (by simp only [List.length_nil, List.length_singleton]; omega)
  simp only [List.nil_append] at h1 h2 h3 h4
  exact ⟨faces, h1, h2, h3, h4, fun σ fn g st hfn => h5 σ fn g st hfn⟩

/-- C21, witness: the frame `New((-1000,-1000), (1000,-1000), (0,1000))`,
walked from its starting edge with fuel 26. -/
theorem walkAllTriangleEdges_each_face_once_witness :
    WellFormed frame0.mesh ∧ 0 < frame0.mesh.recs.length ∧
    ∃ faces : List (List Nat),
      (∀ f, f ∈ faces → IsFaceRing frame0.mesh f) ∧ faces.flatten.Nodup ∧
      (∀ x, FaceReach frame0.mesh 0 x → x ∈ faces.flatten) ∧
      (∀ x, x ∈ faces.flatten → FaceReach frame0.mesh 0 x) ∧
      ∀ (σ : Type) (fn : σ → List Nat → Option (σ × CbResult)) (g : σ → List Nat → σ)
        (st : σ), (∀ s l, fn s l = some (g s l, CbResult.ok)) →
        WalkAllTriangleEdges 26 frame0.mesh (some 0) fn st = some (faces.foldl g st, none) :=
  ⟨frame0_wellFormed, by decide,
    walkAllTriangleEdges_each_face_once frame0.mesh frame0_wellFormed 0 (by decide) 26
      (by decide)⟩

theorem CCW_iff (a b c : Point) : CCW a b c = true ↔ 0 < ccwI a b c := by
  simp [CCW, ccwI]

theorem ccwI_rotate (a b c : Point) : ccwI b c a = ccwI a b c := by
  unfold ccwI; ring

theorem ccwI_swap (a b c : Point) : ccwI a c b = - ccwI a b c := by
  unfold ccwI; ring

theorem ccwI_self_left (a b : Point) : ccwI a a b = 0 := by
  unfold ccwI; ring

theorem ccwI_self_right (a b : Point) : ccwI a b b = 0 := by
  unfold ccwI; ring

theorem ccwI_self_outer (a b : Point) : ccwI a b a = 0 := by
  unfold ccwI; ring

/-- The three areas seen from a point add up to the area of the triangle. -/
theorem ccwI_sum (x p q t : Point) :
    ccwI x p q + ccwI x q t + ccwI x t p = ccwI p q t := by
  unfold ccwI; ring

/-- The algebra behind `flip_convex`: with `A`, `u`, `v` the areas seen from the
point and `N` the value of the in-circle determinant times `A`, a non-positive
`u` contradicts a positive `N`. -/
theorem flip_core (A u v px py dx dy : Int) (hA : 0 < A) (huv : 0 < u + v - A)
    (hN : 0 < v * (A - v) * (px * px + py * py) + u * (A - u) * (dx * dx + dy * dy)
        - 2 * u * v * (px * dx + py * dy)) : 0 < u := by
  by_contra hneg
  have hu0 : u ≤ 0 := not_lt.1 hneg
  have hvA : 0 < v - A := by linarith
  have hv0 : 0 < v := by linarith
  have hX : 0 < v * (v - A) := mul_pos hv0 hvA
  have hXI := mul_pos hX hN
  have hZ : 0 ≤ (-u) * v * A * (v - A - (-u)) * (dx * dx + dy * dy) := by
    have h5 : 0 ≤ (-u) * v := mul_nonneg (by linarith) hv0.le
    have h6 : 0 ≤ (-u) * v * A := mul_nonneg h5 hA.le
    have h7 : 0 ≤ (-u) * v * A * (v - A - (-u)) := mul_nonneg h6 (by linarith)
    exact mul_nonneg h7 (add_nonneg (mul_self_nonneg dx) (mul_self_nonneg dy))
  have s1 := sq_nonneg (v * (v - A) * px - (-u) * v * dx)
  have s2 := sq_nonneg (v * (v - A) * py - (-u) * v * dy)
  have hid : v * (v - A) * (v * (A - v) * (px * px + py * py)
      + u * (A - u) * (dx * dx + dy * dy) - 2 * u * v * (px * dx + py * dy))
      + ((v * (v - A) * px - (-u) * v * dx) ^ 2 + (v * (v - A) * py - (-u) * v * dy) ^ 2
      + (-u) * v * A * (v - A - (-u)) * (dx * dx + dy * dy)) = 0 := by ring
  linarith

/-- A point in the circle through `P`, `T`, `D` and across the chord `P D` from
`T` sees the quadrilateral `P`, `T`, `D`, `x` as convex: the flipped edge from
`T` to `x` has `P` on its left and `D` on its right. -/
theorem flip_convex (P D T x : Point) (h1 : 0 < ccwI P D x) (h2 : 0 < ccwI T D P)
    (h3 : InCircle P T D x = true) : 0 < ccwI T x P ∧ 0 < ccwI x T D := by
  have hI : 0 < ((P.x - x.x) * (P.x - x.x) + (P.y - x.y) * (P.y - x.y)) *
        ((T.x - x.x) * (D.y - x.y) - (D.x - x.x) * (T.y - x.y))
      - ((T.x - x.x) * (T.x - x.x) + (T.y - x.y) * (T.y - x.y)) *
        ((P.x - x.x) * (D.y - x.y) - (D.x - x.x) * (P.y - x.y))
      + ((D.x - x.x) * (D.x - x.x) + (D.y - x.y) * (D.y - x.y)) *
        ((P.x - x.x) * (T.y - x.y) - (T.x - x.x) * (P.y - x.y)) := by
    simpa [InCircle] using h3
  have hAI := mul_pos h1 hI
  have eA : ccwI P D x = (P.x - x.x) * (D.y - x.y) - (P.y - x.y) * (D.x - x.x) := by
    unfold ccwI; ring
  have eu : ccwI T x P = (P.x - x.x) * (T.y - x.y) - (P.y - x.y) * (T.x - x.x) := by
    unfold ccwI; ring
  have ev : ccwI x T D = (T.x - x.x) * (D.y - x.y) - (T.y - x.y) * (D.x - x.x) := by
    unfold ccwI; ring
  have e2 : ccwI T D P = ccwI T x P + ccwI x T D - ccwI P D x := by
    unfold ccwI; ring
  have key : ccwI P D x * (((P.x - x.x) * (P.x - x.x) + (P.y - x.y) * (P.y - x.y)) *
        ((T.x - x.x) * (D.y - x.y) - (D.x - x.x) * (T.y - x.y))
      - ((T.x - x.x) * (T.x - x.x) + (T.y - x.y) * (T.y - x.y)) *
        ((P.x - x.x) * (D.y - x.y) - (D.x - x.x) * (P.y - x.y))
      + ((D.x - x.x) * (D.x - x.x) + (D.y - x.y) * (D.y - x.y)) *
        ((P.x - x.x) * (T.y - x.y) - (T.x - x.x) * (P.y - x.y)))
      = ccwI x T D * (ccwI P D x - ccwI x T D) *
          ((P.x - x.x) * (P.x - x.x) + (P.y - x.y) * (P.y - x.y))
        + ccwI T x P * (ccwI P D x - ccwI T x P) *
          ((D.x - x.x) * (D.x - x.x) + (D.y - x.y) * (D.y - x.y))
        - 2 * ccwI T x P * ccwI x T D *
          ((P.x - x.x) * (D.x - x.x) + (P.y - x.y) * (D.y - x.y)) := by
    rw [eA, eu, ev]; ring
  rw [key] at hAI
  rw [e2] at h2
  constructor
  · exact flip_core _ _ _ _ _ _ _ h1 h2 hAI
  · refine flip_core (ccwI P D x) (ccwI x T D) (ccwI T x P) (D.x - x.x) (D.y - x.y)
      (P.x - x.x) (P.y - x.y) h1 (by linarith) ?_
    linarith

theorem IsPointOn_iff (a b p : Point) :
    IsPointOn a b p = true ↔
      ccwI a b p = 0 ∧ min a.x b.x ≤ p.x ∧ p.x ≤ max a.x b.x ∧
        min a.y b.y ≤ p.y ∧ p.y ≤ max a.y b.y := by
  simp [IsPointOn, ccwI]

/-- A number `w` with `w * D = u * s` for `0 < s < D` lies between 0 and `u`. -/
theorem between_of_scaled (w u s D : Int) (hs : 0 < s) (hsD : s < D) (h : w * D = u * s) :
    (0 ≤ u → 0 ≤ w ∧ w ≤ u) ∧ (u ≤ 0 → u ≤ w ∧ w ≤ 0) := by
  have hD : 0 < D := by linarith
  constructor
  · intro hu
    constructor
    · by_contra hw
      have : w * D < 0 := mul_neg_of_neg_of_pos (not_le.1 hw) hD
      have : 0 ≤ u * s := mul_nonneg hu hs.le
      linarith
    · by_contra hw
      have h1 : 0 < (w - u) * D := mul_pos (by linarith) hD
      have h2 : 0 ≤ u * (D - s) := mul_nonneg hu (by linarith)
      nlinarith
  · intro hu
    constructor
    · by_contra hw
      have h1 : 0 < (u - w) * D := mul_pos (by linarith) hD
      have h2 : 0 ≤ (-u) * (D - s) := mul_nonneg (by linarith) (by linarith)
      nlinarith
    · by_contra hw
      have : 0 < w * D := mul_pos (not_le.1 hw) hD
      have : u * s ≤ 0 := mul_nonpos_of_nonpos_of_nonneg hu hs.le
      linarith

/-- A point that is strictly left of two sides of a counterclockwise triangle
and on the line of the third side lies on that side. -/
theorem on_side_of_collinear (p q t x : Point)
    (h1 : 0 < ccwI x t p) (h2 : 0 < ccwI x q t) (h3 : ccwI x p q = 0) :
    IsPointOn p q x = true := by
  rw [IsPointOn_iff]
  have hsum := ccwI_sum x p q t
  have hs : ccwI x t p < ccwI p q t := by linarith
  have c0 : ccwI p q x = 0 := by rw [ccwI_rotate x p q]; exact h3
  have ex : (x.x - p.x) * ccwI p q t = (q.x - p.x) * ccwI x t p := by
    have : (x.x - p.x) * ccwI p q t - (q.x - p.x) * ccwI x t p
        = (t.x - p.x) * ccwI p q x := by unfold ccwI; ring
    rw [c0] at this
    linarith
  have ey : (x.y - p.y) * ccwI p q t = (q.y - p.y) * ccwI x t p := by
    have : (x.y - p.y) * ccwI p q t - (q.y - p.y) * ccwI x t p
        = (t.y - p.y) * ccwI p q x := by unfold ccwI; ring
    rw [c0] at this
    linarith
  have bx := between_of_scaled _ _ _ _ h1 hs ex
  have by_ := between_of_scaled _ _ _ _ h1 hs ey
  refine ⟨c0, ?_, ?_, ?_, ?_⟩
  · rcases le_total 0 (q.x - p.x) with h | h
    · have := (bx.1 h).1
      exact le_trans (min_le_left _ _) (by linarith)
    · have := (bx.2 h).1
      exact le_trans (min_le_right _ _) (by linarith)
  · rcases le_total 0 (q.x - p.x) with h | h
    · have := (bx.1 h).2
      exact le_trans (by linarith) (le_max_right _ _)
    · have := (bx.2 h).2
      exact le_trans (by linarith) (le_max_left _ _)
  · rcases le_total 0 (q.y - p.y) with h | h
    · have := (by_.1 h).1
      exact le_trans (min_le_left _ _) (by linarith)
    · have := (by_.2 h).1
      exact le_trans (min_le_right _ _) (by linarith)
  · rcases le_total 0 (q.y - p.y) with h | h
    · have := (by_.1 h).2
      exact le_trans (by linarith) (le_max_right _ _)
    · have := (by_.2 h).2
      exact le_trans (by linarith) (le_max_left _ _)

/-- For a point `x` of the segment from `p` to `q` other than `p`, a point `g`
strictly on one side of the line sees `p`, `x` in the same order as `p`, `q`:
with `w = x - p` inside the box of `u = q - p` and parallel to it,
`g × w` has the sign of `g × u`. -/
theorem cross_scaled_pos (ux uy wx wy gx gy : Int) (hpar : ux * wy - uy * wx = 0)
    (hx : (0 ≤ wx ∧ wx ≤ ux) ∨ (ux ≤ wx ∧ wx ≤ 0))
    (hy : (0 ≤ wy ∧ wy ≤ uy) ∨ (uy ≤ wy ∧ wy ≤ 0))
    (hw : wx ≠ 0 ∨ wy ≠ 0) (hg : 0 < gx * uy - gy * ux) : 0 < gx * wy - gy * wx := by
  have e1 : (gx * wy - gy * wx) * ux = (gx * uy - gy * ux) * wx := by
    have : (gx * wy - gy * wx) * ux - (gx * uy - gy * ux) * wx
        = gx * (ux * wy - uy * wx) := by ring
    rw [hpar] at this; linarith
  have e2 : (gx * wy - gy * wx) * uy = (gx * uy - gy * ux) * wy := by
    have : (gx * wy - gy * wx) * uy - (gx * uy - gy * ux) * wy
        = gy * (ux * wy - uy * wx) := by ring
    rw [hpar] at this; linarith
  by_contra hneg
  have hle : gx * wy - gy * wx ≤ 0 := not_lt.1 hneg
  rcases hw with hwx | hwy
  · rcases hx with ⟨h1, h2⟩ | ⟨h1, h2⟩
    · have hwp : 0 < wx := lt_of_le_of_ne h1 (Ne.symm hwx)
      have hup : 0 < ux := by linarith
      have : 0 < (gx * uy - gy * ux) * wx := mul_pos hg hwp
      have : (gx * wy - gy * wx) * ux ≤ 0 := mul_nonpos_of_nonpos_of_nonneg hle hup.le
      linarith
    · have hwp : wx < 0 := lt_of_le_of_ne h2 hwx
      have hup : ux < 0 := by linarith
      have : (gx * uy - gy * ux) * wx < 0 := mul_neg_of_pos_of_neg hg hwp
      have : 0 ≤ (gx * wy - gy * wx) * ux := mul_nonneg_of_nonpos_of_nonpos hle hup.le
      linarith
  · rcases hy with ⟨h1, h2⟩ | ⟨h1, h2⟩
    · have hwp : 0 < wy := lt_of_le_of_ne h1 (Ne.symm hwy)
      have hup : 0 < uy := by linarith
      have : 0 < (gx * uy - gy * ux) * wy := mul_pos hg hwp
      have : (gx * wy - gy * wx) * uy ≤ 0 := mul_nonpos_of_nonpos_of_nonneg hle hup.le
      linarith
    · have hwp : wy < 0 := lt_of_le_of_ne h2 hwy
      have hup : uy < 0 := by linarith
      have : (gx * uy - gy * ux) * wy < 0 := mul_neg_of_pos_of_neg hg hwp
      have : 0 ≤ (gx * wy - gy * wx) * uy := mul_nonneg_of_nonpos_of_nonpos hle hup.le
      linarith

theorem box_of_min_max {a b c : Int} (h1 : min a b ≤ c) (h2 : c ≤ max a b) :
    (0 ≤ c - a ∧ c - a ≤ b - a) ∨ (b - a ≤ c - a ∧ c - a ≤ 0) := by
  rcases le_total a b with h | h
  · rw [min_eq_left h] at h1
    rw [max_eq_right h] at h2
    exact Or.inl ⟨by linarith, by linarith⟩
  · rw [min_eq_right h] at h1
    rw [max_eq_left h] at h2
    exact Or.inr ⟨by linarith, by linarith⟩

/-- A point `x` of the segment from `p` to `q`, other than its two ends, splits
a triangle `q`, `p`, `g` on the segment into two counterclockwise triangles
`p`, `g`, `x` and `g`, `q`, `x`. -/
theorem split_on_segment (p q g x : Point) (hon : IsPointOn p q x = true)
    (hp : x ≠ p) (hq : x ≠ q) (hg : 0 < ccwI q p g) :
    0 < ccwI p g x ∧ 0 < ccwI g q x := by
  rw [IsPointOn_iff] at hon
  obtain ⟨hc, hx1, hx2, hy1, hy2⟩ := hon
  have bx := box_of_min_max hx1 hx2
  have by_ := box_of_min_max hy1 hy2
  have hpar : (q.x - p.x) * (x.y - p.y) - (q.y - p.y) * (x.x - p.x) = 0 := hc
  have hw : x.x - p.x ≠ 0 ∨ x.y - p.y ≠ 0 := by
    by_contra h
    push_neg at h
    apply hp
    cases x; cases p
    simp only [Point.mk.injEq]
    simp only at h
    constructor <;> omega
  have hw2 : q.x - x.x ≠ 0 ∨ q.y - x.y ≠ 0 := by
    by_contra h
    push_neg at h
    apply hq
    cases x; cases q
    simp only [Point.mk.injEq]
    simp only at h
    constructor <;> omega
  have hgu : 0 < (g.x - p.x) * (q.y - p.y) - (g.y - p.y) * (q.x - p.x) := by
    have : ccwI q p g = (g.x - p.x) * (q.y - p.y) - (g.y - p.y) * (q.x - p.x) := by
      unfold ccwI; ring
    linarith
  constructor
  · have h := cross_scaled_pos (q.x - p.x) (q.y - p.y) (x.x - p.x) (x.y - p.y)
      (g.x - p.x) (g.y - p.y) hpar bx by_ hw hgu
    have : ccwI p g x = (g.x - p.x) * (x.y - p.y) - (g.y - p.y) * (x.x - p.x) := by
      unfold ccwI; ring
    linarith
  · have bx' : (0 ≤ q.x - x.x ∧ q.x - x.x ≤ q.x - p.x) ∨
        (q.x - p.x ≤ q.x - x.x ∧ q.x - x.x ≤ 0) := by
      rcases bx with ⟨a, b⟩ | ⟨a, b⟩
      · exact Or.inl ⟨by linarith, by linarith⟩
      · exact Or.inr ⟨by linarith, by linarith⟩
    have by' : (0 ≤ q.y - x.y ∧ q.y - x.y ≤ q.y - p.y) ∨
        (q.y - p.y ≤ q.y - x.y ∧ q.y - x.y ≤ 0) := by
      rcases by_ with ⟨a, b⟩ | ⟨a, b⟩
      · exact Or.inl ⟨by linarith, by linarith⟩
      · exact Or.inr ⟨by linarith, by linarith⟩
    have hpar' : (q.x - p.x) * (q.y - x.y) - (q.y - p.y) * (q.x - x.x) = 0 := by
      linarith
    have h := cross_scaled_pos (q.x - p.x) (q.y - p.y) (q.x - x.x) (q.y - x.y)
      (g.x - p.x) (g.y - p.y) hpar' bx' by' hw2 hgu
    have : ccwI g q x = (g.x - p.x) * (q.y - x.y) - (g.y - p.y) * (q.x - x.x)
        - ((q.x - p.x) * (q.y - x.y) - (q.y - p.y) * (q.x - x.x)) := by
      unfold ccwI; ring
    linarith

theorem Sym_Rot_eq_InvRot (y : Nat) : Sym (Rot y) = InvRot y := by
  unfold Sym Rot InvRot; omega

theorem DPrev_eq_Sym_LNext (m : Mesh) (e : Nat) : DPrev m e = Sym (LNext m e) := by
  unfold DPrev LNext
  rw [Sym_Rot_eq_InvRot]

theorem OPrev_eq_LNext_Sym (m : Mesh) (e : Nat) : OPrev m e = LNext m (Sym e) := by
  rw [LNext_eq_OPrev_Sym, Sym_Sym]

theorem LPrev_lt {m : Mesh} (h : WellFormed m) {r : Nat} (hr : r < m.recs.length) :
    LPrev m r < m.recs.length :=
  Sym_lt h.quads (h.closed r hr)

theorem LPrev_mod2 {m : Mesh} (h : WellFormed m) {r : Nat} (hr : r < m.recs.length) :
    LPrev m r % 2 = r % 2 := by
  unfold LPrev
  rw [Sym_mod2, h.role r hr]

theorem LNext_LPrev {m : Mesh} (h : WellFormed m) {r : Nat} (hr : r < m.recs.length) :
    LNext m (LPrev m r) = r := by
  rw [LNext_eq_OPrev_Sym]
  unfold LPrev
  rw [Sym_Sym]
  exact h.OPrev_next hr

/-- In a ring of three, `LNext` is `LPrev` twice. -/
theorem LNext_of_ring3 {m : Mesh} (h : WellFormed m) {r : Nat} (hr : r < m.recs.length)
    (h3 : LPrev m (LPrev m (LPrev m r)) = r) : LNext m r = LPrev m (LPrev m r) := by
  have h1 := LNext_LPrev h (LPrev_lt h (LPrev_lt h hr))
  rw [h3] at h1
  exact h1

theorem Dest_eq (m : Mesh) (r : Nat) : Dest m r = Org m (Sym r) := rfl

/-- The destination of `ONext r` is the origin of `LPrev r`. -/
theorem Dest_ONext (m : Mesh) (r : Nat) : Dest m (ONext m r) = Org m (LPrev m r) := rfl

theorem Dead_Sym (m : Mesh) (r : Nat) : Dead m (Sym r) ↔ Dead m r := by
  unfold Dead
  rw [Sym_Sym]
  exact and_comm

theorem not_Dead_ONext {m : Mesh} (h : WellFormed m) {r : Nat} (hr : r < m.recs.length)
    (hd : ¬ Dead m r) : ¬ Dead m (ONext m r) := by
  intro hx
  apply hd
  have h1 : ONext m r = r := h.next_injective (h.closed r hr) hr hx.1
  refine ⟨h1, ?_⟩
  have h2 := hx.2
  rw [h1] at h2
  exact h2

theorem not_Dead_LNext {m : Mesh} (h : WellFormed m) {r : Nat} (hr : r < m.recs.length)
    (hd : ¬ Dead m r) : ¬ Dead m (LNext m r) := by
  intro hx
  apply hd
  have h1 := h.next_LNext hr
  have h2 : LNext m r = Sym r := by rw [← h1]; exact hx.1.symm
  have h3 := hx.2
  rw [h2, Sym_Sym] at h3
  refine ⟨h3, ?_⟩
  have h4 := hx.1
  rw [h2] at h4
  exact h4

/-- The face of `LPrev r` is the face of `r`, with the vertices rotated. -/
theorem FaceOf.rotate {m : Mesh} (h : WellFormed m)
    (hring : ∀ r, r < m.recs.length → r % 2 = 0 → Org m (ONext m r) = Org m r)
    {r : Nat} {p q t : Point} (hr : r < m.recs.length) (hp : r % 2 = 0)
    (hf : FaceOf m r p q t) : FaceOf m (LPrev m r) t p q := by
  obtain ⟨h3, ho, hd, ha⟩ := hf
  have l1 := LPrev_lt h hr
  have l2 := LPrev_lt h l1
  have p1 : LPrev m r % 2 = 0 := by rw [LPrev_mod2 h hr]; exact hp
  have p2 : LPrev m (LPrev m r) % 2 = 0 := by rw [LPrev_mod2 h l1]; exact p1
  refine ⟨by rw [h3], ha, ?_, ?_⟩
  · show Org m (Sym (LPrev m r)) = some p
    unfold LPrev
    rw [Sym_Sym, hring r hr hp]
    exact ho
  · rw [Dest_ONext]
    have h5 : ONext m (LPrev m (LPrev m r)) = Sym r := by
      have : Sym (ONext m (LPrev m (LPrev m r))) = r := h3
      have h7 := congrArg Sym this
      rw [Sym_Sym] at h7
      exact h7
    have h6 := hring _ l2 p2
    rw [h5] at h6
    rw [← h6]
    exact hd

theorem WellFormed.congr {m m1 : Mesh} (h : WellFormed m)
    (hl : m1.recs.length = m.recs.length) (hn : ∀ r, ONext m1 r = ONext m r) :
    WellFormed m1 where
  quads := by rw [hl]; exact h.quads
  closed := by intro r hr; rw [hl] at hr ⊢; rw [hn]; exact h.closed r hr
  inverse := by intro r hr; rw [hl] at hr; rw [hn, hn]; exact h.inverse r hr
  role := by intro r hr; rw [hl] at hr; rw [hn]; exact h.role r hr

theorem WellFormed.EndPoints {m : Mesh} (h : WellFormed m) (e : Nat) (o d : Option Point) :
    WellFormed (EndPoints m e o d) :=
  h.congr (length_EndPoints m e o d) (fun r => ONext_EndPoints m e o d r)

theorem Sym_length {n : Nat} (hq : n % 4 = 0) : Sym n = n + 2 := by
  unfold Sym Rot; omega

theorem Sym_length_add_two {n : Nat} (hq : n % 4 = 0) : Sym (n + 2) = n := by
  unfold Sym Rot; omega

theorem ONext_New_base (m : Mesh) : ONext (New m).1 m.recs.length = m.recs.length := by
  have := ONext_New_new m 0 (by omega)
  simpa using this

theorem ONext_New_sym (m : Mesh) : ONext (New m).1 (m.recs.length + 2) = m.recs.length + 2 := by
  have := ONext_New_new m 2 (by omega)
  simpa using this

/-- What `attach` does to a well-formed mesh: the new edge `n` (the length of
the arena) follows `e` in the origin ring of `e`, its `Sym` stays alone, and
its end points are `Org(e)` and `x`. -/
theorem attach_spec (m : Mesh) (h : WellFormed m) (e : Nat) (he : e < m.recs.length)
    (hpe : e % 2 = 0) (x : Point) :
    WellFormed (attach m e x) ∧ (attach m e x).recs.length = m.recs.length + 4 ∧
      ONext (attach m e x) m.recs.length = ONext m e ∧
      ONext (attach m e x) e = m.recs.length ∧
      ONext (attach m e x) (m.recs.length + 2) = m.recs.length + 2 ∧
      (∀ r, r < m.recs.length → r % 2 = 0 → r ≠ e → ONext (attach m e x) r = ONext m r) ∧
      Org (attach m e x) m.recs.length = Org m e ∧
      Org (attach m e x) (m.recs.length + 2) = some x ∧
      (∀ r, r < m.recs.length → Org (attach m e x) r = Org m r) := by
  have hq := h.quads
  have h0 : WellFormed (NewWithEndPoints m (Org m e) (some x)).1 := h.New.EndPoints _ _ _
  have hl0 : (NewWithEndPoints m (Org m e) (some x)).1.recs.length = m.recs.length + 4 := by
    simp [NewWithEndPoints, length_EndPoints, length_New]
  have hn0 : ∀ r, ONext (NewWithEndPoints m (Org m e) (some x)).1 r = ONext (New m).1 r :=
    fun r => ONext_EndPoints _ _ _ _ r
  have hpn : m.recs.length % 2 = 0 := by omega
  have F : ∀ r, r % 2 = 0 → ONext (attach m e x) r =
      ONext (New m).1 (sw m.recs.length e r) := by
    intro r hr
    unfold attach
    rw [ONext_Splice_primal h0 (by omega) (by omega) hpn hpe hr, hn0]
  have hs := Sym_length hq
  have O : ∀ r, Org (attach m e x) r =
      if r = m.recs.length + 2 then some x
      else if r = m.recs.length then Org m e else Org (New m).1 r := by
    intro r
    unfold attach
    rw [Org_Splice]
    simp only [NewWithEndPoints, New_snd, Org_EndPoints, length_New, hs]
    by_cases c1 : r = m.recs.length + 2
    · rw [if_pos ⟨c1, by omega⟩, if_pos c1]
    · rw [if_neg (fun hh => c1 hh.1), if_neg c1]
      by_cases c2 : r = m.recs.length
      · rw [if_pos ⟨c2, by omega⟩, if_pos c2]
      · rw [if_neg (fun hh => c2 hh.1), if_neg c2]
  have s1 : sw m.recs.length e (m.recs.length + 2) = m.recs.length + 2 :=
    sw_other (by omega) (by omega)
  refine ⟨h0.Splice (by omega) (by omega) hpn hpe, ?_, ?_, ?_, ?_, ?_, ?_, ?_, ?_⟩
  · unfold attach; rw [length_Splice, hl0]
  · rw [F _ hpn, sw_left, ONext_New_old m he]
  · rw [F _ hpe, sw_right, ONext_New_base]
  · rw [F _ (by omega), s1, ONext_New_sym]
  · intro r hr hp hne
    have s2 : sw m.recs.length e r = r := sw_other (by omega) hne
    rw [F _ hp, s2, ONext_New_old m hr]
  · rw [O, if_neg (by omega), if_pos rfl]
  · rw [O, if_pos rfl]
  · intro r hr
    rw [O, if_neg (by omega), if_neg (by omega), Org_New_old m hr]

/-- What `Connect(a, b)` does to a well-formed mesh when `b` is not `LNext(a)`:
the new edge `n` follows `LNext(a)` in its origin ring, `Sym n` follows `b`, and
the end points of the new edge are `Dest(a)` and `Org(b)`. -/
theorem Connect_spec (m : Mesh) (h : WellFormed m) (a b : Nat) (ha : a < m.recs.length)
    (hb : b < m.recs.length) (hpa : a % 2 = 0) (hpb : b % 2 = 0) (hne : b ≠ LNext m a) :
    WellFormed (Connect m a b).1 ∧ (Connect m a b).1.recs.length = m.recs.length + 4 ∧
      ONext (Connect m a b).1 m.recs.length = ONext m (LNext m a) ∧
      ONext (Connect m a b).1 (m.recs.length + 2) = ONext m b ∧
      ONext (Connect m a b).1 (LNext m a) = m.recs.length ∧
      ONext (Connect m a b).1 b = m.recs.length + 2 ∧
      (∀ r, r < m.recs.length → r % 2 = 0 → r ≠ LNext m a → r ≠ b →
        ONext (Connect m a b).1 r = ONext m r) ∧
      Org (Connect m a b).1 m.recs.length = Dest m a ∧
      Org (Connect m a b).1 (m.recs.length + 2) = Org m b ∧
      (∀ r, r < m.recs.length → Org (Connect m a b).1 r = Org m r) := by
  have hq := h.quads
  have h0 : WellFormed (New m).1 := h.New
  have hl0 := length_New m
  have hpn : m.recs.length % 2 = 0 := by omega
  have hs := Sym_length hq
  have hll : LNext m a < m.recs.length := h.LNext_lt ha
  have hlp : LNext m a % 2 = 0 := by rw [h.LNext_mod2 ha]; exact hpa
  have hL : LNext (New m).1 a = LNext m a := by
    unfold LNext
    rw [ONext_New_old m (InvRot_lt hq ha)]
  have h1 : WellFormed (Splice (New m).1 (some m.recs.length) (some (LNext m a))) :=
    h0.Splice (by omega) (by omega) hpn hlp
  have hl1 := length_Splice (New m).1 (some m.recs.length) (some (LNext m a))
  have h2 : WellFormed (Splice (Splice (New m).1 (some m.recs.length) (some (LNext m a)))
      (some (m.recs.length + 2)) (some b)) :=
    h1.Splice (by omega) (by omega) (by omega) hpb
  have F : ∀ r, r % 2 = 0 → ONext (Connect m a b).1 r =
      ONext (New m).1 (sw m.recs.length (LNext m a) (sw (m.recs.length + 2) b r)) := by
    intro r hr
    simp only [Connect, New_snd, ONext_EndPoints, hL, hs]
    rw [ONext_Splice_primal h1 (by omega) (by omega) (by omega) hpb hr,
      ONext_Splice_primal h0 (by omega) (by omega) hpn hlp
        (by rw [sw_mod2 (by omega)]; exact hr)]
  have O : ∀ r, Org (Connect m a b).1 r =
      if r = m.recs.length + 2 then Org m b
      else if r = m.recs.length then Dest m a else Org (New m).1 r := by
    intro r
    simp only [Connect, New_snd, hL, hs, Org_EndPoints, length_Splice, length_New, Dest,
      Org_Splice]
    have e1 : Org (New m).1 (Sym a) = Org m (Sym a) := Org_New_old m (Sym_lt hq ha)
    have e2 : Org (New m).1 b = Org m b := Org_New_old m hb
    rw [e1, e2]
    by_cases c1 : r = m.recs.length + 2
    · rw [if_pos ⟨c1, by omega⟩, if_pos c1]
    · rw [if_neg (fun hh => c1 hh.1), if_neg c1]
      by_cases c2 : r = m.recs.length
      · rw [if_pos ⟨c2, by omega⟩, if_pos c2]
      · rw [if_neg (fun hh => c2 hh.1), if_neg c2]
  refine ⟨?_, ?_, ?_, ?_, ?_, ?_, ?_, ?_, ?_, ?_⟩
  · have : WellFormed (Connect m a b).1 := by
      simp only [Connect, New_snd, hL, hs]
      exact h2.EndPoints _ _ _
    exact this
  · rw [length_Connect]
  · have s1 : sw (m.recs.length + 2) b m.recs.length = m.recs.length :=
      sw_other (by omega) (by omega)
    rw [F _ hpn, s1, sw_left, ONext_New_old m hll]
  · have s1 : sw m.recs.length (LNext m a) b = b := sw_other (by omega) hne
    rw [F _ (by omega), sw_left, s1, ONext_New_old m hb]
  · have s1 : sw (m.recs.length + 2) b (LNext m a) = LNext m a :=
      sw_other (by omega) (Ne.symm hne)
    rw [F _ hlp, s1, sw_right, ONext_New_base]
  · have s1 : sw m.recs.length (LNext m a) (m.recs.length + 2) = m.recs.length + 2 :=
      sw_other (by omega) (by omega)
    rw [F _ hpb, sw_right, s1, ONext_New_sym]
  · intro r hr hp h3 h4
    have s1 : sw (m.recs.length + 2) b r = r := sw_other (by omega) h4
    have s2 : sw m.recs.length (LNext m a) r = r := sw_other (by omega) h3
    rw [F _ hp, s1, s2, ONext_New_old m hr]
  · rw [O, if_neg (by omega), if_pos rfl]
  · rw [O, if_pos rfl]
  · intro r hr
    rw [O, if_neg (by omega), if_neg (by omega), Org_New_old m hr]

/-- What `Delete(e)` does to a well-formed mesh, with `f = OPrev(e)` and
`g = OPrev(Sym e)`: the two primal records of `e` become loops of their own,
`f` takes over the successor of `e` and `g` that of `Sym e`. -/
theorem Delete_spec (m : Mesh) (h : WellFormed m) (e f g : Nat) (he : e < m.recs.length)
    (hpe : e % 2 = 0) (hf : ONext m f = e) (hg : ONext m g = Sym e)
    (vf : f < m.recs.length) (vg : g < m.recs.length)
    (n1 : g ≠ e) (n2 : g ≠ f) (n3 : f ≠ Sym e) :
    WellFormed (Delete m (some e)) ∧ (Delete m (some e)).recs.length = m.recs.length ∧
      ONext (Delete m (some e)) e = e ∧ ONext (Delete m (some e)) (Sym e) = Sym e ∧
      ONext (Delete m (some e)) f = ONext m e ∧
      ONext (Delete m (some e)) g = ONext m (Sym e) ∧
      (∀ r, r % 2 = 0 → r ≠ e → r ≠ Sym e → r ≠ f → r ≠ g →
        ONext (Delete m (some e)) r = ONext m r) ∧
      (∀ r, Org (Delete m (some e)) r = Org m r) := by
  have hq := h.quads
  have ef : OPrev m e = f := by rw [← hf]; exact h.OPrev_next vf
  have eg : OPrev m (Sym e) = g := by rw [← hg]; exact h.OPrev_next vg
  have pf : f % 2 = 0 := by rw [← ef, h.OPrev_mod2 he]; exact hpe
  have vs : Sym e < m.recs.length := Sym_lt hq he
  have ps : Sym e % 2 = 0 := by rw [Sym_mod2]; exact hpe
  have pg : g % 2 = 0 := by rw [← eg, h.OPrev_mod2 vs]; exact ps
  have h1 : WellFormed (Splice m (some e) (some f)) := h.Splice he vf hpe pf
  have l1 := length_Splice m (some e) (some f)
  have F1 : ∀ x, x % 2 = 0 → ONext (Splice m (some e) (some f)) x = ONext m (sw e f x) :=
    fun x hx => ONext_Splice_primal h he vf hpe pf hx
  have n4 : e ≠ Sym e := (Sym_ne e).symm
  have s1 : sw e f g = g := sw_other n1 n2
  have eg1 : OPrev (Splice m (some e) (some f)) (Sym e) = g := by
    have : ONext (Splice m (some e) (some f)) g = Sym e := by rw [F1 g pg, s1, hg]
    rw [← this]
    exact h1.OPrev_next (by omega)
  have hD : Delete m (some e) =
      Splice (Splice m (some e) (some f)) (some (Sym e)) (some g) := by
    simp only [Delete, ef, eg1]
  have h2 : WellFormed (Splice (Splice m (some e) (some f)) (some (Sym e)) (some g)) :=
    h1.Splice (by omega) (by omega) ps pg
  have F2 : ∀ x, x % 2 = 0 → ONext (Delete m (some e)) x =
      ONext m (sw e f (sw (Sym e) g x)) := by
    intro x hx
    rw [hD, ONext_Splice_primal h1 (by omega) (by omega) ps pg hx,
      F1 _ (by rw [sw_mod2 (by omega)]; exact hx)]
  refine ⟨hD ▸ h2, by rw [length_Delete], ?_, ?_, ?_, ?_, ?_, ?_⟩
  · have s2 : sw (Sym e) g e = e := sw_other n4 n1.symm
    rw [F2 e hpe, s2, sw_left, hf]
  · have s2 : sw e f g = g := s1
    rw [F2 _ ps, sw_left, s2, hg]
  · have s2 : sw (Sym e) g f = f := sw_other n3 n2.symm
    rw [F2 f pf, s2, sw_right]
  · have s2 : sw e f (Sym e) = Sym e := sw_other n4.symm n3.symm
    rw [F2 g pg, sw_right, s2]
  · intro r hr r1 r2 r3 r4
    have s2 : sw (Sym e) g r = r := sw_other r2 r4
    have s3 : sw e f r = r := sw_other r1 r3
    rw [F2 r hr, s2, s3]
  · intro r
    rw [hD, Org_Splice, Org_Splice]

/-- What `Swap(e)` does to a well-formed mesh in which the left face of `e` is
the ring `e`, `b`, `p` and the right face the ring `Sym e`, `a`, `q`, six
different records: afterwards the left face of `e` is `e`, `p`, `a` and the
right face `Sym e`, `q`, `b`, the edge `e` runs from `Dest(a)` to `Dest(b)`,
and nothing else changes. -/
theorem Swap_spec (m : Mesh) (h : WellFormed m) (e a b p q : Nat)
    (ve : e < m.recs.length) (va : a < m.recs.length) (vb : b < m.recs.length)
    (vp : p < m.recs.length) (vq : q < m.recs.length) (pe : e % 2 = 0)
    (fa : ONext m a = e) (fb : ONext m b = Sym e) (fp : ONext m p = Sym b)
    (fq : ONext m q = Sym a) (fe : ONext m e = Sym p) (fs : ONext m (Sym e) = Sym q)
    (n_ea : e ≠ a) (n_eb : e ≠ b) (n_ep : e ≠ p) (n_eq : e ≠ q)
    (n_sa : Sym e ≠ a) (n_sb : Sym e ≠ b) (n_sp : Sym e ≠ p) (n_sq : Sym e ≠ q)
    (n_ab : a ≠ b) (n_ap : a ≠ p) (n_aq : a ≠ q) (n_bp : b ≠ p) (n_bq : b ≠ q)
    (n_pq : p ≠ q) :
    WellFormed (Swap m e) ∧ (Swap m e).recs.length = m.recs.length ∧
      ONext (Swap m e) e = Sym a ∧ ONext (Swap m e) (Sym e) = Sym b ∧
      ONext (Swap m e) a = Sym p ∧ ONext (Swap m e) b = Sym q ∧
      ONext (Swap m e) q = e ∧ ONext (Swap m e) p = Sym e ∧
      (∀ r, r % 2 = 0 → r ≠ e → r ≠ Sym e → r ≠ a → r ≠ b → r ≠ p → r ≠ q →
        ONext (Swap m e) r = ONext m r) ∧
      Org (Swap m e) e = Dest m a ∧ Org (Swap m e) (Sym e) = Dest m b ∧
      (∀ r, r ≠ e → r ≠ Sym e → Org (Swap m e) r = Org m r) := by
  have hq := h.quads
  obtain ⟨s, hs⟩ : ∃ s, s = Sym e := ⟨_, rfl⟩
  rw [← hs] at fb fs n_sa n_sb n_sp n_sq
  have vs : s < m.recs.length := hs ▸ Sym_lt hq ve
  have ps : s % 2 = 0 := by rw [hs, Sym_mod2]; exact pe
  have ha : a = OPrev m e := by rw [← fa]; exact (h.OPrev_next va).symm
  have hb : b = OPrev m (Sym e) := by rw [← hs, ← fb]; exact (h.OPrev_next vb).symm
  have pa : a % 2 = 0 := by rw [ha, h.OPrev_mod2 ve]; exact pe
  have pb : b % 2 = 0 := by rw [hb, h.OPrev_mod2 (Sym_lt hq ve), Sym_mod2]; exact pe
  have pp : p % 2 = 0 := by
    have := h.role p vp
    rw [fp, Sym_mod2] at this
    omega
  have pq : q % 2 = 0 := by
    have := h.role q vq
    rw [fq, Sym_mod2] at this
    omega
  have n_es : e ≠ s := by rw [hs]; exact (Sym_ne e).symm
  obtain ⟨c2, c3, h4, F⟩ := Swap_core m h e s a b p q ve vs va vb vp vq pe ps pa pb pp pq
    n_ep n_eq n_sp n_sq n_ap n_aq n_bp n_bq n_pq fp fq
  have hsw : Swap m e =
      EndPoints (Splice (Splice (Splice (Splice m (some e) (some a)) (some s) (some b))
        (some e) (some q)) (some s) (some p)) e
        (Dest (Splice (Splice (Splice (Splice m (some e) (some a)) (some s) (some b))
          (some e) (some q)) (some s) (some p)) a)
        (Dest (Splice (Splice (Splice (Splice m (some e) (some a)) (some s) (some b))
          (some e) (some q)) (some s) (some p)) b) := by
    unfold Swap
    simp only []
    rw [← hb, ← ha, ← hs, c2, c3]
  have l4 : (Splice (Splice (Splice (Splice m (some e) (some a)) (some s) (some b))
      (some e) (some q)) (some s) (some p)).recs.length = m.recs.length := by
    simp only [length_Splice]
  have G : ∀ x, x % 2 = 0 → ONext (Swap m e) x =
      ONext m (sw e a (sw s b (sw e q (sw s p x)))) := by
    intro x hx
    rw [hsw, ONext_EndPoints]
    exact F x hx
  have g_p := G p pp
  have g_a := G a pa
  have g_e := G e pe
  have g_q := G q pq
  have g_b := G b pb
  have g_s := G s ps
  simp only [sw, n_es, n_ea, n_eb, n_ep, n_eq, n_sa, n_sb, n_sp, n_sq, n_ab, n_ap, n_aq, n_bp, n_bq, n_pq, n_es.symm, n_ea.symm, n_eb.symm, n_ep.symm, n_eq.symm, n_sa.symm, n_sb.symm, n_sp.symm, n_sq.symm, n_ab.symm, n_ap.symm, n_aq.symm, n_bp.symm, n_bq.symm, n_pq.symm, if_false, if_true] at g_p g_a g_e g_q g_b g_s
  rw [fb] at g_p
  rw [fe] at g_a
  rw [fq] at g_e
  rw [fa] at g_q
  rw [fs] at g_b
  rw [fp] at g_s
  have hne1 : e ≠ Sym e := (Sym_ne e).symm
  have orgs : ∀ r, r ≠ e → r ≠ Sym e → Org (Swap m e) r = Org m r := by
    intro r h1 h2
    rw [hsw, Org_EndPoints, if_neg (fun hh => h2 hh.1), if_neg (fun hh => h1 hh.1)]
    simp only [Org_Splice]
  refine ⟨?_, length_Swap m e, g_e, ?_, g_a, g_b, g_q, ?_, ?_, ?_, ?_, orgs⟩
  · rw [hsw]; exact h4.EndPoints _ _ _
  · rw [← hs]; exact g_s
  · rw [← hs]; exact g_p
  · intro r hr r1 r2 r3 r4 r5 r6
    rw [← hs] at r2
    rw [G r hr]
    simp only [sw, r1, r2, r3, r4, r5, r6, if_false]
  · rw [hsw, Org_EndPoints, if_neg (fun hh => hne1 hh.1), if_pos ⟨rfl, by omega⟩]
    simp only [Dest, Org_Splice]
  · rw [hsw, Org_EndPoints, if_pos ⟨rfl, by rw [l4]; exact Sym_lt hq ve⟩]
    simp only [Dest, Org_Splice]

/-- A record with a three-sided left face is not deleted. -/
theorem FaceOf.not_Dead {m : Mesh} {r : Nat} {p q t : Point} (hf : FaceOf m r p q t) :
    ¬ Dead m r := by
  intro hd
  have h3 := hf.1
  have e1 : LPrev m r = Sym r := by unfold LPrev; rw [hd.1]
  have e2 : LPrev m (Sym r) = r := by unfold LPrev; rw [hd.2, Sym_Sym]
  rw [e1, e2, e1] at h3
  exact Sym_ne r h3

theorem FaceCCW.live {m : Mesh} {r : Nat} (hf : FaceCCW m r) : ¬ Dead m r := by
  obtain ⟨p, q, t, h, _⟩ := hf
  exact h.not_Dead

/-- The vertices of a face are determined by the record. -/
theorem FaceOf.unique {m : Mesh} {r : Nat} {p q t p1 q1 t1 : Point}
    (h : FaceOf m r p q t) (h1 : FaceOf m r p1 q1 t1) : p = p1 ∧ q = q1 ∧ t = t1 := by
  obtain ⟨_, a, b, c⟩ := h
  obtain ⟨_, a1, b1, c1⟩ := h1
  rw [a] at a1
  rw [b] at b1
  rw [c] at c1
  exact ⟨Option.some.inj a1, Option.some.inj b1, Option.some.inj c1⟩

/-- A face is kept by a change of the mesh that leaves its three records and
their end points alone. -/
theorem FaceOf.frame {m m1 : Mesh} {r : Nat} {p q t : Point} (hf : FaceOf m r p q t)
    (h1 : ONext m1 r = ONext m r) (h2 : ONext m1 (LPrev m r) = ONext m (LPrev m r))
    (h3 : ONext m1 (LPrev m (LPrev m r)) = ONext m (LPrev m (LPrev m r)))
    (o1 : Org m1 r = Org m r) (o2 : Org m1 (Sym r) = Org m (Sym r))
    (o3 : Org m1 (LPrev m r) = Org m (LPrev m r)) : FaceOf m1 r p q t := by
  obtain ⟨a, b, c, d⟩ := hf
  have e1 : LPrev m1 r = LPrev m r := by unfold LPrev; rw [h1]
  have e2 : LPrev m1 (LPrev m r) = LPrev m (LPrev m r) := by
    show Sym (ONext m1 (LPrev m r)) = Sym (ONext m (LPrev m r))
    rw [h2]
  have e3 : LPrev m1 (LPrev m (LPrev m r)) = LPrev m (LPrev m (LPrev m r)) := by
    show Sym (ONext m1 (LPrev m (LPrev m r))) = Sym (ONext m (LPrev m (LPrev m r)))
    rw [h3]
  refine ⟨by rw [e1, e2, e3]; exact a, by rw [o1]; exact b, ?_, ?_⟩
  · rw [Dest_eq, o2]; exact c
  · rw [Dest_ONext, e1, o3, ← Dest_ONext]; exact d

/-- Three records that follow each other as left-face predecessors form a
face. -/
theorem FaceOf.of_ring {m : Mesh} {r1 r3 : Nat} (r2 : Nat) {p q t : Point}
    (h1 : ONext m r1 = Sym r3) (h3 : ONext m r3 = Sym r2) (h2 : ONext m r2 = Sym r1)
    (o1 : Org m r1 = some p) (o2 : Dest m r1 = some q) (o3 : Org m r3 = some t) :
    FaceOf m r1 p q t := by
  have e1 : LPrev m r1 = r3 := by unfold LPrev; rw [h1, Sym_Sym]
  have e3 : LPrev m r3 = r2 := by unfold LPrev; rw [h3, Sym_Sym]
  have e2 : LPrev m r2 = r1 := by unfold LPrev; rw [h2, Sym_Sym]
  refine ⟨by rw [e1, e3, e2], o1, o2, ?_⟩
  rw [Dest_ONext, e1]
  exact o3

theorem InOuter.self (m : Mesh) (o : Nat) : InOuter m o o := Or.inl rfl

theorem InOuter.lt {m : Mesh} (hw : WellFormed m) {o r : Nat} (ho : o < m.recs.length)
    (h : InOuter m o r) : r < m.recs.length := by
  rcases h with h | h | h
  · rw [h]; exact ho
  · rw [h]; exact LPrev_lt hw ho
  · rw [h]; exact LPrev_lt hw (LPrev_lt hw ho)

/-- The three records of the unbounded face and their end points. -/
theorem Tri.outer_faces {m : Mesh} {o : Nat} {q0 q1 q2 : Point} {hole : List Nat}
    (h : Tri m o q0 q1 q2 hole) :
    FaceOf m (LPrev m o) q2 q0 q1 ∧ FaceOf m (LPrev m (LPrev m o)) q1 q2 q0 := by
  have f1 := FaceOf.rotate h.wf h.ring h.olt h.oprimal h.oface
  have f2 := FaceOf.rotate h.wf h.ring (LPrev_lt h.wf h.olt)
    (by rw [LPrev_mod2 h.wf h.olt]; exact h.oprimal) f1
  exact ⟨f1, f2⟩

/-- A record of the unbounded face has its face in clockwise order. -/
theorem Tri.outer_cw {m : Mesh} {o : Nat} {q0 q1 q2 : Point} {hole : List Nat}
    (h : Tri m o q0 q1 q2 hole) {r : Nat} (hr : InOuter m o r) :
    ∃ p q t, FaceOf m r p q t ∧ ccwI p q t < 0 ∧
      ((p = q0 ∧ q = q1) ∨ (p = q2 ∧ q = q0) ∨ (p = q1 ∧ q = q2)) := by
  obtain ⟨f1, f2⟩ := h.outer_faces
  have c := h.ocw
  rcases hr with hr | hr | hr
  · rw [hr]; exact ⟨q0, q1, q2, h.oface, c, Or.inl ⟨rfl, rfl⟩⟩
  · rw [hr]
    refine ⟨q2, q0, q1, f1, ?_, Or.inr (Or.inl ⟨rfl, rfl⟩)⟩
    linarith [ccwI_rotate q1 q2 q0, ccwI_rotate q0 q1 q2]
  · rw [hr]
    refine ⟨q1, q2, q0, f2, ?_, Or.inr (Or.inr ⟨rfl, rfl⟩)⟩
    linarith [ccwI_rotate q0 q1 q2]

/-- A counterclockwise face is not the unbounded face. -/
theorem FaceCCW.not_outer {m : Mesh} {o : Nat} {q0 q1 q2 : Point} {hole : List Nat}
    (h : Tri m o q0 q1 q2 hole) {r : Nat} (hf : FaceCCW m r) : ¬ InOuter m o r := by
  intro ho
  obtain ⟨p, q, t, f, c⟩ := hf
  obtain ⟨p1, q1, t1, f1, c1, _⟩ := h.outer_cw ho
  obtain ⟨a, b, d⟩ := f.unique f1
  subst a b d
  linarith

/-- The cases of a record outside the hole: deleted, on the unbounded face,
or on a counterclockwise triangle. -/
theorem Tri.cases {m : Mesh} {o : Nat} {q0 q1 q2 : Point} {hole : List Nat}
    (h : Tri m o q0 q1 q2 hole) {r : Nat} (hr : r < m.recs.length) (hp : r % 2 = 0)
    (hh : r ∉ hole) : Dead m r ∨ InOuter m o r ∨ FaceCCW m r := by
  by_cases hd : Dead m r
  · exact Or.inl hd
  · by_cases ho : InOuter m o r
    · exact Or.inr (Or.inl ho)
    · exact Or.inr (Or.inr (h.face r hr hp hd hh ho))

/-- What a change of the mesh confined to a zone `C` keeps: when the zone is
closed under `LNext`, holds no deleted record and no record of the unbounded
face, and the successors and end points outside of it stay, then the unbounded
face, the deleted records and the counterclockwise triangles outside the zone
stay as they are. -/
theorem Tri.keep {m : Mesh} {o : Nat} {q0 q1 q2 : Point} {hole : List Nat}
    (h : Tri m o q0 q1 q2 hole) (m1 : Mesh) (C : Nat → Prop)
    (hlive : ∀ r, r < m.recs.length → C r → ¬ Dead m r)
    (hnext : ∀ r, r < m.recs.length → r % 2 = 0 → C (LPrev m r) → C r)
    (hout : ∀ r, C r → ¬ InOuter m o r)
    (hon : ∀ r, r < m.recs.length → r % 2 = 0 → ¬ C r → ONext m1 r = ONext m r)
    (horg : ∀ r, r < m.recs.length → r % 2 = 0 → ¬ C r →
      Org m1 r = Org m r ∧ Org m1 (Sym r) = Org m (Sym r)) :
    FaceOf m1 o q0 q1 q2 ∧
    (∀ r, InOuter m1 o r ↔ InOuter m o r) ∧
    (∀ r, r < m.recs.length → r % 2 = 0 → ¬ C r → Dead m r → Dead m1 r) ∧
    (∀ r, r < m.recs.length → r % 2 = 0 → ¬ C r → FaceCCW m r → FaceCCW m1 r) := by
  have hw := h.wf
  have key : ∀ r p q t, r < m.recs.length → r % 2 = 0 → ¬ C r → FaceOf m r p q t →
      FaceOf m1 r p q t := by
    intro r p q t hr hp hc hf
    have l1 := LPrev_lt hw hr
    have p1 : LPrev m r % 2 = 0 := by rw [LPrev_mod2 hw hr]; exact hp
    have l2 := LPrev_lt hw l1
    have p2 : LPrev m (LPrev m r) % 2 = 0 := by rw [LPrev_mod2 hw l1]; exact p1
    have c2 : ¬ C (LPrev m (LPrev m r)) := fun hh => hc (hnext r hr hp (hnext _ l1 p1 hh))
    have c1 : ¬ C (LPrev m r) := fun hh => hc (hnext r hr hp hh)
    exact hf.frame (hon r hr hp hc) (hon _ l1 p1 c1) (hon _ l2 p2 c2)
      (horg r hr hp hc).1 (horg r hr hp hc).2 (horg _ l1 p1 c1).1
  have co : ¬ C o := fun hh => hout o hh (InOuter.self m o)
  have e1 : LPrev m1 o = LPrev m o := by
    unfold LPrev; rw [hon o h.olt h.oprimal co]
  have c1 : ¬ C (LPrev m o) := fun hh => hout _ hh (Or.inr (Or.inl rfl))
  have e2 : LPrev m1 (LPrev m o) = LPrev m (LPrev m o) := by
    show Sym (ONext m1 (LPrev m o)) = Sym (ONext m (LPrev m o))
    rw [hon _ (LPrev_lt hw h.olt) (by rw [LPrev_mod2 hw h.olt]; exact h.oprimal) c1]
  refine ⟨key o q0 q1 q2 h.olt h.oprimal co h.oface, ?_, ?_, ?_⟩
  · intro r
    unfold InOuter
    rw [e1, e2]
  · intro r hr hp hc hd
    have hs : ¬ C (Sym r) := by
      intro hh
      exact hlive _ (Sym_lt hw.quads hr) hh ((Dead_Sym m r).2 hd)
    refine ⟨?_, ?_⟩
    · rw [hon r hr hp hc]; exact hd.1
    · rw [hon _ (Sym_lt hw.quads hr) (by rw [Sym_mod2]; exact hp) hs]; exact hd.2
  · intro r hr hp hc hf
    obtain ⟨p, q, t, f, c⟩ := hf
    exact ⟨p, q, t, key r p q t hr hp hc f, c⟩

/-- In a chain that ends at `z`, every element before `z` has a successor. -/
theorem chain_succ_exists {R : Nat → Nat → Prop} :
    ∀ (l : List Nat) (a z u : Nat), List.Chain R a (l ++ [z]) → u ∈ a :: l →
      ∃ v, v ∈ l ++ [z] ∧ R u v := by
  intro l
  induction l with
  | nil =>
    intro a z u hc hu
    simp only [List.nil_append, List.chain_cons, List.Chain.nil, and_true] at hc
    simp only [List.mem_singleton] at hu
    subst hu
    exact ⟨z, by simp, hc⟩
  | cons b l ih =>
    intro a z u hc hu
    simp only [List.cons_append, List.chain_cons] at hc
    rcases List.mem_cons.1 hu with hu | hu
    · subst hu
      exact ⟨b, by simp, hc.1⟩
    · obtain ⟨v, hv, hr⟩ := ih b z u hc.2 hu
      exact ⟨v, List.mem_cons_of_mem _ hv, hr⟩

/-- A chain is carried over to another relation that agrees with the first on
the elements of the chain, with another end. -/
theorem chain_transfer {R S : Nat → Nat → Prop} :
    ∀ (l : List Nat) (a z z1 : Nat) (t : List Nat), List.Chain R a (l ++ [z]) →
      (∀ u v, v ∈ l → R u v → S u v) → (∀ u, R u z → S u z1) → List.Chain S z1 t →
      List.Chain S a (l ++ z1 :: t) := by
  intro l
  induction l with
  | nil =>
    intro a z z1 t hc _ h2 ht
    simp only [List.nil_append, List.chain_cons, List.Chain.nil, and_true] at hc
    simp only [List.nil_append, List.chain_cons]
    exact ⟨h2 a hc, ht⟩
  | cons b l ih =>
    intro a z z1 t hc h1 h2 ht
    simp only [List.cons_append, List.chain_cons] at hc ⊢
    refine ⟨h1 a b (List.mem_cons_self _ _) hc.1, ?_⟩
    exact ih b z z1 t hc.2 (fun u v hv => h1 u v (List.mem_cons_of_mem _ hv)) h2 ht

/-- The last steps of a chain. -/
theorem chain_last3 {R : Nat → Nat → Prop} {a s b z : Nat} {l : List Nat} :
    List.Chain R a (l ++ [s, b, z]) ↔ List.Chain R a (l ++ [s]) ∧ R s b ∧ R b z := by
  rw [List.chain_split]
  simp only [List.chain_cons, List.Chain.nil, and_true]

theorem nodup_ring_step {e h sb s z : Nat} {poly : List Nat}
    (hnd : (e :: ((h :: poly) ++ [s, sb])).Nodup)
    (hz : ∀ r, r ∈ e :: ((h :: poly) ++ [s, sb]) → r ≠ z) :
    (h :: (poly ++ [s, z])).Nodup ∧ e ≠ h ∧ e ≠ sb ∧ h ≠ sb ∧ e ≠ s ∧ h ≠ s ∧ sb ≠ s ∧
      ∀ v, v ∈ poly ++ [s] → v ≠ e ∧ v ≠ h ∧ v ≠ sb := by
  simp only [List.cons_append, List.nodup_cons, List.mem_cons, List.mem_append,
    List.nodup_append, List.not_mem_nil, or_false, not_or, List.disjoint_cons_right,
    List.disjoint_nil_right, not_false_eq_true,
    List.nodup_nil, and_true, true_and, List.mem_singleton, forall_eq_or_imp] at hnd hz ⊢
  obtain ⟨⟨a1, a2, a3, a4⟩, ⟨b1, b2, b3⟩, c1, c2, c3, c4⟩ := hnd
  obtain ⟨z1, z2, z3⟩ := hz
  refine ⟨⟨⟨b1, b2, z2⟩, c1, fun hh => z3 s (Or.inr (Or.inl rfl)) hh, c3,
    fun hh => z3 z (Or.inl hh) rfl⟩, a1, a4, b3, a3, b2, fun hh => c2 hh.symm, ?_⟩
  rintro v (hv | rfl)
  · refine ⟨?_, ?_, ?_⟩
    · rintro rfl; exact a2 hv
    · rintro rfl; exact b1 hv
    · rintro rfl; exact c4 hv
  · exact ⟨fun hh => a3 hh.symm, fun hh => b2 hh.symm, c2⟩

/-- A face ring holds the left-face successor of each of its records. -/
theorem FaceRing.closed {m : Mesh} {e : Nat} {rest : List Nat} (R : FaceRing m e rest)
    (hw : WellFormed m) {r : Nat} (hr : r < m.recs.length) (h : LPrev m r ∈ e :: rest) :
    r ∈ e :: rest := by
  obtain ⟨v, hv, hR⟩ := chain_succ_exists rest e e (LPrev m r) R.chain h
  have hv1 : v ∈ e :: rest := by
    rcases List.mem_append.1 hv with h1 | h1
    · exact List.mem_cons_of_mem _ h1
    · rw [List.mem_singleton.1 h1]; exact List.mem_cons_self _ _
  have e1 : ONext m v = ONext m r := by
    rw [hR]; unfold LPrev; rw [Sym_Sym]
  have := hw.next_injective (R.lt v hv1) hr e1
  rw [← this]
  exact hv1

/-- The primal records of an arena grown by one quad: the old ones and the two
new ones. -/
theorem primal_cases {n r : Nat} (hq : n % 4 = 0) (hr : r < n + 4) (hp : r % 2 = 0) :
    r < n ∨ r = n ∨ r = n + 2 := by omega

theorem mem_ring_old {e h s sb z r : Nat} {poly : List Nat}
    (hr : r ∈ e :: ((h :: poly) ++ [s, sb])) (h1 : r ≠ e) (h2 : r ≠ sb) :
    r ∈ h :: (poly ++ [s, z]) := by
  simp only [List.cons_append, List.mem_cons, List.mem_append, List.not_mem_nil,
    or_false] at hr ⊢
  tauto

theorem mem_ring_new {e h s sb z r : Nat} {poly : List Nat}
    (hr : r ∈ h :: (poly ++ [s, z])) (h1 : r ≠ z) :
    r ∈ e :: ((h :: poly) ++ [s, sb]) := by
  simp only [List.cons_append, List.mem_cons, List.mem_append, List.not_mem_nil,
    or_false] at hr ⊢
  tauto

theorem mem_ring_poly {e h s sb r : Nat} {poly : List Nat} (hr : r ∈ h :: poly) :
    r ∈ e :: ((h :: poly) ++ [s, sb]) :=
  List.mem_cons_of_mem _ (List.mem_append_left _ hr)

/-- One pass of the spoke loop: `Connect(e, Sym base)` closes the triangle of
`e`, the old `Sym base` and the new spoke, and the loop goes on with the next
record `h` of the polygon. -/
theorem Hole.connect {m : Mesh} {o : Nat} {q0 q1 q2 x : Point} {start e base h : Nat}
    {poly : List Nat} (H : Hole m o q0 q1 q2 x start e base (h :: poly)) :
    OPrev (Connect m e (Sym base)).1 (Connect m e (Sym base)).2 = h ∧
      Hole (Connect m e (Sym base)).1 o q0 q1 q2 x start h (Connect m e (Sym base)).2 poly := by
  obtain ⟨T, R, Lf, Ax⟩ := H
  have hw := T.wf
  have hq := hw.quads
  have hch := R.chain
  simp only [List.append_assoc, List.cons_append, List.nil_append, List.chain_cons] at hch
  obtain ⟨ch1, ch2⟩ := hch
  rw [chain_last3] at ch2
  obtain ⟨ch2, ch3, ch4⟩ := ch2
  -- membership
  have me : e ∈ e :: ((h :: poly) ++ [start, Sym base]) := List.mem_cons_self _ _
  have mh : h ∈ e :: ((h :: poly) ++ [start, Sym base]) := by simp
  have ms : Sym base ∈ e :: ((h :: poly) ++ [start, Sym base]) := by simp
  have mst : start ∈ e :: ((h :: poly) ++ [start, Sym base]) := by simp
  have le := R.lt e me
  have lh := R.lt h mh
  have ls := R.lt _ ms
  have pe := R.primal e me
  have ph := R.primal h mh
  have ps := R.primal _ ms
  obtain ⟨nd, n_eh, n_es, n_hs, n_est, n_hst, n_sst, nK⟩ :=
    nodup_ring_step (z := m.recs.length + 2) R.nodup
      (fun r hr => by have := R.lt r hr; omega)
  have eLN : LNext m e = h := hw.LNext_of_next lh ch1
  obtain ⟨w1, l1, g_n, g_n2, g_h, g_s, g_o, o_n, o_n2, o_o⟩ :=
    Connect_spec m hw e (Sym base) le ls pe ps (by rw [eLN]; exact fun hh => n_hs hh.symm)
  rw [eLN] at g_n g_h g_o
  rw [ch1] at g_n
  rw [ch3] at g_n2
  rw [Connect_snd]
  have sn : Sym m.recs.length = m.recs.length + 2 := Sym_length hq
  have sn2 : Sym (m.recs.length + 2) = m.recs.length := Sym_length_add_two hq
  have g_e : ONext (Connect m e (Sym base)).1 e = Sym (Sym base) := by
    rw [g_o e le pe n_eh n_es]; exact ch4
  obtain ⟨pp, qq, lo, ld, lc⟩ := Lf e (List.mem_cons_self _ _)
  -- destinations of old records
  have d_o : ∀ r, r < m.recs.length → Dest (Connect m e (Sym base)).1 r = Dest m r := by
    intro r hr
    exact o_o _ (Sym_lt hq hr)
  -- labels
  have hlab : ∀ r, r < (Connect m e (Sym base)).1.recs.length → r % 2 = 0 →
      ∃ p, Org (Connect m e (Sym base)).1 r = some p := by
    intro r hr hp
    rw [l1] at hr
    rcases primal_cases hq hr hp with h1 | h1 | h1
    · rw [o_o r h1]; exact T.lab r h1 hp
    · rw [h1, o_n]; exact ⟨qq, ld⟩
    · rw [h1, o_n2]; exact ⟨x, Ax⟩
  have oh : Org m h = Dest m e := by
    have := T.ring h lh ph
    rw [ch1] at this
    exact this.symm
  have hring : ∀ r, r < (Connect m e (Sym base)).1.recs.length → r % 2 = 0 →
      Org (Connect m e (Sym base)).1 (ONext (Connect m e (Sym base)).1 r) =
        Org (Connect m e (Sym base)).1 r := by
    intro r hr hp
    rw [l1] at hr
    rcases primal_cases hq hr hp with h1 | h1 | h1
    · by_cases c1 : r = h
      · rw [c1, g_h, o_n, o_o h lh]; exact oh.symm
      · by_cases c2 : r = Sym base
        · rw [c2, g_s, o_n2, o_o _ ls]
        · rw [g_o r h1 hp c1 c2, o_o r h1, o_o _ (hw.closed r h1)]
          exact T.ring r h1 hp
    · rw [h1, g_n, o_n, o_o _ (Sym_lt hq le)]; rfl
    · rw [h1, g_n2, o_n2, o_o _ (Sym_lt hq (R.lt _ mst)), ← ch3]
      exact T.ring _ ls ps
  generalize hm1 : (Connect m e (Sym base)).1 = m1 at *
  -- the new triangle
  have f_e : FaceOf m1 e pp qq x :=
    FaceOf.of_ring m.recs.length g_e (by rw [g_s, sn]) g_n
      (by rw [o_o e le]; exact lo) (by rw [d_o e le]; exact ld)
      (by rw [o_o _ ls]; exact Ax)
  have lp_e : LPrev m1 e = Sym base := by unfold LPrev; rw [g_e, Sym_Sym]
  have lp_s : LPrev m1 (Sym base) = m.recs.length := by unfold LPrev; rw [g_s, sn2]
  have f_s : FaceOf m1 (Sym base) x pp qq := by
    have := FaceOf.rotate w1 hring (by omega) pe f_e
    rw [lp_e] at this
    exact this
  have f_n : FaceOf m1 m.recs.length qq x pp := by
    have := FaceOf.rotate w1 hring (by omega) ps f_s
    rw [lp_s] at this
    exact this
  have c_e : FaceCCW m1 e := ⟨pp, qq, x, f_e, lc⟩
  have c_s : FaceCCW m1 (Sym base) := ⟨x, pp, qq, f_s, by rw [← ccwI_rotate x pp qq]; exact lc⟩
  have c_n : FaceCCW m1 m.recs.length := ⟨qq, x, pp, f_n, by rw [ccwI_rotate pp qq x]; exact lc⟩
  -- the rest of the mesh
  obtain ⟨k_o, k_io, k_d, k_f⟩ := T.keep m1
    (fun r => r ∈ e :: ((h :: poly) ++ [start, Sym base]))
    (fun r _ hc => R.live r hc) (fun r hr _ hc => R.closed hw hr hc)
    (fun r hc => T.ohole r hc)
    (fun r hr hp hc => g_o r hr hp (fun hh => hc (hh ▸ mh)) (fun hh => hc (hh ▸ ms)))
    (fun r hr _ _ => ⟨o_o r hr, o_o _ (Sym_lt hq hr)⟩)
  have T1 : Tri m1 o q0 q1 q2 (h :: (poly ++ [start, Sym m.recs.length])) := by
    refine ⟨w1, hlab, hring, ?_, by have := T.olt; omega, T.oprimal, k_o, T.ocw, ?_⟩
    · intro r hr hp hd hh ho
      rw [l1] at hr
      rcases primal_cases hq hr hp with h1 | h1 | h1
      · by_cases hc : r ∈ e :: ((h :: poly) ++ [start, Sym base])
        · by_cases c1 : r = e
          · rw [c1]; exact c_e
          · by_cases c2 : r = Sym base
            · rw [c2]; exact c_s
            · exact absurd (mem_ring_old hc c1 c2) hh
        · rcases T.cases h1 hp hc with d | d | d
          · exact absurd (k_d r h1 hp hc d) hd
          · exact absurd ((k_io r).2 d) ho
          · exact k_f r h1 hp hc d
      · rw [h1]; exact c_n
      · exfalso
        apply hh
        rw [h1, sn]
        exact List.mem_cons_of_mem _ (List.mem_append_right _ (by simp))
    · intro r hr
      rw [k_io]
      by_cases c1 : r = Sym m.recs.length
      · intro hh
        have := hh.lt hw T.olt
        rw [c1, sn] at this
        omega
      · exact T.ohole r (mem_ring_new hr c1)
  have dead_back : ∀ r, r < m.recs.length → r % 2 = 0 → Dead m1 r → Dead m r := by
    intro r hr hp hd
    have a1 : r ≠ h := by
      intro hh
      have := hd.1
      rw [hh, g_h] at this
      omega
    have a2 : r ≠ Sym base := by
      intro hh
      have := hd.1
      rw [hh, g_s] at this
      omega
    have a3 : Sym r ≠ h := by
      intro hh
      have := hd.2
      rw [hh, g_h] at this
      omega
    have a4 : Sym r ≠ Sym base := by
      intro hh
      have := hd.2
      rw [hh, g_s] at this
      omega
    refine ⟨?_, ?_⟩
    · rw [← g_o r hr hp a1 a2]; exact hd.1
    · rw [← g_o _ (Sym_lt hq hr) (by rw [Sym_mod2]; exact hp) a3 a4]; exact hd.2
  have old : ∀ r, r ∈ h :: (poly ++ [start, Sym m.recs.length]) → r ≠ Sym m.recs.length →
      r ∈ e :: ((h :: poly) ++ [start, Sym base]) := by
    intro r hr hne
    exact mem_ring_new hr hne
  have R1 : FaceRing m1 h (poly ++ [start, Sym m.recs.length]) := by
    refine ⟨by rw [sn]; exact nd, ?_, ?_, ?_, ?_⟩
    · simp only [List.append_assoc, List.cons_append, List.nil_append]
      rw [chain_last3]
      refine ⟨?_, by rw [sn]; exact g_n2, by rw [Sym_Sym]; exact g_h⟩
      refine chain_transfer poly h start start [] ch2 ?_ ?_ List.Chain.nil
      · intro u v hv huv
        have hv1 : v ∈ poly ++ [start] := List.mem_append_left _ hv
        have hv2 : v ∈ e :: ((h :: poly) ++ [start, Sym base]) :=
          mem_ring_poly (List.mem_cons_of_mem _ hv)
        rw [g_o v (R.lt v hv2) (R.primal v hv2) (nK v hv1).2.1 (nK v hv1).2.2]
        exact huv
      · intro u huv
        rw [g_o start (R.lt _ mst) (R.primal _ mst) (fun hh => n_hst hh.symm)
          (fun hh => n_sst hh.symm)]
        exact huv
    · intro r hr
      rw [l1]
      by_cases c1 : r = Sym m.recs.length
      · rw [c1, sn]; omega
      · have := R.lt r (old r hr c1); omega
    · intro r hr
      by_cases c1 : r = Sym m.recs.length
      · rw [c1, sn]; omega
      · exact R.primal r (old r hr c1)
    · intro r hr
      by_cases c1 : r = Sym m.recs.length
      · rw [c1, Dead_Sym]
        exact c_n.live
      · intro hd
        exact R.live r (old r hr c1)
          (dead_back r (R.lt r (old r hr c1)) (R.primal r (old r hr c1)) hd)
  refine ⟨?_, T1, R1, ?_, by rw [sn, o_n2]; exact Ax⟩
  · have := w1.OPrev_next (y := h) (by omega)
    rw [g_h] at this
    exact this
  · intro r hr
    have hr1 : r ∈ e :: ((h :: poly) ++ [start, Sym base]) := mem_ring_poly hr
    obtain ⟨p, q, a, b, c⟩ := Lf r (List.mem_cons_of_mem _ hr)
    exact ⟨p, q, by rw [o_o r (R.lt r hr1)]; exact a, by rw [d_o r (R.lt r hr1)]; exact b, c⟩

/-- While the polygon has records left, the spoke loop goes on. -/
theorem Hole.next {m : Mesh} {o : Nat} {q0 q1 q2 x : Point} {start e base h : Nat}
    {poly : List Nat} (H : Hole m o q0 q1 q2 x start e base (h :: poly)) :
    LNext m e ≠ start := by
  have hch := H.ring.chain
  simp only [List.append_assoc, List.cons_append, List.nil_append, List.chain_cons] at hch
  have mh : h ∈ e :: ((h :: poly) ++ [start, Sym base]) := by simp
  rw [H.tri.wf.LNext_of_next (H.ring.lt h mh) hch.1]
  have nd := H.ring.nodup
  simp only [List.cons_append, List.nodup_cons, List.mem_cons, List.mem_append,
    List.not_mem_nil, or_false, not_or] at nd
  exact nd.2.1.2.1

/-- When the polygon has no record left, the spoke loop ends: the last face
is the triangle of `e`, `start` and `Sym base`. -/
theorem Hole.exit {m : Mesh} {o : Nat} {q0 q1 q2 x : Point} {start e base : Nat}
    (H : Hole m o q0 q1 q2 x start e base []) :
    LNext m e = start ∧ Star m o q0 q1 q2 x start e := by
  obtain ⟨T, R, Lf, Ax⟩ := H
  have hw := T.wf
  have hch := R.chain
  simp only [List.nil_append, List.cons_append, List.chain_cons, List.Chain.nil,
    and_true] at hch
  obtain ⟨c1, c2, c3⟩ := hch
  have me : e ∈ e :: ([] ++ [start, Sym base]) := by simp
  have mst : start ∈ e :: ([] ++ [start, Sym base]) := by simp
  have ms : Sym base ∈ e :: ([] ++ [start, Sym base]) := by simp
  obtain ⟨pp, qq, lo, ld, lc⟩ := Lf e (List.mem_cons_self _ _)
  have f_e : FaceOf m e pp qq x := FaceOf.of_ring start c3 c2 c1 lo ld Ax
  have lp_e : LPrev m e = Sym base := by unfold LPrev; rw [c3, Sym_Sym]
  have lp_s : LPrev m (Sym base) = start := by unfold LPrev; rw [c2, Sym_Sym]
  have f_s : FaceOf m (Sym base) x pp qq := by
    have := FaceOf.rotate hw T.ring (R.lt e me) (R.primal e me) f_e
    rw [lp_e] at this
    exact this
  have f_n : FaceOf m start qq x pp := by
    have := FaceOf.rotate hw T.ring (R.lt _ ms) (R.primal _ ms) f_s
    rw [lp_s] at this
    exact this
  have c_e : FaceCCW m e := ⟨pp, qq, x, f_e, lc⟩
  have c_s : FaceCCW m (Sym base) := ⟨x, pp, qq, f_s, by rw [← ccwI_rotate x pp qq]; exact lc⟩
  have c_n : FaceCCW m start := ⟨qq, x, pp, f_n, by rw [ccwI_rotate pp qq x]; exact lc⟩
  refine ⟨hw.LNext_of_next (R.lt _ mst) c1, ?_, c_n, R.lt _ mst, R.primal _ mst, R.lt e me,
    R.primal e me, pp, qq, f_e, lc⟩
  refine ⟨hw, T.lab, T.ring, ?_, T.olt, T.oprimal, T.oface, T.ocw, ?_⟩
  · intro r hr hp hd _ ho
    by_cases hc : r ∈ e :: ([] ++ [start, Sym base])
    · simp only [List.nil_append, List.mem_cons, List.not_mem_nil, or_false] at hc
      rcases hc with hc | hc | hc
      · rw [hc]; exact c_e
      · rw [hc]; exact c_n
      · rw [hc]; exact c_s
    · exact T.face r hr hp hd hc ho
  · intro r hr
    exact absurd hr (List.not_mem_nil r)

theorem mem_ring_attach {e n s r : Nat} {poly : List Nat}
    (hr : r ∈ e :: (poly ++ [n, s])) (h1 : r ≠ n) (h2 : r ≠ s) : r ∈ e :: poly := by
  simp only [List.mem_cons, List.mem_append, List.not_mem_nil, or_false] at hr ⊢
  tauto

theorem mem_attach_ring {e n s r : Nat} {poly : List Nat} (hr : r ∈ e :: poly) :
    r ∈ e :: (poly ++ [n, s]) := by
  simp only [List.mem_cons, List.mem_append, List.not_mem_nil, or_false] at hr ⊢
  tauto

theorem nodup_ring_attach {e n s : Nat} {poly : List Nat} (hnd : (e :: poly).Nodup)
    (hn : ∀ r, r ∈ e :: poly → r ≠ n) (hs : ∀ r, r ∈ e :: poly → r ≠ s) (hns : n ≠ s) :
    (e :: (poly ++ [n, s])).Nodup := by
  have a1 := (List.nodup_cons.1 hnd).1
  have a2 := (List.nodup_cons.1 hnd).2
  have b1 := hn e (List.mem_cons_self _ _)
  have b2 := hs e (List.mem_cons_self _ _)
  have c1 : n ∉ poly := fun hh => hn n (List.mem_cons_of_mem _ hh) rfl
  have c2 : s ∉ poly := fun hh => hs s (List.mem_cons_of_mem _ hh) rfl
  clear hnd hn hs
  simp only [List.nodup_cons, List.mem_cons, List.mem_append, List.nodup_append,
    List.not_mem_nil, or_false, not_or, List.disjoint_cons_right, List.disjoint_nil_right,
    not_false_eq_true, List.nodup_nil, and_true]
  exact ⟨⟨a1, b1, b2⟩, a2, hns, c1, c2⟩

/-- The first spoke: the new edge from `Org(e)` to the site `x` joins the ring
of the polygon; the first spoke is both `start` and `base`. -/
theorem Pre.spoke {m : Mesh} {o : Nat} {q0 q1 q2 x : Point} {e : Nat} {poly : List Nat}
    (H : Pre m o q0 q1 q2 x e poly) :
    Hole (attach m e x) o q0 q1 q2 x m.recs.length e m.recs.length poly := by
  obtain ⟨T, R, Lf⟩ := H
  have hw := T.wf
  have hq := hw.quads
  have me : e ∈ e :: poly := List.mem_cons_self _ _
  have le := R.lt e me
  have pe := R.primal e me
  obtain ⟨w1, l1, g_n, g_e, g_n2, g_o, o_n, o_n2, o_o⟩ := attach_spec m hw e le pe x
  have sn : Sym m.recs.length = m.recs.length + 2 := Sym_length hq
  have sn2 : Sym (m.recs.length + 2) = m.recs.length := Sym_length_add_two hq
  generalize hm1 : attach m e x = m1 at *
  obtain ⟨pp, qq, lo, ld, lc⟩ := Lf e me
  have d_o : ∀ r, r < m.recs.length → Dest m1 r = Dest m r := by
    intro r hr
    exact o_o _ (Sym_lt hq hr)
  have hlab : ∀ r, r < m1.recs.length → r % 2 = 0 → ∃ p, Org m1 r = some p := by
    intro r hr hp
    rw [l1] at hr
    rcases primal_cases hq hr hp with h1 | h1 | h1
    · rw [o_o r h1]; exact T.lab r h1 hp
    · rw [h1, o_n]; exact ⟨pp, lo⟩
    · rw [h1, o_n2]; exact ⟨x, rfl⟩
  have hring : ∀ r, r < m1.recs.length → r % 2 = 0 → Org m1 (ONext m1 r) = Org m1 r := by
    intro r hr hp
    rw [l1] at hr
    rcases primal_cases hq hr hp with h1 | h1 | h1
    · by_cases c1 : r = e
      · rw [c1, g_e, o_n, o_o e le]
      · rw [g_o r h1 hp c1, o_o r h1, o_o _ (hw.closed r h1)]
        exact T.ring r h1 hp
    · rw [h1, g_n, o_n, o_o _ (hw.closed e le)]
      exact T.ring e le pe
    · rw [h1, g_n2]
  obtain ⟨k_o, k_io, k_d, k_f⟩ := T.keep m1 (fun r => r ∈ e :: poly)
    (fun r _ hc => R.live r hc) (fun r hr _ hc => R.closed hw hr hc)
    (fun r hc => T.ohole r hc)
    (fun r hr hp hc => g_o r hr hp (fun hh => hc (hh ▸ me)))
    (fun r hr _ _ => ⟨o_o r hr, o_o _ (Sym_lt hq hr)⟩)
  have T1 : Tri m1 o q0 q1 q2 (e :: (poly ++ [m.recs.length, Sym m.recs.length])) := by
    refine ⟨w1, hlab, hring, ?_, by have := T.olt; omega, T.oprimal, k_o, T.ocw, ?_⟩
    · intro r hr hp hd hh ho
      rw [l1] at hr
      rcases primal_cases hq hr hp with h1 | h1 | h1
      · by_cases hc : r ∈ e :: poly
        · exact absurd (mem_attach_ring hc) hh
        · rcases T.cases h1 hp hc with d | d | d
          · exact absurd (k_d r h1 hp hc d) hd
          · exact absurd ((k_io r).2 d) ho
          · exact k_f r h1 hp hc d
      · exfalso
        apply hh
        rw [h1]
        exact List.mem_cons_of_mem _ (List.mem_append_right _ (by simp))
      · exfalso
        apply hh
        rw [h1, sn]
        exact List.mem_cons_of_mem _ (List.mem_append_right _ (by simp))
    · intro r hr
      rw [k_io]
      by_cases c1 : r = m.recs.length
      · intro hh
        have := hh.lt hw T.olt
        omega
      · by_cases c2 : r = Sym m.recs.length
        · intro hh
          have := hh.lt hw T.olt
          rw [c2, sn] at this
          omega
        · exact T.ohole r (mem_ring_attach hr c1 c2)
  have dead_back : ∀ r, r < m.recs.length → r % 2 = 0 → Dead m1 r → Dead m r := by
    intro r hr hp hd
    have a1 : r ≠ e := by
      intro hh
      have := hd.1
      rw [hh, g_e] at this
      omega
    have a3 : Sym r ≠ e := by
      intro hh
      have := hd.2
      rw [hh, g_e] at this
      omega
    refine ⟨?_, ?_⟩
    · rw [← g_o r hr hp a1]; exact hd.1
    · rw [← g_o _ (Sym_lt hq hr) (by rw [Sym_mod2]; exact hp) a3]; exact hd.2
  have live_n : ¬ Dead m1 m.recs.length := by
    intro hd
    have := hd.1
    rw [g_n] at this
    have := hw.closed e le
    omega
  have R1 : FaceRing m1 e (poly ++ [m.recs.length, Sym m.recs.length]) := by
    refine ⟨?_, ?_, ?_, ?_, ?_⟩
    · apply nodup_ring_attach R.nodup
      · intro r hr; have := R.lt r hr; omega
      · intro r hr; have := R.lt r hr; rw [sn]; omega
      · rw [sn]; omega
    · simp only [List.append_assoc, List.cons_append, List.nil_append]
      rw [chain_last3]
      refine ⟨?_, by rw [sn]; exact g_n2, by rw [Sym_Sym]; exact g_e⟩
      refine chain_transfer poly e e m.recs.length [] R.chain ?_ ?_ List.Chain.nil
      · intro u v hv huv
        have hv2 : v ∈ e :: poly := List.mem_cons_of_mem _ hv
        have hne : v ≠ e := by
          intro hh
          have nd := R.nodup
          rw [List.nodup_cons] at nd
          exact nd.1 (hh ▸ hv)
        rw [g_o v (R.lt v hv2) (R.primal v hv2) hne]
        exact huv
      · intro u huv
        rw [g_n]
        exact huv
    · intro r hr
      rw [l1]
      by_cases c1 : r = m.recs.length
      · omega
      · by_cases c2 : r = Sym m.recs.length
        · rw [c2, sn]; omega
        · have := R.lt r (mem_ring_attach hr c1 c2); omega
    · intro r hr
      by_cases c1 : r = m.recs.length
      · omega
      · by_cases c2 : r = Sym m.recs.length
        · rw [c2, sn]; omega
        · exact R.primal r (mem_ring_attach hr c1 c2)
    · intro r hr
      by_cases c1 : r = m.recs.length
      · rw [c1]; exact live_n
      · by_cases c2 : r = Sym m.recs.length
        · rw [c2, Dead_Sym]; exact live_n
        · intro hd
          have hr1 := mem_ring_attach hr c1 c2
          exact R.live r hr1 (dead_back r (R.lt r hr1) (R.primal r hr1) hd)
  refine ⟨T1, R1, ?_, by rw [sn, o_n2]⟩
  intro r hr
  obtain ⟨p, q, a, b, c⟩ := Lf r hr
  exact ⟨p, q, by rw [o_o r (R.lt r hr)]; exact a, by rw [d_o r (R.lt r hr)]; exact b, c⟩

theorem firstSpoke_eq (m : Mesh) (e : Nat) (x : Point) :
    firstSpoke m e x = (m.recs.length,
      (Connect (attach m e x) e (Sym m.recs.length)).1,
      OPrev (Connect (attach m e x) e (Sym m.recs.length)).1
        (Connect (attach m e x) e (Sym m.recs.length)).2,
      (Connect (attach m e x) e (Sym m.recs.length)).2) := by
  simp only [firstSpoke, attach, NewWithEndPoints, New_snd]

/-- The first spoke of `InsertSite` and the first `Connect`, on a polygon with
at least two records. -/
theorem firstSpoke_Hole {m : Mesh} {o : Nat} {q0 q1 q2 x : Point} {e h : Nat}
    {poly : List Nat} (H : Pre m o q0 q1 q2 x e (h :: poly)) :
    (firstSpoke m e x).1 = m.recs.length ∧
      Hole (firstSpoke m e x).2.1 o q0 q1 q2 x m.recs.length (firstSpoke m e x).2.2.1
        (firstSpoke m e x).2.2.2 poly := by
  have h1 := H.spoke.connect
  rw [firstSpoke_eq]
  refine ⟨rfl, ?_⟩
  simp only []
  rw [h1.1]
  exact h1.2

/-- The spoke loop ends in the state of the suspect-edge loop. -/
theorem spokeLoop_Hole (o : Nat) (q0 q1 q2 x : Point) (start : Nat) :
    ∀ (fuel : Nat) (m : Mesh) (e base : Nat) (poly : List Nat) (r : Mesh × Nat),
      Hole m o q0 q1 q2 x start e base poly → spokeLoop start fuel m e base = some r →
      Star r.1 o q0 q1 q2 x start r.2 := by
  intro fuel
  induction fuel with
  | zero => intro m e base poly r _ h; simp [spokeLoop] at h
  | succ n ih =>
    intro m e base poly r H h
    simp only [spokeLoop] at h
    cases poly with
    | nil =>
      obtain ⟨a, b⟩ := H.exit
      rw [if_neg (by rw [a]; exact fun hh => hh rfl)] at h
      cases h
      exact b
    | cons h1 poly =>
      rw [if_pos H.next] at h
      have st := H.connect
      rw [st.1] at h
      have := st.2
      rw [← st.1] at this
      rw [← st.1] at h
      exact ih _ _ _ poly r this h

/-- The records and end points of a three-sided face. -/
theorem FaceOf.parts {m : Mesh} (hw : WellFormed m)
    (hring : ∀ r, r < m.recs.length → r % 2 = 0 → Org m (ONext m r) = Org m r)
    {r : Nat} {p q t : Point} (hr : r < m.recs.length) (hp : r % 2 = 0)
    (hf : FaceOf m r p q t) :
    FaceOf m (LPrev m r) t p q ∧ FaceOf m (LPrev m (LPrev m r)) q t p ∧
      LPrev m r < m.recs.length ∧ LPrev m r % 2 = 0 ∧
      LPrev m (LPrev m r) < m.recs.length ∧ LPrev m (LPrev m r) % 2 = 0 ∧
      ONext m r = Sym (LPrev m r) ∧ ONext m (LPrev m r) = Sym (LPrev m (LPrev m r)) ∧
      ONext m (LPrev m (LPrev m r)) = Sym r := by
  have l1 := LPrev_lt hw hr
  have p1 : LPrev m r % 2 = 0 := by rw [LPrev_mod2 hw hr]; exact hp
  have l2 := LPrev_lt hw l1
  have p2 : LPrev m (LPrev m r) % 2 = 0 := by rw [LPrev_mod2 hw l1]; exact p1
  have f1 := FaceOf.rotate hw hring hr hp hf
  have f2 := FaceOf.rotate hw hring l1 p1 f1
  refine ⟨f1, f2, l1, p1, l2, p2, ?_, ?_, ?_⟩
  · unfold LPrev; rw [Sym_Sym]
  · show ONext m (LPrev m r) = Sym (Sym (ONext m (LPrev m r)))
    rw [Sym_Sym]
  · have h3 : Sym (ONext m (LPrev m (LPrev m r))) = r := hf.1
    rw [← h3, Sym_Sym, h3]

theorem ne_of_Org {m : Mesh} {u v : Nat} {A B : Point} (hu : Org m u = some A)
    (hv : Org m v = some B) (h : A ≠ B) : u ≠ v := by
  intro huv
  rw [huv, hv] at hu
  exact h (Option.some.inj hu).symm

theorem ne_of_Dest {m : Mesh} {u v : Nat} {A B : Point} (hu : Dest m u = some A)
    (hv : Dest m v = some B) (h : A ≠ B) : u ≠ v := by
  intro huv
  rw [huv, hv] at hu
  exact h (Option.some.inj hu).symm

/-- The vertices of a triangle of nonzero area are different. -/
theorem ne_of_ccwI {p q t : Point} (h : ccwI p q t ≠ 0) : p ≠ q ∧ q ≠ t ∧ t ≠ p := by
  refine ⟨?_, ?_, ?_⟩
  · intro hh; apply h; rw [hh]; exact ccwI_self_left q t
  · intro hh; apply h; rw [hh]; exact ccwI_self_right p t
  · intro hh; apply h; rw [hh]; exact ccwI_self_outer p q

/-- The outcome of `Swap(e)` on two counterclockwise triangles `P`, `D`, `X`
(left of `e`) and `D`, `P`, `T` (right of `e`): the successors and end points
afterwards, in terms of the six records of the two faces. -/
theorem Swap_two_faces {m : Mesh} (hw : WellFormed m)
    (hring : ∀ r, r < m.recs.length → r % 2 = 0 → Org m (ONext m r) = Org m r)
    {e : Nat} {P D X T : Point} (he : e < m.recs.length) (pe : e % 2 = 0)
    (fe : FaceOf m e P D X) (fs : FaceOf m (Sym e) D P T)
    (c1 : 0 < ccwI P D X) (c2 : 0 < ccwI D P T) :
    WellFormed (Swap m e) ∧ (Swap m e).recs.length = m.recs.length ∧
      ONext (Swap m e) e = Sym (LPrev m (LPrev m (Sym e))) ∧
      ONext (Swap m e) (Sym e) = Sym (LPrev m (LPrev m e)) ∧
      ONext (Swap m e) (LPrev m (LPrev m (Sym e))) = Sym (LPrev m e) ∧
      ONext (Swap m e) (LPrev m (LPrev m e)) = Sym (LPrev m (Sym e)) ∧
      ONext (Swap m e) (LPrev m (Sym e)) = e ∧
      ONext (Swap m e) (LPrev m e) = Sym e ∧
      (∀ r, r % 2 = 0 → r ≠ e → r ≠ Sym e → r ≠ LPrev m (LPrev m (Sym e)) →
        r ≠ LPrev m (LPrev m e) → r ≠ LPrev m e → r ≠ LPrev m (Sym e) →
        ONext (Swap m e) r = ONext m r) ∧
      Org (Swap m e) e = some T ∧ Org (Swap m e) (Sym e) = some X ∧
      (∀ r, r ≠ e → r ≠ Sym e → Org (Swap m e) r = Org m r) := by
  have hs := Sym_lt hw.quads he
  have ps : Sym e % 2 = 0 := by rw [Sym_mod2]; exact pe
  obtain ⟨fp, fb, lp, pp, lb, pb, ne1, ne2, ne3⟩ := fe.parts hw hring he pe
  obtain ⟨fq, fa, lq, pq, la, pa, ns1, ns2, ns3⟩ := fs.parts hw hring hs ps
  rw [Sym_Sym] at ns3
  obtain ⟨d1, d2, d3⟩ := ne_of_ccwI (ne_of_gt c1)
  obtain ⟨d4, d5, d6⟩ := ne_of_ccwI (ne_of_gt c2)
  have d7 : X ≠ T := by
    intro hh
    rw [hh] at c1
    have := ccwI_rotate D P T
    have := ccwI_swap P T D
    linarith
  have := Swap_spec m hw e (LPrev m (LPrev m (Sym e))) (LPrev m (LPrev m e)) (LPrev m e)
    (LPrev m (Sym e)) he la lb lp lq pe ns3 ne3 ne2 ns2 ne1 ns1
    (ne_of_Dest fe.2.2.1 fa.2.2.1 d6.symm) (ne_of_Org fe.2.1 fb.2.1 d1)
    (ne_of_Org fe.2.1 fp.2.1 d3.symm) (ne_of_Org fe.2.1 fq.2.1 d5)
    (ne_of_Org fs.2.1 fa.2.1 d4) (ne_of_Dest fs.2.2.1 fb.2.2.1 d3.symm)
    (ne_of_Org fs.2.1 fp.2.1 d2) (ne_of_Org fs.2.1 fq.2.1 d6.symm)
    (ne_of_Org fa.2.1 fb.2.1 d1) (ne_of_Org fa.2.1 fp.2.1 d3.symm)
    (ne_of_Org fa.2.1 fq.2.1 d5) (ne_of_Org fb.2.1 fp.2.1 d2)
    (ne_of_Org fb.2.1 fq.2.1 d6.symm) (ne_of_Org fp.2.1 fq.2.1 d7)
  obtain ⟨a1, a2, a3, a4, a5, a6, a7, a8, a9, a10, a11, a12⟩ := this
  refine ⟨a1, a2, a3, a4, a5, a6, a7, a8, a9, ?_, ?_, a12⟩
  · rw [a10]; exact fa.2.2.1
  · rw [a11]; exact fb.2.2.1

/-- `Swap(e)` on two counterclockwise triangles that form a strictly convex
quadrilateral keeps the triangulation: the two new faces are counterclockwise
triangles and the rest of the mesh stays. -/
theorem Tri.swap {m : Mesh} {o : Nat} {q0 q1 q2 : Point} (T0 : Tri m o q0 q1 q2 [])
    {e : Nat} {P D X T : Point} (he : e < m.recs.length) (pe : e % 2 = 0)
    (fe : FaceOf m e P D X) (fs : FaceOf m (Sym e) D P T)
    (c1 : 0 < ccwI P D X) (c2 : 0 < ccwI D P T)
    (c3 : 0 < ccwI T X P) (c4 : 0 < ccwI X T D) :
    Tri (Swap m e) o q0 q1 q2 [] ∧
      (∀ r, r < m.recs.length → r % 2 = 0 → FaceCCW m r → FaceCCW (Swap m e) r) ∧
      OPrev (Swap m e) e = LPrev m (Sym e) ∧
      FaceOf (Swap m e) (LPrev m (Sym e)) T D X := by
  have hw := T0.wf
  have hring := T0.ring
  have hs := Sym_lt hw.quads he
  have ps : Sym e % 2 = 0 := by rw [Sym_mod2]; exact pe
  obtain ⟨fp, fb, lp, pp, lb, pb, ne1, ne2, ne3⟩ := fe.parts hw hring he pe
  obtain ⟨fq, fa, lq, pq, la, pa, ns1, ns2, ns3⟩ := fs.parts hw hring hs ps
  obtain ⟨w1, l1, g_e, g_s, g_a, g_b, g_q, g_p, g_o, o_e, o_s, o_o⟩ :=
    Swap_two_faces hw hring he pe fe fs c1 c2
  obtain ⟨d1, d2, d3⟩ := ne_of_ccwI (ne_of_gt c1)
  obtain ⟨d4, d5, d6⟩ := ne_of_ccwI (ne_of_gt c2)
  generalize hm1 : Swap m e = m1 at *
  generalize ha : LPrev m (LPrev m (Sym e)) = a at *
  generalize hb : LPrev m (LPrev m e) = b at *
  generalize hp : LPrev m e = p at *
  generalize hq : LPrev m (Sym e) = q at *
  generalize hsy : Sym e = s at *
  have se : Sym s = e := by rw [← hsy, Sym_Sym]
  rw [se] at ns3
  have n_ae : a ≠ e := ne_of_Dest fa.2.2.1 fe.2.2.1 d6
  have n_as : a ≠ s := ne_of_Org fa.2.1 fs.2.1 d4.symm
  have n_be : b ≠ e := ne_of_Org fb.2.1 fe.2.1 d1.symm
  have n_bs : b ≠ s := ne_of_Dest fb.2.2.1 fs.2.2.1 d3
  have n_pe : p ≠ e := ne_of_Org fp.2.1 fe.2.1 d3
  have n_ps : p ≠ s := ne_of_Org fp.2.1 fs.2.1 d2.symm
  have n_qe : q ≠ e := ne_of_Org fq.2.1 fe.2.1 d5.symm
  have n_qs : q ≠ s := ne_of_Org fq.2.1 fs.2.1 d6
  have n_es : e ≠ s := by rw [← hsy]; exact (Sym_ne e).symm
  have sym_ne : ∀ r, r ≠ e → r ≠ s → Sym r ≠ e ∧ Sym r ≠ s := by
    intro r h1 h2
    refine ⟨fun hh => h2 ?_, fun hh => h1 ?_⟩
    · rw [← hsy, ← hh, Sym_Sym]
    · rw [← se, ← hh, Sym_Sym]
  have d_o : ∀ r, r ≠ e → r ≠ s → Dest m1 r = Dest m r := by
    intro r h1 h2
    exact o_o _ (sym_ne r h1 h2).1 (sym_ne r h1 h2).2
  -- the new faces
  have f_e : FaceOf m1 e T X P :=
    FaceOf.of_ring p g_e g_a (by rw [g_p, hsy]) o_e (by rw [Dest_eq, hsy]; exact o_s)
      (by rw [o_o a n_ae n_as]; exact fa.2.1)
  have f_s : FaceOf m1 s X T D :=
    FaceOf.of_ring q g_s g_b (by rw [g_q, se]) o_s (by rw [Dest_eq, se]; exact o_e)
      (by rw [o_o b n_be n_bs]; exact fb.2.1)
  have hlab : ∀ r, r < m1.recs.length → r % 2 = 0 → ∃ z, Org m1 r = some z := by
    intro r hr hp
    rw [l1] at hr
    by_cases h1 : r = e
    · rw [h1]; exact ⟨T, o_e⟩
    · by_cases h2 : r = s
      · rw [h2]; exact ⟨X, o_s⟩
      · rw [o_o r h1 h2]; exact T0.lab r hr hp
  have hring1 : ∀ r, r < m1.recs.length → r % 2 = 0 → Org m1 (ONext m1 r) = Org m1 r := by
    intro r hr hp
    rw [l1] at hr
    by_cases h1 : r = e
    · rw [h1, g_e, o_e]
      have := d_o a n_ae n_as
      rw [Dest_eq] at this
      rw [this]
      exact fa.2.2.1
    by_cases h2 : r = s
    · rw [h2, g_s, o_s]
      have := d_o b n_be n_bs
      rw [Dest_eq] at this
      rw [this]
      exact fb.2.2.1
    by_cases h3 : r = a
    · rw [h3, g_a, o_o a n_ae n_as, fa.2.1]
      have := d_o p n_pe n_ps
      rw [Dest_eq] at this
      rw [this]
      exact fp.2.2.1
    by_cases h4 : r = b
    · rw [h4, g_b, o_o b n_be n_bs, fb.2.1]
      have := d_o q n_qe n_qs
      rw [Dest_eq] at this
      rw [this]
      exact fq.2.2.1
    by_cases h5 : r = p
    · rw [h5, g_p, o_s, o_o p n_pe n_ps, fp.2.1]
    by_cases h6 : r = q
    · rw [h6, g_q, o_e, o_o q n_qe n_qs, fq.2.1]
    have k1 : ONext m r ≠ e := by
      intro hh
      rw [← ns3] at hh
      exact h3 (hw.next_injective hr la hh)
    have k2 : ONext m r ≠ s := by
      intro hh
      rw [← ne3] at hh
      exact h4 (hw.next_injective hr lb hh)
    rw [g_o r hp h1 h2 h3 h4 h5 h6, o_o _ k1 k2, o_o r h1 h2]
    exact T0.ring r hr hp
  have le1 : e < m1.recs.length := by rw [l1]; exact he
  have ls1 : s < m1.recs.length := by rw [l1]; exact hs
  obtain ⟨f_a, f_p, -, -, -, -, -, -, -⟩ := f_e.parts w1 hring1 le1 pe
  obtain ⟨f_b, f_q, -, -, -, -, -, -, -⟩ := f_s.parts w1 hring1 ls1 ps
  have lpe : LPrev m1 e = a := by unfold LPrev; rw [g_e, Sym_Sym]
  have lpa : LPrev m1 a = p := by unfold LPrev; rw [g_a, Sym_Sym]
  have lps : LPrev m1 s = b := by unfold LPrev; rw [g_s, Sym_Sym]
  have lpb : LPrev m1 b = q := by unfold LPrev; rw [g_b, Sym_Sym]
  rw [lpe] at f_a f_p
  rw [lpa] at f_p
  rw [lps] at f_b f_q
  rw [lpb] at f_q
  have r1 := ccwI_rotate P T X
  have r2 := ccwI_rotate X P T
  have r3 := ccwI_rotate D X T
  have r4 := ccwI_rotate T D X
  have n_e : FaceCCW m1 e := ⟨T, X, P, f_e, c3⟩
  have n_a : FaceCCW m1 a := ⟨P, T, X, f_a, by linarith⟩
  have n_p : FaceCCW m1 p := ⟨X, P, T, f_p, by linarith⟩
  have n_s : FaceCCW m1 s := ⟨X, T, D, f_s, c4⟩
  have n_b : FaceCCW m1 b := ⟨D, X, T, f_b, by linarith⟩
  have n_q : FaceCCW m1 q := ⟨T, D, X, f_q, by linarith⟩
  have r5 := ccwI_rotate P D X
  have r6 := ccwI_rotate X P D
  have r7 := ccwI_rotate D P T
  have r8 := ccwI_rotate T D P
  have o_e0 : FaceCCW m e := ⟨P, D, X, fe, c1⟩
  have o_p0 : FaceCCW m p := ⟨X, P, D, fp, by linarith⟩
  have o_b0 : FaceCCW m b := ⟨D, X, P, fb, by linarith⟩
  have o_s0 : FaceCCW m s := ⟨D, P, T, fs, c2⟩
  have o_q0 : FaceCCW m q := ⟨T, D, P, fq, by linarith⟩
  have o_a0 : FaceCCW m a := ⟨P, T, D, fa, by linarith⟩
  have six : ∀ r, (r = e ∨ r = s ∨ r = a ∨ r = b ∨ r = p ∨ r = q) →
      FaceCCW m r ∧ FaceCCW m1 r := by
    rintro r (h | h | h | h | h | h)
    · rw [h]; exact ⟨o_e0, n_e⟩
    · rw [h]; exact ⟨o_s0, n_s⟩
    · rw [h]; exact ⟨o_a0, n_a⟩
    · rw [h]; exact ⟨o_b0, n_b⟩
    · rw [h]; exact ⟨o_p0, n_p⟩
    · rw [h]; exact ⟨o_q0, n_q⟩
  have lnx : ∀ r, (r = e ∨ r = s ∨ r = a ∨ r = b ∨ r = p ∨ r = q) →
      (LNext m r = e ∨ LNext m r = s ∨ LNext m r = a ∨ LNext m r = b ∨ LNext m r = p ∨
        LNext m r = q) := by
    rintro r (h | h | h | h | h | h)
    · rw [h, hw.LNext_of_next lb (by rw [hsy]; exact ne3)]; exact Or.inr (Or.inr (Or.inr (Or.inl rfl)))
    · rw [h, hw.LNext_of_next la (by rw [se]; exact ns3)]; exact Or.inr (Or.inr (Or.inl rfl))
    · rw [h, hw.LNext_of_next lq ns2]; exact Or.inr (Or.inr (Or.inr (Or.inr (Or.inr rfl))))
    · rw [h, hw.LNext_of_next lp ne2]; exact Or.inr (Or.inr (Or.inr (Or.inr (Or.inl rfl))))
    · rw [h, hw.LNext_of_next he ne1]; exact Or.inl rfl
    · rw [h, hw.LNext_of_next hs ns1]; exact Or.inr (Or.inl rfl)
  obtain ⟨k_o, k_io, k_d, k_f⟩ := T0.keep m1
    (fun r => r = e ∨ r = s ∨ r = a ∨ r = b ∨ r = p ∨ r = q)
    (fun r _ hc => (six r hc).1.live)
    (fun r hr _ hc => by
      have := lnx _ hc
      rw [LNext_LPrev hw hr] at this
      exact this)
    (fun r hc => (six r hc).1.not_outer T0)
    (fun r _ hp hc => by
      simp only [not_or] at hc
      exact g_o r hp hc.1 hc.2.1 hc.2.2.1 hc.2.2.2.1 hc.2.2.2.2.1 hc.2.2.2.2.2)
    (fun r _ _ hc => by
      simp only [not_or] at hc
      exact ⟨o_o r hc.1 hc.2.1, d_o r hc.1 hc.2.1⟩)
  refine ⟨⟨w1, hlab, hring1, ?_, by rw [l1]; exact T0.olt, T0.oprimal, k_o, T0.ocw, ?_⟩,
    ?_, ?_, f_q⟩
  · intro r hr hp hd hh ho
    rw [l1] at hr
    by_cases hc : r = e ∨ r = s ∨ r = a ∨ r = b ∨ r = p ∨ r = q
    · exact (six r hc).2
    · rcases T0.cases hr hp (List.not_mem_nil r) with d | d | d
      · exact absurd (k_d r hr hp hc d) hd
      · exact absurd ((k_io r).2 d) ho
      · exact k_f r hr hp hc d
  · intro r hr
    exact absurd hr (List.not_mem_nil r)
  · intro r hr hp hf
    by_cases hc : r = e ∨ r = s ∨ r = a ∨ r = b ∨ r = p ∨ r = q
    · exact (six r hc).2
    · exact k_f r hr hp hc hf
  · have := w1.OPrev_next (y := q) (by rw [l1]; exact lq)
    rw [g_q] at this
    exact this

/-- The third vertex of the face right of `e` is the destination of
`OPrev(e)`. -/
theorem Dest_OPrev_of_face {m : Mesh} (hw : WellFormed m)
    (hring : ∀ r, r < m.recs.length → r % 2 = 0 → Org m (ONext m r) = Org m r)
    {e : Nat} {p q t : Point} (he : e < m.recs.length) (pe : e % 2 = 0)
    (fs : FaceOf m (Sym e) p q t) : Dest m (OPrev m e) = some t := by
  have hs := Sym_lt hw.quads he
  have ps : Sym e % 2 = 0 := by rw [Sym_mod2]; exact pe
  rw [OPrev_eq_LNext_Sym, LNext_of_ring3 hw hs fs.1]
  exact (fs.parts hw hring hs ps).2.1.2.2.1

/-- No record of the unbounded face ends at a point strictly inside the
frame. -/
theorem Tri.outer_dest_ne {m : Mesh} {o : Nat} {q0 q1 q2 x : Point} {hole : List Nat}
    (T0 : Tri m o q0 q1 q2 hole) (hx : RightOfOuter q0 q1 q2 x) {r : Nat}
    (hr : InOuter m o r) : Dest m r ≠ some x := by
  obtain ⟨p, q, t, f, _, hpq⟩ := T0.outer_cw hr
  intro hd
  rw [f.2.2.1] at hd
  have hq : q = x := Option.some.inj hd
  obtain ⟨h0, h1, h2⟩ := hx
  rcases hpq with ⟨_, h⟩ | ⟨_, h⟩ | ⟨_, h⟩
  · rw [← hq, h, ccwI_self_right] at h0; exact lt_irrefl _ h0
  · rw [← hq, h, ccwI_self_outer] at h0; exact lt_irrefl _ h0
  · rw [← hq, h, ccwI_self_right] at h1; exact lt_irrefl _ h1

/-- Popping a suspect edge: the next triangle around the site. -/
theorem Star.pop {m : Mesh} {o : Nat} {q0 q1 q2 x : Point} {start e : Nat}
    (S : Star m o q0 q1 q2 x start e) (hx : RightOfOuter q0 q1 q2 x) :
    Star m o q0 q1 q2 x start (LPrev m (ONext m e)) := by
  obtain ⟨T0, sf, sl, sp, he, pe, P, D, fe, c1⟩ := S
  have hw := T0.wf
  have lr := hw.closed e he
  have pr : ONext m e % 2 = 0 := by rw [hw.role e he]; exact pe
  have hd : ¬ Dead m (ONext m e) := not_Dead_ONext hw he fe.not_Dead
  have ho : ¬ InOuter m o (ONext m e) := fun hh => T0.outer_dest_ne hx hh fe.2.2.2
  obtain ⟨p1, q1, t1, f1, c⟩ := T0.face _ lr pr hd (List.not_mem_nil _) ho
  have e1 : p1 = P := by
    have := T0.ring e he pe
    rw [f1.2.1, fe.2.1] at this
    exact Option.some.inj this
  have e2 : q1 = x := by
    have := f1.2.2.1
    rw [fe.2.2.2] at this
    exact (Option.some.inj this).symm
  subst e1 e2
  refine ⟨T0, sf, sl, sp, LPrev_lt hw lr, by rw [LPrev_mod2 hw lr]; exact pr, t1, p1,
    FaceOf.rotate hw T0.ring lr pr f1, ?_⟩
  rw [← ccwI_rotate t1 p1 q1]
  exact c

/-- Swapping a suspect edge whose far vertex lies inside the circle: both new
triangles are counterclockwise, and the loop goes on with the far edge. -/
theorem Star.flip {m : Mesh} {o : Nat} {q0 q1 q2 x : Point} {start e : Nat}
    (S : Star m o q0 q1 q2 x start e) {td eo ed : Point}
    (htd : Dest m (OPrev m e) = some td) (hr : RightOf m td e = true)
    (heo : Org m e = some eo) (hed : Dest m e = some ed)
    (hin : InCircle eo td ed x = true) :
    Star (Swap m e) o q0 q1 q2 x start (OPrev (Swap m e) e) := by
  obtain ⟨T0, sf, sl, sp, he, pe, P, D, fe, c1⟩ := S
  have hw := T0.wf
  have hs := Sym_lt hw.quads he
  have ps : Sym e % 2 = 0 := by rw [Sym_mod2]; exact pe
  have e1 : eo = P := by
    rw [fe.2.1] at heo; exact (Option.some.inj heo).symm
  have e2 : ed = D := by
    rw [fe.2.2.1] at hed; exact (Option.some.inj hed).symm
  subst e1 e2
  have hr1 : 0 < ccwI td ed eo := by
    unfold RightOf at hr
    rw [heo, hed] at hr
    exact (CCW_iff _ _ _).1 hr
  have hd : ¬ Dead m (Sym e) := by rw [Dead_Sym]; exact fe.not_Dead
  have key : ∀ p q t, FaceOf m (Sym e) p q t → p = ed ∧ q = eo ∧ t = td := by
    intro p q t f
    have a1 := Dest_OPrev_of_face hw T0.ring he pe f
    rw [htd] at a1
    have a2 := f.2.1
    rw [← Dest_eq, hed] at a2
    have a3 := f.2.2.1
    rw [Dest_eq, Sym_Sym, heo] at a3
    exact ⟨(Option.some.inj a2).symm, (Option.some.inj a3).symm, (Option.some.inj a1).symm⟩
  have ho : ¬ InOuter m o (Sym e) := by
    intro hh
    obtain ⟨p, q, t, f, c, _⟩ := T0.outer_cw hh
    obtain ⟨a1, a2, a3⟩ := key p q t f
    subst a1 a2 a3
    have := ccwI_rotate t p q
    linarith
  obtain ⟨p, q, t, fs, c2⟩ := T0.face _ hs ps hd (List.not_mem_nil _) ho
  obtain ⟨a1, a2, a3⟩ := key p q t fs
  subst a1 a2 a3
  obtain ⟨c3, c4⟩ := flip_convex q p t x c1 hr1 hin
  obtain ⟨T1, kf, op, fq⟩ := T0.swap he pe fe fs c1 c2 c3 c4
  have l1 := length_Swap m e
  refine ⟨T1, kf start sl sp sf, by rw [l1]; exact sl, sp, ?_, ?_, t, p, ?_, ?_⟩
  · rw [op, l1]; exact LPrev_lt hw hs
  · rw [op, LPrev_mod2 hw hs]; exact ps
  · rw [op]; exact fq
  · rw [ccwI_rotate x t p]; exact c4

/-- The suspect-edge loop keeps the triangulation. -/
theorem suspectLoop_Star (o : Nat) (q0 q1 q2 x : Point) (start : Nat)
    (hx : RightOfOuter q0 q1 q2 x) :
    ∀ (fuel : Nat) (m : Mesh) (e : Nat) (r : Mesh),
      Star m o q0 q1 q2 x start e → suspectLoop start x fuel m e = some r →
      Tri r o q0 q1 q2 [] ∧ FaceCCW r start ∧ start < r.recs.length ∧ start % 2 = 0 := by
  intro fuel
  induction fuel with
  | zero => intro m e r _ h; simp [suspectLoop] at h
  | succ n ih =>
    intro m e r S h
    simp only [suspectLoop] at h
    split at h
    · exact absurd h (by simp)
    · rename_i td htd
      split at h
      · rename_i hro
        split at h
        · rename_i eo ed heo hed
          split at h
          · rename_i hin
            exact ih _ _ r (S.flip htd hro heo hed hin) h
          · split at h
            · cases h; exact ⟨S.tri, S.sface, S.slt, S.sprimal⟩
            · exact ih _ _ r (S.pop hx) h
        · exact absurd h (by simp)
      · split at h
        · cases h; exact ⟨S.tri, S.sface, S.slt, S.sprimal⟩
        · exact ih _ _ r (S.pop hx) h

/-- A step of the location walk stays on the edges of the mesh. -/
theorem testEdge_walk {m : Mesh} (hw : WellFormed m) (x : Point) {e : Nat}
    (he : e < m.recs.length) (pe : e % 2 = 0) (hl : ¬ Dead m e) :
    (testEdge m x e).2 < m.recs.length ∧ (testEdge m x e).2 % 2 = 0 ∧
      ¬ Dead m (testEdge m x e).2 := by
  have hs := Sym_lt hw.quads he
  have ps : Sym e % 2 = 0 := by rw [Sym_mod2]; exact pe
  have ln := hw.LNext_lt he
  unfold testEdge
  split_ifs
  · exact ⟨he, pe, hl⟩
  · exact ⟨hs, ps, by rw [Dead_Sym]; exact hl⟩
  · exact ⟨hw.closed e he, by rw [hw.role e he]; exact pe, not_Dead_ONext hw he hl⟩
  · rw [DPrev_eq_Sym_LNext]
    exact ⟨Sym_lt hw.quads ln, by rw [Sym_mod2, hw.LNext_mod2 he]; exact pe,
      by rw [Dead_Sym]; exact not_Dead_LNext hw he hl⟩
  · exact ⟨he, pe, hl⟩

/-- The edge answered by the loop of `locate` is an edge of the mesh. -/
theorem locateLoop_walk (sd : Subdivision) (hw : WellFormed sd.mesh) (x : Point)
    (wfuel : Nat) :
    ∀ (fuel count : Nat) (p : Bool × Nat) (e : Nat),
      (p.2 < sd.mesh.recs.length ∧ p.2 % 2 = 0 ∧ ¬ Dead sd.mesh p.2) →
      locateLoop sd x wfuel fuel count p = some (some e, true) →
      e < sd.mesh.recs.length ∧ e % 2 = 0 ∧ ¬ Dead sd.mesh e := by
  intro fuel
  induction fuel with
  | zero => intro _ _ _ _ h; simp [locateLoop] at h
  | succ n ih =>
    intro count p e hp h
    obtain ⟨ok, e1⟩ := p
    simp only [locateLoop] at h
    by_cases hok : ok = true
    · rw [if_pos hok] at h
      simp only [Option.some.injEq, Prod.mk.injEq, and_true] at h
      rw [← h]
      exact hp
    · rw [if_neg hok] at h
      by_cases hc : e1 = sd.startingEdge ∨ count + 1 > sd.ptcount * 2
      · rw [if_pos hc] at h
        cases hwk : WalkAllEdges wfuel sd.mesh (some sd.startingEdge)
            (locateCallback sd.mesh x) none with
        | none => simp [hwk] at h
        | some q => simp [hwk] at h
      · rw [if_neg hc] at h
        exact ih _ _ e (testEdge_walk hw x hp.1 hp.2.1 hp.2.2) h

/-- What `locate` answers with `found = true`: an edge of the mesh whose
location test succeeds. -/
theorem locate_spec (fuel : Nat) (sd : Subdivision) (x : Point) (e : Nat)
    (hw : WellFormed sd.mesh) (hs : sd.startingEdge < sd.mesh.recs.length)
    (ps : sd.startingEdge % 2 = 0) (hl : ¬ Dead sd.mesh sd.startingEdge)
    (h : Subdivision.locate fuel sd x = some (some e, true)) :
    e < sd.mesh.recs.length ∧ e % 2 = 0 ∧ ¬ Dead sd.mesh e ∧
      (testEdge sd.mesh x e).1 = true := by
  unfold Subdivision.locate at h
  obtain ⟨a, b, c⟩ := locateLoop_walk sd hw x fuel fuel 0 _ e (testEdge_walk hw x hs ps hl) h
  obtain ⟨e1, h1, h2⟩ := locateLoop_found sd x fuel fuel 0 _ (some e)
    (fun ht => by rw [testEdge_true _ _ _ ht]; exact ht) h
  cases h1
  exact ⟨a, b, c, h2⟩

/-- The three tests of `testEdge` on a record with a three-sided left face,
in terms of the vertices of the face. -/
theorem RightOf_of_face {m : Mesh} (hw : WellFormed m)
    (hring : ∀ r, r < m.recs.length → r % 2 = 0 → Org m (ONext m r) = Org m r)
    {e : Nat} {P D T : Point} (he : e < m.recs.length) (pe : e % 2 = 0)
    (f : FaceOf m e P D T) (x : Point) :
    RightOf m x e = CCW x D P ∧ RightOf m x (ONext m e) = CCW x T P ∧
      RightOf m x (DPrev m e) = CCW x D T := by
  obtain ⟨_, f2, _, _, _, _, _, _, _⟩ := f.parts hw hring he pe
  refine ⟨?_, ?_, ?_⟩
  · unfold RightOf
    rw [f.2.1, f.2.2.1]
  · unfold RightOf
    rw [hring e he pe, f.2.1, f.2.2.2]
  · rw [DPrev_eq_Sym_LNext, LNext_of_ring3 hw he f.1]
    unfold RightOf
    rw [← Dest_eq, f2.2.2.1, Dest_eq, Sym_Sym, f2.2.1]

theorem ptEqual_false {x P : Point} {a : Option Point} (ha : a = some P)
    (h : ptEqual x a = false) : x ≠ P := by
  intro hh
  rw [ha, hh, ptEqual_self] at h
  exact absurd h (by simp)

/-- The edge found by `locate` for a site strictly inside the frame that is
no end point of the edge: its left face is a counterclockwise triangle that
holds the site, strictly left of the two other edges. -/
theorem located_face {m : Mesh} {o : Nat} {q0 q1 q2 x : Point}
    (T0 : Tri m o q0 q1 q2 []) (hx : RightOfOuter q0 q1 q2 x) {e : Nat}
    (he : e < m.recs.length) (pe : e % 2 = 0) (hl : ¬ Dead m e)
    (ht : (testEdge m x e).1 = true)
    (hpt : (ptEqual x (Org m e) || ptEqual x (Dest m e)) = false) :
    ∃ P D T, FaceOf m e P D T ∧ 0 < ccwI P D T ∧ 0 ≤ ccwI P D x ∧ 0 < ccwI D T x ∧
      0 < ccwI T P x ∧ x ≠ P ∧ x ≠ D := by
  have hw := T0.wf
  have h3 : RightOf m x e = false ∧ RightOf m x (ONext m e) = true ∧
      RightOf m x (DPrev m e) = true := by
    unfold testEdge at ht
    rw [hpt] at ht
    by_cases c1 : RightOf m x e = true
    · simp [c1] at ht
    · by_cases c2 : RightOf m x (ONext m e) = true
      · by_cases c3 : RightOf m x (DPrev m e) = true
        · exact ⟨by simpa using c1, c2, c3⟩
        · simp [c1, c2, c3] at ht
      · simp [c1, c2] at ht
  have key : ∀ P D T, FaceOf m e P D T →
      ¬ (0 < ccwI x D P) ∧ 0 < ccwI x T P ∧ 0 < ccwI x D T ∧ x ≠ P ∧ x ≠ D := by
    intro P D T f
    obtain ⟨a1, a2, a3⟩ := RightOf_of_face hw T0.ring he pe f x
    rw [a1] at h3
    rw [a2, a3] at h3
    rw [Bool.or_eq_false_iff] at hpt
    refine ⟨?_, (CCW_iff _ _ _).1 h3.2.1, (CCW_iff _ _ _).1 h3.2.2,
      ptEqual_false f.2.1 hpt.1, ptEqual_false f.2.2.1 hpt.2⟩
    intro hh
    have := (CCW_iff _ _ _).2 hh
    rw [h3.1] at this
    exact absurd this (by simp)
  rcases T0.cases he pe (List.not_mem_nil e) with d | d | d
  · exact absurd d hl
  · exfalso
    obtain ⟨P, D, T, f, _, hpq⟩ := T0.outer_cw d
    obtain ⟨k1, _, _, _, _⟩ := key P D T f
    apply k1
    have r1 := ccwI_rotate x P D
    have r2 := ccwI_swap x P D
    obtain ⟨h0, h1, h2⟩ := hx
    rcases hpq with ⟨a, b⟩ | ⟨a, b⟩ | ⟨a, b⟩
    · rw [a, b] at r1 r2 ⊢; linarith
    · rw [a, b] at r1 r2 ⊢; linarith
    · rw [a, b] at r1 r2 ⊢; linarith
  · obtain ⟨P, D, T, f, c⟩ := d
    obtain ⟨k1, k2, k3, k4, k5⟩ := key P D T f
    have r1 := ccwI_rotate x P D
    have r2 := ccwI_swap x P D
    have r3 := ccwI_rotate x T P
    have r4 := ccwI_rotate x D T
    exact ⟨P, D, T, f, c, by linarith, by linarith, by linarith, k4, k5⟩

theorem nodup3 {a b c : Nat} (h1 : a ≠ b) (h2 : a ≠ c) (h3 : b ≠ c) : [a, b, c].Nodup := by
  simp only [List.nodup_cons, List.mem_cons, List.not_mem_nil, or_false, not_or,
    not_false_eq_true, List.nodup_nil, and_true]
  exact ⟨⟨h1, h2⟩, h3⟩

theorem nodup4 {a b c d : Nat} (h1 : a ≠ b) (h2 : a ≠ c) (h3 : a ≠ d) (h4 : b ≠ c)
    (h5 : b ≠ d) (h6 : c ≠ d) : [a, b, c, d].Nodup := by
  simp only [List.nodup_cons, List.mem_cons, List.not_mem_nil, or_false, not_or,
    not_false_eq_true, List.nodup_nil, and_true]
  exact ⟨⟨h1, h2, h3⟩, ⟨h4, h5⟩, h6⟩

theorem mem3 {a b c r : Nat} (h : r ∈ [a, b, c]) : r = a ∨ r = b ∨ r = c := by
  simpa using h

theorem mem4 {a b c d r : Nat} (h : r ∈ [a, b, c, d]) : r = a ∨ r = b ∨ r = c ∨ r = d := by
  simpa using h

/-- The triangle that holds the site strictly inside is the polygon of the
spokes. -/
theorem Pre.of_triangle {m : Mesh} {o : Nat} {q0 q1 q2 x : Point}
    (T0 : Tri m o q0 q1 q2 []) {e : Nat} {P D T : Point} (he : e < m.recs.length)
    (pe : e % 2 = 0) (f : FaceOf m e P D T) (c : 0 < ccwI P D T)
    (c1 : 0 < ccwI P D x) (c2 : 0 < ccwI D T x) (c3 : 0 < ccwI T P x) :
    Pre m o q0 q1 q2 x e [LPrev m (LPrev m e), LPrev m e] := by
  have hw := T0.wf
  obtain ⟨fp, fb, lp, pp, lb, pb, ne1, ne2, ne3⟩ := f.parts hw T0.ring he pe
  obtain ⟨d1, d2, d3⟩ := ne_of_ccwI (ne_of_gt c)
  have r1 := ccwI_rotate P D T
  have r2 := ccwI_rotate T P D
  have fc : ∀ r, r ∈ [e, LPrev m (LPrev m e), LPrev m e] →
      FaceCCW m r ∧ r < m.recs.length ∧ r % 2 = 0 ∧
        ∃ p q, Org m r = some p ∧ Dest m r = some q ∧ 0 < ccwI p q x := by
    intro r hr
    rcases mem3 hr with h | h | h
    · rw [h]; exact ⟨⟨P, D, T, f, c⟩, he, pe, P, D, f.2.1, f.2.2.1, c1⟩
    · rw [h]; exact ⟨⟨D, T, P, fb, by linarith⟩, lb, pb, D, T, fb.2.1, fb.2.2.1, c2⟩
    · rw [h]; exact ⟨⟨T, P, D, fp, by linarith⟩, lp, pp, T, P, fp.2.1, fp.2.2.1, c3⟩
  refine ⟨⟨hw, T0.lab, T0.ring, ?_, T0.olt, T0.oprimal, T0.oface, T0.ocw, ?_⟩, ⟨?_, ?_, ?_, ?_, ?_⟩,
    ?_⟩
  · intro r hr hp hd _ ho
    exact T0.face r hr hp hd (List.not_mem_nil r) ho
  · intro r hr
    exact (fc r hr).1.not_outer T0
  · exact nodup3 (ne_of_Org f.2.1 fb.2.1 d1) (ne_of_Org f.2.1 fp.2.1 d3.symm)
      (ne_of_Org fb.2.1 fp.2.1 d2)
  · simp only [List.cons_append, List.nil_append, List.chain_cons, List.Chain.nil, and_true]
    exact ⟨ne3, ne2, ne1⟩
  · intro r hr; exact (fc r hr).2.1
  · intro r hr; exact (fc r hr).2.2.1
  · intro r hr; exact (fc r hr).1.live
  · intro r hr; exact (fc r hr).2.2.2

theorem ne_Sym_of_Dest_Org {m : Mesh} {u v : Nat} {A B : Point} (hu : Dest m u = some A)
    (hv : Org m v = some B) (h : A ≠ B) : u ≠ Sym v := by
  intro huv
  rw [huv, Dest_eq, Sym_Sym, hv] at hu
  exact h (Option.some.inj hu).symm

/-- The edge that holds the site is deleted: the two triangles on its sides
become the quadrilateral of the spokes, entered at `OPrev(e)`. -/
theorem Pre.of_delete {m : Mesh} {o : Nat} {q0 q1 q2 x : Point}
    (T0 : Tri m o q0 q1 q2 []) {e : Nat} {P D T G : Point} (he : e < m.recs.length)
    (pe : e % 2 = 0) (fe : FaceOf m e P D T) (fs : FaceOf m (Sym e) D P G)
    (c1 : 0 < ccwI P D T) (c2 : 0 < ccwI D P G)
    (k1 : 0 < ccwI D T x) (k2 : 0 < ccwI T P x) (k3 : 0 < ccwI P G x)
    (k4 : 0 < ccwI G D x) :
    OPrev m e = LPrev m (LPrev m (Sym e)) ∧
      Pre (Delete m (some e)) o q0 q1 q2 x (LPrev m (LPrev m (Sym e)))
        [LPrev m (Sym e), LPrev m (LPrev m e), LPrev m e] := by
  have hw := T0.wf
  have hring := T0.ring
  have hs := Sym_lt hw.quads he
  have ps : Sym e % 2 = 0 := by rw [Sym_mod2]; exact pe
  obtain ⟨fp, fb, lp, pp, lb, pb, ne1, ne2, ne3⟩ := fe.parts hw hring he pe
  obtain ⟨fq, fa, lq, pq, la, pa, ns1, ns2, ns3⟩ := fs.parts hw hring hs ps
  rw [Sym_Sym] at ns3
  obtain ⟨d1, d2, d3⟩ := ne_of_ccwI (ne_of_gt c1)
  obtain ⟨d4, d5, d6⟩ := ne_of_ccwI (ne_of_gt c2)
  have d7 : T ≠ G := by
    intro hh
    rw [hh] at c1
    have := ccwI_rotate D P G
    have := ccwI_swap P G D
    linarith
  have opv : OPrev m e = LPrev m (LPrev m (Sym e)) := by
    rw [OPrev_eq_LNext_Sym, LNext_of_ring3 hw hs fs.1]
  have n_be : LPrev m (LPrev m e) ≠ e := ne_of_Org fb.2.1 fe.2.1 d1.symm
  have n_ba : LPrev m (LPrev m e) ≠ LPrev m (LPrev m (Sym e)) := ne_of_Org fb.2.1 fa.2.1 d1.symm
  have n_as : LPrev m (LPrev m (Sym e)) ≠ Sym e := ne_of_Org fa.2.1 fs.2.1 d4.symm
  obtain ⟨w1, l1, g_e, g_s, g_a, g_b, g_o, o_o⟩ :=
    Delete_spec m hw e (LPrev m (LPrev m (Sym e))) (LPrev m (LPrev m e)) he pe ns3 ne3 la lb
      n_be n_ba n_as
  rw [ne1] at g_a
  rw [ns1] at g_b
  refine ⟨opv, ?_⟩
  generalize hm1 : Delete m (some e) = m1 at *
  generalize ha : LPrev m (LPrev m (Sym e)) = a at *
  generalize hb : LPrev m (LPrev m e) = b at *
  generalize hp : LPrev m e = p at *
  generalize hq : LPrev m (Sym e) = q at *
  generalize hsy : Sym e = s at *
  have se : Sym s = e := by rw [← hsy, Sym_Sym]
  have n_ae : a ≠ e := ne_of_Dest fa.2.2.1 fe.2.2.1 d6
  have n_bs : b ≠ s := ne_of_Dest fb.2.2.1 fs.2.2.1 d3
  have n_pe : p ≠ e := ne_of_Org fp.2.1 fe.2.1 d3
  have n_ps : p ≠ s := ne_of_Org fp.2.1 fs.2.1 d2.symm
  have n_pa : p ≠ a := ne_of_Org fp.2.1 fa.2.1 d3
  have n_pb : p ≠ b := ne_of_Org fp.2.1 fb.2.1 d2.symm
  have n_qe : q ≠ e := ne_of_Org fq.2.1 fe.2.1 d5.symm
  have n_qs : q ≠ s := ne_of_Org fq.2.1 fs.2.1 d6
  have n_qa : q ≠ a := ne_of_Org fq.2.1 fa.2.1 d5.symm
  have n_qb : q ≠ b := ne_of_Org fq.2.1 fb.2.1 d6
  have n_qp : q ≠ p := ne_of_Org fq.2.1 fp.2.1 d7.symm
  have g_q : ONext m1 q = Sym a := by rw [g_o q pq n_qe n_qs n_qa n_qb]; exact ns2
  have g_p : ONext m1 p = Sym b := by rw [g_o p pp n_pe n_ps n_pa n_pb]; exact ne2
  have hring1 : ∀ r, r < m1.recs.length → r % 2 = 0 → Org m1 (ONext m1 r) = Org m1 r := by
    intro r hr hp
    rw [l1] at hr
    by_cases h1 : r = e
    · rw [h1, g_e]
    by_cases h2 : r = s
    · rw [h2, g_s]
    by_cases h3 : r = a
    · rw [h3, g_a, o_o, o_o, ← ne1, hring e he pe, fe.2.1, fa.2.1]
    by_cases h4 : r = b
    · rw [h4, g_b, o_o, o_o, ← ns1, hring s hs ps, fs.2.1, fb.2.1]
    rw [g_o r hp h1 h2 h3 h4, o_o, o_o]
    exact hring r hr hp
  have r5 := ccwI_rotate P D T
  have r6 := ccwI_rotate T P D
  have r7 := ccwI_rotate D P G
  have r8 := ccwI_rotate G D P
  have o_e0 : FaceCCW m e := ⟨P, D, T, fe, c1⟩
  have o_p0 : FaceCCW m p := ⟨T, P, D, fp, by linarith⟩
  have o_b0 : FaceCCW m b := ⟨D, T, P, fb, by linarith⟩
  have o_s0 : FaceCCW m s := ⟨D, P, G, fs, c2⟩
  have o_q0 : FaceCCW m q := ⟨G, D, P, fq, by linarith⟩
  have o_a0 : FaceCCW m a := ⟨P, G, D, fa, by linarith⟩
  have six : ∀ r, (r = e ∨ r = s ∨ r = a ∨ r = b ∨ r = p ∨ r = q) → FaceCCW m r := by
    rintro r (h | h | h | h | h | h)
    · rw [h]; exact o_e0
    · rw [h]; exact o_s0
    · rw [h]; exact o_a0
    · rw [h]; exact o_b0
    · rw [h]; exact o_p0
    · rw [h]; exact o_q0
  have lnx : ∀ r, (r = e ∨ r = s ∨ r = a ∨ r = b ∨ r = p ∨ r = q) →
      (LNext m r = e ∨ LNext m r = s ∨ LNext m r = a ∨ LNext m r = b ∨ LNext m r = p ∨
        LNext m r = q) := by
    rintro r (h | h | h | h | h | h)
    · rw [h, hw.LNext_of_next lb (by rw [hsy]; exact ne3)]
      exact Or.inr (Or.inr (Or.inr (Or.inl rfl)))
    · rw [h, hw.LNext_of_next la (by rw [se]; exact ns3)]; exact Or.inr (Or.inr (Or.inl rfl))
    · rw [h, hw.LNext_of_next lq ns2]; exact Or.inr (Or.inr (Or.inr (Or.inr (Or.inr rfl))))
    · rw [h, hw.LNext_of_next lp ne2]; exact Or.inr (Or.inr (Or.inr (Or.inr (Or.inl rfl))))
    · rw [h, hw.LNext_of_next he ne1]; exact Or.inl rfl
    · rw [h, hw.LNext_of_next hs ns1]; exact Or.inr (Or.inl rfl)
  obtain ⟨k_o, k_io, k_d, k_f⟩ := T0.keep m1
    (fun r => r = e ∨ r = s ∨ r = a ∨ r = b ∨ r = p ∨ r = q)
    (fun r _ hc => (six r hc).live)
    (fun r hr _ hc => by
      have := lnx _ hc
      rw [LNext_LPrev hw hr] at this
      exact this)
    (fun r hc => (six r hc).not_outer T0)
    (fun r _ hp hc => by
      simp only [not_or] at hc
      exact g_o r hp hc.1 hc.2.1 hc.2.2.1 hc.2.2.2.1)
    (fun r _ _ _ => ⟨o_o r, o_o _⟩)
  have dead_e : Dead m1 e := ⟨g_e, by rw [hsy]; exact g_s⟩
  have dead_s : Dead m1 s := ⟨g_s, by rw [se]; exact g_e⟩
  have fc : ∀ r, r ∈ [a, q, b, p] →
      FaceCCW m r ∧ r < m.recs.length ∧ r % 2 = 0 ∧ ¬ Dead m1 r ∧
        ∃ u v, Org m r = some u ∧ Dest m r = some v ∧ 0 < ccwI u v x := by
    intro r hr
    rcases mem4 hr with h | h | h | h
    · rw [h]
      refine ⟨o_a0, la, pa, ?_, P, G, fa.2.1, fa.2.2.1, k3⟩
      intro hd
      have h1 := hd.1
      rw [g_a] at h1
      exact ne_Sym_of_Dest_Org fa.2.2.1 fp.2.1 d7.symm h1.symm
    · rw [h]
      refine ⟨o_q0, lq, pq, ?_, G, D, fq.2.1, fq.2.2.1, k4⟩
      intro hd
      have h1 := hd.1
      rw [g_q] at h1
      exact ne_Sym_of_Dest_Org fq.2.2.1 fa.2.1 d1.symm h1.symm
    · rw [h]
      refine ⟨o_b0, lb, pb, ?_, D, T, fb.2.1, fb.2.2.1, k1⟩
      intro hd
      have h1 := hd.1
      rw [g_b] at h1
      exact ne_Sym_of_Dest_Org fb.2.2.1 fq.2.1 d7 h1.symm
    · rw [h]
      refine ⟨o_p0, lp, pp, ?_, T, P, fp.2.1, fp.2.2.1, k2⟩
      intro hd
      have h1 := hd.1
      rw [g_p] at h1
      exact ne_Sym_of_Dest_Org fp.2.2.1 fb.2.1 d1 h1.symm
  refine ⟨⟨w1, ?_, hring1, ?_, by rw [l1]; exact T0.olt, T0.oprimal, k_o, T0.ocw, ?_⟩,
    ⟨?_, ?_, ?_, ?_, ?_⟩, ?_⟩
  · intro r hr hp
    rw [l1] at hr
    rw [o_o]
    exact T0.lab r hr hp
  · intro r hr hp hd hh ho
    rw [l1] at hr
    by_cases hc : r = e ∨ r = s ∨ r = a ∨ r = b ∨ r = p ∨ r = q
    · exfalso
      rcases hc with h | h | h | h | h | h
      · rw [h] at hd; exact hd dead_e
      · rw [h] at hd; exact hd dead_s
      · apply hh; rw [h]; simp
      · apply hh; rw [h]; simp
      · apply hh; rw [h]; simp
      · apply hh; rw [h]; simp
    · rcases T0.cases hr hp (List.not_mem_nil r) with d | d | d
      · exact absurd (k_d r hr hp hc d) hd
      · exact absurd ((k_io r).2 d) ho
      · exact k_f r hr hp hc d
  · intro r hr
    rw [k_io]
    exact (fc r hr).1.not_outer T0
  · exact nodup4 n_qa.symm (ne_of_Org fa.2.1 fb.2.1 d1) n_pa.symm n_qb n_qp n_pb.symm
  · simp only [List.cons_append, List.nil_append, List.chain_cons, List.Chain.nil, and_true]
    exact ⟨g_q, g_b, g_p, g_a⟩
  · intro r hr; rw [l1]; exact (fc r hr).2.1
  · intro r hr; exact (fc r hr).2.2.1
  · intro r hr; exact (fc r hr).2.2.2.1
  · intro r hr
    obtain ⟨u, v, h1, h2, h3⟩ := (fc r hr).2.2.2.2
    exact ⟨u, v, by rw [o_o]; exact h1, by rw [Dest_eq, o_o]; exact h2, h3⟩

/-- The two loops of `InsertSite` after the first spoke end in a triangulated
mesh whose starting edge is the first spoke. -/
theorem finishSpokes_Tri {o : Nat} {q0 q1 q2 x : Point} (hx : RightOfOuter q0 q1 q2 x)
    (fuel : Nat) (sd : Subdivision) (f : Nat × Mesh × Nat × Nat) {poly : List Nat}
    (H : Hole f.2.1 o q0 q1 q2 x f.1 f.2.2.1 f.2.2.2 poly) (r : Subdivision × Bool)
    (h : finishSpokes fuel sd x f = some r) : TriSd r.1 o q0 q1 q2 := by
  unfold finishSpokes at h
  split at h
  · exact absurd h (by simp)
  · rename_i m1 e1 hsp
    split at h
    · exact absurd h (by simp)
    · rename_i m2 hsu
      cases h
      have S := spokeLoop_Hole o q0 q1 q2 x f.1 fuel _ _ _ poly (m1, e1) H hsp
      obtain ⟨a, b, c, d⟩ := suspectLoop_Star o q0 q1 q2 x f.1 hx fuel m1 e1 m2 S hsu
      exact ⟨a, c, d, b.live⟩

/-- The state after the first spoke, in terms of the parts of `firstSpoke`. -/
theorem firstSpoke_state {m : Mesh} {o : Nat} {q0 q1 q2 x : Point} {e h : Nat}
    {poly : List Nat} (H : Pre m o q0 q1 q2 x e (h :: poly)) :
    Hole (firstSpoke m e x).2.1 o q0 q1 q2 x (firstSpoke m e x).1 (firstSpoke m e x).2.2.1
      (firstSpoke m e x).2.2.2 poly := by
  obtain ⟨h1, h2⟩ := firstSpoke_Hole H
  rw [h1]
  exact h2

theorem OnEdge_of_ends {m : Mesh} {e : Nat} {P D : Point} (ho : Org m e = some P)
    (hd : Dest m e = some D) (x : Point) : OnEdge m x e = IsPointOn P D x := by
  unfold OnEdge
  rw [ho, hd]

/-- The second half of `InsertSite` keeps the triangulation, for a site
strictly inside the frame and the edge found by `locate`. -/
theorem insertSpokes_Tri (sd : Subdivision) {o : Nat} {q0 q1 q2 x : Point} (fuel : Nat)
    (T0 : Tri sd.mesh o q0 q1 q2 []) (hx : RightOfOuter q0 q1 q2 x) {e : Nat}
    (he : e < sd.mesh.recs.length) (pe : e % 2 = 0) (hl : ¬ Dead sd.mesh e)
    (ht : (testEdge sd.mesh x e).1 = true)
    (hpt : (ptEqual x (Org sd.mesh e) || ptEqual x (Dest sd.mesh e)) = false)
    {r : Subdivision × Bool} (h : insertSpokes fuel sd x e = some r) :
    TriSd r.1 o q0 q1 q2 := by
  have hw := T0.wf
  obtain ⟨P, D, T, f, c, c0, c2, c3, xP, xD⟩ := located_face T0 hx he pe hl ht hpt
  have hon := OnEdge_of_ends f.2.1 f.2.2.1 x
  unfold insertSpokes at h
  by_cases hc : OnEdge sd.mesh x e = true
  · have hd : dropEdgeUnder sd.mesh x e = (Delete sd.mesh (some e), OPrev sd.mesh e) := by
      rw [dropEdgeUnder, if_pos hc, hw.next_OPrev he]
    rw [hd] at h
    simp only [] at h
    rw [hon] at hc
    have hs := Sym_lt hw.quads he
    have ps : Sym e % 2 = 0 := by rw [Sym_mod2]; exact pe
    have hls : ¬ Dead sd.mesh (Sym e) := by rw [Dead_Sym]; exact hl
    have key : ∀ p q t, FaceOf sd.mesh (Sym e) p q t → p = D ∧ q = P := by
      intro p q t fs
      have a2 := fs.2.1
      rw [← Dest_eq, f.2.2.1] at a2
      have a3 := fs.2.2.1
      rw [Dest_eq, Sym_Sym, f.2.1] at a3
      exact ⟨(Option.some.inj a2).symm, (Option.some.inj a3).symm⟩
    have hcol : ccwI P D x = 0 := ((IsPointOn_iff P D x).1 hc).1
    have ho : ¬ InOuter sd.mesh o (Sym e) := by
      intro hh
      obtain ⟨p, q, t, fs, _, hpq⟩ := T0.outer_cw hh
      obtain ⟨a1, a2⟩ := key p q t fs
      subst a1 a2
      have r1 := ccwI_rotate x q p
      have r2 := ccwI_swap x q p
      have r3 := ccwI_rotate x p q
      obtain ⟨h0, h1, h2⟩ := hx
      rcases hpq with ⟨a, b⟩ | ⟨a, b⟩ | ⟨a, b⟩
      · rw [a, b] at r1 r2 r3 hcol; linarith
      · rw [a, b] at r1 r2 r3 hcol; linarith
      · rw [a, b] at r1 r2 r3 hcol; linarith
    obtain ⟨p, q, G, fs, cg⟩ := T0.face _ hs ps hls (List.not_mem_nil _) ho
    obtain ⟨a1, a2⟩ := key p q G fs
    subst a1 a2
    obtain ⟨k3, k4⟩ := split_on_segment q p G x hc xP xD cg
    obtain ⟨opv, pre⟩ := Pre.of_delete T0 he pe f fs c cg c2 c3 k3 k4
    rw [opv] at h
    exact finishSpokes_Tri hx fuel sd _ (firstSpoke_state pre) r h
  · have hd : dropEdgeUnder sd.mesh x e = (sd.mesh, e) := by
      rw [dropEdgeUnder, if_neg hc]
    rw [hd] at h
    simp only [] at h
    have c1 : 0 < ccwI P D x := by
      rcases lt_or_eq_of_le c0 with h1 | h1
      · exact h1
      · exfalso
        apply hc
        rw [hon]
        apply on_side_of_collinear P D T x
        · rw [← ccwI_rotate x T P]; exact c3
        · rw [← ccwI_rotate x D T]; exact c2
        · rw [← ccwI_rotate x P D]; exact h1.symm
    have pre := Pre.of_triangle T0 he pe f c c1 c2 c3
    exact finishSpokes_Tri hx fuel sd _ (firstSpoke_state pre) r h

/-- `InsertSite` of a site strictly inside the frame keeps the
triangulation. -/
theorem InsertSite_Tri {sd : Subdivision} {o : Nat} {q0 q1 q2 x : Point} (fuel : Nat)
    (T : TriSd sd o q0 q1 q2) (hx : RightOfOuter q0 q1 q2 x) {r : Subdivision × Bool}
    (h : sd.InsertSite fuel x = some r) : TriSd r.1 o q0 q1 q2 := by
  unfold Subdivision.InsertSite at h
  split at h
  · exact absurd h (by simp)
  · cases h
    exact ⟨T.tri, T.slt, T.sprimal, T.slive⟩
  · exact absurd h (by simp)
  · rename_i e hloc
    obtain ⟨he, pe, hl, ht⟩ := locate_spec fuel { sd with ptcount := sd.ptcount + 1 } x e
      T.tri.wf T.slt T.sprimal T.slive hloc
    split at h
    · cases h
      exact ⟨T.tri, T.slt, T.sprimal, T.slive⟩
    · rename_i hpt
      exact insertSpokes_Tri { sd with ptcount := sd.ptcount + 1 } fuel T.tri hx he pe
        hl ht (by simpa using hpt) h

theorem frameMesh_length (a b c : Point) : (frameMesh a b c).recs.length = 12 := rfl

theorem frameMesh_wellFormed (a b c : Point) : WellFormed (frameMesh a b c) := by
  refine ⟨by rw [frameMesh_length], ?_, ?_, ?_⟩
  · intro r hr
    rw [frameMesh_length] at hr ⊢
    interval_cases r <;> simp [ONext, frameMesh]
  · intro r hr
    rw [frameMesh_length] at hr
    interval_cases r <;> simp [ONext, frameMesh, Rot]
  · intro r hr
    rw [frameMesh_length] at hr
    interval_cases r <;> simp [ONext, frameMesh]

theorem Subdivision.New_mesh (a b c : Point) :
    (Subdivision.New a b c).mesh = frameMesh a b c := by
  rw [New_explicit]; rfl

theorem Subdivision.New_startingEdge (a b c : Point) :
    (Subdivision.New a b c).startingEdge = 0 := by
  rw [New_explicit]

theorem frameMesh_faces (a b c : Point) :
    FaceOf (frameMesh a b c) 0 a b c ∧ FaceOf (frameMesh a b c) 4 b c a ∧
      FaceOf (frameMesh a b c) 8 c a b ∧ FaceOf (frameMesh a b c) 2 b a c ∧
      FaceOf (frameMesh a b c) 6 c b a ∧ FaceOf (frameMesh a b c) 10 a c b := by
  simp [FaceOf, LPrev, ONext, Org, Dest, Sym, Rot, frameMesh]

theorem frameMesh_outer (a b c : Point) :
    (InOuter (frameMesh a b c) 2 2 ∧ InOuter (frameMesh a b c) 2 6 ∧
      InOuter (frameMesh a b c) 2 10) ∧
    (InOuter (frameMesh a b c) 0 0 ∧ InOuter (frameMesh a b c) 0 4 ∧
      InOuter (frameMesh a b c) 0 8) := by
  simp [InOuter, LPrev, ONext, Sym, Rot, frameMesh]

theorem frameMesh_lab (a b c : Point) (r : Nat) (hr : r < (frameMesh a b c).recs.length)
    (hp : r % 2 = 0) : ∃ p, Org (frameMesh a b c) r = some p := by
  rw [frameMesh_length] at hr
  interval_cases r
  · exact ⟨a, rfl⟩
  · omega
  · exact ⟨b, rfl⟩
  · omega
  · exact ⟨b, rfl⟩
  · omega
  · exact ⟨c, rfl⟩
  · omega
  · exact ⟨c, rfl⟩
  · omega
  · exact ⟨a, rfl⟩
  · omega

theorem frameMesh_ring (a b c : Point) (r : Nat) (hr : r < (frameMesh a b c).recs.length)
    (hp : r % 2 = 0) :
    Org (frameMesh a b c) (ONext (frameMesh a b c) r) = Org (frameMesh a b c) r := by
  rw [frameMesh_length] at hr
  interval_cases r
  · rfl
  · omega
  · rfl
  · omega
  · rfl
  · omega
  · rfl
  · omega
  · rfl
  · omega
  · rfl
  · omega

/-- The frame of a counterclockwise triangle: the unbounded face is the ring
of record 2, with the vertices `b`, `a`, `c`. -/
theorem frameMesh_Tri_ccw (a b c : Point) (h : 0 < ccwI a b c) :
    Tri (frameMesh a b c) 2 b a c [] := by
  obtain ⟨f0, f4, f8, f2, f6, f10⟩ := frameMesh_faces a b c
  have r1 := ccwI_rotate a b c
  have r2 := ccwI_rotate c a b
  have r3 := ccwI_swap b a c
  have r4 := ccwI_rotate b a c
  refine ⟨frameMesh_wellFormed a b c, frameMesh_lab a b c, frameMesh_ring a b c, ?_,
    by rw [frameMesh_length]; omega, rfl, f2, by linarith, ?_⟩
  · intro r hr hp _ _ ho
    rw [frameMesh_length] at hr
    interval_cases r
    · exact ⟨a, b, c, f0, h⟩
    · omega
    · exact absurd (frameMesh_outer a b c).1.1 ho
    · omega
    · exact ⟨b, c, a, f4, by linarith⟩
    · omega
    · exact absurd (frameMesh_outer a b c).1.2.1 ho
    · omega
    · exact ⟨c, a, b, f8, by linarith⟩
    · omega
    · exact absurd (frameMesh_outer a b c).1.2.2 ho
    · omega
  · intro r hr
    exact absurd hr (List.not_mem_nil r)

/-- The frame of a clockwise triangle: the unbounded face is the ring of
record 0, with the vertices `a`, `b`, `c`. -/
theorem frameMesh_Tri_cw (a b c : Point) (h : ccwI a b c < 0) :
    Tri (frameMesh a b c) 0 a b c [] := by
  obtain ⟨f0, f4, f8, f2, f6, f10⟩ := frameMesh_faces a b c
  have r1 := ccwI_rotate b a c
  have r2 := ccwI_rotate c b a
  have r3 := ccwI_swap b a c
  have r4 := ccwI_rotate a b c
  have r5 := ccwI_rotate a c b
  have r6 := ccwI_swap a b c
  refine ⟨frameMesh_wellFormed a b c, frameMesh_lab a b c, frameMesh_ring a b c, ?_,
    by rw [frameMesh_length]; omega, rfl, f0, h, ?_⟩
  · intro r hr hp _ _ ho
    rw [frameMesh_length] at hr
    interval_cases r
    · exact absurd (frameMesh_outer a b c).2.1 ho
    · omega
    · exact ⟨b, a, c, f2, by linarith⟩
    · omega
    · exact absurd (frameMesh_outer a b c).2.2.1 ho
    · omega
    · exact ⟨c, b, a, f6, by linarith⟩
    · omega
    · exact absurd (frameMesh_outer a b c).2.2.2 ho
    · omega
    · exact ⟨a, c, b, f10, by linarith⟩
    · omega
  · intro r hr
    exact absurd hr (List.not_mem_nil r)

theorem frameMesh_live (a b c : Point) : ¬ Dead (frameMesh a b c) 0 :=
  (frameMesh_faces a b c).1.not_Dead

/-- The loop of `WalkAllTriangleEdges` in a well-formed mesh ends with no
error when the callback returns nil on the left-face ring of every record
reached from `se`. -/
theorem walkTrianglesLoop_rings (m : Mesh) (hm : WellFormed m) (se rfuel : Nat)
    (hr : m.recs.length ≤ rfuel) {σ : Type} (fn : σ → List Nat → Option (σ × CbResult))
    (g : σ → List Nat → σ)
    (hfn : ∀ s e, FaceReach m se e →
      fn s (List.iterate (LNext m) e (minimalPeriod (LNext m) e)) =
        some (g s (List.iterate (LNext m) e (minimalPeriod (LNext m) e)), CbResult.ok)) :
    ∀ (fuel : Nat) (stack visited : List Nat) (faces : List (List Nat)) (st : σ),
      FaceInv m m.recs.length se stack visited faces →
      2 * (m.recs.length - visited.length) + stack.length < fuel →
      ∃ st1, walkTrianglesLoop m fn rfuel fuel stack visited st = some (st1, none) := by
  intro fuel
  induction fuel with
  | zero => intro _ _ _ _ _ h; omega
  | succ n ih =>
    intro stack visited faces st hinv hf
    cases stack with
    | nil => exact ⟨st, by simp [walkTrianglesLoop]⟩
    | cons e rest =>
      by_cases hv : visited.contains e = true
      · have hmv : e ∈ visited := by simpa using hv
        obtain ⟨st1, h1⟩ := ih rest visited faces st (hinv.skipVisited hmv)
          (by simp only [List.length_cons] at hf; omega)
        refine ⟨st1, ?_⟩
        simp only [walkTrianglesLoop]
        rw [if_pos hv]
        exact h1
      · have hmv : e ∉ visited := by simpa using hv
        have he : e < m.recs.length := hinv.ltS e (List.mem_cons_self _ _)
        have hre : FaceReach m se e := hinv.reachS e (List.mem_cons_self _ _)
        have hpp := hm.LNext_periodic he
        have hp := minimalPeriod_pos_of_mem_periodicPts hpp
        have hper : (LNext m)^[minimalPeriod (LNext m) e] e = e := iterate_minimalPeriod
        obtain ⟨d, hd⟩ : ∃ d, minimalPeriod (LNext m) e = d + 1 :=
          ⟨minimalPeriod (LNext m) e - 1, by omega⟩
        have hndr := nodup_iterate_minimalPeriod (LNext m) e
        have hltr : ∀ c, c ∈ List.iterate (LNext m) e (minimalPeriod (LNext m) e) →
            c < m.recs.length := by
          intro c hc
          obtain ⟨k, _, rfl⟩ := List.mem_iterate.1 hc
          exact iterate_lt_of_closed (fun _ hx => hm.LNext_lt hx) he k
        have hlenr := length_le_of_nodup_lt hndr hltr
        rw [List.length_iterate] at hlenr
        obtain ⟨tp, r1, r2, r3, r4, r5⟩ := ringLoop_iterate m e d rfuel e [] rest visited
          (by omega) (by rw [← hd]; exact hper)
          (fun k hk hk2 => iterate_ne_self_of_lt hk (by omega))
        rw [← hd] at r1 r2 r4 r5
        have hinv2 := hinv.ring hm hmv r2 r3 r4
        have hlen := length_le_of_nodup_lt hinv2.nodupV hinv2.ltV
        simp only [List.length_append, List.length_reverse, List.length_iterate] at hlen
        simp only [List.length_cons] at hf
        obtain ⟨st1, h1⟩ := ih _ _ _ (g st (List.iterate (LNext m) e
          (minimalPeriod (LNext m) e))) hinv2
          (by simp only [List.length_append, List.length_reverse, List.length_iterate]; omega)
        refine ⟨st1, ?_⟩
        simp only [walkTrianglesLoop]
        rw [if_neg hv]
        simp only [constructTriangleEdges]
        rw [if_neg hv, r1]
        simp only [List.nil_append, hfn st e hre]
        exact h1

/-- In a triangulated mesh the left face of every edge has exactly three
records, each with an origin. -/
theorem Tri.face3 {m : Mesh} {o : Nat} {q0 q1 q2 : Point} (T0 : Tri m o q0 q1 q2 [])
    {r : Nat} (hr : r < m.recs.length) (hp : r % 2 = 0) (hl : ¬ Dead m r) :
    LNext m (LNext m (LNext m r)) = r ∧ LNext m r ≠ r ∧ LNext m (LNext m r) ≠ r ∧
      LNext m (LNext m r) ≠ LNext m r ∧
      ∃ p q t, Org m r = some p ∧ Org m (LNext m r) = some q ∧
        Org m (LNext m (LNext m r)) = some t := by
  have hw := T0.wf
  have key : ∀ p q t, FaceOf m r p q t → ccwI p q t ≠ 0 →
      LNext m (LNext m (LNext m r)) = r ∧ LNext m r ≠ r ∧ LNext m (LNext m r) ≠ r ∧
        LNext m (LNext m r) ≠ LNext m r ∧
        ∃ p q t, Org m r = some p ∧ Org m (LNext m r) = some q ∧
          Org m (LNext m (LNext m r)) = some t := by
    intro p q t f c
    obtain ⟨fp, fb, lp, _, lb, _, _, _, _⟩ := f.parts hw T0.ring hr hp
    obtain ⟨d1, d2, d3⟩ := ne_of_ccwI c
    have e1 : LNext m r = LPrev m (LPrev m r) := LNext_of_ring3 hw hr f.1
    have e2 : LNext m (LPrev m (LPrev m r)) = LPrev m r := LNext_LPrev hw lp
    have e3 : LNext m (LPrev m r) = r := LNext_LPrev hw hr
    rw [e1, e2, e3]
    exact ⟨rfl, ne_of_Org fb.2.1 f.2.1 d1.symm, ne_of_Org fp.2.1 f.2.1 d3,
      ne_of_Org fp.2.1 fb.2.1 d2.symm, p, q, t, f.2.1, fb.2.1, fp.2.1⟩
  rcases T0.cases hr hp (List.not_mem_nil r) with d | d | d
  · exact absurd d hl
  · obtain ⟨p, q, t, f, c, _⟩ := T0.outer_cw d
    exact key p q t f (ne_of_lt c)
  · obtain ⟨p, q, t, f, c⟩ := d
    exact key p q t f (ne_of_gt c)

/-- The records reached by `LNext` and `Sym` steps from an edge of the mesh are
edges of the mesh. -/
theorem FaceReach.on_mesh {m : Mesh} (hw : WellFormed m) {se r : Nat}
    (hs : se < m.recs.length) (ps : se % 2 = 0) (hl : ¬ Dead m se)
    (h : FaceReach m se r) : r < m.recs.length ∧ r % 2 = 0 ∧ ¬ Dead m r := by
  induction h with
  | start => exact ⟨hs, ps, hl⟩
  | lnext _ ih =>
    exact ⟨hw.LNext_lt ih.1, by rw [hw.LNext_mod2 ih.1]; exact ih.2.1,
      not_Dead_LNext hw ih.1 ih.2.2⟩
  | sym _ ih =>
    exact ⟨Sym_lt hw.quads ih.1, by rw [Sym_mod2]; exact ih.2.1,
      by rw [Dead_Sym]; exact ih.2.2⟩

/-- The records reached by `ONext` and `Sym` steps from an edge of the mesh are
edges of the mesh. -/
theorem EdgeReach.in_mesh {m : Mesh} (hw : WellFormed m) {se r : Nat}
    (hs : se < m.recs.length) (ps : se % 2 = 0) (hl : ¬ Dead m se)
    (h : EdgeReach m se r) : r < m.recs.length ∧ r % 2 = 0 ∧ ¬ Dead m r := by
  induction h with
  | start => exact ⟨hs, ps, hl⟩
  | onext _ ih =>
    exact ⟨hw.closed _ ih.1, by rw [hw.role _ ih.1]; exact ih.2.1,
      not_Dead_ONext hw ih.1 ih.2.2⟩
  | sym _ ih =>
    exact ⟨Sym_lt hw.quads ih.1, by rw [Sym_mod2]; exact ih.2.1,
      by rw [Dead_Sym]; exact ih.2.2⟩

/-- The left-face ring of a record with a face of three. -/
theorem iterate_ring3 {f : Nat → Nat} {r : Nat} (h3 : f (f (f r)) = r) (h1 : f r ≠ r) :
    List.iterate f r (minimalPeriod f r) = [r, f r, f (f r)] := by
  have hper : IsPeriodicPt f 3 r := h3
  have hdvd := hper.minimalPeriod_dvd
  rcases (Nat.dvd_prime Nat.prime_three).1 hdvd with h | h
  · exfalso
    apply h1
    have := (minimalPeriod_eq_one_iff_isFixedPt).1 h
    exact this
  · rw [h]
    rfl

/-- The callback of `Triangles` returns nil on a list of three edges with
origins. -/
theorem trianglesCallback_three (m : Mesh) (frame : Point × Point × Point) (inc : Bool)
    (ts : List (Point × Point × Point)) {e0 e1 e2 : Nat} {p0 p1 p2 : Point}
    (h0 : Org m e0 = some p0) (h1 : Org m e1 = some p1) (h2 : Org m e2 = some p2) :
    ∃ ts1, trianglesCallback m frame inc ts [e0, e1, e2] = some (ts1, CbResult.ok) := by
  unfold trianglesCallback
  simp only [h0, h1, h2]
  split_ifs
  · exact ⟨_, rfl⟩
  · exact ⟨_, rfl⟩

theorem TriSd.labelled {sd : Subdivision} {o : Nat} {q0 q1 q2 : Point}
    (T : TriSd sd o q0 q1 q2) : Labelled sd :=
  ⟨T.tri.wf, T.tri.lab, T.tri.ring, T.slt, T.sprimal, T.slive⟩

theorem inside_sum (a b c x : Point) :
    ccwI a b x + ccwI b c x + ccwI c a x = ccwI a b c := by
  unfold ccwI; ring

/-- Strictly inside a counterclockwise frame is strictly right of the edges of
the unbounded face `b`, `a`, `c`. -/
theorem StrictlyInside.right_ccw {a b c x : Point} (h : StrictlyInside a b c x)
    (hc : 0 < ccwI a b c) : RightOfOuter b a c x := by
  have s := inside_sum a b c x
  have e1 : ccwI b a x = - ccwI a b x := by unfold ccwI; ring
  have e2 : ccwI a c x = - ccwI c a x := by unfold ccwI; ring
  have e3 : ccwI c b x = - ccwI b c x := by unfold ccwI; ring
  rcases h with ⟨h1, h2, h3⟩ | ⟨h1, h2, h3⟩
  · exact ⟨by linarith, by linarith, by linarith⟩
  · exfalso; linarith

/-- Strictly inside a clockwise frame is strictly right of the edges of the
unbounded face `a`, `b`, `c`. -/
theorem StrictlyInside.right_cw {a b c x : Point} (h : StrictlyInside a b c x)
    (hc : ccwI a b c < 0) : RightOfOuter a b c x := by
  have s := inside_sum a b c x
  rcases h with ⟨h1, h2, h3⟩ | ⟨h1, h2, h3⟩
  · exfalso; linarith
  · exact ⟨h1, h2, h3⟩

/-- No point is strictly inside a triangle of area zero. -/
theorem StrictlyInside.not_flat {a b c x : Point} (h : StrictlyInside a b c x)
    (hc : ccwI a b c = 0) : False := by
  have s := inside_sum a b c x
  rcases h with ⟨h1, h2, h3⟩ | ⟨h1, h2, h3⟩
  · linarith
  · linarith

theorem TriSd.new_ccw (a b c : Point) (h : 0 < ccwI a b c) :
    TriSd (Subdivision.New a b c) 2 b a c := by
  refine ⟨?_, ?_, ?_, ?_⟩
  · rw [Subdivision.New_mesh]; exact frameMesh_Tri_ccw a b c h
  · rw [Subdivision.New_mesh, Subdivision.New_startingEdge, frameMesh_length]; omega
  · rw [Subdivision.New_startingEdge]
  · rw [Subdivision.New_mesh, Subdivision.New_startingEdge]; exact frameMesh_live a b c

theorem TriSd.new_cw (a b c : Point) (h : ccwI a b c < 0) :
    TriSd (Subdivision.New a b c) 0 a b c := by
  refine ⟨?_, ?_, ?_, ?_⟩
  · rw [Subdivision.New_mesh]; exact frameMesh_Tri_cw a b c h
  · rw [Subdivision.New_mesh, Subdivision.New_startingEdge, frameMesh_length]; omega
  · rw [Subdivision.New_startingEdge]
  · rw [Subdivision.New_mesh, Subdivision.New_startingEdge]; exact frameMesh_live a b c

/-- Insertion into a counterclockwise frame keeps the mesh triangulated. -/
theorem BuiltInside.tri_ccw {a b c : Point} {sd : Subdivision} (hb : BuiltInside a b c sd)
    (h : 0 < ccwI a b c) : TriSd sd 2 b a c := by
  induction hb with
  | new => exact TriSd.new_ccw a b c h
  | insert _ hx hi ih => exact InsertSite_Tri _ ih (hx.right_ccw h) hi

/-- Insertion into a clockwise frame keeps the mesh triangulated. -/
theorem BuiltInside.tri_cw {a b c : Point} {sd : Subdivision} (hb : BuiltInside a b c sd)
    (h : ccwI a b c < 0) : TriSd sd 0 a b c := by
  induction hb with
  | new => exact TriSd.new_cw a b c h
  | insert _ hx hi ih => exact InsertSite_Tri _ ih (hx.right_cw h) hi

/-- Whatever the frame, insertion of points strictly inside keeps the vertex
labels of the mesh. -/
theorem BuiltInside.labels {a b c : Point} {sd : Subdivision}
    (hb : BuiltInside a b c sd) : Labelled sd := by
  rcases lt_trichotomy (ccwI a b c) 0 with h | h | h
  · exact (hb.tri_cw h).labelled
  · cases hb with
    | new =>
      refine ⟨?_, ?_, ?_, ?_, ?_, ?_⟩
      · rw [Subdivision.New_mesh]; exact frameMesh_wellFormed a b c
      · rw [Subdivision.New_mesh]; exact frameMesh_lab a b c
      · rw [Subdivision.New_mesh]; exact frameMesh_ring a b c
      · rw [Subdivision.New_mesh, Subdivision.New_startingEdge, frameMesh_length]; omega
      · rw [Subdivision.New_startingEdge]
      · rw [Subdivision.New_mesh, Subdivision.New_startingEdge]; exact frameMesh_live a b c
    | insert _ hx _ => exact absurd (hx.not_flat h) id
  · exact (hb.tri_ccw h).labelled

/-- In a triangulated subdivision `Triangles` ends without an error, from
fuel `2 * length + 2` on. -/
theorem Triangles_no_error {sd : Subdivision} {o : Nat} {q0 q1 q2 : Point}
    (T : TriSd sd o q0 q1 q2) (includeFrame : Bool) (fuel : Nat)
    (hf : 2 * sd.mesh.recs.length + 2 ≤ fuel) :
    ∃ ts, sd.Triangles fuel includeFrame = some (ts, none) := by
  have hw := T.tri.wf
  unfold Subdivision.Triangles WalkAllTriangleEdges
  simp only []
  apply walkTrianglesLoop_rings sd.mesh hw sd.startingEdge fuel (by omega)
    (trianglesCallback sd.mesh sd.frame includeFrame)
    (fun ts l => ((trianglesCallback sd.mesh sd.frame includeFrame ts l).map Prod.fst).getD ts)
    ?_ fuel [sd.startingEdge] [] [] [] (FaceInv.atStart sd.mesh T.slt)
    (by simp only [List.length_nil, List.length_singleton]; omega)
  intro s e he
  obtain ⟨a1, a2, a3⟩ := he.on_mesh hw T.slt T.sprimal T.slive
  obtain ⟨h3, h1, _, _, p, q, t, o0, o1, o2⟩ := T.tri.face3 a1 a2 a3
  rw [iterate_ring3 h3 h1]
  obtain ⟨ts1, hts⟩ := trianglesCallback_three sd.mesh sd.frame includeFrame s o0 o1 o2
  simp only [hts, Option.map_some', Option.getD_some]

theorem EdgeReach.iterate {m : Mesh} {se r : Nat} (h : EdgeReach m se r) :
    ∀ k, EdgeReach m se ((ONext m)^[k] r) := by
  intro k
  induction k with
  | zero => exact h
  | succ k ih => rw [iterate_succ_apply']; exact EdgeReach.onext ih

/-- In a well-formed mesh `OPrev` of a reached record is reached: the origin
ring closes. -/
theorem EdgeReach.oprev {m : Mesh} (hw : WellFormed m) {se r : Nat}
    (hr : r < m.recs.length) (h : EdgeReach m se r) : EdgeReach m se (OPrev m r) := by
  have hpp := hw.periodic hr
  have hp := minimalPeriod_pos_of_mem_periodicPts hpp
  have hper : (ONext m)^[minimalPeriod (ONext m) r] r = r := iterate_minimalPeriod
  obtain ⟨d, hd⟩ : ∃ d, minimalPeriod (ONext m) r = d + 1 :=
    ⟨minimalPeriod (ONext m) r - 1, by omega⟩
  rw [hd, iterate_succ_apply'] at hper
  have := hw.OPrev_next (hw.iterate_lt hr d)
  rw [hper] at this
  rw [this]
  exact h.iterate d

/-- The loop of `locate` keeps every property that a step of the walk
keeps. -/
theorem locateLoop_keeps (sd : Subdivision) (x : Point) (wfuel : Nat) (Q : Nat → Prop)
    (hQ : ∀ e, Q e → Q (testEdge sd.mesh x e).2) :
    ∀ (fuel count : Nat) (p : Bool × Nat) (e : Nat), Q p.2 →
      locateLoop sd x wfuel fuel count p = some (some e, true) → Q e := by
  intro fuel
  induction fuel with
  | zero => intro _ _ _ _ h; simp [locateLoop] at h
  | succ n ih =>
    intro count p e hp h
    obtain ⟨ok, e1⟩ := p
    simp only [locateLoop] at h
    by_cases hok : ok = true
    · rw [if_pos hok] at h
      simp only [Option.some.injEq, Prod.mk.injEq, and_true] at h
      rw [← h]
      exact hp
    · rw [if_neg hok] at h
      by_cases hc : e1 = sd.startingEdge ∨ count + 1 > sd.ptcount * 2
      · rw [if_pos hc] at h
        cases hwk : WalkAllEdges wfuel sd.mesh (some sd.startingEdge)
            (locateCallback sd.mesh x) none with
        | none => simp [hwk] at h
        | some q => simp [hwk] at h
      · rw [if_neg hc] at h
        exact ih _ _ e (hQ _ hp) h

/-- The edge answered by `locate` is reached from the starting edge by `ONext`
and `Sym` steps. -/
theorem locate_reach (fuel : Nat) (sd : Subdivision) (x : Point) (e : Nat)
    (hw : WellFormed sd.mesh) (hs : sd.startingEdge < sd.mesh.recs.length)
    (h : Subdivision.locate fuel sd x = some (some e, true)) :
    EdgeReach sd.mesh sd.startingEdge e := by
  have hQ : ∀ e, (e < sd.mesh.recs.length ∧ EdgeReach sd.mesh sd.startingEdge e) →
      ((testEdge sd.mesh x e).2 < sd.mesh.recs.length ∧
        EdgeReach sd.mesh sd.startingEdge (testEdge sd.mesh x e).2) := by
    intro e ⟨he, hre⟩
    have hsy := Sym_lt hw.quads he
    unfold testEdge
    split_ifs
    · exact ⟨he, hre⟩
    · exact ⟨hsy, hre.sym⟩
    · exact ⟨hw.closed e he, hre.onext⟩
    · rw [DPrev_eq_Sym_LNext, LNext_eq_OPrev_Sym]
      exact ⟨Sym_lt hw.quads (hw.OPrev_lt hsy), (EdgeReach.oprev hw hsy hre.sym).sym⟩
    · exact ⟨he, hre⟩
  unfold Subdivision.locate at h
  exact (locateLoop_keeps sd x fuel _ hQ fuel 0 _ e (hQ _ ⟨hs, EdgeReach.start⟩) h).2

theorem ptEqual_true {x : Point} {a : Option Point} (h : ptEqual x a = true) :
    a = some x := by
  cases a with
  | none => simp [ptEqual] at h
  | some p =>
    simp only [ptEqual, ArePointsEqual, decide_eq_true_eq] at h
    rw [h]

/-- C22: for every subdivision `sd` built by `New(a, b, c)` on a
counterclockwise frame followed by `InsertSite` calls on points strictly
inside the frame: (1) the left-face ring of every record reached from the
starting edge has exactly three edges (three `LNext` steps lead back, and the
three records are different); (2) `Triangles` returns no error, from fuel
`2 * length + 2` on; (3) when `InsertSite(x)` returns true for a point `x`
strictly inside the frame that is no origin of an edge reached from the
starting edge, `x` is afterwards the destination of the starting edge. -/
theorem insertion_keeps_triangulation (a b c : Point) (hccw : CCW a b c = true)
    (sd : Subdivision) (hb : BuiltInside a b c sd) :
    (∀ r, FaceReach sd.mesh sd.startingEdge r →
      LNext sd.mesh (LNext sd.mesh (LNext sd.mesh r)) = r ∧ LNext sd.mesh r ≠ r ∧
        LNext sd.mesh (LNext sd.mesh r) ≠ r ∧
        LNext sd.mesh (LNext sd.mesh r) ≠ LNext sd.mesh r) ∧
    (∀ (includeFrame : Bool) (fuel : Nat), 2 * sd.mesh.recs.length + 2 ≤ fuel →
      ∃ ts, sd.Triangles fuel includeFrame = some (ts, none)) ∧
    (∀ (fuel : Nat) (x : Point) (r : Subdivision × Bool), StrictlyInside a b c x →
      (∀ e, EdgeReach sd.mesh sd.startingEdge e → Org sd.mesh e ≠ some x) →
      sd.InsertSite fuel x = some r → r.2 = true →
      Dest r.1.mesh r.1.startingEdge = some x) := by
  have T := hb.tri_ccw ((CCW_iff a b c).1 hccw)
  have hw := T.tri.wf
  refine ⟨?_, ?_, ?_⟩
  · intro r hr
    obtain ⟨a1, a2, a3⟩ := hr.on_mesh hw T.slt T.sprimal T.slive
    obtain ⟨h3, h1, h2, h4, _⟩ := T.tri.face3 a1 a2 a3
    exact ⟨h3, h1, h2, h4⟩
  · intro includeFrame fuel hf
    exact Triangles_no_error T includeFrame fuel hf
  · intro fuel x r _ hnew hins hr2
    obtain ⟨_, h2⟩ := InsertSite_outcome fuel sd x hw.quads r hins
    rcases h2 hr2 with ⟨e, _, hloc, hpt⟩ | ⟨_, hd⟩
    · exfalso
      have hre := locate_reach fuel { sd with ptcount := sd.ptcount + 1 } x e hw T.slt hloc
      rw [Bool.or_eq_true] at hpt
      rcases hpt with h | h
      · exact hnew e hre (ptEqual_true h)
      · exact hnew (Sym e) hre.sym (ptEqual_true h)
    · exact hd

/-- C24: for every subdivision `sd` built by `New(a, b, c)`, whatever the
frame, followed by `InsertSite` calls on points strictly inside the frame,
every record `e` reached from the starting edge by `ONext` and `Sym` steps (a
primal edge) has an origin and a destination, and `ONext(e)` has the origin
of `e`. -/
theorem origin_rings_share_origin (a b c : Point) (sd : Subdivision)
    (hb : BuiltInside a b c sd) (e : Nat) (he : EdgeReach sd.mesh sd.startingEdge e) :
    e % 2 = 0 ∧ (∃ p q, Org sd.mesh e = some p ∧ Dest sd.mesh e = some q) ∧
      Org sd.mesh (ONext sd.mesh e) = Org sd.mesh e := by
  have L := hb.labels
  obtain ⟨a1, a2, _⟩ := he.in_mesh L.wf L.slt L.sprimal L.slive
  obtain ⟨p, hp⟩ := L.lab e a1 a2
  obtain ⟨q, hq⟩ := L.lab (Sym e) (Sym_lt L.wf.quads a1) (by rw [Sym_mod2]; exact a2)
  exact ⟨a2, ⟨p, q, hp, hq⟩, L.ring e a1 a2⟩

theorem builtInside_fan0 :
    BuiltInside ⟨-1000, -1000⟩ ⟨1000, -1000⟩ ⟨0, 1000⟩ fan0 :=
  @BuiltInside.insert _ _ _ _ 10 ⟨0, 0⟩ (fan0, true) BuiltInside.new
    (Or.inl ⟨by decide, by decide, by decide⟩) (by decide)

/-- C22, witness: the counterclockwise frame
`(-1000,-1000)`, `(1000,-1000)`, `(0,1000)` after `InsertSite((0,0))`. -/
theorem insertion_keeps_triangulation_witness :
    CCW ⟨-1000, -1000⟩ ⟨1000, -1000⟩ ⟨0, 1000⟩ = true ∧
    BuiltInside ⟨-1000, -1000⟩ ⟨1000, -1000⟩ ⟨0, 1000⟩ fan0 ∧
    (∀ r, FaceReach fan0.mesh fan0.startingEdge r →
      LNext fan0.mesh (LNext fan0.mesh (LNext fan0.mesh r)) = r ∧ LNext fan0.mesh r ≠ r ∧
        LNext fan0.mesh (LNext fan0.mesh r) ≠ r ∧
        LNext fan0.mesh (LNext fan0.mesh r) ≠ LNext fan0.mesh r) ∧
    (∀ (includeFrame : Bool) (fuel : Nat), 2 * fan0.mesh.recs.length + 2 ≤ fuel →
      ∃ ts, fan0.Triangles fuel includeFrame = some (ts, none)) ∧
    (∀ (fuel : Nat) (x : Point) (r : Subdivision × Bool),
      StrictlyInside ⟨-1000, -1000⟩ ⟨1000, -1000⟩ ⟨0, 1000⟩ x →
      (∀ e, EdgeReach fan0.mesh fan0.startingEdge e → Org fan0.mesh e ≠ some x) →
      fan0.InsertSite fuel x = some r → r.2 = true →
      Dest r.1.mesh r.1.startingEdge = some x) :=
  ⟨by decide, builtInside_fan0,
    insertion_keeps_triangulation ⟨-1000, -1000⟩ ⟨1000, -1000⟩ ⟨0, 1000⟩ (by decide) fan0
      builtInside_fan0⟩

/-- C24, witness: the frame `(-1000,-1000)`, `(1000,-1000)`, `(0,1000)` after
`InsertSite((0,0))`, at the edge after the starting edge in its origin
ring. -/
theorem origin_rings_share_origin_witness :
    BuiltInside ⟨-1000, -1000⟩ ⟨1000, -1000⟩ ⟨0, 1000⟩ fan0 ∧
    EdgeReach fan0.mesh fan0.startingEdge (ONext fan0.mesh fan0.startingEdge) ∧
    (ONext fan0.mesh fan0.startingEdge % 2 = 0 ∧
      (∃ p q, Org fan0.mesh (ONext fan0.mesh fan0.startingEdge) = some p ∧
        Dest fan0.mesh (ONext fan0.mesh fan0.startingEdge) = some q) ∧
      Org fan0.mesh (ONext fan0.mesh (ONext fan0.mesh fan0.startingEdge)) =
        Org fan0.mesh (ONext fan0.mesh fan0.startingEdge)) :=
  ⟨builtInside_fan0, EdgeReach.onext EdgeReach.start,
    origin_rings_share_origin ⟨-1000, -1000⟩ ⟨1000, -1000⟩ ⟨0, 1000⟩ fan0 builtInside_fan0
      (ONext fan0.mesh fan0.startingEdge) (EdgeReach.onext EdgeReach.start)⟩

end QuadEdge
